import Mathlib

/-!
# cu_crypto: private set intersection, curve point mapping, split decision tree,
feature engineering

A shallow embedding of

* `common/math/ecc/ecc_math.go` (`HashToCurve`),
* `core/machine_learning/linear_regression/gradient_descent/mpc_vertical/psi.go`
  (`EncryptSampleIDSet`, `ReEncryptIDSet`, `Intersect`),
* `core/machine_learning/decision_tree/classification/mpc_vertical/classification.go`
  (the tag party's Gini index and termination test, node keys, candidate splits,
  pruning test, prediction),
* `test/ml/decision_tree/classification/vl/test_ml.go` (the split selection of
  `determineNodeByDepthIndex`, `pruneTreeB`),
* `core/machine_learning/feature_engineering/threshold_filter.go`,
  `missing_values.go`, `equal_width.go` and `equal_frequency.go`
  (`FilterByThreshold`, `FillMissingValues`, `EqualWidthBinningForOne`,
  `EqualFrequencyBinningForOne`),
* the masking and unmasking steps of the secure aggregation of gradients, which are
  outside the given sources and modelled from the specification,

followed by the properties proved about them.

Conventions of the embedding.

* A Go call either returns, panics, or (for the unbounded retry loop of
  `HashToCurve` and the recursion of `PredictionStep` and `pruneTreeB`) is cut off by
  a fuel bound: `Except Fault α`.  The feature-engineering functions return rows,
  return a Go error, or panic: `Except Failure Rows`.
* A Go `map` is an association list with pairwise distinct keys (`GoMap`).  The
  order in which `range` visits a map is not specified by Go; every function
  that ranges over a map takes the order as a parameter (`RangeOrder`) and the
  theorems hold for every order.
* `big.Int` is `Int`; Go `int` values (sample ids, indices, thresholds) are `Int`;
  where the code computes with them (depth and index of a tree node) the result is
  wrapped to 64 bits (`wrapInt`); lengths are `Nat`.
* `float64` in the cost code of the pruning test and in the binning code is `F64`: a
  finite number, an infinity or NaN, with every arithmetic result rounded as IEEE 754
  binary64 rounds it (`F64.round`: nearest, ties to even, subnormal numbers,
  overflow to infinity); the sign of a zero is not modelled.  The Gini index is
  computed on exact rationals, with `none` for NaN (`0/0`, the only non-finite value
  that code can produce); the values of the threshold filter and of the filling of
  missing values are exact rationals.
* `strconv.ParseFloat` is a parameter: `parseFloat : String → Option F64` in the
  binning code, where a parsed NaN or infinity matters, and
  `parseFloat : String → Option ℚ` (finite values) elsewhere; `none` is its error.
  `fmt.Sprintf("%d", x)` is a parameter `sprintInt : Int → String`.
* Functions of the Go standard library (`sha256.Sum256`, `big.Int.ModSqrt`,
  `elliptic.Marshal`, `elliptic.Unmarshal`, the `ScalarMult` method of a curve) are
  parameters; what is assumed about them is stated as hypotheses.
-/

namespace CuCrypto

/-! ## Go run-time model -/

/-- Ways in which a call does not return normally. -/
inductive Fault where
  /-- Run-time panic (nil dereference, index out of range, division by zero). -/
  | panic
  /-- The fuel bound of the model was reached before the loop ended. -/
  | outOfFuel
  deriving DecidableEq, Repr

instance {ε α : Type} [DecidableEq ε] [DecidableEq α] : DecidableEq (Except ε α)
  | .ok a, .ok b => if h : a = b then isTrue (by rw [h]) else isFalse fun e => h (by cases e; rfl)
  | .error a, .error b =>
    if h : a = b then isTrue (by rw [h]) else isFalse fun e => h (by cases e; rfl)
  | .ok _, .error _ => isFalse fun e => by cases e
  | .error _, .ok _ => isFalse fun e => by cases e

/-- Go `map[κ]ν`: an association list whose keys are pairwise distinct. -/
abbrev GoMap (κ ν : Type) := AList (fun _ : κ => ν)

/-- An order in which `range` visits the entries of maps. -/
structure RangeOrder where
  /-- The visiting order chosen for a list of entries. -/
  shuffle : {α : Type} → List α → List α
  /-- Every entry is visited exactly once. -/
  perm : ∀ {α : Type} (l : List α), (shuffle l).Perm l

/-- The order in which the entries are stored. -/
def RangeOrder.stored : RangeOrder := ⟨fun l => l, fun l => List.Perm.refl l⟩

/-- Go `for k, v := range m`: the entries of `m` in the order chosen by `ρ`. -/
def GoMap.range {κ ν : Type} (ρ : RangeOrder) (m : GoMap κ ν) : List (κ × ν) :=
  ρ.shuffle (m.entries.map fun e => (e.1, e.2))

/-- Go `m[k] = v`. -/
def GoMap.set {κ ν : Type} [DecidableEq κ] (m : GoMap κ ν) (k : κ) (v : ν) : GoMap κ ν :=
  m.insert k v

/-- Go `_, ok := m[k]`. -/
def GoMap.has {κ ν : Type} [DecidableEq κ] (m : GoMap κ ν) (k : κ) : Bool :=
  (m.lookup k).isSome

/-- Go `len(m)`. -/
def GoMap.len {κ ν : Type} (m : GoMap κ ν) : Nat := m.entries.length

/-- Go `s[i]` on a slice: `none` when the index is out of range (the access panics). -/
def indexAt {α : Type} (s : List α) (i : Int) : Option α :=
  if 0 ≤ i then s.get? i.toNat else none

/-- A byte string (`[]byte`, or a Go `string` seen as its bytes). -/
abbrev Bytes := List UInt8

/-! ## `common/math/ecc` -/

/-- The fields of `elliptic.CurveParams` that the code reads. -/
structure CurveParams where
  P : Int
  B : Int
  Name : String
  deriving DecidableEq

/-- An `elliptic.Curve`: its parameters and its `ScalarMult` method.  The scalar
`k []byte` is the big-endian encoding of a natural number; the model passes the
number. -/
structure Curve where
  Params : CurveParams
  ScalarMult : Int → Int → Nat → Int × Int

/-- Modelled from the spec: the type `ecc.Point` is declared outside the given
sources; a point of a chosen curve, with the three fields `HashToCurve` fills in
(the curve is kept by its parameters). -/
structure Point where
  Curve : CurveParams
  X : Int
  Y : Int
  deriving DecidableEq

/-- The standard-library functions the code calls. -/
structure Stdlib where
  /-- The function `sha256.Sum256`. -/
  sha256 : Bytes → Bytes
  /-- The method `(*big.Int).ModSqrt(x, p)`: `none` is Go's `nil`. -/
  modSqrt : Int → Int → Option Int
  /-- The function `elliptic.Marshal`. -/
  marshal : CurveParams → Int → Int → Bytes
  /-- The function `elliptic.Unmarshal`: `none` is Go's `nil, nil`. -/
  unmarshal : CurveParams → Bytes → Option (Int × Int)

/-- The method `(*big.Int).SetBytes`: a big-endian unsigned integer. -/
def setBytes (b : Bytes) : Int :=
  b.foldl (fun acc d => acc * 256 + (d.toNat : Int)) 0

/-- The parameter `a` of the SM2 curve, as written in `HashToCurve`. -/
def sm2A : Int := 0xFFFFFFFEFFFFFFFFFFFFFFFFFFFFFFFFFFFFFFFF00000000FFFFFFFFFFFFFFFC

/-- The value of the local variable `A` of `HashToCurve` for a curve name. -/
def curveA (name : String) : Int :=
  if name = "SM2-P-256" then sm2A else -3

/-- The function `HashToCurve`.  Of the curve only `curve.Params()` is read, so the
model takes the parameters.  The result is Go's pair `(*Point, error)`; each unit
of fuel pays for one iteration of the `for` loop. -/
def HashToCurve (lib : Stdlib) :
    Nat → Bytes → CurveParams → Except Fault (Option Point × Option String)
  | 0, _, _ => .error .outOfFuel
  | fuel + 1, msg, curve =>
    let p := curve.P
    let h := lib.sha256 msg
    let x := setBytes h
    -- x.Mod(x, p) panics on a zero modulus
    if p = 0 then .error .panic else
    let x := x % p
    let ySquared := x ^ 3 % p
    if curve.Name ≠ "P-256" ∧ curve.Name ≠ "SM2-P-256" then
      .ok (none, some ("curve [" ++ curve.Name ++ "] is not supported yet."))
    else
    let A := curveA curve.Name
    let ax := A * x
    let ySquared := ySquared + ax
    let ySquared := ySquared + curve.B
    match lib.modSqrt ySquared p with
    | some y => .ok (some ⟨curve, x, y⟩, none)
    | none => HashToCurve lib fuel h curve


/-- The digest computed in iteration `n` (counted from 0) of the loop of `HashToCurve`. -/
def digestAt (lib : Stdlib) (msg : Bytes) (n : Nat) : Bytes :=
  lib.sha256^[n + 1] msg

/-- The value `ySquared` that the loop body of `HashToCurve` derives from a digest. -/
def candidate (curve : CurveParams) (h : Bytes) : Int :=
  (setBytes h % curve.P) ^ 3 % curve.P + curveA curve.Name * (setBytes h % curve.P) + curve.B

/-- What is assumed of `ModSqrt`: a value it returns is a square root modulo `p`. -/
def ModSqrtSound (lib : Stdlib) : Prop :=
  ∀ a p y : Int, lib.modSqrt a p = some y → (y * y - a) % p = 0

/-! ## `mpc_vertical/psi.go` -/

/-- The fields of `ecdsa.PrivateKey` that the code reads. -/
structure PrivateKey where
  Curve : Curve
  D : Int

/-- The type `EncSet`: masked point encoding to sample index. -/
structure EncSet where
  EncIDs : GoMap Bytes Int

/-- Body of the loop of `EncryptSampleIDSet`: the key `id` computed for one
identifier.  The error of `HashToCurve` is dropped by the code, and reading
`eccPoint.X` of a nil point panics. -/
def encryptID (lib : Stdlib) (fuel : Nat) (privateKey : PrivateKey) (s : Bytes) :
    Except Fault Bytes :=
  match HashToCurve lib fuel s privateKey.Curve.Params with
  | .error f => .error f
  | .ok (none, _) => .error .panic
  | .ok (some eccPoint, _) =>
    let new := privateKey.Curve.ScalarMult eccPoint.X eccPoint.Y privateKey.D.natAbs
    .ok (lib.marshal privateKey.Curve.Params new.1 new.2)

/-- The function `EncryptSampleIDSet`. -/
def EncryptSampleIDSet (lib : Stdlib) (fuel : Nat) (sampleID : List Bytes)
    (privateKey : PrivateKey) : Except Fault EncSet :=
  (sampleID.enum.foldlM
    (fun (encIDs : GoMap Bytes Int) (e : Nat × Bytes) =>
      (encryptID lib fuel privateKey e.2).map fun id => encIDs.set id (e.1 : Int))
    (∅ : GoMap Bytes Int)).map fun encIDs => ⟨encIDs⟩

/-- Body of the loop of `ReEncryptIDSet`: the key `id` computed for one received
key.  `elliptic.Unmarshal` returns nil coordinates for bytes that encode no point,
and `ScalarMult` on nil coordinates panics. -/
def reEncryptID (lib : Stdlib) (privateKey : PrivateKey) (idstr : Bytes) : Except Fault Bytes :=
  match lib.unmarshal privateKey.Curve.Params idstr with
  | none => .error .panic
  | some (x, y) =>
    let new := privateKey.Curve.ScalarMult x y privateKey.D.natAbs
    .ok (lib.marshal privateKey.Curve.Params new.1 new.2)

/-- The function `ReEncryptIDSet`. -/
def ReEncryptIDSet (lib : Stdlib) (ρ : RangeOrder) (encSet : EncSet) (privateKey : PrivateKey) :
    Except Fault EncSet :=
  ((encSet.EncIDs.range ρ).foldlM
    (fun (encIDs : GoMap Bytes Int) (e : Bytes × Int) =>
      (reEncryptID lib privateKey e.1).map fun id => encIDs.set id e.2)
    (∅ : GoMap Bytes Int)).map fun encIDs => ⟨encIDs⟩

/-- The inner loop of `Intersect` over the other parties, with its `break`; the
Boolean is the current value of `isExist`. -/
def existsInOthers (id : Bytes) : Bool → List EncSet → Bool
  | isExist, [] => isExist
  | _, reEncSetOther :: rest =>
    if reEncSetOther.EncIDs.has id then existsInOthers id true rest else false

/-- The function `Intersect`. -/
def Intersect (ρ : RangeOrder) (sampleID : List Bytes) (reEncSetLocal : EncSet)
    (reEncSetOthers : List EncSet) : Except Fault (List Bytes) :=
  (reEncSetLocal.EncIDs.range ρ).foldlM
    (fun (intersection : List Bytes) (e : Bytes × Int) =>
      if existsInOthers e.1 false reEncSetOthers then
        match indexAt sampleID e.2 with
        | some s => .ok (intersection ++ [s])
        | none => .error .panic
      else .ok intersection)
    []

/-- The point `HashToCurve` maps an identifier to, when it returns one. -/
def hashPoint (lib : Stdlib) (fuel : Nat) (curve : CurveParams) (s : Bytes) : Option Point :=
  match HashToCurve lib fuel s curve with
  | .ok (some pt, _) => some pt
  | _ => none

/-- A point multiplied by the scalar of a private key, `ScalarMult(x, y, D.Bytes())`. -/
def smul (curve : Curve) (d : Int) (pt : Int × Int) : Int × Int :=
  curve.ScalarMult pt.1 pt.2 d.natAbs

/-- The encoding of a point multiplied by one scalar. -/
def mask (lib : Stdlib) (curve : Curve) (d : Int) (pt : Int × Int) : Bytes :=
  lib.marshal curve.Params (smul curve d pt).1 (smul curve d pt).2

/-- The encoding of a point multiplied by a first and then a second scalar. -/
def mask2 (lib : Stdlib) (curve : Curve) (d1 d2 : Int) (pt : Int × Int) : Bytes :=
  mask lib curve d2 (smul curve d1 pt)

/-- The multiset that `Intersect` is specified to return, listed in the stored
order of the local mapping: `sampleID[L[k]]` for each key `k` of `L` that is a key
of every other mapping. -/
def intersectExpected (sampleID : List Bytes) (L : EncSet) (others : List EncSet) : List Bytes :=
  (L.EncIDs.keys.filter fun k => others.all fun o => o.EncIDs.has k).map
    fun k => sampleID.getD ((L.EncIDs.lookup k).getD 0).toNat []

/-- Number of positions of a list whose element occurs again later in the list. -/
def dupOccurrences {α : Type} [DecidableEq α] : List α → Nat
  | [] => 0
  | a :: l => (if a ∈ l then 1 else 0) + dupOccurrences l

/-! ## `decision_tree/classification/mpc_vertical/classification.go` -/

/-- Modelled from the spec: the type `common.DTDataFeature` is declared outside the
given sources; a feature column is its name and a mapping from sample index to a
string-encoded value. -/
structure DTDataFeature where
  FeatureName : String
  Sets : GoMap Int String

/-- Modelled from the spec: the type `common.DTDataSet` is declared outside the
given sources; a feature table is a sequence of named feature columns. -/
structure DTDataSet where
  Features : List DTDataFeature

/-- The type `StopCondition`.  The Gini threshold is a finite `float64`. -/
structure StopCondition where
  SampleThreshold : Int
  DepthThreshold : Int
  GiniThreshold : ℚ

/-- Modelled from the spec: the helper `utils.IntInSlice` is defined outside the
given sources; it tells whether the integer occurs in the slice. -/
def IntInSlice (target : Int) (array : List Int) : Bool :=
  decide (target ∈ array)

/-- Inner loop of `retrieveDatasetByIds`: the entries of a column whose key is in
the id list. -/
def restrictSets (ρ : RangeOrder) (idList : List Int) (sets : GoMap Int String) :
    GoMap Int String :=
  (sets.range ρ).foldl
    (fun (sets : GoMap Int String) (e : Int × String) =>
      if IntInSlice e.1 idList then sets.set e.1 e.2 else sets)
    (∅ : GoMap Int String)

/-- Body of the outer loop of `retrieveDatasetByIds`: the copy `f` of a column. -/
def restrictFeature (ρ : RangeOrder) (idList : List Int) (feature : DTDataFeature) :
    DTDataFeature where
  FeatureName := feature.FeatureName
  Sets := restrictSets ρ idList feature.Sets

/-- The function `retrieveDatasetByIds`; `none` is the nil pointer it returns for
an empty id list. -/
def retrieveDatasetByIds (ρ : RangeOrder) (datasets : DTDataSet) (idList : List Int) :
    Option DTDataSet :=
  if idList.length = 0 then none
  else some ⟨datasets.Features.map (restrictFeature ρ idList)⟩

/-- The function `uniqueDataSetTypes`. -/
def uniqueDataSetTypes (ρ : RangeOrder) (sets : GoMap Int String) : GoMap String Int :=
  (sets.range ρ).foldl
    (fun (results : GoMap String Int) (e : Int × String) =>
      let results := if results.has e.2 then results else results.set e.2 0
      results.set e.2 ((results.lookup e.2).getD 0 + 1))
    (∅ : GoMap String Int)

/-- The function `calSingleDataSetsGini`.  The quotient `value / total` is only
formed inside the loop over the label counts, where `total` is positive. -/
def calSingleDataSetsGini (ρ : RangeOrder) (feature : DTDataFeature) : ℚ × Int :=
  let total : Int := feature.Sets.len
  let counts := uniqueDataSetTypes ρ feature.Sets
  let imp := (counts.range ρ).foldl
    (fun (imp : ℚ) (e : String × Int) => imp + ((e.2 : ℚ) / (total : ℚ)) ^ 2) 0
  (1 - imp, total)

/-- The state of the first loop of `calMultiDataSetsGini`. -/
structure GiniAcc where
  dataSetsTotal : Int
  dataSliceGinis : GoMap Int ℚ
  dataSliceTotal : GoMap Int Int

/-- Body of the inner loop of `calMultiDataSetsGini` for the data set at position
`index`: the column named `label` adds its size and Gini value to the state. -/
def giniAccumulate (ρ : RangeOrder) (label : String) (index : Nat) (acc : GiniAcc)
    (feature : DTDataFeature) : GiniAcc :=
  if ¬ feature.FeatureName = label then acc
  else
    { dataSetsTotal := acc.dataSetsTotal + (calSingleDataSetsGini ρ feature).2
      dataSliceGinis := acc.dataSliceGinis.set (index : Int) (calSingleDataSetsGini ρ feature).1
      dataSliceTotal := acc.dataSliceTotal.set (index : Int) (calSingleDataSetsGini ρ feature).2 }

/-- Second loop of `calMultiDataSetsGini`: the sum of `|Di| / |D| * Gini(Di)`.  The
result `none` stands for a value that is not a finite number: the quotient
`value / dataSetsTotal` with a zero total. -/
def giniWeightedSum (ρ : RangeOrder) (acc : GiniAcc) : Option ℚ :=
  (acc.dataSliceTotal.range ρ).foldl
    (fun (gini : Option ℚ) (e : Int × Int) =>
      if acc.dataSetsTotal = 0 then none
      else gini.map fun g =>
        g + ((e.2 : ℚ) / (acc.dataSetsTotal : ℚ)) * (acc.dataSliceGinis.lookup e.1).getD 0)
    (some 0)

/-- The function `calMultiDataSetsGini`. -/
def calMultiDataSetsGini (ρ : RangeOrder) (datasets : List (Option DTDataSet)) (label : String) :
    Option ℚ :=
  giniWeightedSum ρ <| datasets.enum.foldl
    (fun (acc : GiniAcc) (e : Nat × Option DTDataSet) =>
      match e.2 with
      | none => acc
      | some dataSet => dataSet.Features.foldl (giniAccumulate ρ label e.1) acc)
    ⟨0, ∅, ∅⟩

/-- The function `CalGiniByTagPart`. -/
def CalGiniByTagPart (ρ : RangeOrder) (allDatasets : DTDataSet) (idsLeft idsRight : List Int)
    (label : String) : Option ℚ :=
  let leftData := retrieveDatasetByIds ρ allDatasets idsLeft
  let rightData := retrieveDatasetByIds ρ allDatasets idsRight
  calMultiDataSetsGini ρ [leftData, rightData] label

/-- First loop of `isSameType`: the label counts of the column named `label`. -/
def countLabelTypes (ρ : RangeOrder) (dataset : DTDataSet) (label : String) : GoMap String Int :=
  dataset.Features.foldl
    (fun (result : GoMap String Int) value =>
      if value.FeatureName = label then uniqueDataSetTypes ρ value.Sets else result)
    (∅ : GoMap String Int)

/-- The function `isSameType`; reading `dataset.Features` of a nil data set panics. -/
def isSameType (ρ : RangeOrder) (dataset : Option DTDataSet) (label : String) :
    Except Fault (String × Bool × GoMap String Int) :=
  match dataset with
  | none => .error .panic
  | some dataset =>
    let result := countLabelTypes ρ dataset label
    if result.len = 1 then
      let labelType := (result.range ρ).foldl (fun (_ : String) (e : String × Int) => e.1) ""
      .ok (labelType, true, result)
    else .ok ("", false, result)

/-- The function `isSameTypePartB`. -/
def isSameTypePartB (ρ : RangeOrder) (dataset : DTDataSet) (idList : List Int) (label : String) :
    Except Fault (String × Bool × GoMap String Int) :=
  isSameType ρ (retrieveDatasetByIds ρ dataset idList) label

/-- The function `getMaxLabelType`. -/
def getMaxLabelType (ρ : RangeOrder) (dataset : Option DTDataSet) (label : String) :
    Except Fault String :=
  match isSameType ρ dataset label with
  | .error f => .error f
  | .ok (labelType, isSame, labelCounts) =>
    if isSame then .ok labelType
    else
      let r := (labelCounts.range ρ).foldl
        (fun (st : Int × String) (e : String × Int) =>
          if e.2 ≥ st.1 then (e.2, e.1) else st)
        ((0 : Int), "")
      .ok r.2

/-- The function `GetMaxLabelTypeTagPart`. -/
def GetMaxLabelTypeTagPart (ρ : RangeOrder) (dataset : DTDataSet) (idList : List Int)
    (label : String) : Except Fault String :=
  getMaxLabelType ρ (retrieveDatasetByIds ρ dataset idList) label

/-- Go `x <= y` for a Gini index `x` as `CalGiniByTagPart` returns it (`none` is NaN,
for which the comparison is false) and a threshold `y`. -/
def giniAtMost (x : Option ℚ) (y : ℚ) : Bool :=
  match x with
  | some g => decide (g ≤ y)
  | none => false

/-- The function `DecideTerminateTagPart`.  A Gini value is a number or NaN (`none`);
the messages it prints are not modelled. -/
def DecideTerminateTagPart (ρ : RangeOrder) (datasetsB : DTDataSet)
    (curIdList fatherIdList : List Int) (curGini fatherGini : Option ℚ) (curDepth : Int)
    (label : String) (cond : StopCondition) : Except Fault (Bool × String) :=
  if curIdList.length = 0 then
    (GetMaxLabelTypeTagPart ρ datasetsB fatherIdList label).map fun l => (true, l)
  else
    match isSameTypePartB ρ datasetsB curIdList label with
    | .error f => .error f
    | .ok (labelType, isSame, _) =>
      if isSame then .ok (true, labelType)
      else if (curIdList.length : Int) ≤ cond.SampleThreshold then
        (GetMaxLabelTypeTagPart ρ datasetsB curIdList label).map fun l => (true, l)
      else if cond.DepthThreshold ≠ 0 ∧ curDepth ≥ cond.DepthThreshold then
        (GetMaxLabelTypeTagPart ρ datasetsB curIdList label).map fun l => (true, l)
      else if giniAtMost curGini cond.GiniThreshold then
        (GetMaxLabelTypeTagPart ρ datasetsB curIdList label).map fun l => (true, l)
      else .ok (false, "")

/-! ### Vocabulary of the specification -/

/-- The columns of the table that carry the given name. -/
def DTDataSet.columns (ds : DTDataSet) (name : String) : List DTDataFeature :=
  ds.Features.filter fun f => f.FeatureName = name

/-- Column names identify columns: at most one column is named `label`. -/
def LabelUnique (ds : DTDataSet) (label : String) : Prop :=
  (ds.columns label).length ≤ 1

/-- The label of a sample: its value in the label column, if it has one. -/
def labelOf (ds : DTDataSet) (label : String) (id : Int) : Option String :=
  (ds.columns label).head?.bind fun col => col.Sets.lookup id

/-- The ids of the list are in the label column. -/
def InLabelColumn (ds : DTDataSet) (label : String) (ids : List Int) : Prop :=
  ∀ id ∈ ids, (labelOf ds label id).isSome

/-- Number of samples of the node (distinct ids of the list) that carry label `c`. -/
def labelCount (ds : DTDataSet) (label : String) (ids : List Int) (c : String) : Nat :=
  (ids.dedup.filter fun id => labelOf ds label id = some c).length

/-- Number of samples of the node (distinct ids of the list) that have a label. -/
def sampleCount (ds : DTDataSet) (label : String) (ids : List Int) : Nat :=
  (ids.dedup.filter fun id => (labelOf ds label id).isSome).length

/-- The distinct labels that occur among the samples of the node. -/
def labelsOf (ds : DTDataSet) (label : String) (ids : List Int) : List String :=
  (ids.dedup.filterMap fun id => labelOf ds label id).dedup

/-- The samples of the node all share one label: exactly one label occurs. -/
def SameLabel (ds : DTDataSet) (label : String) (ids : List Int) : Prop :=
  (labelsOf ds label ids).length = 1

/-- A majority label of the node: no label has more samples. -/
def IsMajorityLabel (ds : DTDataSet) (label : String) (ids : List Int) (c : String) : Prop :=
  ∀ c', labelCount ds label ids c' ≤ labelCount ds label ids c

/-- The Gini impurity `G(S) = 1 − Σ_c (count_c(S) / |S|)^2` of an id list. -/
def giniOf (ds : DTDataSet) (label : String) (ids : List Int) : ℚ :=
  1 - ((labelsOf ds label ids).map fun c =>
    ((labelCount ds label ids c : ℚ) / (ids.length : ℚ)) ^ 2).sum

/-- The impurity of an id list with the number of labelled samples as denominator;
it is `giniOf` for a duplicate-free list whose ids are in the label column. -/
def giniCode (ds : DTDataSet) (label : String) (ids : List Int) : ℚ :=
  1 - ((labelsOf ds label ids).map fun c =>
    ((labelCount ds label ids c : ℚ) / (sampleCount ds label ids : ℚ)) ^ 2).sum

instance (ds : DTDataSet) (label : String) : Decidable (LabelUnique ds label) :=
  inferInstanceAs (Decidable (_ ≤ _))

instance (ds : DTDataSet) (label : String) (ids : List Int) :
    Decidable (InLabelColumn ds label ids) :=
  inferInstanceAs (Decidable (∀ id ∈ ids, _))

instance (ds : DTDataSet) (label : String) (ids : List Int) :
    Decidable (SameLabel ds label ids) :=
  inferInstanceAs (Decidable (_ = _))

/-! ## Node keys -/

/-- Go `int` arithmetic on a 64-bit platform: the result of an operation wraps
around into `[-2^63, 2^63)`. -/
def wrapInt (x : Int) : Int :=
  (x + 9223372036854775808) % 18446744073709551616 - 9223372036854775808

/-- The decimal digits of a natural number, least significant first; fuel above the
number is enough. -/
def digitsRev : Nat → Nat → List Nat
  | 0, _ => []
  | fuel + 1, n => if n < 10 then [n] else (n % 10) :: digitsRev fuel (n / 10)

/-- The function `strconv.FormatInt(i, 10)` followed by `[]byte(...)`: a minus sign
for a negative number, then the decimal digits, most significant first. -/
def FormatInt (i : Int) : Bytes :=
  (if i < 0 then [45] else []) ++
    (digitsRev (i.natAbs + 1) i.natAbs).reverse.map fun d => UInt8.ofNat (48 + d)

/-- The table `hextable` of `encoding/hex`. -/
def hextable : List Char := "0123456789abcdef".data

/-- The loop of `hex.Encode`: two characters of `hextable` per byte, for `v >> 4`
and `v & 0x0f`. -/
def hexChars : Bytes → List Char
  | [] => []
  | v :: rest =>
    hextable.getD (v.toNat / 16) '0' :: hextable.getD (v.toNat % 16) '0' :: hexChars rest

/-- The function `hex.EncodeToString`. -/
def hexEncodeToString (src : Bytes) : String :=
  String.mk (hexChars src)

/-- Modelled from the spec: the helper `hash.HashUsingSha256` is defined outside the
given sources; it is a single SHA-256 digest of the data. -/
def HashUsingSha256 (lib : Stdlib) (data : Bytes) : Bytes :=
  lib.sha256 data

/-- The function `NodeKeyByDepthIndex`. -/
def NodeKeyByDepthIndex (lib : Stdlib) (depth index : Int) : String :=
  let hashDepth := HashUsingSha256 lib (FormatInt depth)
  let key := HashUsingSha256 lib (hashDepth ++ FormatInt index)
  hexEncodeToString key

/-- A byte string is the decimal text of an integer: an optional minus sign and
ASCII digits without superfluous leading zero whose value is the integer. -/
def IsDecimalText (t : Bytes) (d : Int) : Prop :=
  ∃ digits : List Nat, digits ≠ [] ∧ (∀ x ∈ digits, x < 10) ∧
    (digits.head? ≠ some 0 ∨ digits = [0]) ∧
    Nat.ofDigits 10 digits.reverse = d.natAbs ∧
    t = (if d < 0 then [45] else []) ++ digits.map fun x => UInt8.ofNat (48 + x)

/-- The value of a lowercase hexadecimal digit. -/
def hexVal (c : Char) : Option Nat :=
  if c ∈ hextable then some (hextable.indexOf c) else none

/-- Decoding of a lowercase hexadecimal text, two characters per byte. -/
def hexDecode : List Char → Option Bytes
  | [] => some []
  | [_] => none
  | hi :: lo :: rest =>
    match hexVal hi, hexVal lo, hexDecode rest with
    | some h, some l, some bs => some (UInt8.ofNat (16 * h + l) :: bs)
    | _, _, _ => none

/-! ## Tree nodes and prediction -/

/-- A non-nil value of Go's `interface{}` as the code uses it for split values: a
`float64` (finite, a rational) or a `string`. -/
inductive SplitValue where
  | float (v : ℚ)
  | str (s : String)
  deriving DecidableEq

/-- The type `CTreeNode`.  A nil `SplitValue` is `none`; the Gini value is the
result of `CalGiniByTagPart`. -/
structure CTreeNode where
  SampleIDList : List Int
  FeatureName : String
  Continuous : Bool
  SplitValue : Option SplitValue
  Result : String
  Depth : Int
  Index : Int
  Gini : Option ℚ

/-- Go `m[k]` on a `map[string]string`: the empty string for a missing key. -/
def GoMap.getStr (m : GoMap String String) (k : String) : String :=
  (m.lookup k).getD ""

/-- The function `PredictionStep`.  The result is Go's tuple
`(string, int, int, error)`; `parseFloat` is `strconv.ParseFloat(s, 64)` with `none`
for an error; each unit of fuel pays for one call. -/
def PredictionStep (lib : Stdlib) (parseFloat : String → Option ℚ) :
    Nat → GoMap String CTreeNode → GoMap String String → Int → Int →
      Except Fault (String × Int × Int × Option String)
  | 0, _, _, _, _ => .error .outOfFuel
  | fuel + 1, model, sample, depth, index =>
    let nodeID := NodeKeyByDepthIndex lib depth index
    match model.lookup nodeID with
    | none => .ok ("", depth, index, none)
    | some node =>
      if node.SplitValue ≠ none ∨ node.Result ≠ "" then
        if node.Result ≠ "" then .ok (node.Result, depth, index, none)
        else
          let index :=
            if ¬ node.Continuous then
              if node.SplitValue = some (.str (sample.getStr node.FeatureName)) then
                wrapInt (index * 2)
              else wrapInt (index * 2 + 1)
            else index
          if node.Continuous then
            match parseFloat (sample.getStr node.FeatureName) with
            | none =>
              .ok ("", 0, 0, some ("failed to parse sample value with feature["
                ++ node.FeatureName ++ "]"))
            | some sampleValue =>
              match node.SplitValue with
              | some (.float v) =>
                PredictionStep lib parseFloat fuel model sample (wrapInt (depth + 1))
                  (if sampleValue ≤ v then wrapInt (index * 2) else wrapInt (index * 2 + 1))
              -- the type assertion `node.SplitValue.(float64)` fails
              | _ => .error .panic
          else PredictionStep lib parseFloat fuel model sample (wrapInt (depth + 1)) index
      else .ok ("", depth, index, none)

/-- The child index a decision node sends the sample to, in Go `int` arithmetic:
`2·index` when the sample's value is at most a continuous split or equal to a
discrete split, `2·index + 1` otherwise; undefined when the value of a continuous
feature does not parse or a continuous node holds no number. -/
def childIndex (parseFloat : String → Option ℚ) (node : CTreeNode)
    (sample : GoMap String String) (index : Int) : Option Int :=
  if node.Continuous then
    match parseFloat (sample.getStr node.FeatureName), node.SplitValue with
    | some x, some (.float v) =>
      some (if x ≤ v then wrapInt (2 * index) else wrapInt (2 * index + 1))
    | _, _ => none
  else
    some (if node.SplitValue = some (.str (sample.getStr node.FeatureName))
      then wrapInt (2 * index) else wrapInt (2 * index + 1))

/-- The node at `(depth, index)` has a split decision in the model and no result. -/
def SplitsAt (lib : Stdlib) (model : GoMap String CTreeNode) (depth index : Int)
    (node : CTreeNode) : Prop :=
  model.lookup (NodeKeyByDepthIndex lib depth index) = some node ∧
    node.Result = "" ∧ node.SplitValue ≠ none

/-- The routing path of a sample: from `(d, i)` the stored split decisions lead in
`n` steps to `(d', i')`. -/
inductive RoutesTo (lib : Stdlib) (parseFloat : String → Option ℚ)
    (model : GoMap String CTreeNode) (sample : GoMap String String) :
    Int → Int → Int → Int → Nat → Prop
  | here (d i : Int) : RoutesTo lib parseFloat model sample d i d i 0
  | step (d i d' i' j : Int) (n : Nat) (node : CTreeNode) :
      SplitsAt lib model d i node →
      childIndex parseFloat node sample i = some j →
      RoutesTo lib parseFloat model sample (wrapInt (d + 1)) j d' i' n →
      RoutesTo lib parseFloat model sample d i d' i' (n + 1)

/-! ## Candidate splits -/

/-- Ways in which the loops of `splitDataSetByFeature` end early. -/
inductive SplitStop where
  /-- A failed type assertion on the split value (a run-time panic). -/
  | assert
  /-- The error return for a value that `strconv.ParseFloat` rejects. -/
  | parse
  deriving DecidableEq

/-- Body of the inner loop of `splitDataSetByFeature` for the entry `id, v` of the
column: the id is appended to `idsLeft` or to `idsRight`. -/
def splitStep (parseFloat : String → Option ℚ) (splitValue : Option SplitValue)
    (isContinuous : Bool) (st : List Int × List Int) (e : Int × String) :
    Except SplitStop (List Int × List Int) :=
  if isContinuous then
    match parseFloat e.2 with
    | none => .error .parse
    | some value =>
      match splitValue with
      | some (.float s) =>
        if value ≤ s then .ok (st.1 ++ [e.1], st.2) else .ok (st.1, st.2 ++ [e.1])
      | _ => .error .assert
  else
    match splitValue with
    | some (.str s) =>
      if e.2 = s then .ok (st.1 ++ [e.1], st.2) else .ok (st.1, st.2 ++ [e.1])
    | _ => .error .assert

/-- The function `splitDataSetByFeature`.  The result is Go's triple
`([]int, []int, error)`; `parseFloat` is `strconv.ParseFloat(s, 64)` with `none` for
its error; the interface value `featureName` holds a string at every call. -/
def splitDataSetByFeature (ρ : RangeOrder) (parseFloat : String → Option ℚ)
    (dataset : DTDataSet) (featureName : String) (splitValue : Option SplitValue)
    (isContinuous : Bool) : Except Fault (List Int × List Int × Option String) :=
  match dataset.Features.foldlM
      (fun (st : List Int × List Int) (feature : DTDataFeature) =>
        if feature.FeatureName = featureName then
          (feature.Sets.range ρ).foldlM (splitStep parseFloat splitValue isContinuous) st
        else .ok st)
      (([], []) : List Int × List Int) with
  | .ok (idsLeft, idsRight) => .ok (idsLeft, idsRight, none)
  | .error .parse => .ok ([], [], some "failed to parse string to float64")
  | .error .assert => .error .panic

/-- The split value has the dynamic type of the mode: a number for a continuous
feature, a string for a discrete one. -/
def SplitTyped : Option SplitValue → Bool → Prop
  | some (.float _), true => True
  | some (.str _), false => True
  | _, _ => False

/-- The value lies on the left of the split: it parses to a number `≤` a continuous
split value, or it equals a discrete one. -/
def onLeft (parseFloat : String → Option ℚ) : Option SplitValue → Bool → String → Bool
  | some (.float s), true, v =>
    match parseFloat v with
    | some x => decide (x ≤ s)
    | none => false
  | some (.str t), false, v => decide (v = t)
  | _, _, _ => false

/-- Modelled from the spec: the helper `utils.StringInSlice` is defined outside the
given sources; it tells whether the string occurs in the slice. -/
def StringInSlice (target : String) (array : List String) : Bool :=
  decide (target ∈ array)

/-- The function `getDiscAvailValues`: the keys of the map that collects the values
of the columns named `featureName`. -/
def getDiscAvailValues (ρ : RangeOrder) (dataset : DTDataSet) (featureName : String) :
    List String :=
  let valueMap := dataset.Features.foldl
    (fun (valueMap : GoMap String Bool) (feature : DTDataFeature) =>
      if feature.FeatureName = featureName then
        (feature.Sets.range ρ).foldl
          (fun (valueMap : GoMap String Bool) (e : Int × String) => valueMap.set e.2 true)
          valueMap
      else valueMap)
    (∅ : GoMap String Bool)
  (valueMap.range ρ).map Prod.fst

/-- The function `getContAvailValues`: the parsed values of the columns named
`featureName` in ascending order (`sort.Float64s`), or the error for a value that
does not parse.  The parsed values are finite. -/
def getContAvailValues (ρ : RangeOrder) (parseFloat : String → Option ℚ) (dataset : DTDataSet)
    (featureName : String) : Except String (List ℚ) :=
  match dataset.Features.foldlM
      (fun (valueMap : GoMap ℚ Bool) (feature : DTDataFeature) =>
        if feature.FeatureName = featureName then
          (feature.Sets.range ρ).foldlM
            (fun (valueMap : GoMap ℚ Bool) (e : Int × String) =>
              match parseFloat e.2 with
              | none => Except.error "failed to parse string to float64"
              | some value => Except.ok (valueMap.set value true))
            valueMap
        else .ok valueMap)
      (∅ : GoMap ℚ Bool) with
  | .error err => .error err
  | .ok valueMap => .ok (((valueMap.range ρ).map Prod.fst).insertionSort fun a b => a ≤ b)

/-- The four result lists of `PrepForFeatureSelect` while they are built. -/
structure Candidates where
  finalFeatures : List String
  finalSplitValues : List SplitValue
  finalIDsLeft : List (List Int)
  finalIDsRight : List (List Int)

/-- Ways in which the loops of `PrepForFeatureSelect` end early. -/
inductive PrepStop where
  /-- A run-time panic in a callee. -/
  | fault
  /-- An error return. -/
  | err (msg : String)

/-- The four `append` statements that record one candidate. -/
def Candidates.push (c : Candidates) (featureName : String) (splitValue : SplitValue)
    (left right : List Int) : Candidates where
  finalFeatures := c.finalFeatures ++ [featureName]
  finalSplitValues := c.finalSplitValues ++ [splitValue]
  finalIDsLeft := c.finalIDsLeft ++ [left]
  finalIDsRight := c.finalIDsRight ++ [right]

/-- Body of the loop over the split values of a continuous column: the candidate
for one split value. -/
def pushSplit (ρ : RangeOrder) (parseFloat : String → Option ℚ) (curData : DTDataSet)
    (featureName : String) (acc : Candidates) (splitValue : ℚ) : Except PrepStop Candidates :=
  match splitDataSetByFeature ρ parseFloat curData featureName (some (.float splitValue)) true with
  | .error _ => .error .fault
  | .ok (_, _, some err) => .error (.err err)
  | .ok (left, right, none) => .ok (acc.push featureName (.float splitValue) left right)

/-- Body of the loop over the values of a discrete column: the candidate for one
value (the error of `splitDataSetByFeature` is dropped). -/
def pushValue (ρ : RangeOrder) (parseFloat : String → Option ℚ) (curData : DTDataSet)
    (featureName : String) (acc : Candidates) (v : String) : Except PrepStop Candidates :=
  match splitDataSetByFeature ρ parseFloat curData featureName (some (.str v)) false with
  | .error _ => .error .fault
  | .ok (left, right, _) => .ok (acc.push featureName (.str v) left right)

/-- Body of the loop of `PrepForFeatureSelect` over the columns of `curData`.  The
loop `for i := 0; i < len(values)-1; i++` visits the pairs `values[i], values[i+1]`
of neighbours; the mean of two finite values is taken exactly. -/
def prepFeature (ρ : RangeOrder) (parseFloat : String → Option ℚ) (curData : DTDataSet)
    (label : String) (contFeatures : List String) (acc : Candidates) (feature : DTDataFeature) :
    Except PrepStop Candidates :=
  if feature.FeatureName = label then .ok acc
  else if StringInSlice feature.FeatureName contFeatures then
    match getContAvailValues ρ parseFloat curData feature.FeatureName with
    | .error err => .error (.err err)
    | .ok values =>
      (List.zipWith (fun a b => (a + b) / 2) values values.tail).foldlM
        (pushSplit ρ parseFloat curData feature.FeatureName) acc
  else
    (getDiscAvailValues ρ curData feature.FeatureName).foldlM
      (pushValue ρ parseFloat curData feature.FeatureName) acc

/-- The function `PrepForFeatureSelect`.  The result is Go's tuple
`([]string, []interface{}, [][]int, [][]int, error)`; reading `curData.Features`
panics when `retrieveDatasetByIds` returned nil. -/
def PrepForFeatureSelect (ρ : RangeOrder) (parseFloat : String → Option ℚ) (dataset : DTDataSet)
    (idList : List Int) (label : String) (contFeatures : List String) :
    Except Fault
      (List String × List SplitValue × List (List Int) × List (List Int) × Option String) :=
  match retrieveDatasetByIds ρ dataset idList with
  | none => .error .panic
  | some curData =>
    match curData.Features.foldlM (prepFeature ρ parseFloat curData label contFeatures)
        (⟨[], [], [], []⟩ : Candidates) with
    | .ok acc =>
      .ok (acc.finalFeatures, acc.finalSplitValues, acc.finalIDsLeft, acc.finalIDsRight, none)
    | .error .fault => .error .panic
    | .error (.err err) => .ok ([], [], [], [], some err)

/-- The means of neighbouring entries of a list of numbers. -/
def midpoints : List ℚ → List ℚ
  | a :: b :: rest => (a + b) / 2 :: midpoints (b :: rest)
  | _ => []

/-- The candidates that a column contributes at a node: none for the label column;
for a continuous column with the distinct node values `v1 < … < vk` the means
`(vj + vj+1) / 2` in ascending order; for any other column its distinct node values,
each once, in some order. -/
def CandidatesOf (parseFloat : String → Option ℚ) (idList : List Int) (label : String)
    (contFeatures : List String) (feature : DTDataFeature)
    (block : List (String × SplitValue)) : Prop :=
  if feature.FeatureName = label then block = []
  else if feature.FeatureName ∈ contFeatures then
    ∃ values : List ℚ, values.Sorted (fun a b => a < b) ∧
      (∀ x, x ∈ values ↔
        ∃ id ∈ idList, ∃ v, feature.Sets.lookup id = some v ∧ parseFloat v = some x) ∧
      block = (midpoints values).map fun m => (feature.FeatureName, SplitValue.float m)
  else
    ∃ values : List String, values.Nodup ∧
      (∀ v, v ∈ values ↔ ∃ id ∈ idList, feature.Sets.lookup id = some v) ∧
      block = values.map fun v => (feature.FeatureName, SplitValue.str v)

/-- The lists of `b` appended to the lists of `a`. -/
def Candidates.append (a b : Candidates) : Candidates where
  finalFeatures := a.finalFeatures ++ b.finalFeatures
  finalSplitValues := a.finalSplitValues ++ b.finalSplitValues
  finalIDsLeft := a.finalIDsLeft ++ b.finalIDsLeft
  finalIDsRight := a.finalIDsRight ++ b.finalIDsRight

/-- The four lists have one length. -/
def Candidates.Aligned (c : Candidates) : Prop :=
  c.finalSplitValues.length = c.finalFeatures.length ∧
    c.finalIDsLeft.length = c.finalFeatures.length ∧
    c.finalIDsRight.length = c.finalFeatures.length

/-- The candidates as pairs of a feature name and a split value. -/
def Candidates.pairs (c : Candidates) : List (String × SplitValue) :=
  c.finalFeatures.zip c.finalSplitValues

/-! ## Pruning -/

/-- A `float64` value: a finite number, an infinity, or NaN.  The finite values that
the operations below return are numbers that the format represents: every result is
rounded (`F64.round`).  The sign of a zero is not modelled: the zero divisors of the
code are converted lengths, which are `+0`. -/
inductive F64 where
  | fin (q : ℚ)
  | posInf
  | negInf
  | nan
  deriving DecidableEq

/-- The number of binary digits of `n` (none for 0); the first argument bounds the
recursion. -/
def bitLength : Nat → Nat → Nat
  | 0, _ => 0
  | fuel + 1, n => if n = 0 then 0 else bitLength fuel (n / 2) + 1

/-- The position of the leading binary digit of the positive number `n / d`: the
integer `e` with `2 ^ e ≤ n / d < 2 ^ (e + 1)`. -/
def floorLog2 (n d : Nat) : Int :=
  let e : Int := (bitLength n n : Int) - (bitLength d d : Int)
  if n * 2 ^ (-e).toNat < d * 2 ^ e.toNat then e - 1 else e

/-- The integer nearest to `n / d`; of two nearest integers, the even one. -/
def roundHalfEven (n d : Nat) : Nat :=
  if 2 * (n % d) < d then n / d
  else if d < 2 * (n % d) then n / d + 1
  else if n / d % 2 = 0 then n / d else n / d + 1

/-- The infinity with the sign of `q` (of `+0` for zero). -/
def F64.infOfSign (q : ℚ) : F64 := if 0 ≤ q then .posInf else .negInf

/-- The `float64` nearest to a real number, as the IEEE 754 arithmetic of Go rounds
every result: 53 significant binary digits above `2 ^ (-1022)` and multiples of
`2 ^ (-1074)` below, ties to the even significand, and an infinity from
`2 ^ 1024 - 2 ^ 970` on. -/
def F64.round (q : ℚ) : F64 :=
  if q = 0 then .fin 0
  else
    let n := q.num.natAbs
    let k : Int := max (floorLog2 n q.den) (-1022) - 52
    let m := roundHalfEven (n * 2 ^ (-k).toNat) (q.den * 2 ^ k.toNat)
    if 2 ^ 1024 * 2 ^ (-k).toNat ≤ m * 2 ^ k.toNat then F64.infOfSign q
    else if 0 ≤ q then .fin (mkRat (m * 2 ^ k.toNat) (2 ^ (-k).toNat))
    else .fin (-mkRat (m * 2 ^ k.toNat) (2 ^ (-k).toNat))

/-- The conversion `float64(n)` of an integer. -/
def F64.ofInt (n : Int) : F64 := F64.round (n : ℚ)

/-- The infinity opposite to `x`. -/
def F64.flip : F64 → F64
  | .posInf => .negInf
  | .negInf => .posInf
  | x => x

/-- Go `x / y` on `float64`. -/
def F64.div : F64 → F64 → F64
  | .nan, _ => .nan
  | _, .nan => .nan
  | .fin a, .fin b =>
    if b = 0 then (if a = 0 then .nan else F64.infOfSign a) else F64.round (a / b)
  | .fin _, _ => .fin 0
  | .posInf, .fin b => F64.infOfSign b
  | .negInf, .fin b => (F64.infOfSign b).flip
  | _, _ => .nan

/-- Go `x * y` on `float64`. -/
def F64.mul : F64 → F64 → F64
  | .nan, _ => .nan
  | _, .nan => .nan
  | .fin a, .fin b => F64.round (a * b)
  | .fin a, .posInf => if a = 0 then .nan else F64.infOfSign a
  | .fin a, .negInf => if a = 0 then .nan else (F64.infOfSign a).flip
  | .posInf, .fin b => if b = 0 then .nan else F64.infOfSign b
  | .negInf, .fin b => if b = 0 then .nan else (F64.infOfSign b).flip
  | .posInf, .posInf => .posInf
  | .negInf, .negInf => .posInf
  | _, _ => .negInf

/-- Go `x + y` on `float64`. -/
def F64.add : F64 → F64 → F64
  | .nan, _ => .nan
  | _, .nan => .nan
  | .fin a, .fin b => F64.round (a + b)
  | .posInf, .negInf => .nan
  | .negInf, .posInf => .nan
  | .fin _, y => y
  | x, _ => x

/-- Go `x - y` on `float64`. -/
def F64.sub : F64 → F64 → F64
  | .nan, _ => .nan
  | _, .nan => .nan
  | .fin a, .fin b => F64.round (a - b)
  | .posInf, .posInf => .nan
  | .negInf, .negInf => .nan
  | .fin _, y => y.flip
  | x, _ => x

/-- Go `x <= y` on `float64`. -/
def F64.le : F64 → F64 → Bool
  | .nan, _ => false
  | _, .nan => false
  | .fin a, .fin b => decide (a ≤ b)
  | .negInf, _ => true
  | _, .posInf => true
  | _, _ => false

/-- Go `x < y` on `float64`. -/
def F64.lt : F64 → F64 → Bool
  | .nan, _ => false
  | _, .nan => false
  | .fin a, .fin b => decide (a < b)
  | .posInf, _ => false
  | _, .negInf => false
  | _, _ => true

/-- Go `x == y` on `float64`: NaN is equal to no value. -/
def F64.eq : F64 → F64 → Bool
  | .nan, _ => false
  | _, .nan => false
  | x, y => decide (x = y)

/-- The function `errRate`; reading the fields of a nil data set and the index
expression `dataset.Features[0]` on a table without columns panic. -/
def errRate (ρ : RangeOrder) (dataset : Option DTDataSet) (result label : String) :
    Except Fault F64 :=
  match dataset with
  | none => .error .panic
  | some dataset =>
    let errNum : Int := dataset.Features.foldl
      (fun (errNum : Int) (feature : DTDataFeature) =>
        if feature.FeatureName = label then
          (feature.Sets.range ρ).foldl
            (fun (errNum : Int) (e : Int × String) => if e.2 ≠ result then errNum + 1 else errNum)
            errNum
        else errNum)
      0
    match dataset.Features with
    | [] => .error .panic
    | first :: _ => .ok ((F64.ofInt errNum).div (F64.ofInt first.Sets.len))

/-- The function `calTreeNodeCostTagPart`. -/
def calTreeNodeCostTagPart (ρ : RangeOrder) (dataset : DTDataSet) (idList : List Int)
    (label : String) : Except Fault F64 :=
  let data := retrieveDatasetByIds ρ dataset idList
  match getMaxLabelType ρ data label with
  | .error f => .error f
  | .ok t =>
    match errRate ρ data t label with
    | .error f => .error f
    | .ok rate =>
      match dataset.Features with
      | [] => .error .panic
      | first :: _ =>
        .ok ((rate.mul (F64.ofInt idList.length)).div (F64.ofInt first.Sets.len))

/-- The function `IfPruneNodeByTagPart`.  The map holds pointers: reading a field of
the entry of an absent key panics; the right child is only read when the left one
has a result. -/
def IfPruneNodeByTagPart (lib : Stdlib) (ρ : RangeOrder) (dataset : DTDataSet)
    (model : GoMap String CTreeNode) (label : String) (depth index : Int) (regParam : F64) :
    Except Fault Bool :=
  let leftNodeID := NodeKeyByDepthIndex lib (wrapInt (depth + 1)) (wrapInt (index * 2))
  let rightNodeID := NodeKeyByDepthIndex lib (wrapInt (depth + 1)) (wrapInt (index * 2 + 1))
  match model.lookup leftNodeID with
  | none => .error .panic
  | some leftNode =>
    if leftNode.Result = "" then .ok false
    else
      match model.lookup rightNodeID with
      | none => .error .panic
      | some rightNode =>
        if rightNode.Result = "" then .ok false
        else
          let nodeID := NodeKeyByDepthIndex lib depth index
          match model.lookup nodeID with
          | none => .error .panic
          | some node =>
            match calTreeNodeCostTagPart ρ dataset node.SampleIDList label with
            | .error f => .error f
            | .ok nodeCost =>
              match calTreeNodeCostTagPart ρ dataset leftNode.SampleIDList label with
              | .error f => .error f
              | .ok leftCost =>
                match calTreeNodeCostTagPart ρ dataset rightNode.SampleIDList label with
                | .error f => .error f
                | .ok rightCost => .ok (nodeCost.le ((leftCost.add rightCost).add regParam))

/-- The total number of samples: the size of the first column of the table. -/
def totalSamples (ds : DTDataSet) : Nat :=
  match ds.Features with
  | [] => 0
  | first :: _ => first.Sets.len

/-- The ids of the list are in the first column of the table. -/
def InFirstColumn (ds : DTDataSet) (ids : List Int) : Prop :=
  ∀ id ∈ ids, (ds.Features.head?.bind fun first => first.Sets.lookup id).isSome

/-- A sample list of a node: non-empty, without repetition, of samples of the table
that carry a label. -/
def NodeSamples (ds : DTDataSet) (label : String) (ids : List Int) : Prop :=
  ids ≠ [] ∧ ids.Nodup ∧ InLabelColumn ds label ids ∧ InFirstColumn ds ids

/-- The misclassification count of a sample list as a leaf with result `c`: the
number of its samples whose label differs from `c`. -/
def misCount (ds : DTDataSet) (label : String) (ids : List Int) (c : String) : Nat :=
  (ids.filter fun id => labelOf ds label id ≠ some c).length

/-- The fraction of the samples of the list whose label differs from `c`. -/
def errRateOf (ds : DTDataSet) (label : String) (ids : List Int) (c : String) : ℚ :=
  ((ids.filter fun id => labelOf ds label id ≠ some c).length : ℚ) / (ids.length : ℚ)

/-- The cost `errRate(S) · |S| / N` of a sample list with majority label `c`. -/
def costOf (ds : DTDataSet) (label : String) (ids : List Int) (c : String) : ℚ :=
  errRateOf ds label ids c * (ids.length : ℚ) / (totalSamples ds : ℚ)

/-- The cost of a sample list with majority label `c` as the code computes it from
the misclassification count: the error rate `count / |S|`, times `|S|`, divided by
`N`, each of the three results rounded to `float64`. -/
def costF64 (ds : DTDataSet) (label : String) (ids : List Int) (c : String) : F64 :=
  (((F64.ofInt (misCount ds label ids c)).div (F64.ofInt ids.length)).mul
    (F64.ofInt ids.length)).div (F64.ofInt (totalSamples ds))

instance (ds : DTDataSet) (ids : List Int) : Decidable (InFirstColumn ds ids) :=
  inferInstanceAs (Decidable (∀ id ∈ ids, _))

instance (ds : DTDataSet) (label : String) (ids : List Int) :
    Decidable (NodeSamples ds label ids) :=
  inferInstanceAs (Decidable (_ ∧ _ ∧ _ ∧ _))

/-! ## Split selection of the two-party driver -/

/-- One of the two Gini loops of `determineNodeByDepthIndex`: the lowest Gini index
below the initial bound `1` among the candidates `idsLeft[i], idsRight[i]`, and the
position of the first candidate that attains it.  The comparison `gini < minGini`
is false for a Gini index that is NaN; an index beyond `idsRight` panics. -/
def minGiniSearch (ρ : RangeOrder) (allDataB : DTDataSet) (label : String)
    (idsLeft idsRight : List (List Int)) : Except Fault (ℚ × Int) :=
  (List.range idsLeft.length).foldlM
    (fun (st : ℚ × Int) (i : Nat) =>
      match idsLeft.get? i, idsRight.get? i with
      | some left, some right =>
        match CalGiniByTagPart ρ allDataB left right label with
        | some gini => if gini < st.1 then Except.ok (gini, (i : Int)) else Except.ok st
        | none => Except.ok st
      | _, _ => Except.error Fault.panic)
    ((1 : ℚ), (0 : Int))

/-- The Gini indices of the candidate splits `idsLeft[i], idsRight[i]` of a party, as
`CalGiniByTagPart` computes them (`none` is NaN). -/
def candidateGinis (ρ : RangeOrder) (allDataB : DTDataSet) (label : String)
    (idsLeft idsRight : List (List Int)) : List (Option ℚ) :=
  List.zipWith (fun left right => CalGiniByTagPart ρ allDataB left right label) idsLeft idsRight

/-- The number `m` is the lowest Gini index among the candidates `gs`, and `i` is the
first candidate that attains it; a candidate whose Gini index is NaN has none. -/
def LowestGini (gs : List (Option ℚ)) (m : ℚ) (i : Nat) : Prop :=
  gs.get? i = some (some m) ∧ (∀ g ∈ gs.reduceOption, m ≤ g) ∧
    ∀ g ∈ (gs.take i).reduceOption, m < g

instance (gs : List (Option ℚ)) (m : ℚ) (i : Nat) : Decidable (LowestGini gs m i) :=
  inferInstanceAs (Decidable (_ ∧ _ ∧ _))

/-- The state after the split selection of `determineNodeByDepthIndex`: the flag
`isA`, the global maps `modelA` and `modelB`, and the sample lists of the children. -/
structure SplitChoice where
  isA : Bool
  modelA : GoMap String CTreeNode
  modelB : GoMap String CTreeNode
  idsLeft : List Int
  idsRight : List Int

/-- The type test `_, v := finalSplit.(float64)`. -/
def SplitValue.isFloat : SplitValue → Bool
  | .float _ => true
  | .str _ => false

/-- The split selection of `determineNodeByDepthIndex`: the statements from the two
Gini loops to the record of the node's split in `modelA` or in `modelB`.  The inputs
are the candidate lists that the two calls of `PrepForFeatureSelect` returned; the
messages it prints are not modelled.  Indexing a candidate list out of range and
writing a field of an absent `modelB` entry panic. -/
def determineNodeSplit (lib : Stdlib) (ρ : RangeOrder) (allDataB : DTDataSet)
    (curNode : CTreeNode) (label : String)
    (featuresA : List String) (splitsA : List SplitValue) (idsLeftA idsRightA : List (List Int))
    (featuresB : List String) (splitsB : List SplitValue) (idsLeftB idsRightB : List (List Int))
    (modelA modelB : GoMap String CTreeNode) : Except Fault SplitChoice :=
  let nodeKey := NodeKeyByDepthIndex lib curNode.Depth curNode.Index
  match minGiniSearch ρ allDataB label idsLeftA idsRightA with
  | .error f => .error f
  | .ok (minGiniA, minGiniIdxA) =>
    match minGiniSearch ρ allDataB label idsLeftB idsRightB with
    | .error f => .error f
    | .ok (minGiniB, minGiniIdxB) =>
      if minGiniA < minGiniB then
        match indexAt featuresA minGiniIdxA, indexAt splitsA minGiniIdxA,
            indexAt idsLeftA minGiniIdxA, indexAt idsRightA minGiniIdxA with
        | some finalFeature, some finalSplit, some idsLeft, some idsRight =>
          .ok
            { isA := true
              modelA := modelA.set nodeKey
                { SampleIDList := curNode.SampleIDList
                  FeatureName := finalFeature
                  Continuous := finalSplit.isFloat
                  SplitValue := some finalSplit
                  Result := ""
                  Depth := curNode.Depth
                  Index := curNode.Index
                  Gini := some 0 }
              modelB := modelB
              idsLeft := idsLeft
              idsRight := idsRight }
        | _, _, _, _ => .error .panic
      else
        match indexAt featuresB minGiniIdxB, indexAt splitsB minGiniIdxB,
            indexAt idsLeftB minGiniIdxB, indexAt idsRightB minGiniIdxB with
        | some finalFeature, some finalSplit, some idsLeft, some idsRight =>
          match modelB.lookup nodeKey with
          | none => .error .panic
          | some node =>
            .ok
              { isA := false
                modelA := modelA
                modelB := modelB.set nodeKey
                  { node with
                    FeatureName := finalFeature
                    SplitValue := some finalSplit
                    Continuous := finalSplit.isFloat }
                idsLeft := idsLeft
                idsRight := idsRight }
        | _, _, _, _ => .error .panic

/-! ## Pruning pass of the two-party driver -/

/-- Go `delete(m, k)`. -/
def GoMap.delete {κ ν : Type} [DecidableEq κ] (m : GoMap κ ν) (k : κ) : GoMap κ ν :=
  m.erase k

/-- The state of `pruneTreeB` during a pass: the global maps `modelA` and `modelB`
and the local flag `prunedB`. -/
structure PruneState where
  modelA : GoMap String CTreeNode
  modelB : GoMap String CTreeNode
  prunedB : Bool

/-- Body of the loop `for id, node := range modelB` of `pruneTreeB` for the key `id`.
An entry that was deleted before the loop reached it is not visited; the map holds
pointers, so `node` is the current record of `id`. -/
def pruneVisit (lib : Stdlib) (ρ : RangeOrder) (allDataB : DTDataSet) (regParam : F64)
    (label : String) (st : PruneState) (id : String) : Except Fault PruneState :=
  match st.modelB.lookup id with
  | none => .ok st
  | some node =>
    if node.Result ≠ "" then .ok st
    else
      let leftNodeID :=
        NodeKeyByDepthIndex lib (wrapInt (node.Depth + 1)) (wrapInt (node.Index * 2))
      let rightNodeID :=
        NodeKeyByDepthIndex lib (wrapInt (node.Depth + 1)) (wrapInt (node.Index * 2 + 1))
      match st.modelB.lookup leftNodeID with
      | none => .ok st
      | some leftNode =>
        if leftNode.Result = "" then .ok st
        else
          match st.modelB.lookup rightNodeID with
          | none => .ok st
          | some rightNode =>
            if rightNode.Result = "" then .ok st
            else
              match IfPruneNodeByTagPart lib ρ allDataB st.modelB label node.Depth node.Index
                  regParam with
              | .error f => .error f
              | .ok false => .ok st
              | .ok true =>
                let modelB := (st.modelB.delete leftNodeID).delete rightNodeID
                match modelB.lookup id with
                | none => .error .panic
                | some cur =>
                  let modelA := if cur.SplitValue = none then st.modelA.delete id else st.modelA
                  match GetMaxLabelTypeTagPart ρ allDataB node.SampleIDList label with
                  | .error f => .error f
                  | .ok t =>
                    .ok
                      { modelA := modelA
                        modelB := modelB.set id
                          { cur with FeatureName := "", SplitValue := none, Result := t }
                        prunedB := true }

/-- The function `pruneTreeB`; the global maps `modelA` and `modelB` are passed in
and returned.  Each unit of fuel pays for one pass over `modelB`. -/
def pruneTreeB (lib : Stdlib) (ρ : RangeOrder) (allDataB : DTDataSet) (regParam : F64)
    (label : String) :
    Nat → GoMap String CTreeNode → GoMap String CTreeNode →
      Except Fault (GoMap String CTreeNode × GoMap String CTreeNode)
  | 0, _, _ => .error .outOfFuel
  | fuel + 1, modelA, modelB =>
    match ((modelB.range ρ).map Prod.fst).foldlM
        (pruneVisit lib ρ allDataB regParam label) ⟨modelA, modelB, false⟩ with
    | .error f => .error f
    | .ok st =>
      if st.prunedB then pruneTreeB lib ρ allDataB regParam label fuel st.modelA st.modelB
      else .ok (st.modelA, st.modelB)

/-- The key of the left child of a node. -/
def leftKey (lib : Stdlib) (node : CTreeNode) : String :=
  NodeKeyByDepthIndex lib (wrapInt (node.Depth + 1)) (wrapInt (node.Index * 2))

/-- The key of the right child of a node. -/
def rightKey (lib : Stdlib) (node : CTreeNode) : String :=
  NodeKeyByDepthIndex lib (wrapInt (node.Depth + 1)) (wrapInt (node.Index * 2 + 1))

/-- The record `node` of `id` is an internal node with two leaf children in the tag
party's model. -/
def Prunable (lib : Stdlib) (modelB : GoMap String CTreeNode) (id : String)
    (node : CTreeNode) : Prop :=
  modelB.lookup id = some node ∧ node.Result = "" ∧
    (∃ l, modelB.lookup (leftKey lib node) = some l ∧ l.Result ≠ "") ∧
    (∃ r, modelB.lookup (rightKey lib node) = some r ∧ r.Result ≠ "")

/-- The state after the merge of the node `id`: both children deleted from the tag
party's map, the node's record deleted from the non-tag party's map when the tag
party's record holds no split value, and the node turned into a leaf with result
`t`. -/
def mergeNode (lib : Stdlib) (st : PruneState) (id : String) (node : CTreeNode) (t : String) :
    PruneState where
  modelA := if node.SplitValue = none then st.modelA.delete id else st.modelA
  modelB := ((st.modelB.delete (leftKey lib node)).delete (rightKey lib node)).set id
    { node with FeatureName := "", SplitValue := none, Result := t }
  prunedB := true

/-- The digest does not collide on the keys of the two children of a node. -/
def SiblingKeysDiffer (lib : Stdlib) : Prop :=
  ∀ node : CTreeNode, leftKey lib node ≠ rightKey lib node

/-- No internal node with two leaf children satisfies the pruning test. -/
def NothingToPrune (lib : Stdlib) (ρ : RangeOrder) (allDataB : DTDataSet) (regParam : F64)
    (label : String) (modelB : GoMap String CTreeNode) : Prop :=
  ∀ id node, Prunable lib modelB id node →
    IfPruneNodeByTagPart lib ρ allDataB modelB label node.Depth node.Index regParam = .ok false

/-! ## `feature_engineering`: sample tables -/

/-- A sample table `[][]string`: the first row holds the names of the features. -/
abbrev Rows := List (List String)

/-- A call of the feature-engineering code that returns no rows: a run-time panic,
or a Go error (the text of a wrapped standard-library error is left out). -/
inductive Failure where
  | panic
  | err (msg : String)
  deriving DecidableEq

/-- Go `row := make([]string, n); copy(row[0:], src)`: the first `n` cells of `src`,
filled up with empty strings. -/
def copyRow (n : Nat) (src : List String) : List String :=
  src.take n ++ List.replicate (n - src.length) ""

/-- The function `copySamples`; `fileRows[0]` is only read inside the loop. -/
def copySamples (fileRows : Rows) : Rows :=
  match fileRows with
  | [] => []
  | first :: _ => fileRows.map (copyRow first.length)

/-- The function `findFeatureIdx`: the first position of the feature in the first
row, `none` for the error `invalid feature, not exist`; reading `fileRows[0]` of a
table without rows panics. -/
def findFeatureIdx (fileRows : Rows) (feature : String) : Except Failure (Option Nat) :=
  match fileRows with
  | [] => .error .panic
  | first :: _ => .ok (if feature ∈ first then some (first.indexOf feature) else none)

/-- The type `FilterOpt`; the threshold is a finite `float64`. -/
structure FilterOpt where
  Threshold : ℚ
  FilterMethod : String

/-- The chain of tests on `opt.FilterMethod` in `FilterByThresholdForOne`: whether
the sample value satisfies the option, `none` for an unsupported method. -/
def filterSatisfied (opt : FilterOpt) (sampleValue : ℚ) : Option Bool :=
  if opt.FilterMethod = "g" then some (decide (sampleValue > opt.Threshold))
  else if opt.FilterMethod = "ge" then some (decide (sampleValue ≥ opt.Threshold))
  else if opt.FilterMethod = "e" then some (decide (sampleValue = opt.Threshold))
  else if opt.FilterMethod = "ne" then some (decide (sampleValue ≠ opt.Threshold))
  else if opt.FilterMethod = "l" then some (decide (sampleValue < opt.Threshold))
  else if opt.FilterMethod = "le" then some (decide (sampleValue ≤ opt.Threshold))
  else none

/-- The loop `for i := 1; i < len(fileRows); i++` of `FilterByThresholdForOne` from
row `i` on; `n` is `len(fileRows[0])`.  Reading a cell beyond the end of a row
panics. -/
def filterRows (parseFloat : String → Option ℚ) (n featureIdx : Nat) (feature : String)
    (opt : FilterOpt) : Nat → Rows → Rows → Except Failure Rows
  | _, [], processedFileRows => .ok processedFileRows
  | i, row :: rest, processedFileRows =>
    match row.get? featureIdx with
    | none => .error .panic
    | some cell =>
      match parseFloat cell with
      | none =>
        .error (.err ("parse value failed for sample[" ++ toString i ++ "] feature["
          ++ feature ++ "]"))
      | some sampleValue =>
        match filterSatisfied opt sampleValue with
        | none => .error (.err "unsupported filter method")
        | some satisfied =>
          filterRows parseFloat n featureIdx feature opt (i + 1) rest
            (if satisfied then processedFileRows ++ [copyRow n row] else processedFileRows)

/-- The function `FilterByThresholdForOne`. -/
def FilterByThresholdForOne (parseFloat : String → Option ℚ) (fileRows : Rows)
    (feature : String) (opt : FilterOpt) : Except Failure Rows :=
  match findFeatureIdx fileRows feature with
  | .error e => .error e
  | .ok none =>
    .error (.err ("failed to findFeatureIdx for feature[" ++ feature
      ++ "]: invalid feature, not exist"))
  | .ok (some featureIdx) =>
    match fileRows with
    | [] => .error .panic
    | first :: rest =>
      filterRows parseFloat first.length featureIdx feature opt 1 rest
        [copyRow first.length first]

/-- The function `FilterByThreshold`. -/
def FilterByThreshold (ρ : RangeOrder) (parseFloat : String → Option ℚ) (fileRows : Rows)
    (filOpt : GoMap String FilterOpt) : Except Failure Rows :=
  (filOpt.range ρ).foldlM
    (fun (processedFileRows : Rows) (e : String × FilterOpt) =>
      FilterByThresholdForOne parseFloat processedFileRows e.1 e.2)
    (copySamples fileRows)

/-- The relation of a filter option between a number and the threshold; no number
satisfies an unsupported method. -/
def FilterOpt.holds (opt : FilterOpt) (x : ℚ) : Bool :=
  if opt.FilterMethod = "g" then decide (x > opt.Threshold)
  else if opt.FilterMethod = "ge" then decide (x ≥ opt.Threshold)
  else if opt.FilterMethod = "e" then decide (x = opt.Threshold)
  else if opt.FilterMethod = "ne" then decide (x ≠ opt.Threshold)
  else if opt.FilterMethod = "l" then decide (x < opt.Threshold)
  else if opt.FilterMethod = "le" then decide (x ≤ opt.Threshold)
  else false

/-- The filter method is one of `g`, `ge`, `e`, `ne`, `l`, `le`. -/
def FilterOpt.Supported (opt : FilterOpt) : Prop :=
  opt.FilterMethod ∈ ["g", "ge", "e", "ne", "l", "le"]

/-- The value of the row in the column of the feature satisfies the option. -/
def rowSatisfies (parseFloat : String → Option ℚ) (header row : List String) (feature : String)
    (opt : FilterOpt) : Bool :=
  match parseFloat (row.getD (header.indexOf feature) "") with
  | some x => opt.holds x
  | none => false

instance (opt : FilterOpt) : Decidable opt.Supported :=
  inferInstanceAs (Decidable (_ ∈ _))

/-- Go `rows[i][j] = v` on a table whose row `i` has a cell `j`. -/
def setCell (rows : Rows) (i j : Nat) (v : String) : Rows :=
  rows.set i ((rows.getD i []).set j v)

/-- The type `FillOpt`. -/
structure FillOpt where
  Method : String
  Value : String
  deriving DecidableEq

/-- The function `getMedian`; `sort.Float64s` puts the values in ascending order,
and indexing the empty slice panics. -/
def getMedian (values : List ℚ) : Except Failure ℚ :=
  let values := values.insertionSort fun a b => a ≤ b
  if values.length % 2 = 1 then
    match values.get? (values.length / 2) with
    | some v => .ok v
    | none => .error .panic
  else
    match values.get? (values.length / 2), indexAt values ((values.length / 2 : Nat) - 1 : Int) with
    | some v1, some v2 => .ok ((v1 + v2) / 2)
    | _, _ => .error .panic

/-- The first loop of `FillByAverage` from row `i` on: the rows with a missing value
and the sum of the other values. -/
def scanForAverage (parseFloat : String → Option ℚ) (featureIdx : Nat) (feature : String) :
    Nat → Rows → List Nat → ℚ → Except Failure (List Nat × ℚ)
  | _, [], samplesToFill, total => .ok (samplesToFill, total)
  | i, row :: rest, samplesToFill, total =>
    match row.get? featureIdx with
    | none => .error .panic
    | some cell =>
      if cell = "" then
        scanForAverage parseFloat featureIdx feature (i + 1) rest (samplesToFill ++ [i]) total
      else
        match parseFloat cell with
        | none =>
          .error (.err ("parse value failed for sample[" ++ toString i ++ "] feature["
            ++ feature ++ "]"))
        | some value =>
          scanForAverage parseFloat featureIdx feature (i + 1) rest samplesToFill (total + value)

/-- The function `FillByAverage`; `formatFloat` is
`strconv.FormatFloat(x, 'g', -1, 64)`. -/
def FillByAverage (parseFloat : String → Option ℚ) (formatFloat : F64 → String)
    (fileRows : Rows) (feature : String) : Except Failure Rows :=
  let processedFileRows := copySamples fileRows
  match findFeatureIdx fileRows feature with
  | .error e => .error e
  | .ok none =>
    .error (.err ("failed to findFeatureIdx for feature[" ++ feature
      ++ "]: invalid feature, not exist"))
  | .ok (some featureIdx) =>
    match scanForAverage parseFloat featureIdx feature 1 fileRows.tail [] 0 with
    | .error e => .error e
    | .ok (samplesToFill, total) =>
      let average := (F64.fin total).div
        (F64.ofInt ((fileRows.length : Int) - 1 - (samplesToFill.length : Int)))
      .ok (samplesToFill.foldl
        (fun (processedFileRows : Rows) (sample : Nat) =>
          setCell processedFileRows sample featureIdx (formatFloat average))
        processedFileRows)

/-- The first loop of `FillByMedian` from row `i` on: the rows with a missing value
and the other values. -/
def scanForMedian (parseFloat : String → Option ℚ) (featureIdx : Nat) (feature : String) :
    Nat → Rows → List Nat → List ℚ → Except Failure (List Nat × List ℚ)
  | _, [], samplesToFill, existValues => .ok (samplesToFill, existValues)
  | i, row :: rest, samplesToFill, existValues =>
    match row.get? featureIdx with
    | none => .error .panic
    | some cell =>
      if cell = "" then
        scanForMedian parseFloat featureIdx feature (i + 1) rest (samplesToFill ++ [i])
          existValues
      else
        match parseFloat cell with
        | none =>
          .error (.err ("parse value failed for sample[" ++ toString i ++ "] feature["
            ++ feature ++ "]"))
        | some value =>
          scanForMedian parseFloat featureIdx feature (i + 1) rest samplesToFill
            (existValues ++ [value])

/-- The function `FillByMedian`. -/
def FillByMedian (parseFloat : String → Option ℚ) (formatFloat : F64 → String)
    (fileRows : Rows) (feature : String) : Except Failure Rows :=
  let processedFileRows := copySamples fileRows
  match findFeatureIdx fileRows feature with
  | .error e => .error e
  | .ok none =>
    .error (.err ("failed to findFeatureIdx for feature[" ++ feature
      ++ "]: invalid feature, not exist"))
  | .ok (some featureIdx) =>
    match scanForMedian parseFloat featureIdx feature 1 fileRows.tail [] [] with
    | .error e => .error e
    | .ok (samplesToFill, existValues) =>
      match getMedian existValues with
      | .error e => .error e
      | .ok median =>
        .ok (samplesToFill.foldl
          (fun (processedFileRows : Rows) (sample : Nat) =>
            setCell processedFileRows sample featureIdx (formatFloat (.fin median)))
          processedFileRows)

/-- The loop of `FillBySpecified` from row `i` on. -/
def fillSpecifiedRows (featureIdx : Nat) (value : String) :
    Nat → Rows → Rows → Except Failure Rows
  | _, [], processedFileRows => .ok processedFileRows
  | i, row :: rest, processedFileRows =>
    match row.get? featureIdx with
    | none => .error .panic
    | some cell =>
      fillSpecifiedRows featureIdx value (i + 1) rest
        (if cell = "" then setCell processedFileRows i featureIdx value else processedFileRows)

/-- The function `FillBySpecified`. -/
def FillBySpecified (fileRows : Rows) (feature value : String) : Except Failure Rows :=
  let processedFileRows := copySamples fileRows
  match findFeatureIdx fileRows feature with
  | .error e => .error e
  | .ok none =>
    .error (.err ("failed to findFeatureIdx for feature[" ++ feature
      ++ "]: invalid feature, not exist"))
  | .ok (some featureIdx) =>
    fillSpecifiedRows featureIdx value 1 fileRows.tail processedFileRows

/-- Body of the loop of `FillMissingValues` for the option `opt` of feature `f`. -/
def fillOne (parseFloat : String → Option ℚ) (formatFloat : F64 → String)
    (processedFileRows : Rows) (e : String × FillOpt) : Except Failure Rows :=
  if e.2.Method = "average" then FillByAverage parseFloat formatFloat processedFileRows e.1
  else if e.2.Method = "median" then FillByMedian parseFloat formatFloat processedFileRows e.1
  else if e.2.Value.length = 0 then
    .error (.err ("feature[" ++ e.1 ++ "] value cannot be empty when filling by specified value"))
  else FillBySpecified processedFileRows e.1 e.2.Value

/-- The function `FillMissingValues`. -/
def FillMissingValues (ρ : RangeOrder) (parseFloat : String → Option ℚ)
    (formatFloat : F64 → String) (fileRows : Rows) (fillOpts : GoMap String FillOpt) :
    Except Failure Rows :=
  (fillOpts.range ρ).foldlM (fillOne parseFloat formatFloat) (copySamples fileRows)

/-! ## Secure aggregation of gradients -/

/-- Modelled from the spec: the additive homomorphic cryptosystem (package
`paillier`) is supplied from outside the given sources; for one key pair, encryption
under the public key, decryption with the private key and the homomorphic addition
of two ciphertexts, with plaintexts and ciphertexts as `big.Int` values. -/
structure Homomorphic where
  Encrypt : Int → Int
  Decrypt : Int → Int
  Add : Int → Int → Int

/-- Go `out := make(map[int]T); for k, v := range m { out[k] = f(v) }`. -/
def mapValues {α β : Type} (ρ : RangeOrder) (m : GoMap Int α) (f : α → β) : GoMap Int β :=
  (m.range ρ).foldl (fun (out : GoMap Int β) (e : Int × α) => out.set e.1 (f e.2))
    (∅ : GoMap Int β)

/-- Modelled from the spec: the encryption step is outside the given sources; a
party encrypts each entry of its integer vector under the public key. -/
def encryptVector (ρ : RangeOrder) (h : Homomorphic) (vector : GoMap Int Int) : GoMap Int Int :=
  mapValues ρ vector h.Encrypt

/-- Modelled from the spec: the masking step is outside the given sources; before
asking the key owner to decrypt, the holder of the ciphertexts adds a random integer
mask to each value, by the homomorphic addition. -/
def addMask (ρ : RangeOrder) (h : Homomorphic) (encGradMap : GoMap Int Int) (randomInt : Int) :
    GoMap Int Int :=
  mapValues ρ encGradMap fun c => h.Add c (h.Encrypt randomInt)

/-- Modelled from the spec: the function `DecryptGradient` is outside the given
sources; the key owner decrypts the masked ciphertexts and returns plaintext masked
integers. -/
def DecryptGradient (ρ : RangeOrder) (h : Homomorphic) (encGradMap : GoMap Int Int) :
    GoMap Int Int :=
  mapValues ρ encGradMap h.Decrypt

/-- Modelled from the spec: the function `RetrieveRealGradient` is outside the given
sources; the requester subtracts out its own mask and rescales by the accuracy
factor (`accuracy` decimal digits) to recover the real-valued gradient. -/
def RetrieveRealGradient (ρ : RangeOrder) (decGradMap : GoMap Int Int) (accuracy : Int)
    (randomInt : Int) : GoMap Int ℚ :=
  mapValues ρ decGradMap fun d => ((d - randomInt : Int) : ℚ) / (10 : ℚ) ^ accuracy.toNat

/-! ## Node addresses -/

/-- A value of Go's type `int` on a 64-bit platform. -/
def IsGoInt (x : Int) : Prop :=
  -9223372036854775808 ≤ x ∧ x < 9223372036854775808

/-- Distinct `(depth, index)` pairs of Go `int` values have distinct keys. -/
def KeysInjective (lib : Stdlib) : Prop :=
  ∀ d1 i1 d2 i2 : Int, IsGoInt d1 → IsGoInt i1 → IsGoInt d2 → IsGoInt i2 →
    NodeKeyByDepthIndex lib d1 i1 = NodeKeyByDepthIndex lib d2 i2 → d1 = d2 ∧ i1 = i2

/-- The keys of the nodes at the indices `is`, taken at the consecutive depths `d`,
`d + 1`, ... of Go `int` arithmetic. -/
def keysFrom (lib : Stdlib) : Int → List Int → List String
  | _, [] => []
  | d, i :: rest => NodeKeyByDepthIndex lib d i :: keysFrom lib (wrapInt (d + 1)) rest

instance (x : Int) : Decidable (IsGoInt x) :=
  inferInstanceAs (Decidable (_ ∧ _))

/-! ## `feature_engineering`: binning -/

/-- The constant `math.MaxFloat64`. -/
def maxFloat64 : ℚ := (2 ^ 53 - 1) * 2 ^ 971

/-- Go `int(x)` on a `float64`: the fraction is discarded; for a value that `int`
cannot represent the result depends on the implementation (`other`). -/
def F64.toInt (other : Int) : F64 → Int
  | .fin q =>
    if -9223372036854775808 ≤ q.num.tdiv q.den ∧ q.num.tdiv q.den < 9223372036854775808 then
      q.num.tdiv q.den
    else other
  | _ => other

/-- The first loop of `EqualWidthBinningForOne` from row `i` on: the largest and the
smallest value of the column.  `strconv.ParseFloat` is the parameter `parseFloat`
(`none` is its error); it accepts the texts of the infinities and of NaN, and the
comparisons `value > max` and `value < min` are false for NaN. -/
def scanMaxMin (parseFloat : String → Option F64) (featureIdx : Nat) (feature : String) :
    Nat → Rows → F64 → F64 → Except Failure (F64 × F64)
  | _, [], max, min => .ok (max, min)
  | i, row :: rest, max, min =>
    match row.get? featureIdx with
    | none => .error .panic
    | some cell =>
      match parseFloat cell with
      | none =>
        .error (.err ("parse value failed for sample[" ++ toString i ++ "] feature["
          ++ feature ++ "]"))
      | some value =>
        scanMaxMin parseFloat featureIdx feature (i + 1) rest
          (if max.lt value then value else max) (if value.lt min then value else min)

/-- The bin index that the second loop of `EqualWidthBinningForOne` stores for a
value of the column: `binNum - 1` for `value == max`, `int((value - min) / width)`
otherwise. -/
def widthIndex (other : Int) (binNum : Int) (max min width value : F64) : Int :=
  if value.eq max then wrapInt (binNum - 1)
  else F64.toInt other ((value.sub min).div width)

/-- The second loop of `EqualWidthBinningForOne` from row `i` on: the map `idxMap`
from row number to bin index. -/
def binIndices (parseFloat : String → Option F64) (other : Int) (featureIdx : Nat)
    (feature : String) (binNum : Int) (max min width : F64) :
    Nat → Rows → GoMap Int Int → Except Failure (GoMap Int Int)
  | _, [], idxMap => .ok idxMap
  | i, row :: rest, idxMap =>
    match row.get? featureIdx with
    | none => .error .panic
    | some cell =>
      match parseFloat cell with
      | none =>
        .error (.err ("parse value failed for sample[" ++ toString i ++ "] feature["
          ++ feature ++ "]"))
      | some value =>
        binIndices parseFloat other featureIdx feature binNum max min width (i + 1) rest
          (idxMap.set (i : Int) (widthIndex other binNum max min width value))

/-- The third loop of `EqualWidthBinningForOne` from row `i` on; `n` is
`len(fileRows[0])` and `sprintInt` is `fmt.Sprintf("%d", x)`. -/
def binRows (sprintInt : Int → String) (n featureIdx : Nat) (idxMap : GoMap Int Int) :
    Nat → Rows → Rows → Rows
  | _, [], newRows => newRows
  | i, row :: rest, newRows =>
    binRows sprintInt n featureIdx idxMap (i + 1) rest
      (newRows ++ [(copyRow n row).set featureIdx
        (sprintInt ((idxMap.lookup (i : Int)).getD 0))])

/-- The function `EqualWidthBinningForOne`. -/
def EqualWidthBinningForOne (parseFloat : String → Option F64) (sprintInt : Int → String)
    (other : Int) (fileRows : Rows) (feature : String) (binNum : Int) : Except Failure Rows :=
  match findFeatureIdx fileRows feature with
  | .error e => .error e
  | .ok none =>
    .error (.err ("failed to findFeatureIdx for feature[" ++ feature
      ++ "]: invalid feature, not exist"))
  | .ok (some featureIdx) =>
    match scanMaxMin parseFloat featureIdx feature 1 fileRows.tail
        (.fin (-maxFloat64)) (.fin maxFloat64) with
    | .error e => .error e
    | .ok (max, min) =>
      let width := (max.sub min).div (F64.ofInt binNum)
      match binIndices parseFloat other featureIdx feature binNum max min width 1 fileRows.tail
          (∅ : GoMap Int Int) with
      | .error e => .error e
      | .ok idxMap =>
        match fileRows with
        | [] => .error .panic
        | first :: rest => .ok (binRows sprintInt first.length featureIdx idxMap 1 rest [first])

/-- A Go map with `float64` keys: the entries in the order of their insertion.  A key
is found by `==`, so an entry whose key is NaN is never found again. -/
abbrev FloatMap (ν : Type) := List (F64 × ν)

/-- Go `m[k]` as a value (`none` where Go gives the zero value of an absent key). -/
def FloatMap.get {ν : Type} (m : FloatMap ν) (k : F64) : Option ν :=
  (m.find? fun e => e.1.eq k).map fun e => e.2

/-- Go `m[k] = v`: the entry of a key equal to `k` is replaced, otherwise a new entry
is added. -/
def FloatMap.set {ν : Type} (m : FloatMap ν) (k : F64) (v : ν) : FloatMap ν :=
  if m.any fun e => e.1.eq k then m.map fun e => if e.1.eq k then (e.1, v) else e
  else m ++ [(k, v)]

/-- Go `delete(m, k)`. -/
def FloatMap.delete {ν : Type} (m : FloatMap ν) (k : F64) : FloatMap ν :=
  m.filter fun e => !(e.1.eq k)

/-- The order of `sort.Float64s`: `a` is not after `b` (NaN values come first). -/
def F64.sortLe (a b : F64) : Bool :=
  !(b.lt a || (b = .nan && a ≠ .nan))

/-- The variables that the last loop of `EqualFrequencyBinningForOne` updates for
each row: the table, the current bin and the number of rows in it. -/
structure FreqState where
  newRows : Rows
  binIdx : Int
  sampleNumThisBin : Int

/-- The first loop of `EqualFrequencyBinningForOne` from row `i` on: the values of
the column and the map from a value to the numbers of the rows that hold it.
`strconv.ParseFloat` is the parameter `parseFloat`, as in `scanMaxMin`. -/
def scanFreq (parseFloat : String → Option F64) (featureIdx : Nat) (feature : String) :
    Nat → Rows → List F64 → FloatMap (List Nat) →
      Except Failure (List F64 × FloatMap (List Nat))
  | _, [], list, m => .ok (list, m)
  | i, row :: rest, list, m =>
    match row.get? featureIdx with
    | none => .error .panic
    | some cell =>
      match parseFloat cell with
      | none =>
        .error (.err ("parse value failed for sample[" ++ toString i ++ "] feature["
          ++ feature ++ "]"))
      | some value =>
        scanFreq parseFloat featureIdx feature (i + 1) rest (list ++ [value])
          (m.set value ((m.get value).getD [] ++ [i]))

/-- Body of the inner loop of `EqualFrequencyBinningForOne` for the row `v`: the row
gets the current bin, and the bin is closed when it is full.  The counters stay
below the number of rows. -/
def assignBin (sprintInt : Int → String) (featureIdx : Nat) (sampleNumPerBin remainder : Int)
    (st : FreqState) (v : Nat) : FreqState :=
  let newRows := setCell st.newRows v featureIdx (sprintInt st.binIdx)
  let sampleNumThisBin := st.sampleNumThisBin + 1
  if (st.binIdx < remainder ∧ sampleNumThisBin ≥ sampleNumPerBin + 1) ∨
      (st.binIdx ≥ remainder ∧ sampleNumThisBin ≥ sampleNumPerBin) then
    { newRows := newRows, binIdx := st.binIdx + 1, sampleNumThisBin := 0 }
  else { newRows := newRows, binIdx := st.binIdx, sampleNumThisBin := sampleNumThisBin }

/-- Body of the outer loop of `EqualFrequencyBinningForOne` for one element of the
sorted list, on the map `m` and the other variables: the rows of `m[value]` are
assigned, then the key is deleted. -/
def visitValue (sprintInt : Int → String) (featureIdx : Nat) (sampleNumPerBin remainder : Int)
    (st : FloatMap (List Nat) × FreqState) (value : F64) : FloatMap (List Nat) × FreqState :=
  (st.1.delete value,
    ((st.1.get value).getD []).foldl
      (assignBin sprintInt featureIdx sampleNumPerBin remainder) st.2)

/-- The function `EqualFrequencyBinningForOne`; a zero `binNum` makes the integer
division panic. -/
def EqualFrequencyBinningForOne (parseFloat : String → Option F64) (sprintInt : Int → String)
    (fileRows : Rows) (feature : String) (binNum : Int) : Except Failure Rows :=
  match findFeatureIdx fileRows feature with
  | .error e => .error e
  | .ok none =>
    .error (.err ("failed to findFeatureIdx for feature[" ++ feature
      ++ "]: invalid feature, not exist"))
  | .ok (some featureIdx) =>
    if binNum = 0 then .error .panic
    else
      let sampleNumPerBin := ((fileRows.length : Int) - 1).tdiv binNum
      let remainder := ((fileRows.length : Int) - 1).tmod binNum
      match scanFreq parseFloat featureIdx feature 1 fileRows.tail [] [] with
      | .error e => .error e
      | .ok (list, m) =>
        .ok ((list.insertionSort fun a b => F64.sortLe a b = true).foldl
          (visitValue sprintInt featureIdx sampleNumPerBin remainder)
          (m, ⟨fileRows, 0, 0⟩)).2.newRows

/-! ## Test doubles -/

/-- The curve P-256 of `crypto/elliptic`. -/
def p256 : CurveParams where
  P := 0xffffffff00000001000000000000000000000000ffffffffffffffffffffffff
  B := 0x5ac635d8aa3a93e7b3ebbd55769886bc651d06b0cc53b0f63bce3c3e27d2604b
  Name := "P-256"

/-- The curve P-384 of `crypto/elliptic`, which `HashToCurve` does not support. -/
def p384 : CurveParams where
  P := 0xfffffffffffffffffffffffffffffffffffffffffffffffffffffffffffffffeffffffff0000000000000000ffffffff
  B := 0xb3312fa7e23ee7e4988e056be3f82d19181d9c6efe8141120314088f5013875ac656398d8a2ed19d2a85c8edd3ec2aef
  Name := "P-384"

/-- The x-coordinate of the base point of P-256, in 32 bytes. -/
def p256GxBytes : Bytes :=
  [0x6b, 0x17, 0xd1, 0xf2, 0xe1, 0x2c, 0x42, 0x47, 0xf8, 0xbc, 0xe6, 0xe5, 0x63, 0xa4, 0x40, 0xf2,
   0x77, 0x03, 0x7d, 0x81, 0x2d, 0xeb, 0x33, 0xa0, 0xf4, 0xa1, 0x39, 0x45, 0xd8, 0x98, 0xc2, 0x96]

/-- The x-coordinate of the base point of P-256. -/
def p256Gx : Int := 0x6b17d1f2e12c4247f8bce6e563a440f277037d812deb33a0f4a13945d898c296

/-- The y-coordinate of the base point of P-256. -/
def p256Gy : Int := 0x4fe342e2fe1a7f9b8ee7eb4a7c0f9e162bce33576b315ececbb6406837bf51f5

/-- One-byte encodings of small coordinates, used by the test doubles. -/
def toyMarshal (x y : Int) : Bytes := [UInt8.ofNat x.toNat, UInt8.ofNat y.toNat]

/-- Inverse of `toyMarshal`. -/
def toyUnmarshal : Bytes → Option (Int × Int)
  | [x, y] => some ((x.toNat : Int), (y.toNat : Int))
  | _ => none

/-- A test double of the standard library: the digest of every message is the
x-coordinate of the base point of P-256, and `ModSqrt` offers its y-coordinate
when that is a root. -/
def libBasePoint : Stdlib where
  sha256 := fun _ => p256GxBytes
  modSqrt := fun a p => if (p256Gy * p256Gy - a) % p = 0 then some p256Gy else none
  marshal := fun _ x y => toyMarshal x y
  unmarshal := fun _ b => toyUnmarshal b

/-- A test double of the standard library for the set intersection: the digest of
a message is the message, every candidate is given the root 0, and points are
encoded in two bytes. -/
def libToy : Stdlib where
  sha256 := fun m => m
  modSqrt := fun _ _ => some 0
  marshal := fun _ x y => toyMarshal x y
  unmarshal := fun _ b => toyUnmarshal b

/-- A test double of a curve: P-256 parameters, and a commuting scalar action on
small coordinates. -/
def toyCurve : Curve where
  Params := p256
  ScalarMult := fun x y k => (x * k, y * k)

/-- A local masked mapping used as a test input. -/
def toyLocal : EncSet := ⟨((∅ : GoMap Bytes Int).set [10] 0).set [20] 2⟩

/-- Another party's masked mapping used as a test input. -/
def toyOther : EncSet := ⟨((∅ : GoMap Bytes Int).set [20] 5).set [30] 1⟩

/-- A label column with six samples, three of each label. -/
def targetColumn : DTDataFeature where
  FeatureName := "Target"
  Sets := ((((((∅ : GoMap Int String).set 0 "yes").set 1 "no").set 2 "yes").set 3 "no").set 4
    "yes").set 5 "no"

/-- A feature column of the same six samples. -/
def ageColumn : DTDataFeature where
  FeatureName := "Age"
  Sets := ((((((∅ : GoMap Int String).set 0 "30").set 1 "41").set 2 "35").set 3 "52").set 4
    "28").set 5 "60"

/-- A tag-party table used as a test input. -/
def toyData : DTDataSet := ⟨[ageColumn, targetColumn]⟩

/-- A stop condition used as a test input. -/
def toyCond : StopCondition := ⟨1, 3, 0⟩

/-- A test double of the standard library whose digest pads or cuts the message to
32 bytes. -/
def libPad : Stdlib where
  sha256 := fun m => (m ++ List.replicate 32 0).take 32
  modSqrt := fun _ _ => none
  marshal := fun _ x y => toyMarshal x y
  unmarshal := fun _ b => toyUnmarshal b

/-- A test double of the standard library whose digest drops the zero bytes of the
message and pads or cuts the rest to 32 bytes, so that the keys of small
`(depth, index)` pairs differ. -/
def libSqueeze : Stdlib where
  sha256 := fun m => (m.filter (fun b => b != 0) ++ List.replicate 32 0).take 32
  modSqrt := fun _ _ => none
  marshal := fun _ x y => toyMarshal x y
  unmarshal := fun _ b => toyUnmarshal b

/-- A parser for the numerals that occur in the test data. -/
def toyParse (s : String) : Option ℚ :=
  if s = "28" then some 28 else if s = "30" then some 30 else if s = "35" then some 35
  else if s = "41" then some 41 else if s = "52" then some 52 else if s = "60" then some 60
  else none

/-- A root that splits on `Age ≤ 40`, as a test input. -/
def toyRoot : CTreeNode where
  SampleIDList := [0, 1, 2, 3]
  FeatureName := "Age"
  Continuous := true
  SplitValue := some (.float 40)
  Result := ""
  Depth := 0
  Index := 0
  Gini := some (1 / 2)

/-- A leaf, as a test input. -/
def toyLeaf (depth index : Int) (result : String) : CTreeNode where
  SampleIDList := [0, 2]
  FeatureName := ""
  Continuous := false
  SplitValue := none
  Result := result
  Depth := depth
  Index := index
  Gini := some 0

/-- A partial model holding the root and its left child, as a test input. -/
def toyModel : GoMap String CTreeNode :=
  ((∅ : GoMap String CTreeNode).set (NodeKeyByDepthIndex libSqueeze 0 0) toyRoot).set
    (NodeKeyByDepthIndex libSqueeze 1 0) (toyLeaf 1 0 "yes")

/-- A sample, as a test input. -/
def toySample : GoMap String String :=
  (∅ : GoMap String String).set "Age" "30"

/-- A sample that the root sends to the right, as a test input. -/
def toySampleOld : GoMap String String :=
  (∅ : GoMap String String).set "Age" "52"

/-- A partial model without root entry, as a test input. -/
def toyModelNoRoot : GoMap String CTreeNode :=
  (∅ : GoMap String CTreeNode).set (NodeKeyByDepthIndex libSqueeze 1 0) (toyLeaf 1 0 "yes")

/-- The right child of the test root, a leaf, as a test input. -/
def toyRightLeaf : CTreeNode where
  SampleIDList := [1, 3]
  FeatureName := ""
  Continuous := false
  SplitValue := none
  Result := "no"
  Depth := 1
  Index := 1
  Gini := some 0

/-- The test model with both children of the root, as a test input. -/
def toyTree : GoMap String CTreeNode :=
  toyModel.set (NodeKeyByDepthIndex libSqueeze 1 1) toyRightLeaf

/-- The root while its split is being selected, as a test input. -/
def toyPending : CTreeNode where
  SampleIDList := [0, 1, 2, 3]
  FeatureName := ""
  Continuous := false
  SplitValue := none
  Result := ""
  Depth := 0
  Index := 0
  Gini := some (1 / 2)

/-- The tag party's model before the split of the root is selected, as a test
input. -/
def toyModelB : GoMap String CTreeNode :=
  (∅ : GoMap String CTreeNode).set (NodeKeyByDepthIndex libSqueeze 0 0) toyPending

/-- A stop condition with the Gini threshold `1/10`, as a test input. -/
def toyOscillation : StopCondition := ⟨1, 3, 1 / 10⟩

/-- A model that holds the two children of the root but not the root, as a test
input. -/
def toyLeavesOnly : GoMap String CTreeNode :=
  toyModelNoRoot.set (NodeKeyByDepthIndex libSqueeze 1 1) toyRightLeaf

/-- A test double of the standard library whose digest is the message itself, so
that distinct `(depth, index)` pairs have distinct keys. -/
def libPlain : Stdlib where
  sha256 := fun m => m
  modSqrt := fun _ _ => none
  marshal := fun _ x y => toyMarshal x y
  unmarshal := fun _ b => toyUnmarshal b

/-- The non-tag party's record of a root whose split it holds, as a test input. -/
def toySplitA : CTreeNode where
  SampleIDList := [0, 1, 2, 3]
  FeatureName := "Income"
  Continuous := false
  SplitValue := some (.str "high")
  Result := ""
  Depth := 0
  Index := 0
  Gini := some 0

/-- A non-tag party's model that holds the split of the root, as a test input. -/
def toyPruneA : GoMap String CTreeNode :=
  (∅ : GoMap String CTreeNode).set (NodeKeyByDepthIndex libPlain 0 0) toySplitA

/-- A tag party's model with a root without split value and its two leaf children,
as a test input. -/
def toyPruneB : GoMap String CTreeNode :=
  (((∅ : GoMap String CTreeNode).set (NodeKeyByDepthIndex libPlain 0 0) toyPending).set
    (NodeKeyByDepthIndex libPlain 1 0) (toyLeaf 1 0 "yes")).set
    (NodeKeyByDepthIndex libPlain 1 1) toyRightLeaf

/-- The state of the test models at the start of a pass. -/
def toyPruneStart : PruneState := ⟨toyPruneA, toyPruneB, false⟩

/-- The state of the test models after the merge of the root. -/
def toyPruned : PruneState :=
  mergeNode libPlain toyPruneStart (NodeKeyByDepthIndex libPlain 0 0) toyPending "yes"

/-- A parser for the numerals of the test tables. -/
def tableParse (s : String) : Option ℚ :=
  if s = "5" then some 5 else if s = "10" then some 10 else if s = "11" then some 11
  else if s = "12" then some 12 else if s = "20" then some 20 else if s = "21" then some 21
  else if s = "22" then some 22 else none

/-- A sample table with two features and three samples, as a test input. -/
def toyRows : Rows := [["f1", "f2"], ["10", "20"], ["11", "21"], ["12", "22"]]

/-- Filter options `f1 > 10` and `f2 ≤ 21`, as a test input. -/
def toyFilters : GoMap String FilterOpt :=
  ((∅ : GoMap String FilterOpt).set "f1" ⟨10, "g"⟩).set "f2" ⟨21, "le"⟩

/-- A formatter for the numbers of the test tables. -/
def tableFormat : F64 → String
  | .fin q => if q = 5 then "5" else if q = 10 then "10" else "?"
  | .posInf => "+Inf"
  | .negInf => "-Inf"
  | .nan => "NaN"

/-- A table whose column `f1` has no value, as a test input. -/
def toyGaps : Rows := [["f1", "f2"], ["", "5"]]

/-- Fill options that the stored order visits as `f1`, then `f2`, as a test input. -/
def toyFillMedianFirst : GoMap String FillOpt :=
  ((∅ : GoMap String FillOpt).set "f2" ⟨"specified", ""⟩).set "f1" ⟨"median", ""⟩

/-- The same fill options, which the stored order visits as `f2`, then `f1`. -/
def toyFillSpecifiedFirst : GoMap String FillOpt :=
  ((∅ : GoMap String FillOpt).set "f1" ⟨"median", ""⟩).set "f2" ⟨"specified", ""⟩

/-- A test double of the cryptosystem: a ciphertext is three times the plaintext. -/
def toyCipher : Homomorphic where
  Encrypt := fun m => 3 * m
  Decrypt := fun c => c / 3
  Add := fun c d => c + d

/-- An integer vector, as a test input. -/
def toyVector : GoMap Int Int :=
  ((∅ : GoMap Int Int).set 0 4).set 1 (-2)

/-- A leaf that holds all the samples of the root, as a test input. -/
def toyAllLeft : CTreeNode where
  SampleIDList := [0, 1, 2, 3]
  FeatureName := ""
  Continuous := false
  SplitValue := none
  Result := "yes"
  Depth := 1
  Index := 0
  Gini := some (1 / 2)

/-- A leaf without samples, as a test input. -/
def toyEmptyLeaf : CTreeNode where
  SampleIDList := []
  FeatureName := ""
  Continuous := false
  SplitValue := none
  Result := "yes"
  Depth := 1
  Index := 1
  Gini := some 0

/-- A tag party's model whose root sends all its samples to the left leaf and none
to the right leaf, as a test input. -/
def toyLopsided : GoMap String CTreeNode :=
  (((∅ : GoMap String CTreeNode).set (NodeKeyByDepthIndex libPlain 0 0) toyPending).set
    (NodeKeyByDepthIndex libPlain 1 0) toyAllLeft).set
    (NodeKeyByDepthIndex libPlain 1 1) toyEmptyLeaf

/-- A fill option with a method that is none of the three named ones, as a test
input. -/
def toyFillOther : FillOpt := ⟨"constant", "7"⟩

/-- A test double of the standard library whose digest appends the byte `/` to the
message, so that distinct `(depth, index)` pairs have distinct keys. -/
def libSep : Stdlib where
  sha256 := fun m => m ++ [47]
  modSqrt := fun _ _ => none
  marshal := fun _ x y => toyMarshal x y
  unmarshal := fun _ b => toyUnmarshal b

/-- The test model with the root and its left child under the keys of `libSep`. -/
def toyModelSep : GoMap String CTreeNode :=
  ((∅ : GoMap String CTreeNode).set (NodeKeyByDepthIndex libSep 0 0) toyRoot).set
    (NodeKeyByDepthIndex libSep 1 0) (toyLeaf 1 0 "yes")

/-- A node at depth 63 with a discrete split, as a test input. -/
def toyDeepSplit : CTreeNode where
  SampleIDList := [0, 1]
  FeatureName := "Age"
  Continuous := false
  SplitValue := some (.str "28")
  Result := ""
  Depth := 63
  Index := 4611686018427387904
  Gini := some (1 / 2)

/-- A model that holds one node, at depth 63 and index `2^62`, as a test input. -/
def toyDeepModel : GoMap String CTreeNode :=
  (∅ : GoMap String CTreeNode).set (NodeKeyByDepthIndex libPlain 63 4611686018427387904)
    toyDeepSplit

/-- A test double of `fmt.Sprintf("%d", x)` for the bins of the test tables. -/
def tableSprint (x : Int) : String :=
  if x = 0 then "0" else if x = 1 then "1" else if x = 2 then "2"
  else if x = 3 then "3" else "?"

/-- A test double of `strconv.ParseFloat` for the texts of the binning test tables;
`0.9999999999999999` is the `float64` next below `1`, which is `1 - 2 ^ (-53)`. -/
def binParse (s : String) : Option F64 :=
  if s = "0" then some (.fin 0) else if s = "1" then some (.fin 1)
  else if s = "2" then some (.fin 2)
  else if s = "0.9999999999999999" then some (.fin (9007199254740991 / 9007199254740992))
  else if s = "NaN" then some .nan else none

/-- A label column `Target` of the samples `0, …, n - 1`, labelled `yes` and `no` in
turn, as a test input. -/
def stripedColumn (n : Nat) : DTDataFeature where
  FeatureName := "Target"
  Sets := (List.range n).foldl
    (fun (m : GoMap Int String) (i : Nat) => m.set (i : Int) (if i % 2 = 0 then "yes" else "no"))
    (∅ : GoMap Int String)

/-- A tag-party table of `n` samples that holds the column `stripedColumn n` only. -/
def stripedData (n : Nat) : DTDataSet := ⟨[stripedColumn n]⟩

/-- A record of a tree node for the tests of the pruning test. -/
def stripedNode (ids : List Int) (result : String) (depth index : Int) : CTreeNode where
  SampleIDList := ids
  FeatureName := ""
  Continuous := false
  SplitValue := none
  Result := result
  Depth := depth
  Index := index
  Gini := some (1 / 2)

/-- A tag party's model with a root on the samples `0, …, 9` and its two leaf
children on the samples `0, 1` and `2, …, 9`, as a test input. -/
def toyTenModel : GoMap String CTreeNode :=
  (((∅ : GoMap String CTreeNode).set (NodeKeyByDepthIndex libPlain 0 0)
      (stripedNode [0, 1, 2, 3, 4, 5, 6, 7, 8, 9] "" 0 0)).set
    (NodeKeyByDepthIndex libPlain 1 0) (stripedNode [0, 1] "yes" 1 0)).set
    (NodeKeyByDepthIndex libPlain 1 1) (stripedNode [2, 3, 4, 5, 6, 7, 8, 9] "yes" 1 1)

/-! # Theorems -/

/-! ## `HashToCurve` -/

theorem HashToCurve_point_of_ok (lib : Stdlib) (hs : ModSqrtSound lib) :
    ∀ (fuel : Nat) (msg : Bytes) (curve : CurveParams) (pt : Point) (e : Option String),
      0 < curve.P →
      HashToCurve lib fuel msg curve = .ok (some pt, e) →
      pt.Curve = curve ∧
      (pt.Y * pt.Y - (pt.X ^ 3 + curveA curve.Name * pt.X + curve.B)) % curve.P = 0 ∧
      0 ≤ pt.X ∧ pt.X < curve.P := by
  intro fuel
  induction fuel with
  | zero => intro msg curve pt e _ h; simp [HashToCurve] at h
  | succ n ih =>
    intro msg curve pt e hP h
    have hP0 : curve.P ≠ 0 := ne_of_gt hP
    unfold HashToCurve at h
    simp only [hP0, if_false] at h
    split at h
    · simp at h
    · split at h
      · rename_i y hy
        simp only [Except.ok.injEq, Prod.mk.injEq, Option.some.injEq] at h
        obtain ⟨rfl, -⟩ := h
        refine ⟨rfl, ?_, Int.emod_nonneg _ hP0, Int.emod_lt_of_pos _ hP⟩
        have h1 := hs _ _ _ hy
        simp only at h1 ⊢
        have key : (y * y - ((setBytes (lib.sha256 msg) % curve.P) ^ 3
              + curveA curve.Name * (setBytes (lib.sha256 msg) % curve.P) + curve.B))
            ≡ (y * y - ((setBytes (lib.sha256 msg) % curve.P) ^ 3 % curve.P
              + curveA curve.Name * (setBytes (lib.sha256 msg) % curve.P) + curve.B))
              [ZMOD curve.P] := by
          apply Int.ModEq.sub (Int.ModEq.refl _)
          apply Int.ModEq.add (Int.ModEq.add _ (Int.ModEq.refl _)) (Int.ModEq.refl _)
          exact (Int.mod_modEq _ _).symm
        exact Eq.trans key h1
      · exact ih _ _ _ _ hP h

theorem HashToCurve_returns (lib : Stdlib) (curve : CurveParams) (hP : curve.P ≠ 0)
    (hname : curve.Name = "P-256" ∨ curve.Name = "SM2-P-256") :
    ∀ (n : Nat) (msg : Bytes),
      (lib.modSqrt (candidate curve (digestAt lib msg n)) curve.P).isSome →
      ∃ pt, HashToCurve lib (n + 1) msg curve = .ok (some pt, none) := by
  have hn : ¬ (curve.Name ≠ "P-256" ∧ curve.Name ≠ "SM2-P-256") := by
    rcases hname with h | h <;> simp [h]
  intro n
  induction n with
  | zero =>
    intro msg h
    obtain ⟨y, hy⟩ := Option.isSome_iff_exists.mp h
    simp only [digestAt, candidate, Function.iterate_succ, Function.iterate_zero,
      Function.comp_apply, id_eq] at hy
    exact ⟨⟨curve, setBytes (lib.sha256 msg) % curve.P, y⟩, by
      simp only [HashToCurve, hP, if_false, hn, hy]⟩
  | succ k ih =>
    intro msg h
    cases hq : lib.modSqrt (candidate curve (lib.sha256 msg)) curve.P with
    | some y =>
      simp only [candidate] at hq
      exact ⟨⟨curve, setBytes (lib.sha256 msg) % curve.P, y⟩, by
        rw [HashToCurve]
        simp only [hP, if_false, hn, hq]⟩
    | none =>
      simp only [candidate] at hq
      have h2 : (lib.modSqrt (candidate curve (digestAt lib (lib.sha256 msg) k))
          curve.P).isSome := by
        simpa only [digestAt, Function.iterate_succ, Function.comp_apply] using h
      obtain ⟨pt, hpt⟩ := ih (lib.sha256 msg) h2
      refine ⟨pt, ?_⟩
      rw [HashToCurve]
      simp only [hP, if_false, hn, hq]
      exact hpt

theorem modSqrtSound_libBasePoint : ModSqrtSound libBasePoint := by
  intro a p y h
  simp only [libBasePoint] at h
  split at h
  · rename_i hz
    cases h
    exact hz
  · cases h

/-- C3. On a supported curve (name `P-256`, where `a = -3`, or `SM2-P-256`, where
`a` is the SM2 constant) with a positive modulus, every point `(x, y)` that
`HashToCurve` returns satisfies `y^2 ≡ x^3 + a·x + b (mod p)` and `0 ≤ x < p`;
and it does return a point, within `n + 1` iterations, as soon as the digest of
iteration `n` yields a candidate that has a square root. -/
theorem HashToCurve_on_curve (lib : Stdlib) (hs : ModSqrtSound lib) (curve : CurveParams)
    (msg : Bytes) (hP : 0 < curve.P)
    (hname : curve.Name = "P-256" ∨ curve.Name = "SM2-P-256") :
    (∀ (fuel : Nat) (pt : Point) (e : Option String),
      HashToCurve lib fuel msg curve = .ok (some pt, e) →
      (pt.Y ^ 2 - (pt.X ^ 3 + (if curve.Name = "P-256" then -3 else sm2A) * pt.X + curve.B))
          % curve.P = 0 ∧
      0 ≤ pt.X ∧ pt.X < curve.P) ∧
    (∀ n : Nat, (lib.modSqrt (candidate curve (digestAt lib msg n)) curve.P).isSome →
      ∃ pt, HashToCurve lib (n + 1) msg curve = .ok (some pt, none)) := by
  refine ⟨?_, fun n h => HashToCurve_returns lib curve (ne_of_gt hP) hname n msg h⟩
  intro fuel pt e h
  obtain ⟨-, h1, h2, h3⟩ := HashToCurve_point_of_ok lib hs fuel msg curve pt e hP h
  refine ⟨?_, h2, h3⟩
  have ha : curveA curve.Name = if curve.Name = "P-256" then -3 else sm2A := by
    rcases hname with h | h <;> simp [curveA, h]
  rw [← ha, pow_two]
  exact h1

/-- Witness for C3: with the base point of P-256 as the hashed candidate, the
first iteration returns the base point, which lies on P-256. -/
theorem HashToCurve_on_curve_witness :
    HashToCurve libBasePoint 1 [] p256 = .ok (some ⟨p256, p256Gx, p256Gy⟩, none) ∧
    (p256Gy ^ 2 - (p256Gx ^ 3 + (-3) * p256Gx + p256.B)) % p256.P = 0 ∧
    0 ≤ p256Gx ∧ p256Gx < p256.P :=
  ⟨rfl, (HashToCurve_on_curve libBasePoint modSqrtSound_libBasePoint p256 [] (by decide)
    (Or.inl rfl)).1 1 ⟨p256, p256Gx, p256Gy⟩ none rfl⟩

/-- C4. For a curve whose name is neither `P-256` nor `SM2-P-256`, `HashToCurve`
returns no point and an error in its first iteration: one unit of fuel is enough,
and no amount of fuel changes the result. -/
theorem HashToCurve_unsupported (lib : Stdlib) (fuel : Nat) (msg : Bytes) (curve : CurveParams)
    (hP : curve.P ≠ 0) (h1 : curve.Name ≠ "P-256") (h2 : curve.Name ≠ "SM2-P-256") :
    HashToCurve lib 1 msg curve
      = .ok (none, some ("curve [" ++ curve.Name ++ "] is not supported yet.")) ∧
    HashToCurve lib (fuel + 1) msg curve = HashToCurve lib 1 msg curve := by
  constructor <;> simp [HashToCurve, hP, h1, h2]

/-- Witness for C4: P-384 is rejected in the first iteration. -/
theorem HashToCurve_unsupported_witness :
    HashToCurve libBasePoint 1 [1, 2] p384
      = .ok (none, some "curve [P-384] is not supported yet.") ∧
    HashToCurve libBasePoint (5 + 1) [1, 2] p384 = HashToCurve libBasePoint 1 [1, 2] p384 :=
  HashToCurve_unsupported libBasePoint 5 [1, 2] p384 (by decide) (by decide) (by decide)


/-! ## Maps built in a loop -/

theorem foldlM_set_spec {ε κ ν : Type} [DecidableEq κ] (g : ε → Except Fault κ) (val : ε → ν) :
    ∀ (l : List ε) (init r : GoMap κ ν),
      l.foldlM (fun (m : GoMap κ ν) e => (g e).map fun k => m.set k (val e)) init = .ok r →
      (∀ e ∈ l, ∃ k, g e = .ok k) ∧
      (∀ k, k ∈ r ↔ k ∈ init ∨ ∃ e ∈ l, g e = .ok k) ∧
      (∀ k v, r.lookup k = some v →
        init.lookup k = some v ∨ ∃ e ∈ l, g e = .ok k ∧ val e = v) := by
  intro l
  induction l with
  | nil =>
    intro init r h
    simp only [List.foldlM_nil, pure, Except.pure, Except.ok.injEq] at h
    subst h
    simp
  | cons e l ih =>
    intro init r h
    rw [List.foldlM_cons] at h
    cases hg : g e with
    | error f => simp [hg, Except.map, bind, Except.bind] at h
    | ok k0 =>
      simp only [hg, Except.map, bind, Except.bind] at h
      obtain ⟨h1, h2, h3⟩ := ih _ _ h
      refine ⟨?_, ?_, ?_⟩
      · intro e1 he1
        rcases List.mem_cons.mp he1 with rfl | he1
        · exact ⟨k0, hg⟩
        · exact h1 e1 he1
      · intro k
        rw [h2 k, GoMap.set, AList.mem_insert]
        constructor
        · rintro ((rfl | hk) | ⟨e1, he1, hk⟩)
          · exact Or.inr ⟨e, List.mem_cons_self _ _, hg⟩
          · exact Or.inl hk
          · exact Or.inr ⟨e1, List.mem_cons_of_mem _ he1, hk⟩
        · rintro (hk | ⟨e1, he1, hk⟩)
          · exact Or.inl (Or.inr hk)
          · rcases List.mem_cons.mp he1 with rfl | he1
            · rw [hg] at hk
              cases hk
              exact Or.inl (Or.inl rfl)
            · exact Or.inr ⟨e1, he1, hk⟩
      · intro k v hk
        rcases h3 k v hk with hk | ⟨e1, he1, hk⟩
        · by_cases hkk : k = k0
          · subst hkk
            rw [GoMap.set, AList.lookup_insert] at hk
            cases hk
            exact Or.inr ⟨e, List.mem_cons_self _ _, hg, rfl⟩
          · rw [GoMap.set, AList.lookup_insert_ne hkk] at hk
            exact Or.inl hk
        · exact Or.inr ⟨e1, List.mem_cons_of_mem _ he1, hk⟩

theorem foldlM_set_ok {ε κ ν : Type} [DecidableEq κ] (g : ε → Except Fault κ) (val : ε → ν) :
    ∀ (l : List ε) (init : GoMap κ ν), (∀ e ∈ l, ∃ k, g e = .ok k) →
      ∃ r, l.foldlM (fun (m : GoMap κ ν) e => (g e).map fun k => m.set k (val e)) init
        = .ok r := by
  intro l
  induction l with
  | nil => intro init _; exact ⟨init, rfl⟩
  | cons e l ih =>
    intro init h
    obtain ⟨k, hk⟩ := h e (List.mem_cons_self _ _)
    obtain ⟨r, hr⟩ := ih (init.set k (val e)) fun e1 he1 => h e1 (List.mem_cons_of_mem _ he1)
    refine ⟨r, ?_⟩
    rw [List.foldlM_cons]
    simp only [hk, Except.map, bind, Except.bind]
    exact hr

/-! ## `Intersect` -/

theorem existsInOthers_true (id : Bytes) (others : List EncSet) :
    existsInOthers id true others = others.all fun o => o.EncIDs.has id := by
  induction others with
  | nil => rfl
  | cons o os ih =>
    by_cases h : o.EncIDs.has id = true
    · simp [existsInOthers, h, ih]
    · simp [existsInOthers, h]

theorem existsInOthers_false (id : Bytes) (others : List EncSet) (hne : others ≠ []) :
    existsInOthers id false others = others.all fun o => o.EncIDs.has id := by
  cases others with
  | nil => exact absurd rfl hne
  | cons o os =>
    by_cases h : o.EncIDs.has id = true
    · simp [existsInOthers, h, existsInOthers_true]
    · simp [existsInOthers, h]

theorem existsInOthers_nil (id : Bytes) : existsInOthers id false [] = false := rfl

theorem intersect_fold (sampleID : List Bytes) (others : List EncSet) :
    ∀ (l : List (Bytes × Int)) (init : List Bytes),
      (∀ e ∈ l, existsInOthers e.1 false others = true → 0 ≤ e.2 ∧ e.2 < sampleID.length) →
      l.foldlM
        (fun (intersection : List Bytes) (e : Bytes × Int) =>
          if existsInOthers e.1 false others then
            match indexAt sampleID e.2 with
            | some s => Except.ok (intersection ++ [s])
            | none => Except.error Fault.panic
          else Except.ok intersection)
        init
      = Except.ok (ε := Fault) (init ++ (l.filter fun e => existsInOthers e.1 false others).map
          fun e => sampleID.getD e.2.toNat []) := by
  intro l
  induction l with
  | nil => intro init _; simp [pure, Except.pure]
  | cons e l ih =>
    intro init h
    rw [List.foldlM_cons]
    by_cases hex : existsInOthers e.1 false others = true
    · obtain ⟨h0, h1⟩ := h e (List.mem_cons_self _ _) hex
      have hlt : e.2.toNat < sampleID.length := by omega
      have hidx : indexAt sampleID e.2 = some (sampleID.getD e.2.toNat []) := by
        simp [indexAt, h0, List.getD_eq_getElem?_getD, List.getElem?_eq_getElem hlt]
      simp only [hex, if_true, hidx, bind, Except.bind]
      rw [ih _ fun e1 he1 => h e1 (List.mem_cons_of_mem _ he1)]
      simp [List.filter_cons, hex]
    · simp only [hex, bind, Except.bind, Bool.false_eq_true, if_false]
      rw [ih _ fun e1 he1 => h e1 (List.mem_cons_of_mem _ he1)]
      simp [List.filter_cons, hex]


theorem mem_range_iff {κ ν : Type} [DecidableEq κ] (ρ : RangeOrder) (m : GoMap κ ν)
    (e : κ × ν) : e ∈ m.range ρ ↔ m.lookup e.1 = some e.2 := by
  rw [GoMap.range, (ρ.perm _).mem_iff, List.mem_map]
  constructor
  · rintro ⟨⟨k, v⟩, h, rfl⟩
    exact AList.mem_lookup_iff.mpr h
  · intro h
    exact ⟨⟨e.1, e.2⟩, AList.mem_lookup_iff.mp h, rfl⟩

theorem indexAt_some {α : Type} (s : List α) (i : Int) (a d : α) (h : indexAt s i = some a) :
    0 ≤ i ∧ i < s.length ∧ s.getD i.toNat d = a ∧ a ∈ s := by
  unfold indexAt at h
  split at h
  · rename_i h0
    rw [List.get?_eq_getElem?] at h
    obtain ⟨hlt, hget⟩ := List.getElem?_eq_some_iff.mp h
    refine ⟨h0, by omega, ?_, ?_⟩
    · rw [List.getD_eq_getElem?_getD, h]; rfl
    · rw [← hget]; exact List.getElem_mem _
  · cases h

theorem intersectExpected_eq (sampleID : List Bytes) (L : EncSet) (others : List EncSet) :
    intersectExpected sampleID L others
      = ((L.EncIDs.entries.map fun e => ((e.1, e.2) : Bytes × Int)).filter
          fun e => others.all fun o => o.EncIDs.has e.1).map
          fun e => sampleID.getD e.2.toNat [] := by
  unfold intersectExpected AList.keys List.keys
  rw [List.filter_map, List.filter_map, List.map_map, List.map_map]
  apply List.map_congr_left
  intro e he
  have he2 : e ∈ L.EncIDs.entries := (List.mem_filter.mp he).1
  have hl : L.EncIDs.lookup e.1 = some e.2 := AList.mem_lookup_iff.mpr he2
  simp [hl]

/-- C2. For every identifier list, every local masked mapping whose stored indices
are valid positions of the list, and every non-empty list of other mappings,
`Intersect` returns, up to order, exactly the identifiers `sampleID[L[k]]` for the
keys `k` of `L` that are keys of every other mapping; an empty local mapping gives
the empty result. -/
theorem Intersect_membership (ρ : RangeOrder) (sampleID : List Bytes) (L : EncSet)
    (others : List EncSet)
    (hidx : ∀ k v, L.EncIDs.lookup k = some v → 0 ≤ v ∧ v < sampleID.length)
    (hne : others ≠ []) :
    ∃ r, Intersect ρ sampleID L others = .ok r ∧
      r.Perm (intersectExpected sampleID L others) ∧
      (L.EncIDs.entries = [] → r = []) := by
  have hfold := intersect_fold sampleID others (L.EncIDs.range ρ) []
    (fun e he _ => hidx e.1 e.2 ((mem_range_iff ρ _ e).mp he))
  refine ⟨_, hfold, ?_, ?_⟩
  · rw [intersectExpected_eq, List.nil_append]
    have hfun : (fun e : Bytes × Int => existsInOthers e.1 false others)
        = fun e => others.all fun o => o.EncIDs.has e.1 := by
      funext e
      exact existsInOthers_false e.1 others hne
    rw [hfun]
    exact ((ρ.perm _).filter _).map _
  · intro hnil
    have h1 : L.EncIDs.range ρ = [] := by
      simp only [GoMap.range, hnil, List.map_nil]
      exact List.Perm.eq_nil (ρ.perm [])
    rw [h1]
    rfl


/-! ## `EncryptSampleIDSet` and `ReEncryptIDSet` -/

theorem encryptID_ok_iff (lib : Stdlib) (fuel : Nat) (key : PrivateKey) (s k : Bytes) :
    encryptID lib fuel key s = .ok k ↔
      ∃ pt, hashPoint lib fuel key.Curve.Params s = some pt ∧
        k = mask lib key.Curve key.D (pt.X, pt.Y) := by
  unfold encryptID hashPoint
  split <;> rename_i heq <;> simp only [heq]
  · simp
  · simp
  · simp only [Except.ok.injEq, Option.some.injEq, mask, smul]
    constructor
    · rintro rfl
      exact ⟨_, rfl, rfl⟩
    · rintro ⟨pt, rfl, rfl⟩
      rfl

theorem reEncryptID_ok_iff (lib : Stdlib) (key : PrivateKey) (idstr k : Bytes) :
    reEncryptID lib key idstr = .ok k ↔
      ∃ q, lib.unmarshal key.Curve.Params idstr = some q ∧ k = mask lib key.Curve key.D q := by
  unfold reEncryptID
  split <;> rename_i heq <;> simp only [heq]
  · simp
  · simp only [Except.ok.injEq, Option.some.injEq, mask, smul]
    constructor
    · rintro rfl
      exact ⟨_, rfl, rfl⟩
    · rintro ⟨q, rfl, rfl⟩
      rfl

theorem mem_of_mem_enum {α : Type} (S : List α) (e : Nat × α) (he : e ∈ S.enum) : e.2 ∈ S := by
  have h := List.mem_enum_iff_getElem?.mp he
  obtain ⟨hlt, hget⟩ := List.getElem?_eq_some_iff.mp h
  rw [← hget]
  exact List.getElem_mem _

theorem EncryptSampleIDSet_spec (lib : Stdlib) (fuel : Nat) (S : List Bytes) (key : PrivateKey)
    (hHash : ∀ s ∈ S, (hashPoint lib fuel key.Curve.Params s).isSome) :
    ∃ enc, EncryptSampleIDSet lib fuel S key = .ok enc ∧
      (∀ k, k ∈ enc.EncIDs ↔ ∃ s ∈ S, ∃ pt, hashPoint lib fuel key.Curve.Params s = some pt ∧
        k = mask lib key.Curve key.D (pt.X, pt.Y)) ∧
      (∀ k v, enc.EncIDs.lookup k = some v → ∃ s pt, indexAt S v = some s ∧
        hashPoint lib fuel key.Curve.Params s = some pt ∧
        k = mask lib key.Curve key.D (pt.X, pt.Y)) := by
  have hall : ∀ e ∈ S.enum, ∃ k, encryptID lib fuel key e.2 = .ok k := by
    intro e he
    have hmem : e.2 ∈ S := mem_of_mem_enum S e he
    obtain ⟨pt, hpt⟩ := Option.isSome_iff_exists.mp (hHash e.2 hmem)
    exact ⟨_, (encryptID_ok_iff lib fuel key e.2 _).mpr ⟨pt, hpt, rfl⟩⟩
  obtain ⟨m, hm⟩ := foldlM_set_ok (fun e : Nat × Bytes => encryptID lib fuel key e.2)
    (fun e => (e.1 : Int)) S.enum (∅ : GoMap Bytes Int) hall
  obtain ⟨-, h2, h3⟩ := foldlM_set_spec _ _ _ _ _ hm
  refine ⟨⟨m⟩, ?_, ?_, ?_⟩
  · unfold EncryptSampleIDSet
    rw [hm]
    rfl
  · intro k
    rw [h2 k]
    constructor
    · rintro (h | ⟨e, he, hk⟩)
      · exact absurd h (AList.not_mem_empty k)
      · obtain ⟨pt, hpt, rfl⟩ := (encryptID_ok_iff lib fuel key e.2 k).mp hk
        exact ⟨e.2, mem_of_mem_enum S e he, pt, hpt, rfl⟩
    · rintro ⟨s, hs, pt, hpt, rfl⟩
      obtain ⟨i, hi, hget⟩ := List.mem_iff_getElem.mp hs
      refine Or.inr ⟨(i, s), ?_, (encryptID_ok_iff lib fuel key s _).mpr ⟨pt, hpt, rfl⟩⟩
      rw [List.mk_mem_enum_iff_getElem?, List.getElem?_eq_getElem hi, hget]
  · intro k v hk
    rcases h3 k v hk with h | ⟨e, he, hk1, rfl⟩
    · simp [AList.lookup_empty] at h
    · obtain ⟨pt, hpt, rfl⟩ := (encryptID_ok_iff lib fuel key e.2 k).mp hk1
      refine ⟨e.2, pt, ?_, hpt, rfl⟩
      have := List.mem_enum_iff_getElem?.mp he
      simp [indexAt, this]

theorem ReEncryptIDSet_spec (lib : Stdlib) (ρ : RangeOrder) (enc : EncSet) (key : PrivateKey)
    (hum : ∀ k, k ∈ enc.EncIDs → (lib.unmarshal key.Curve.Params k).isSome) :
    ∃ re, ReEncryptIDSet lib ρ enc key = .ok re ∧
      (∀ k, k ∈ re.EncIDs ↔ ∃ k0 q, k0 ∈ enc.EncIDs ∧
        lib.unmarshal key.Curve.Params k0 = some q ∧ k = mask lib key.Curve key.D q) ∧
      (∀ k v, re.EncIDs.lookup k = some v → ∃ k0 q, enc.EncIDs.lookup k0 = some v ∧
        lib.unmarshal key.Curve.Params k0 = some q ∧ k = mask lib key.Curve key.D q) := by
  have hall : ∀ e ∈ enc.EncIDs.range ρ, ∃ k, reEncryptID lib key e.1 = .ok k := by
    intro e he
    have hl := (mem_range_iff ρ _ e).mp he
    have hmem : e.1 ∈ enc.EncIDs := AList.lookup_isSome.mp (by rw [hl]; rfl)
    obtain ⟨q, hq⟩ := Option.isSome_iff_exists.mp (hum e.1 hmem)
    exact ⟨_, (reEncryptID_ok_iff lib key e.1 _).mpr ⟨q, hq, rfl⟩⟩
  obtain ⟨m, hm⟩ := foldlM_set_ok (fun e : Bytes × Int => reEncryptID lib key e.1)
    (fun e => e.2) (enc.EncIDs.range ρ) (∅ : GoMap Bytes Int) hall
  obtain ⟨-, h2, h3⟩ := foldlM_set_spec _ _ _ _ _ hm
  refine ⟨⟨m⟩, ?_, ?_, ?_⟩
  · unfold ReEncryptIDSet
    rw [hm]
    rfl
  · intro k
    rw [h2 k]
    constructor
    · rintro (h | ⟨e, he, hk⟩)
      · exact absurd h (AList.not_mem_empty k)
      · obtain ⟨q, hq, rfl⟩ := (reEncryptID_ok_iff lib key e.1 k).mp hk
        have hl := (mem_range_iff ρ _ e).mp he
        exact ⟨e.1, q, AList.lookup_isSome.mp (by rw [hl]; rfl), hq, rfl⟩
    · rintro ⟨k0, q, hk0, hq, rfl⟩
      obtain ⟨v, hv⟩ := Option.isSome_iff_exists.mp (AList.lookup_isSome.mpr hk0)
      exact Or.inr ⟨(k0, v), (mem_range_iff ρ _ (k0, v)).mpr hv,
        (reEncryptID_ok_iff lib key k0 _).mpr ⟨q, hq, rfl⟩⟩
  · intro k v hk
    rcases h3 k v hk with h | ⟨e, he, hk1, rfl⟩
    · simp [AList.lookup_empty] at h
    · obtain ⟨q, hq, rfl⟩ := (reEncryptID_ok_iff lib key e.1 k).mp hk1
      exact ⟨e.1, q, (mem_range_iff ρ _ e).mp he, hq, rfl⟩


theorem dedup_length_add_dupOccurrences {α : Type} [DecidableEq α] (l : List α) :
    l.dedup.length + dupOccurrences l = l.length := by
  induction l with
  | nil => rfl
  | cons a l ih =>
    by_cases h : a ∈ l
    · rw [List.dedup_cons_of_mem h]
      simp only [dupOccurrences, h, if_true, List.length_cons]
      omega
    · rw [List.dedup_cons_of_not_mem h]
      simp only [dupOccurrences, h, if_false, List.length_cons]
      omega

/-- C5. On a curve where `HashToCurve` returns a point for every identifier of the
list (within the fuel), and where distinct identifiers of the list are masked to
distinct encodings, the mapping built by `EncryptSampleIDSet` has as many entries
as the list has elements minus its duplicate occurrences, it has an entry for
every identifier of the list, and the index stored with an entry is a position of
the list whose identifier is masked to the key of that entry. -/
theorem EncryptSampleIDSet_entries (lib : Stdlib) (fuel : Nat) (S : List Bytes)
    (key : PrivateKey)
    (hHash : ∀ s ∈ S, (hashPoint lib fuel key.Curve.Params s).isSome)
    (hinj : ∀ s ∈ S, ∀ t ∈ S, ∀ ps pt, hashPoint lib fuel key.Curve.Params s = some ps →
      hashPoint lib fuel key.Curve.Params t = some pt →
      mask lib key.Curve key.D (ps.X, ps.Y) = mask lib key.Curve key.D (pt.X, pt.Y) → s = t) :
    ∃ enc, EncryptSampleIDSet lib fuel S key = .ok enc ∧
      enc.EncIDs.len = S.length - dupOccurrences S ∧
      (∀ s ∈ S, ∃ pt, hashPoint lib fuel key.Curve.Params s = some pt ∧
        mask lib key.Curve key.D (pt.X, pt.Y) ∈ enc.EncIDs) ∧
      (∀ k v, enc.EncIDs.lookup k = some v → ∃ s pt, indexAt S v = some s ∧
        hashPoint lib fuel key.Curve.Params s = some pt ∧
        k = mask lib key.Curve key.D (pt.X, pt.Y)) := by
  obtain ⟨enc, henc, hkeys, hval⟩ := EncryptSampleIDSet_spec lib fuel S key hHash
  refine ⟨enc, henc, ?_, ?_, hval⟩
  · let f : Bytes → Bytes := fun s =>
      match hashPoint lib fuel key.Curve.Params s with
      | some pt => mask lib key.Curve key.D (pt.X, pt.Y)
      | none => []
    have hf : ∀ s pt, hashPoint lib fuel key.Curve.Params s = some pt →
        f s = mask lib key.Curve key.D (pt.X, pt.Y) := by
      intro s pt h
      simp only [f, h]
    have hnd : (S.dedup.map f).Nodup := by
      apply List.Nodup.map_on _ (List.nodup_dedup S)
      intro s hs t ht hst
      have hs1 := List.mem_dedup.mp hs
      have ht1 := List.mem_dedup.mp ht
      obtain ⟨ps, hps⟩ := Option.isSome_iff_exists.mp (hHash s hs1)
      obtain ⟨pt, hpt⟩ := Option.isSome_iff_exists.mp (hHash t ht1)
      rw [hf s ps hps, hf t pt hpt] at hst
      exact hinj s hs1 t ht1 ps pt hps hpt hst
    have hperm : enc.EncIDs.keys.Perm (S.dedup.map f) := by
      rw [List.perm_ext_iff_of_nodup enc.EncIDs.keys_nodup hnd]
      intro k
      rw [← AList.mem_keys, hkeys k, List.mem_map]
      constructor
      · rintro ⟨s, hs, pt, hpt, rfl⟩
        exact ⟨s, List.mem_dedup.mpr hs, hf s pt hpt⟩
      · rintro ⟨s, hs, rfl⟩
        have hs1 := List.mem_dedup.mp hs
        obtain ⟨ps, hps⟩ := Option.isSome_iff_exists.mp (hHash s hs1)
        exact ⟨s, hs1, ps, hps, hf s ps hps⟩
    have hlen : enc.EncIDs.len = S.dedup.length := by
      have := hperm.length_eq
      rw [List.length_map] at this
      rw [← this]
      simp [GoMap.len, AList.keys, List.keys]
    have := dedup_length_add_dupOccurrences S
    omega
  · intro s hs
    obtain ⟨ps, hps⟩ := Option.isSome_iff_exists.mp (hHash s hs)
    exact ⟨ps, hps, (hkeys _).mpr ⟨s, hs, ps, hps, rfl⟩⟩

/-- The set `Encrypt` then `ReEncrypt` produces from a list of identifiers. -/
theorem doubleMask_spec (lib : Stdlib) (ρ : RangeOrder) (fuel : Nat) (curve : Curve)
    (d1 d2 : Int) (S : List Bytes)
    (hHash : ∀ s ∈ S, (hashPoint lib fuel curve.Params s).isSome)
    (hround : ∀ s ∈ S, ∀ pt, hashPoint lib fuel curve.Params s = some pt →
      lib.unmarshal curve.Params (mask lib curve d1 (pt.X, pt.Y))
        = some (smul curve d1 (pt.X, pt.Y))) :
    ∃ enc re, EncryptSampleIDSet lib fuel S ⟨curve, d1⟩ = .ok enc ∧
      ReEncryptIDSet lib ρ enc ⟨curve, d2⟩ = .ok re ∧
      (∀ k, k ∈ re.EncIDs ↔ ∃ s ∈ S, ∃ pt, hashPoint lib fuel curve.Params s = some pt ∧
        k = mask2 lib curve d1 d2 (pt.X, pt.Y)) ∧
      (∀ k v, re.EncIDs.lookup k = some v → ∃ s pt, indexAt S v = some s ∧
        hashPoint lib fuel curve.Params s = some pt ∧
        k = mask2 lib curve d1 d2 (pt.X, pt.Y)) := by
  obtain ⟨enc, henc, hkeys, hval⟩ := EncryptSampleIDSet_spec lib fuel S ⟨curve, d1⟩ hHash
  have hum : ∀ k, k ∈ enc.EncIDs → (lib.unmarshal curve.Params k).isSome := by
    intro k hk
    obtain ⟨s, hs, pt, hpt, rfl⟩ := (hkeys k).mp hk
    rw [hround s hs pt hpt]
    rfl
  obtain ⟨re, hre, hrk, hrv⟩ := ReEncryptIDSet_spec lib ρ enc ⟨curve, d2⟩ hum
  refine ⟨enc, re, henc, hre, ?_, ?_⟩
  · intro k
    rw [hrk k]
    constructor
    · rintro ⟨k0, q, hk0, hq, rfl⟩
      obtain ⟨s, hs, pt, hpt, rfl⟩ := (hkeys k0).mp hk0
      rw [hround s hs pt hpt] at hq
      cases hq
      exact ⟨s, hs, pt, hpt, rfl⟩
    · rintro ⟨s, hs, pt, hpt, rfl⟩
      exact ⟨_, _, (hkeys _).mpr ⟨s, hs, pt, hpt, rfl⟩, hround s hs pt hpt, rfl⟩
  · intro k v hk
    obtain ⟨k0, q, hk0, hq, rfl⟩ := hrv k v hk
    obtain ⟨s, pt, hidx, hpt, rfl⟩ := hval k0 v hk0
    have hs : s ∈ S := (indexAt_some S v s [] hidx).2.2.2
    rw [hround s hs pt hpt] at hq
    cases hq
    exact ⟨s, pt, hidx, hpt, rfl⟩


/-- C1. Two-party round trip.  Assume `HashToCurve` returns a point for every
identifier of `A` and `B` (the curve is supported and the fuel suffices), scalar
multiplication by the two private scalars commutes, `Unmarshal` inverts `Marshal`
on the singly masked points, and distinct identifiers have distinct doubly masked
encodings.  Then both parties' sets are produced, and
`Intersect(A, ReEncrypt(Encrypt(A, kA), kB), [ReEncrypt(Encrypt(B, kB), kA)])`
returns a list whose elements are exactly the identifiers that occur in both `A`
and `B`; it is empty when `A` or `B` is empty. -/
theorem psi_round_trip (lib : Stdlib) (ρ₁ ρ₂ ρ₃ : RangeOrder) (fuel : Nat) (curve : Curve)
    (dA dB : Int) (A B : List Bytes)
    (hHash : ∀ s ∈ A ++ B, (hashPoint lib fuel curve.Params s).isSome)
    (hcomm : ∀ q : Int × Int, smul curve dB (smul curve dA q) = smul curve dA (smul curve dB q))
    (hround : ∀ s ∈ A ++ B, ∀ pt, hashPoint lib fuel curve.Params s = some pt →
      ∀ d, d = dA ∨ d = dB →
      lib.unmarshal curve.Params (mask lib curve d (pt.X, pt.Y))
        = some (smul curve d (pt.X, pt.Y)))
    (hinj : ∀ s ∈ A ++ B, ∀ t ∈ A ++ B, ∀ ps pt,
      hashPoint lib fuel curve.Params s = some ps →
      hashPoint lib fuel curve.Params t = some pt →
      mask2 lib curve dA dB (ps.X, ps.Y) = mask2 lib curve dA dB (pt.X, pt.Y) → s = t) :
    ∃ encA encB reA reB r,
      EncryptSampleIDSet lib fuel A ⟨curve, dA⟩ = .ok encA ∧
      EncryptSampleIDSet lib fuel B ⟨curve, dB⟩ = .ok encB ∧
      ReEncryptIDSet lib ρ₁ encA ⟨curve, dB⟩ = .ok reA ∧
      ReEncryptIDSet lib ρ₂ encB ⟨curve, dA⟩ = .ok reB ∧
      Intersect ρ₃ A reA [reB] = .ok r ∧
      (∀ s, s ∈ r ↔ s ∈ A ∧ s ∈ B) ∧
      (A = [] ∨ B = [] → r = []) := by
  have hA : ∀ s ∈ A, s ∈ A ++ B := fun s hs => List.mem_append_left _ hs
  have hB : ∀ s ∈ B, s ∈ A ++ B := fun s hs => List.mem_append_right _ hs
  obtain ⟨encA, reA, hencA, hreA, hkA, hvA⟩ := doubleMask_spec lib ρ₁ fuel curve dA dB A
    (fun s hs => hHash s (hA s hs))
    (fun s hs pt hpt => hround s (hA s hs) pt hpt dA (Or.inl rfl))
  obtain ⟨encB, reB, hencB, hreB, hkB, -⟩ := doubleMask_spec lib ρ₂ fuel curve dB dA B
    (fun s hs => hHash s (hB s hs))
    (fun s hs pt hpt => hround s (hB s hs) pt hpt dB (Or.inr rfl))
  have hswap : ∀ q, mask2 lib curve dB dA q = mask2 lib curve dA dB q := by
    intro q
    simp only [mask2, mask, hcomm q]
  have hfold := intersect_fold A [reB] (reA.EncIDs.range ρ₃) []
    (fun e he _ => by
      obtain ⟨s, pt, hidx, -, -⟩ := hvA e.1 e.2 ((mem_range_iff ρ₃ _ e).mp he)
      have := indexAt_some A e.2 s [] hidx
      exact ⟨this.1, this.2.1⟩)
  have hmem : ∀ s, s ∈ ((reA.EncIDs.range ρ₃).filter
      fun e => existsInOthers e.1 false [reB]).map (fun e => A.getD e.2.toNat [])
      ↔ s ∈ A ∧ s ∈ B := by
    intro s
    simp only [List.mem_map, List.mem_filter, mem_range_iff,
      existsInOthers_false _ [reB] (List.cons_ne_nil _ _), List.all_cons, List.all_nil,
      Bool.and_true, GoMap.has, AList.lookup_isSome]
    constructor
    · rintro ⟨e, ⟨hl, hin⟩, rfl⟩
      obtain ⟨a, pa, hidx, hpa, hk⟩ := hvA e.1 e.2 hl
      obtain ⟨-, -, hget, haA⟩ := indexAt_some A e.2 a [] hidx
      obtain ⟨b, hbB, pb, hpb, hk2⟩ := (hkB e.1).mp hin
      rw [hget]
      refine ⟨haA, ?_⟩
      have : a = b := hinj a (hA a haA) b (hB b hbB) pa pb hpa hpb (by
        rw [← hk, hk2, hswap])
      rw [this]
      exact hbB
    · rintro ⟨hsA, hsB⟩
      obtain ⟨ps, hps⟩ := Option.isSome_iff_exists.mp (hHash s (hA s hsA))
      have hkin : mask2 lib curve dA dB (ps.X, ps.Y) ∈ reA.EncIDs :=
        (hkA _).mpr ⟨s, hsA, ps, hps, rfl⟩
      obtain ⟨v, hv⟩ := Option.isSome_iff_exists.mp (AList.lookup_isSome.mpr hkin)
      refine ⟨(mask2 lib curve dA dB (ps.X, ps.Y), v), ⟨hv, ?_⟩, ?_⟩
      · exact (hkB _).mpr ⟨s, hsB, ps, hps, (hswap _).symm⟩
      · obtain ⟨a, pa, hidx, hpa, hk⟩ := hvA _ v hv
        obtain ⟨-, -, hget, haA⟩ := indexAt_some A v a [] hidx
        have : a = s := hinj a (hA a haA) s (hA s hsA) pa ps hpa hps hk.symm
        simp only
        rw [hget, this]
  refine ⟨encA, encB, reA, reB, _, hencA, hencB, hreA, hreB, hfold, ?_, ?_⟩
  · intro s
    rw [List.nil_append]
    exact hmem s
  · intro hempty
    rw [List.nil_append]
    apply List.eq_nil_iff_forall_not_mem.mpr
    intro s hs
    have := (hmem s).mp hs
    rcases hempty with h | h
    · rw [h] at this; exact absurd this.1 (List.not_mem_nil s)
    · rw [h] at this; exact absurd this.2 (List.not_mem_nil s)


/-- Witness for C2: three identifiers, a local mapping with two keys of which one
is also a key of the other party. -/
theorem Intersect_membership_witness :
    Intersect RangeOrder.stored [[1], [2], [3]] toyLocal [toyOther] = .ok [[3]] ∧
    ∃ r, Intersect RangeOrder.stored [[1], [2], [3]] toyLocal [toyOther] = .ok r ∧
      r.Perm (intersectExpected [[1], [2], [3]] toyLocal [toyOther]) ∧
      (toyLocal.EncIDs.entries = [] → r = []) :=
  ⟨rfl, Intersect_membership RangeOrder.stored [[1], [2], [3]] toyLocal [toyOther]
    (by
      intro k v h
      have hmem := AList.mem_lookup_iff.mp h
      have hent : toyLocal.EncIDs.entries = [⟨[20], 2⟩, ⟨[10], 0⟩] := rfl
      rw [hent] at hmem
      simp only [List.mem_cons, Sigma.mk.inj_iff, heq_eq_eq, List.mem_singleton,
        List.not_mem_nil, or_false] at hmem
      rcases hmem with ⟨-, rfl⟩ | ⟨-, rfl⟩ <;> decide)
    (List.cons_ne_nil _ _)⟩

/-- Witness for C5: three identifiers of which one is repeated. -/
theorem EncryptSampleIDSet_entries_witness :
    ∃ enc, EncryptSampleIDSet libToy 1 [[1], [2], [1]] ⟨toyCurve, 2⟩ = .ok enc ∧
      enc.EncIDs.len = [[1], [2], [1]].length - dupOccurrences [([1] : Bytes), [2], [1]] ∧
      (∀ s ∈ [([1] : Bytes), [2], [1]], ∃ pt, hashPoint libToy 1 toyCurve.Params s = some pt ∧
        mask libToy toyCurve 2 (pt.X, pt.Y) ∈ enc.EncIDs) ∧
      (∀ k v, enc.EncIDs.lookup k = some v → ∃ s pt, indexAt [([1] : Bytes), [2], [1]] v = some s ∧
        hashPoint libToy 1 toyCurve.Params s = some pt ∧
        k = mask libToy toyCurve 2 (pt.X, pt.Y)) :=
  EncryptSampleIDSet_entries libToy 1 [[1], [2], [1]] ⟨toyCurve, 2⟩
    (by
      intro s hs
      simp only [List.mem_cons, List.mem_singleton, List.not_mem_nil, or_false] at hs
      rcases hs with rfl | rfl | rfl <;> rfl)
    (by
      intro s hs t ht ps pt hps hpt hm
      simp only [List.mem_cons, List.mem_singleton, List.not_mem_nil, or_false] at hs ht
      have h1 : hashPoint libToy 1 p256 [1] = some ⟨p256, 1, 0⟩ := rfl
      have h2 : hashPoint libToy 1 p256 [2] = some ⟨p256, 2, 0⟩ := rfl
      have e : toyCurve.Params = p256 := rfl
      rw [e] at hps hpt
      rcases hs with rfl | rfl | rfl <;> rcases ht with rfl | rfl | rfl <;>
        first
        | rfl
        | (rw [h1] at hps; rw [h2] at hpt; cases hps; cases hpt; exact absurd hm (by decide))
        | (rw [h2] at hps; rw [h1] at hpt; cases hps; cases hpt; exact absurd hm (by decide)))


/-- Witness for C1: parties holding `[[1], [2]]` and `[[2], [3]]` with scalars 2
and 3 obtain `[[2]]`. -/
theorem psi_round_trip_witness :
    ∃ encA encB reA reB r,
      EncryptSampleIDSet libToy 1 [[1], [2]] ⟨toyCurve, 2⟩ = .ok encA ∧
      EncryptSampleIDSet libToy 1 [[2], [3]] ⟨toyCurve, 3⟩ = .ok encB ∧
      ReEncryptIDSet libToy RangeOrder.stored encA ⟨toyCurve, 3⟩ = .ok reA ∧
      ReEncryptIDSet libToy RangeOrder.stored encB ⟨toyCurve, 2⟩ = .ok reB ∧
      Intersect RangeOrder.stored [[1], [2]] reA [reB] = .ok r ∧
      (∀ s, s ∈ r ↔ s ∈ [([1] : Bytes), [2]] ∧ s ∈ [([2] : Bytes), [3]]) ∧
      ([([1] : Bytes), [2]] = [] ∨ [([2] : Bytes), [3]] = [] → r = []) :=
  psi_round_trip libToy RangeOrder.stored RangeOrder.stored RangeOrder.stored 1 toyCurve 2 3
    [[1], [2]] [[2], [3]]
    (by
      intro s hs
      simp only [List.cons_append, List.nil_append, List.mem_cons, List.mem_singleton,
        List.not_mem_nil, or_false] at hs
      rcases hs with rfl | rfl | rfl | rfl <;> rfl)
    (by
      intro q
      simp only [smul, toyCurve]
      congr 1 <;> ring)
    (by
      intro s hs pt hpt d hd
      simp only [List.cons_append, List.nil_append, List.mem_cons, List.mem_singleton,
        List.not_mem_nil, or_false] at hs
      have h1 : hashPoint libToy 1 toyCurve.Params [1] = some ⟨p256, 1, 0⟩ := rfl
      have h2 : hashPoint libToy 1 toyCurve.Params [2] = some ⟨p256, 2, 0⟩ := rfl
      have h3 : hashPoint libToy 1 toyCurve.Params [3] = some ⟨p256, 3, 0⟩ := rfl
      rcases hs with rfl | rfl | rfl | rfl <;> rcases hd with rfl | rfl <;>
        first
        | (rw [h1] at hpt; cases hpt; rfl)
        | (rw [h2] at hpt; cases hpt; rfl)
        | (rw [h3] at hpt; cases hpt; rfl))
    (by
      intro s hs t ht ps pt hps hpt hm
      simp only [List.cons_append, List.nil_append, List.mem_cons, List.mem_singleton,
        List.not_mem_nil, or_false] at hs ht
      have hp : ∀ u : Bytes, u = [1] ∨ u = [2] ∨ u = [2] ∨ u = [3] →
          hashPoint libToy 1 toyCurve.Params u = some ⟨p256, setBytes u, 0⟩ := by
        intro u hu
        rcases hu with rfl | rfl | rfl | rfl <;> rfl
      rw [hp s hs] at hps
      rw [hp t ht] at hpt
      cases hps
      cases hpt
      rcases hs with rfl | rfl | rfl | rfl <;> rcases ht with rfl | rfl | rfl | rfl <;>
        first
        | rfl
        | exact absurd hm (by decide))




/-! ## Columns restricted to an id list -/

theorem range_keys_nodup {κ ν : Type} (ρ : RangeOrder) (m : GoMap κ ν) :
    ((m.range ρ).map Prod.fst).Nodup := by
  have h : ((m.range ρ).map Prod.fst).Perm m.keys := by
    have := (ρ.perm (m.entries.map fun e => ((e.1, e.2) : κ × ν))).map Prod.fst
    rw [List.map_map] at this
    exact this
  exact h.nodup_iff.mpr m.keys_nodup

theorem restrict_fold_lookup (idList : List Int) (k : Int) (v : String) :
    ∀ (l : List (Int × String)) (init : GoMap Int String),
      (l.map Prod.fst).Nodup → (∀ e ∈ l, e.1 ∉ init) →
      ((l.foldl (fun (sets : GoMap Int String) (e : Int × String) =>
          if IntInSlice e.1 idList then sets.set e.1 e.2 else sets) init).lookup k = some v
        ↔ init.lookup k = some v ∨ ((k, v) ∈ l ∧ k ∈ idList)) := by
  intro l
  induction l with
  | nil => intro init _ _; simp
  | cons e l ih =>
    intro init hnd hdis
    rw [List.map_cons, List.nodup_cons] at hnd
    have he : e.1 ∉ init := hdis e (List.mem_cons_self _ _)
    have hel : ∀ e1 ∈ l, e1.1 ≠ e.1 := by
      intro e1 he1 heq
      exact hnd.1 (heq ▸ List.mem_map_of_mem Prod.fst he1)
    rw [List.foldl_cons]
    by_cases hin : IntInSlice e.1 idList = true
    · simp only [hin, if_true]
      rw [ih _ hnd.2 (by
        intro e1 he1
        rw [GoMap.set, AList.mem_insert]
        rintro (h | h)
        · exact hel e1 he1 h
        · exact hdis e1 (List.mem_cons_of_mem _ he1) h)]
      have hin2 : e.1 ∈ idList := by simpa [IntInSlice] using hin
      by_cases hk : k = e.1
      · subst hk
        rw [GoMap.set, AList.lookup_insert, AList.lookup_eq_none.mpr he]
        constructor
        · rintro (h | ⟨h, -⟩)
          · cases h
            exact Or.inr ⟨List.mem_cons_self _ _, hin2⟩
          · exact absurd rfl (hel (e.1, v) h)
        · rintro (h | ⟨h, -⟩)
          · cases h
          · rcases List.mem_cons.mp h with h | h
            · rw [← h]
              exact Or.inl rfl
            · exact absurd rfl (hel (e.1, v) h)
      · rw [GoMap.set, AList.lookup_insert_ne hk]
        constructor
        · rintro (h | ⟨h, h2⟩)
          · exact Or.inl h
          · exact Or.inr ⟨List.mem_cons_of_mem _ h, h2⟩
        · rintro (h | ⟨h, h2⟩)
          · exact Or.inl h
          · rcases List.mem_cons.mp h with h | h
            · rw [← h] at hk
              exact absurd rfl hk
            · exact Or.inr ⟨h, h2⟩
    · simp only [hin, Bool.false_eq_true, if_false]
      rw [ih _ hnd.2 (fun e1 he1 => hdis e1 (List.mem_cons_of_mem _ he1))]
      have hin2 : e.1 ∉ idList := by simpa [IntInSlice] using hin
      constructor
      · rintro (h | ⟨h, h2⟩)
        · exact Or.inl h
        · exact Or.inr ⟨List.mem_cons_of_mem _ h, h2⟩
      · rintro (h | ⟨h, h2⟩)
        · exact Or.inl h
        · rcases List.mem_cons.mp h with h | h
          · rw [← h] at hin2
            exact absurd h2 hin2
          · exact Or.inr ⟨h, h2⟩

theorem restrictSets_lookup (ρ : RangeOrder) (idList : List Int) (sets : GoMap Int String)
    (k : Int) (v : String) :
    (restrictSets ρ idList sets).lookup k = some v ↔ sets.lookup k = some v ∧ k ∈ idList := by
  unfold restrictSets
  rw [restrict_fold_lookup idList k v _ _ (range_keys_nodup ρ sets)
    (fun e _ => AList.not_mem_empty _)]
  simp [AList.lookup_empty, mem_range_iff]


/-! ## Label counts -/

theorem unique_step_lookup (results : GoMap String Int) (e : Int × String) (c : String) :
    ((if results.has e.2 then results else results.set e.2 0).set e.2
        (((if results.has e.2 then results else results.set e.2 0).lookup e.2).getD 0 + 1)).lookup c
      = if e.2 = c then some ((results.lookup c).getD 0 + 1) else results.lookup c := by
  by_cases hc : e.2 = c
  · subst hc
    simp only [if_true, GoMap.set, AList.lookup_insert]
    by_cases hh : results.has e.2 = true
    · simp only [hh, if_true]
    · simp only [hh, Bool.false_eq_true, if_false, AList.lookup_insert]
      have : results.lookup e.2 = none := by
        simpa [GoMap.has] using hh
      simp [this]
  · simp only [hc, if_false, GoMap.set]
    rw [AList.lookup_insert_ne (Ne.symm hc)]
    by_cases hh : results.has e.2 = true
    · simp only [hh, if_true]
    · simp only [hh, Bool.false_eq_true, if_false]
      rw [AList.lookup_insert_ne (Ne.symm hc)]

theorem unique_fold_lookup (c : String) :
    ∀ (l : List (Int × String)) (init : GoMap String Int),
      (l.foldl (fun (results : GoMap String Int) (e : Int × String) =>
          let results := if results.has e.2 then results else results.set e.2 0
          results.set e.2 ((results.lookup e.2).getD 0 + 1)) init).lookup c
        = if l.countP (fun e => e.2 = c) = 0 then init.lookup c
          else some ((init.lookup c).getD 0 + (l.countP (fun e => e.2 = c) : Int)) := by
  intro l
  induction l with
  | nil => intro init; simp
  | cons e l ih =>
    intro init
    rw [List.foldl_cons, ih]
    simp only [unique_step_lookup]
    by_cases hc : e.2 = c
    · have h1 : (e :: l).countP (fun e => e.2 = c) = l.countP (fun e => e.2 = c) + 1 := by
        rw [List.countP_cons_of_pos]
        simpa using hc
      simp only [hc, if_true, h1, Nat.succ_ne_zero, if_false, Option.getD_some]
      split
      · rename_i h0
        simp [h0]
      · push_cast
        congr 1
        ring
    · have h1 : (e :: l).countP (fun e => e.2 = c) = l.countP (fun e => e.2 = c) := by
        rw [List.countP_cons_of_neg]
        simpa using hc
      simp only [hc, if_false, h1]

/-- Number of entries of a column whose value is `c`. -/
theorem uniqueDataSetTypes_lookup (ρ : RangeOrder) (sets : GoMap Int String) (c : String) :
    (uniqueDataSetTypes ρ sets).lookup c
      = if sets.entries.countP (fun e => e.2 = c) = 0 then none
        else some (sets.entries.countP (fun e => e.2 = c) : Int) := by
  unfold uniqueDataSetTypes
  rw [unique_fold_lookup]
  have hperm : (sets.range ρ).countP (fun e => e.2 = c)
      = sets.entries.countP (fun e => e.2 = c) := by
    rw [GoMap.range, (ρ.perm _).countP_eq, List.countP_map]
    rfl
  rw [hperm]
  simp [AList.lookup_empty]


theorem restrictSets_count (ρ : RangeOrder) (ids : List Int) (sets : GoMap Int String)
    (c : String) :
    (restrictSets ρ ids sets).entries.countP (fun e => e.2 = c)
      = (ids.dedup.filter fun id => sets.lookup id = some c).length := by
  rw [List.countP_eq_length_filter]
  have hnd1 : (((restrictSets ρ ids sets).entries.filter (fun e => e.2 = c)).map
      Sigma.fst).Nodup :=
    ((List.filter_sublist _).map Sigma.fst).nodup (restrictSets ρ ids sets).keys_nodup
  have hnd2 : (ids.dedup.filter fun id => sets.lookup id = some c).Nodup :=
    (List.nodup_dedup ids).filter _
  have hperm := (List.perm_ext_iff_of_nodup hnd1 hnd2).mpr (by
    intro k
    simp only [List.mem_map, List.mem_filter, decide_eq_true_eq, List.mem_dedup]
    constructor
    · rintro ⟨⟨k1, v1⟩, ⟨hmem, hv⟩, hk⟩
      simp only at hv hk
      subst hv hk
      have := (restrictSets_lookup ρ ids sets k1 v1).mp (AList.mem_lookup_iff.mpr hmem)
      exact ⟨this.2, this.1⟩
    · rintro ⟨hk, hl⟩
      exact ⟨⟨k, c⟩, ⟨AList.mem_lookup_iff.mp
        ((restrictSets_lookup ρ ids sets k c).mpr ⟨hl, hk⟩), rfl⟩, rfl⟩)
  have := hperm.length_eq
  rw [List.length_map] at this
  exact this

theorem restrictSets_len (ρ : RangeOrder) (ids : List Int) (sets : GoMap Int String) :
    (restrictSets ρ ids sets).len
      = (ids.dedup.filter fun id => (sets.lookup id).isSome).length := by
  have hnd2 : (ids.dedup.filter fun id => (sets.lookup id).isSome).Nodup :=
    (List.nodup_dedup ids).filter _
  have hperm := (List.perm_ext_iff_of_nodup (restrictSets ρ ids sets).keys_nodup hnd2).mpr (by
    intro k
    rw [← AList.mem_keys, ← AList.lookup_isSome]
    simp only [List.mem_filter, List.mem_dedup, Option.isSome_iff_exists, restrictSets_lookup]
    constructor
    · rintro ⟨v, h1, h2⟩
      exact ⟨h2, v, h1⟩
    · rintro ⟨h2, v, h1⟩
      exact ⟨v, h1, h2⟩)
  have := hperm.length_eq
  rw [← this]
  simp [GoMap.len, AList.keys, List.keys]


theorem foldl_pick_none {α β : Type} (p : α → Prop) [DecidablePred p] (f : α → β) :
    ∀ (l : List α) (init : β), l.filter (fun v => p v) = [] →
      l.foldl (fun r v => if p v then f v else r) init = init := by
  intro l
  induction l with
  | nil => intro init _; rfl
  | cons a l ih =>
    intro init h
    by_cases hp : p a
    · simp [List.filter_cons, hp] at h
    · rw [List.filter_cons_of_neg (by simpa using hp)] at h
      rw [List.foldl_cons, if_neg hp]
      exact ih init h

theorem foldl_pick_one {α β : Type} (p : α → Prop) [DecidablePred p] (f : α → β) (c : α) :
    ∀ (l : List α) (init : β), l.filter (fun v => p v) = [c] →
      l.foldl (fun r v => if p v then f v else r) init = f c := by
  intro l
  induction l with
  | nil => intro init h; simp at h
  | cons a l ih =>
    intro init h
    by_cases hp : p a
    · rw [List.filter_cons_of_pos (by simpa using hp)] at h
      simp only [List.cons.injEq] at h
      rw [List.foldl_cons, if_pos hp, foldl_pick_none p f l _ h.2, h.1]
    · rw [List.filter_cons_of_neg (by simpa using hp)] at h
      rw [List.foldl_cons, if_neg hp]
      exact ih init h

theorem columns_cases (ds : DTDataSet) (label : String) (hu : LabelUnique ds label) :
    ds.columns label = [] ∨ ∃ col, ds.columns label = [col] := by
  unfold LabelUnique at hu
  match h : ds.columns label with
  | [] => exact Or.inl rfl
  | [col] => exact Or.inr ⟨col, rfl⟩
  | _ :: _ :: _ => rw [h] at hu; simp at hu

theorem columns_restrict (ρ : RangeOrder) (ds : DTDataSet) (ids : List Int) (label : String) :
    (ds.Features.map (restrictFeature ρ ids)).filter (fun f => f.FeatureName = label)
      = (ds.columns label).map (restrictFeature ρ ids) := by
  rw [List.filter_map]
  rfl

theorem labelOf_of_columns_nil (ds : DTDataSet) (label : String) (id : Int)
    (h : ds.columns label = []) : labelOf ds label id = none := by
  simp [labelOf, h]

theorem labelOf_of_columns_one (ds : DTDataSet) (label : String) (id : Int) (col : DTDataFeature)
    (h : ds.columns label = [col]) : labelOf ds label id = col.Sets.lookup id := by
  simp [labelOf, h]

/-- The label counts that the code computes for an id list agree with the number
of samples per label. -/
theorem countLabelTypes_lookup (ρ : RangeOrder) (ds : DTDataSet) (ids : List Int)
    (label : String) (hu : LabelUnique ds label) (c : String) :
    (countLabelTypes ρ ⟨ds.Features.map (restrictFeature ρ ids)⟩ label).lookup c
      = if labelCount ds label ids c = 0 then none
        else some (labelCount ds label ids c : Int) := by
  unfold countLabelTypes
  rcases columns_cases ds label hu with h | ⟨col, h⟩
  · rw [foldl_pick_none (fun f : DTDataFeature => f.FeatureName = label) _ _ _
      (by rw [columns_restrict, h]; rfl)]
    have : labelCount ds label ids c = 0 := by
      simp [labelCount, labelOf_of_columns_nil ds label _ h]
    simp [this, AList.lookup_empty]
  · rw [foldl_pick_one (fun f : DTDataFeature => f.FeatureName = label) _
      (restrictFeature ρ ids col) _ _ (by rw [columns_restrict, h]; rfl)]
    rw [uniqueDataSetTypes_lookup]
    have : (restrictFeature ρ ids col).Sets.entries.countP (fun e => e.2 = c)
        = labelCount ds label ids c := by
      simp only [restrictFeature, restrictSets_count, labelCount,
        labelOf_of_columns_one ds label _ col h]
    rw [this]

theorem labelCount_pos_iff (ds : DTDataSet) (label : String) (ids : List Int) (c : String) :
    labelCount ds label ids c ≠ 0 ↔ ∃ id ∈ ids, labelOf ds label id = some c := by
  unfold labelCount
  rw [Nat.ne_zero_iff_zero_lt, List.length_pos_iff_exists_mem]
  simp [List.mem_filter, List.mem_dedup]

theorem mem_labelsOf (ds : DTDataSet) (label : String) (ids : List Int) (c : String) :
    c ∈ labelsOf ds label ids ↔ ∃ id ∈ ids, labelOf ds label id = some c := by
  simp [labelsOf, List.mem_dedup, List.mem_filterMap]

theorem countLabelTypes_mem (ρ : RangeOrder) (ds : DTDataSet) (ids : List Int)
    (label : String) (hu : LabelUnique ds label) (c : String) :
    c ∈ countLabelTypes ρ ⟨ds.Features.map (restrictFeature ρ ids)⟩ label
      ↔ c ∈ labelsOf ds label ids := by
  rw [← AList.lookup_isSome, countLabelTypes_lookup ρ ds ids label hu, mem_labelsOf,
    ← labelCount_pos_iff]
  split <;> simp_all

theorem countLabelTypes_keys_perm (ρ : RangeOrder) (ds : DTDataSet) (ids : List Int)
    (label : String) (hu : LabelUnique ds label) :
    (countLabelTypes ρ ⟨ds.Features.map (restrictFeature ρ ids)⟩ label).keys.Perm
      (labelsOf ds label ids) := by
  have hnd : (labelsOf ds label ids).Nodup := List.nodup_dedup _
  rw [List.perm_ext_iff_of_nodup (AList.keys_nodup _) hnd]
  intro c
  rw [← AList.mem_keys]
  exact countLabelTypes_mem ρ ds ids label hu c

theorem countLabelTypes_len (ρ : RangeOrder) (ds : DTDataSet) (ids : List Int)
    (label : String) (hu : LabelUnique ds label) :
    (countLabelTypes ρ ⟨ds.Features.map (restrictFeature ρ ids)⟩ label).len
      = (labelsOf ds label ids).length := by
  rw [← (countLabelTypes_keys_perm ρ ds ids label hu).length_eq]
  simp [GoMap.len, AList.keys, List.keys]


/-! ## `isSameType` and `getMaxLabelType` -/

theorem retrieve_of_ne_nil (ρ : RangeOrder) (ds : DTDataSet) (ids : List Int) (hne : ids ≠ []) :
    retrieveDatasetByIds ρ ds ids = some ⟨ds.Features.map (restrictFeature ρ ids)⟩ := by
  have : ids.length ≠ 0 := fun h => hne (List.length_eq_zero.mp h)
  simp [retrieveDatasetByIds, this]

theorem retrieve_nil (ρ : RangeOrder) (ds : DTDataSet) : retrieveDatasetByIds ρ ds [] = none := by
  simp [retrieveDatasetByIds]

theorem isSameType_notSame (ρ : RangeOrder) (ds : DTDataSet) (ids : List Int) (label : String)
    (hu : LabelUnique ds label) (hne : ids ≠ []) (hns : ¬ SameLabel ds label ids) :
    isSameType ρ (retrieveDatasetByIds ρ ds ids) label
      = .ok ("", false, countLabelTypes ρ ⟨ds.Features.map (restrictFeature ρ ids)⟩ label) := by
  rw [retrieve_of_ne_nil ρ ds ids hne]
  unfold isSameType
  simp only [countLabelTypes_len ρ ds ids label hu]
  rw [if_neg (show ¬ (labelsOf ds label ids).length = 1 from hns)]

theorem isSameType_same (ρ : RangeOrder) (ds : DTDataSet) (ids : List Int) (label : String)
    (hu : LabelUnique ds label) (hne : ids ≠ []) (hs : SameLabel ds label ids) :
    ∃ c, labelsOf ds label ids = [c] ∧
      isSameType ρ (retrieveDatasetByIds ρ ds ids) label
        = .ok (c, true, countLabelTypes ρ ⟨ds.Features.map (restrictFeature ρ ids)⟩ label) := by
  obtain ⟨c, hc⟩ := List.length_eq_one.mp hs
  refine ⟨c, hc, ?_⟩
  rw [retrieve_of_ne_nil ρ ds ids hne]
  unfold isSameType
  simp only [countLabelTypes_len ρ ds ids label hu]
  rw [if_pos (show (labelsOf ds label ids).length = 1 from hs)]
  have hkeys := countLabelTypes_keys_perm ρ ds ids label hu
  rw [hc] at hkeys
  have hk1 := List.perm_singleton.mp hkeys
  have hent : ∃ n, (countLabelTypes ρ ⟨ds.Features.map (restrictFeature ρ ids)⟩ label).entries
      = [⟨c, n⟩] := by
    unfold AList.keys List.keys at hk1
    match hm : (countLabelTypes ρ ⟨ds.Features.map (restrictFeature ρ ids)⟩ label).entries with
    | [] => rw [hm] at hk1; simp at hk1
    | [⟨c1, n⟩] =>
      rw [hm] at hk1
      simp only [List.map_cons, List.map_nil, List.cons.injEq, and_true] at hk1
      subst hk1
      exact ⟨n, rfl⟩
    | _ :: _ :: _ => rw [hm] at hk1; simp at hk1
  obtain ⟨n, hn⟩ := hent
  have hrange : (countLabelTypes ρ ⟨ds.Features.map (restrictFeature ρ ids)⟩ label).range ρ
      = [(c, n)] := by
    unfold GoMap.range
    rw [hn]
    exact List.perm_singleton.mp (ρ.perm _)
  rw [hrange]
  rfl

theorem maxfold_spec :
    ∀ (l : List (String × Int)) (st : Int × String),
      st.1 ≤ (l.foldl (fun (st : Int × String) (e : String × Int) =>
          if e.2 ≥ st.1 then (e.2, e.1) else st) st).1 ∧
      (∀ e ∈ l, e.2 ≤ (l.foldl (fun (st : Int × String) (e : String × Int) =>
          if e.2 ≥ st.1 then (e.2, e.1) else st) st).1) ∧
      ((l.foldl (fun (st : Int × String) (e : String × Int) =>
          if e.2 ≥ st.1 then (e.2, e.1) else st) st) = st ∨
        ((l.foldl (fun (st : Int × String) (e : String × Int) =>
          if e.2 ≥ st.1 then (e.2, e.1) else st) st).2,
         (l.foldl (fun (st : Int × String) (e : String × Int) =>
          if e.2 ≥ st.1 then (e.2, e.1) else st) st).1) ∈ l) := by
  intro l
  induction l with
  | nil => intro st; simp
  | cons e l ih =>
    intro st
    rw [List.foldl_cons]
    by_cases h : e.2 ≥ st.1
    · simp only [h, if_true]
      obtain ⟨h1, h2, h3⟩ := ih (e.2, e.1)
      refine ⟨le_trans h h1, ?_, ?_⟩
      · intro e1 he1
        rcases List.mem_cons.mp he1 with rfl | he1
        · exact h1
        · exact h2 e1 he1
      · rcases h3 with h3 | h3
        · right
          rw [h3]
          exact List.mem_cons_self _ _
        · exact Or.inr (List.mem_cons_of_mem _ h3)
    · simp only [h, if_false]
      obtain ⟨h1, h2, h3⟩ := ih st
      refine ⟨h1, ?_, ?_⟩
      · intro e1 he1
        rcases List.mem_cons.mp he1 with rfl | he1
        · exact le_trans (le_of_lt (not_le.mp h)) h1
        · exact h2 e1 he1
      · rcases h3 with h3 | h3
        · exact Or.inl h3
        · exact Or.inr (List.mem_cons_of_mem _ h3)

theorem GetMaxLabelTypeTagPart_spec (ρ : RangeOrder) (ds : DTDataSet) (ids : List Int)
    (label : String) (hu : LabelUnique ds label) (hne : ids ≠ []) :
    ∃ c, GetMaxLabelTypeTagPart ρ ds ids label = .ok c ∧
      IsMajorityLabel ds label ids c ∧
      ((∃ id ∈ ids, (labelOf ds label id).isSome) → labelCount ds label ids c ≠ 0) := by
  unfold GetMaxLabelTypeTagPart getMaxLabelType
  by_cases hs : SameLabel ds label ids
  · obtain ⟨c, hc, hsame⟩ := isSameType_same ρ ds ids label hu hne hs
    rw [hsame]
    refine ⟨c, rfl, ?_, ?_⟩
    · intro c1
      by_cases h1 : labelCount ds label ids c1 = 0
      · omega
      · have := (mem_labelsOf ds label ids c1).mpr ((labelCount_pos_iff ds label ids c1).mp h1)
        rw [hc, List.mem_singleton] at this
        rw [this]
    · intro _
      apply (labelCount_pos_iff ds label ids c).mpr
      apply (mem_labelsOf ds label ids c).mp
      rw [hc]
      exact List.mem_singleton_self c
  · rw [isSameType_notSame ρ ds ids label hu hne hs]
    simp only [Bool.false_eq_true, if_false]
    refine ⟨_, rfl, ?_, ?_⟩
    all_goals
      obtain ⟨h1, h2, h3⟩ := maxfold_spec
        ((countLabelTypes ρ ⟨ds.Features.map (restrictFeature ρ ids)⟩ label).range ρ) (0, "")
      have hmem : ∀ c n, (c, n) ∈ (countLabelTypes ρ
          ⟨ds.Features.map (restrictFeature ρ ids)⟩ label).range ρ ↔
          labelCount ds label ids c ≠ 0 ∧ n = (labelCount ds label ids c : Int) := by
        intro c n
        rw [mem_range_iff, countLabelTypes_lookup ρ ds ids label hu]
        split
        · simp_all
        · rename_i h0
          simp only [Option.some.injEq, ne_eq, h0, not_false_eq_true, true_and]
          exact eq_comm
    · intro c1
      by_cases hc1 : labelCount ds label ids c1 = 0
      · omega
      · have hle := h2 (c1, _) ((hmem c1 _).mpr ⟨hc1, rfl⟩)
        rcases h3 with h3 | h3
        · rw [h3] at hle
          simp only at hle
          omega
        · have := ((hmem _ _).mp h3).2
          rw [this] at hle
          simp only at hle
          exact_mod_cast hle
    · rintro ⟨id, hid, hsome⟩
      obtain ⟨c1, hc1⟩ := Option.isSome_iff_exists.mp hsome
      have hpos : labelCount ds label ids c1 ≠ 0 :=
        (labelCount_pos_iff ds label ids c1).mpr ⟨id, hid, hc1⟩
      have hle := h2 (c1, _) ((hmem c1 _).mpr ⟨hpos, rfl⟩)
      rcases h3 with h3 | h3
      · rw [h3] at hle
        simp only at hle
        omega
      · exact ((hmem _ _).mp h3).1


/-! ## `DecideTerminateTagPart` -/

theorem decide_empty (ρ : RangeOrder) (ds : DTDataSet) (father : List Int) (g fg : Option ℚ)
    (depth : Int) (label : String) (cond : StopCondition) :
    DecideTerminateTagPart ρ ds [] father g fg depth label cond
      = (GetMaxLabelTypeTagPart ρ ds father label).map fun l => (true, l) := by
  simp [DecideTerminateTagPart]

theorem decide_same (ρ : RangeOrder) (ds : DTDataSet) (cur father : List Int) (g fg : Option ℚ)
    (depth : Int) (label : String) (cond : StopCondition) (hu : LabelUnique ds label)
    (hne : cur ≠ []) (hs : SameLabel ds label cur) :
    ∃ c, labelsOf ds label cur = [c] ∧
      DecideTerminateTagPart ρ ds cur father g fg depth label cond = .ok (true, c) := by
  obtain ⟨c, hc, hsame⟩ := isSameType_same ρ ds cur label hu hne hs
  refine ⟨c, hc, ?_⟩
  have : cur.length ≠ 0 := fun h => hne (List.length_eq_zero.mp h)
  simp [DecideTerminateTagPart, this, isSameTypePartB, hsame]

theorem decide_notSame (ρ : RangeOrder) (ds : DTDataSet) (cur father : List Int)
    (g fg : Option ℚ)
    (depth : Int) (label : String) (cond : StopCondition) (hu : LabelUnique ds label)
    (hne : cur ≠ []) (hs : ¬ SameLabel ds label cur) :
    DecideTerminateTagPart ρ ds cur father g fg depth label cond
      = if (cur.length : Int) ≤ cond.SampleThreshold ∨
            (cond.DepthThreshold ≠ 0 ∧ depth ≥ cond.DepthThreshold) ∨
            giniAtMost g cond.GiniThreshold = true
        then (GetMaxLabelTypeTagPart ρ ds cur label).map fun l => (true, l)
        else .ok (false, "") := by
  have : cur.length ≠ 0 := fun h => hne (List.length_eq_zero.mp h)
  simp only [DecideTerminateTagPart, this, if_false, isSameTypePartB,
    isSameType_notSame ρ ds cur label hu hne hs, Bool.false_eq_true]
  by_cases h1 : (cur.length : Int) ≤ cond.SampleThreshold
  · rw [if_pos h1, if_pos (Or.inl h1)]
  · rw [if_neg h1]
    by_cases h2 : cond.DepthThreshold ≠ 0 ∧ depth ≥ cond.DepthThreshold
    · rw [if_pos h2, if_pos (Or.inr (Or.inl h2))]
    · rw [if_neg h2]
      by_cases h3 : giniAtMost g cond.GiniThreshold = true
      · rw [if_pos h3, if_pos (Or.inr (Or.inr h3))]
      · rw [if_neg h3, if_neg (by tauto)]

/-- C7. For every table with at most one column named `label`, every non-empty
parent list whose ids are in the label column, and every Gini value, depth and
stop condition, `DecideTerminateTagPart` called with an empty current list
returns `(true, L)` where `L` occurs among the parent's samples and no label is
carried by more of them. -/
theorem DecideTerminateTagPart_empty (ρ : RangeOrder) (ds : DTDataSet) (father : List Int)
    (curGini fatherGini : Option ℚ) (curDepth : Int) (label : String) (cond : StopCondition)
    (hu : LabelUnique ds label) (hne : father ≠ []) (hin : InLabelColumn ds label father) :
    ∃ L, DecideTerminateTagPart ρ ds [] father curGini fatherGini curDepth label cond
        = .ok (true, L) ∧
      IsMajorityLabel ds label father L ∧ 0 < labelCount ds label father L := by
  obtain ⟨c, hc, hmaj, hocc⟩ := GetMaxLabelTypeTagPart_spec ρ ds father label hu hne
  refine ⟨c, ?_, hmaj, ?_⟩
  · rw [decide_empty, hc]
    rfl
  · obtain ⟨id, hid⟩ := List.exists_mem_of_ne_nil father hne
    exact Nat.pos_of_ne_zero (hocc ⟨id, hid, hin id hid⟩)

/-- Witness for C7: an empty node under the parent `[0, 1, 3]`. -/
theorem DecideTerminateTagPart_empty_witness :
    ∃ L, DecideTerminateTagPart RangeOrder.stored toyData [] [0, 1, 3] (some 0) (some 0) 2
        "Target" toyCond = .ok (true, L) ∧
      IsMajorityLabel toyData "Target" [0, 1, 3] L ∧ 0 < labelCount toyData "Target" [0, 1, 3] L :=
  DecideTerminateTagPart_empty RangeOrder.stored toyData [0, 1, 3] (some 0) (some 0) 2
    "Target" toyCond (by decide) (by decide) (by decide)

/-- C8. For every non-empty current list all of whose samples carry the label `ℓ`
(in a table with at most one column named `label`), and for every stop condition,
depth, Gini values and parent list, `DecideTerminateTagPart` returns `(true, ℓ)`. -/
theorem DecideTerminateTagPart_uniform (ρ : RangeOrder) (ds : DTDataSet) (cur father : List Int)
    (curGini fatherGini : Option ℚ) (curDepth : Int) (label : String) (cond : StopCondition)
    (ℓ : String) (hu : LabelUnique ds label) (hne : cur ≠ [])
    (hall : ∀ id ∈ cur, labelOf ds label id = some ℓ) :
    DecideTerminateTagPart ρ ds cur father curGini fatherGini curDepth label cond
      = .ok (true, ℓ) := by
  have hlabels : labelsOf ds label cur = [ℓ] := by
    apply List.perm_singleton.mp
    have hnd : (labelsOf ds label cur).Nodup := List.nodup_dedup _
    rw [List.perm_ext_iff_of_nodup hnd (List.nodup_singleton ℓ)]
    intro c
    rw [mem_labelsOf, List.mem_singleton]
    constructor
    · rintro ⟨id, hid, hl⟩
      rw [hall id hid] at hl
      cases hl
      rfl
    · rintro rfl
      obtain ⟨id, hid⟩ := List.exists_mem_of_ne_nil cur hne
      exact ⟨id, hid, hall id hid⟩
  have hs : SameLabel ds label cur := by
    unfold SameLabel
    rw [hlabels]
    rfl
  obtain ⟨c, hc, hres⟩ := decide_same ρ ds cur father curGini fatherGini curDepth label cond
    hu hne hs
  rw [hlabels] at hc
  cases hc
  exact hres

/-- Witness for C8: the samples 0, 2 and 4 all carry the label `yes`. -/
theorem DecideTerminateTagPart_uniform_witness :
    DecideTerminateTagPart RangeOrder.stored toyData [0, 2, 4] [0, 1, 2, 4] (some (1 / 2))
      (some 0) 1 "Target" toyCond = .ok (true, "yes") :=
  DecideTerminateTagPart_uniform RangeOrder.stored toyData [0, 2, 4] [0, 1, 2, 4] (some (1 / 2))
    (some 0) 1 "Target" toyCond "yes" (by decide) (by decide) (by decide)


/-- C6 fails on the code: called with an empty current list and an empty parent
list the node is not in the `(false, "")` case, yet the call does not return `true`;
it panics on the nil data set that `retrieveDatasetByIds` returns for the empty
parent list, where the comment of the first test says that an empty node becomes a
leaf. -/
theorem DecideTerminateTagPart_both_empty_panics :
    ¬ (([] : List Int) ≠ [] ∧ ¬ SameLabel toyData "Target" [] ∧
        toyCond.SampleThreshold < ((([] : List Int).length : Nat) : Int) ∧
        (toyCond.DepthThreshold = 0 ∨ (0 : Int) < toyCond.DepthThreshold) ∧
        toyCond.GiniThreshold < 0) ∧
    (¬ ∃ l, DecideTerminateTagPart RangeOrder.stored toyData [] [] (some 0) (some 0) 0 "Target"
      toyCond = .ok (true, l)) ∧
    DecideTerminateTagPart RangeOrder.stored toyData [] [] (some 0) (some 0) 0 "Target" toyCond
      = .error .panic := by
  have h : DecideTerminateTagPart RangeOrder.stored toyData [] [] (some 0) (some 0) 0 "Target"
      toyCond = .error .panic := rfl
  refine ⟨fun hc => hc.1 rfl, ?_, h⟩
  rintro ⟨l, hl⟩
  rw [h] at hl
  cases hl

/-- The cases of `DecideTerminateTagPart` in a table with at most one column named
`label`: it returns `(false, "")` if and only if the current list is non-empty, its
samples do not all share one label, its length is above `SampleThreshold`,
`DepthThreshold` is 0 or above the depth, and the test `curGini <= GiniThreshold` is
false (as it is for a Gini index above the threshold and for NaN); in every other
case in which the current or the parent list is non-empty it returns `true`; and
when one of the tests (3) count ≤ `SampleThreshold`, (4) depth ≥ non-zero
`DepthThreshold`, (5) `curGini` ≤ `GiniThreshold` is reached and holds, the label is a
majority label of the current node's samples. -/
theorem DecideTerminateTagPart_branches (ρ : RangeOrder) (ds : DTDataSet)
    (cur father : List Int) (curGini fatherGini : Option ℚ) (curDepth : Int) (label : String)
    (cond : StopCondition) (hu : LabelUnique ds label) :
    (DecideTerminateTagPart ρ ds cur father curGini fatherGini curDepth label cond
        = .ok (false, "") ↔
      cur ≠ [] ∧ ¬ SameLabel ds label cur ∧ cond.SampleThreshold < (cur.length : Int) ∧
        (cond.DepthThreshold = 0 ∨ curDepth < cond.DepthThreshold) ∧
        giniAtMost curGini cond.GiniThreshold = false) ∧
    ((cur ≠ [] ∨ father ≠ []) →
      ¬ (cur ≠ [] ∧ ¬ SameLabel ds label cur ∧ cond.SampleThreshold < (cur.length : Int) ∧
        (cond.DepthThreshold = 0 ∨ curDepth < cond.DepthThreshold) ∧
        giniAtMost curGini cond.GiniThreshold = false) →
      ∃ l, DecideTerminateTagPart ρ ds cur father curGini fatherGini curDepth label cond
        = .ok (true, l)) ∧
    (cur ≠ [] → ¬ SameLabel ds label cur →
      ((cur.length : Int) ≤ cond.SampleThreshold ∨
        (cond.DepthThreshold ≠ 0 ∧ curDepth ≥ cond.DepthThreshold) ∨
        giniAtMost curGini cond.GiniThreshold = true) →
      ∃ l, DecideTerminateTagPart ρ ds cur father curGini fatherGini curDepth label cond
          = .ok (true, l) ∧
        IsMajorityLabel ds label cur l ∧
        ((∃ id ∈ cur, (labelOf ds label id).isSome) → 0 < labelCount ds label cur l)) := by
  have hstop : cur ≠ [] → ¬ SameLabel ds label cur →
      ((cur.length : Int) ≤ cond.SampleThreshold ∨
        (cond.DepthThreshold ≠ 0 ∧ curDepth ≥ cond.DepthThreshold) ∨
        giniAtMost curGini cond.GiniThreshold = true) →
      ∃ l, DecideTerminateTagPart ρ ds cur father curGini fatherGini curDepth label cond
          = .ok (true, l) ∧
        IsMajorityLabel ds label cur l ∧
        ((∃ id ∈ cur, (labelOf ds label id).isSome) → 0 < labelCount ds label cur l) := by
    intro hne hs hc
    obtain ⟨c, hget, hmaj, hocc⟩ := GetMaxLabelTypeTagPart_spec ρ ds cur label hu hne
    refine ⟨c, ?_, hmaj, fun h => Nat.pos_of_ne_zero (hocc h)⟩
    rw [decide_notSame ρ ds cur father curGini fatherGini curDepth label cond hu hne hs,
      if_pos hc, hget]
    rfl
  have hconds : ¬ ((cur.length : Int) ≤ cond.SampleThreshold ∨
        (cond.DepthThreshold ≠ 0 ∧ curDepth ≥ cond.DepthThreshold) ∨
        giniAtMost curGini cond.GiniThreshold = true) ↔
      (cond.SampleThreshold < (cur.length : Int) ∧
        (cond.DepthThreshold = 0 ∨ curDepth < cond.DepthThreshold) ∧
        giniAtMost curGini cond.GiniThreshold = false) := by
    rw [not_or, not_or, not_le, not_and_or, not_not, ge_iff_le, not_le, Bool.not_eq_true]
  have hother : (cur ≠ [] ∨ father ≠ []) →
      ¬ (cur ≠ [] ∧ ¬ SameLabel ds label cur ∧ cond.SampleThreshold < (cur.length : Int) ∧
        (cond.DepthThreshold = 0 ∨ curDepth < cond.DepthThreshold) ∧
        giniAtMost curGini cond.GiniThreshold = false) →
      ∃ l, DecideTerminateTagPart ρ ds cur father curGini fatherGini curDepth label cond
        = .ok (true, l) := by
    intro hlist hnot
    by_cases hne : cur = []
    · subst hne
      have hf : father ≠ [] := by
        rcases hlist with h | h
        · exact absurd rfl h
        · exact h
      obtain ⟨c, hget, -, -⟩ := GetMaxLabelTypeTagPart_spec ρ ds father label hu hf
      exact ⟨c, by rw [decide_empty, hget]; rfl⟩
    · by_cases hs : SameLabel ds label cur
      · obtain ⟨c, -, hres⟩ := decide_same ρ ds cur father curGini fatherGini curDepth label
          cond hu hne hs
        exact ⟨c, hres⟩
      · have hc : (cur.length : Int) ≤ cond.SampleThreshold ∨
            (cond.DepthThreshold ≠ 0 ∧ curDepth ≥ cond.DepthThreshold) ∨
            giniAtMost curGini cond.GiniThreshold = true := by
          by_contra hcon
          exact hnot ⟨hne, hs, hconds.mp hcon⟩
        obtain ⟨l, hl, -⟩ := hstop hne hs hc
        exact ⟨l, hl⟩
  refine ⟨?_, hother, hstop⟩
  constructor
  · intro hres
    by_contra hnot
    by_cases hlist : cur ≠ [] ∨ father ≠ []
    · obtain ⟨l, hl⟩ := hother hlist hnot
      rw [hl] at hres
      cases hres
    · rw [not_or, not_not, not_not] at hlist
      obtain ⟨rfl, rfl⟩ := hlist
      rw [decide_empty] at hres
      simp [GetMaxLabelTypeTagPart, retrieve_nil, getMaxLabelType, isSameType, Except.map]
        at hres
  · rintro ⟨hne, hs, hc⟩
    rw [decide_notSame ρ ds cur father curGini fatherGini curDepth label cond hu hne hs,
      if_neg (hconds.mpr hc)]

/-- A node whose Gini index is NaN passes the Gini test: the node `[0, 1, 3]` of the
test table is split further at depth 1 under the stop condition `(1, 3, 0)` both with
the Gini index `4/9` and with NaN, for which `curGini > GiniThreshold` is false. -/
theorem DecideTerminateTagPart_nan_gini :
    DecideTerminateTagPart RangeOrder.stored toyData [0, 1, 3] [0, 1, 2, 3] (some (4 / 9))
        (some (1 / 2)) 1 "Target" toyCond = .ok (false, "") ∧
    DecideTerminateTagPart RangeOrder.stored toyData [0, 1, 3] [0, 1, 2, 3] none
        (some (1 / 2)) 1 "Target" toyCond = .ok (false, "") :=
  ⟨(DecideTerminateTagPart_branches RangeOrder.stored toyData [0, 1, 3] [0, 1, 2, 3]
      (some (4 / 9)) (some (1 / 2)) 1 "Target" toyCond (by decide)).1.mpr
      ⟨by decide, by decide, by decide, Or.inr (by decide), by
        simp only [giniAtMost, toyCond, decide_eq_false_iff_not]
        norm_num⟩,
   (DecideTerminateTagPart_branches RangeOrder.stored toyData [0, 1, 3] [0, 1, 2, 3]
      none (some (1 / 2)) 1 "Target" toyCond (by decide)).1.mpr
      ⟨by decide, by decide, by decide, Or.inr (by decide), rfl⟩⟩

/-! ## Gini index -/

theorem foldl_add_eq_sum {α : Type} (f : α → ℚ) :
    ∀ (l : List α) (init : ℚ), l.foldl (fun a e => a + f e) init = init + (l.map f).sum := by
  intro l
  induction l with
  | nil => intro init; simp
  | cons e l ih =>
    intro init
    rw [List.foldl_cons, ih, List.map_cons, List.sum_cons]
    ring

theorem foldl_skip_eq_filter {α β : Type} (p : α → Prop) [DecidablePred p] (upd : β → α → β) :
    ∀ (l : List α) (acc : β),
      l.foldl (fun acc v => if ¬ p v then acc else upd acc v) acc
        = (l.filter fun v => p v).foldl upd acc := by
  intro l
  induction l with
  | nil => intro acc; rfl
  | cons a l ih =>
    intro acc
    by_cases hp : p a
    · rw [List.foldl_cons, if_neg (not_not.mpr hp), List.filter_cons_of_pos (by simpa using hp),
        List.foldl_cons]
      exact ih _
    · rw [List.foldl_cons, if_pos hp, List.filter_cons_of_neg (by simpa using hp)]
      exact ih _

theorem unique_restrict_lookup (ρ : RangeOrder) (ds : DTDataSet) (ids : List Int)
    (label : String) (col : DTDataFeature) (h : ds.columns label = [col]) (c : String) :
    (uniqueDataSetTypes ρ (restrictFeature ρ ids col).Sets).lookup c
      = if labelCount ds label ids c = 0 then none
        else some (labelCount ds label ids c : Int) := by
  rw [uniqueDataSetTypes_lookup]
  have : (restrictFeature ρ ids col).Sets.entries.countP (fun e => e.2 = c)
      = labelCount ds label ids c := by
    simp only [restrictFeature, restrictSets_count, labelCount,
      labelOf_of_columns_one ds label _ col h]
  rw [this]

theorem unique_restrict_range_perm (ρ : RangeOrder) (ds : DTDataSet) (ids : List Int)
    (label : String) (col : DTDataFeature) (h : ds.columns label = [col]) :
    ((uniqueDataSetTypes ρ (restrictFeature ρ ids col).Sets).range ρ).Perm
      ((labelsOf ds label ids).map fun c => (c, (labelCount ds label ids c : Int))) := by
  have hnd1 : ((uniqueDataSetTypes ρ (restrictFeature ρ ids col).Sets).range ρ).Nodup :=
    List.Nodup.of_map Prod.fst (range_keys_nodup ρ _)
  have hnd2 : ((labelsOf ds label ids).map
      fun c => (c, (labelCount ds label ids c : Int))).Nodup := by
    apply List.Nodup.map _ (List.nodup_dedup _)
    intro a b hab
    exact (Prod.mk.inj hab).1
  rw [List.perm_ext_iff_of_nodup hnd1 hnd2]
  rintro ⟨c, n⟩
  rw [mem_range_iff, unique_restrict_lookup ρ ds ids label col h, List.mem_map]
  constructor
  · intro hl
    split at hl
    · cases hl
    · rename_i h0
      have hn : (labelCount ds label ids c : Int) = n := Option.some.inj hl
      exact ⟨c, (mem_labelsOf ds label ids c).mpr ((labelCount_pos_iff ds label ids c).mp h0),
        by rw [hn]⟩
  · rintro ⟨c1, hc1, heq⟩
    simp only [Prod.mk.injEq] at heq
    obtain ⟨rfl, rfl⟩ := heq
    have := (labelCount_pos_iff ds label ids c1).mpr ((mem_labelsOf ds label ids c1).mp hc1)
    simp [this]

theorem restrict_len (ρ : RangeOrder) (ds : DTDataSet) (ids : List Int)
    (label : String) (col : DTDataFeature) (h : ds.columns label = [col]) :
    (restrictFeature ρ ids col).Sets.len = sampleCount ds label ids := by
  simp only [restrictFeature, restrictSets_len, sampleCount,
    labelOf_of_columns_one ds label _ col h]

theorem calSingle_restrict (ρ : RangeOrder) (ds : DTDataSet) (ids : List Int)
    (label : String) (col : DTDataFeature) (h : ds.columns label = [col]) :
    calSingleDataSetsGini ρ (restrictFeature ρ ids col)
      = (giniCode ds label ids, (sampleCount ds label ids : Int)) := by
  unfold calSingleDataSetsGini giniCode
  simp only [restrict_len ρ ds ids label col h]
  rw [foldl_add_eq_sum (fun e : String × Int =>
      ((e.2 : ℚ) / (((sampleCount ds label ids : Nat) : Int) : ℚ)) ^ 2),
    ((unique_restrict_range_perm ρ ds ids label col h).map _).sum_eq, List.map_map]
  simp [Function.comp_def]


theorem giniAccumulate_restrict (ρ : RangeOrder) (ds : DTDataSet) (ids : List Int)
    (label : String) (col : DTDataFeature) (h : ds.columns label = [col]) (index : Nat)
    (acc : GiniAcc) :
    (ds.Features.map (restrictFeature ρ ids)).foldl (giniAccumulate ρ label index) acc
      = { dataSetsTotal := acc.dataSetsTotal + (sampleCount ds label ids : Int)
          dataSliceGinis := acc.dataSliceGinis.set (index : Int) (giniCode ds label ids)
          dataSliceTotal := acc.dataSliceTotal.set (index : Int)
            (sampleCount ds label ids : Int) } := by
  have hfold := foldl_skip_eq_filter (fun f : DTDataFeature => f.FeatureName = label)
    (fun (acc : GiniAcc) (feature : DTDataFeature) =>
      ({ dataSetsTotal := acc.dataSetsTotal + (calSingleDataSetsGini ρ feature).2
         dataSliceGinis := acc.dataSliceGinis.set (index : Int)
           (calSingleDataSetsGini ρ feature).1
         dataSliceTotal := acc.dataSliceTotal.set (index : Int)
           (calSingleDataSetsGini ρ feature).2 } : GiniAcc))
    (ds.Features.map (restrictFeature ρ ids)) acc
  unfold giniAccumulate
  rw [hfold, columns_restrict, h]
  simp only [List.map_cons, List.map_nil, List.foldl_cons, List.foldl_nil,
    calSingle_restrict ρ ds ids label col h]

theorem giniWeightedSum_fold (total : Int) (ginis : GoMap Int ℚ) (h0 : total ≠ 0) :
    ∀ (l : List (Int × Int)) (init : ℚ),
      l.foldl
        (fun (gini : Option ℚ) (e : Int × Int) =>
          if total = 0 then none
          else gini.map fun g =>
            g + ((e.2 : ℚ) / (total : ℚ)) * (ginis.lookup e.1).getD 0)
        (some init)
      = some (init + (l.map fun e =>
          ((e.2 : ℚ) / (total : ℚ)) * (ginis.lookup e.1).getD 0).sum) := by
  intro l
  induction l with
  | nil => intro init; simp
  | cons e l ih =>
    intro init
    rw [List.foldl_cons, if_neg h0, Option.map_some', ih, List.map_cons, List.sum_cons]
    congr 1
    ring

theorem giniWeightedSum_eq (ρ : RangeOrder) (acc : GiniAcc) (h0 : acc.dataSetsTotal ≠ 0) :
    giniWeightedSum ρ acc
      = some ((acc.dataSliceTotal.entries.map fun e =>
          ((e.2 : ℚ) / (acc.dataSetsTotal : ℚ)) * (acc.dataSliceGinis.lookup e.1).getD 0).sum) := by
  unfold giniWeightedSum
  rw [giniWeightedSum_fold acc.dataSetsTotal acc.dataSliceGinis h0, zero_add, GoMap.range,
    ((ρ.perm _).map _).sum_eq, List.map_map]
  rfl

theorem giniWeightedSum_zero (ρ : RangeOrder) (acc : GiniAcc) (h0 : acc.dataSetsTotal = 0)
    (hne : acc.dataSliceTotal.entries ≠ []) : giniWeightedSum ρ acc = none := by
  unfold giniWeightedSum
  have hr : acc.dataSliceTotal.range ρ ≠ [] := by
    intro hnil
    have hp := ρ.perm (acc.dataSliceTotal.entries.map fun e => ((e.1, e.2) : Int × Int))
    rw [GoMap.range] at hnil
    rw [hnil] at hp
    have := hp.symm.eq_nil
    simp at this
    exact hne this
  have hnone : ∀ (l : List (Int × Int)), l.foldl
      (fun (gini : Option ℚ) (e : Int × Int) =>
        if acc.dataSetsTotal = 0 then none
        else gini.map fun g =>
          g + ((e.2 : ℚ) / (acc.dataSetsTotal : ℚ)) * (acc.dataSliceGinis.lookup e.1).getD 0)
      none = none := by
    intro l
    induction l with
    | nil => rfl
    | cons e l ih => rw [List.foldl_cons, if_pos h0]; exact ih
  match hm : acc.dataSliceTotal.range ρ with
  | [] => exact absurd hm hr
  | e :: l => rw [List.foldl_cons, if_pos h0]; exact hnone l

theorem CalGini_nil_nil (ρ : RangeOrder) (ds : DTDataSet) (label : String) :
    CalGiniByTagPart ρ ds [] [] label = some 0 := by
  simp only [CalGiniByTagPart, retrieve_nil, calMultiDataSetsGini, List.enum_cons,
    List.enumFrom_cons, List.enumFrom_nil, List.enum_nil, List.foldl_cons, List.foldl_nil,
    giniWeightedSum, GoMap.range]
  have : (∅ : GoMap Int Int).entries = [] := rfl
  rw [this, List.map_nil, List.Perm.eq_nil (ρ.perm _)]
  rfl

theorem CalGini_left (ρ : RangeOrder) (ds : DTDataSet) (L : List Int) (label : String)
    (col : DTDataFeature) (h : ds.columns label = [col]) (hL : L ≠ [])
    (hN : sampleCount ds label L ≠ 0) :
    CalGiniByTagPart ρ ds L [] label = some (giniCode ds label L) := by
  simp only [CalGiniByTagPart, retrieve_nil, retrieve_of_ne_nil ρ ds L hL, calMultiDataSetsGini,
    List.enum_cons, List.enumFrom_cons, List.enumFrom_nil, List.enum_nil, List.foldl_cons,
    List.foldl_nil, giniAccumulate_restrict ρ ds L label col h]
  have hN' : ((sampleCount ds label L : Int) : ℚ) ≠ 0 := by exact_mod_cast hN
  rw [giniWeightedSum_eq ρ _ (by simpa using hN)]
  simp only [GoMap.set, zero_add, Nat.cast_zero]
  rw [AList.insert_entries_of_neg (AList.not_mem_empty _)]
  simp only [AList.lookup_insert, List.map_cons, Option.getD_some]
  have : (∅ : GoMap Int Int).entries = [] := rfl
  rw [this, List.map_nil, List.sum_cons, List.sum_nil, add_zero, div_self hN', one_mul]

theorem CalGini_both (ρ : RangeOrder) (ds : DTDataSet) (L R : List Int) (label : String)
    (col : DTDataFeature) (h : ds.columns label = [col]) (hL : L ≠ []) (hR : R ≠ [])
    (hN : sampleCount ds label L + sampleCount ds label R ≠ 0) :
    CalGiniByTagPart ρ ds L R label
      = some (((sampleCount ds label L : ℚ) * giniCode ds label L
          + (sampleCount ds label R : ℚ) * giniCode ds label R)
          / ((sampleCount ds label L : ℚ) + (sampleCount ds label R : ℚ))) := by
  simp only [CalGiniByTagPart, retrieve_of_ne_nil ρ ds L hL, retrieve_of_ne_nil ρ ds R hR,
    calMultiDataSetsGini, List.enum_cons, List.enumFrom_cons, List.enumFrom_nil, List.enum_nil,
    List.foldl_cons, List.foldl_nil, giniAccumulate_restrict ρ ds _ label col h]
  have hN' : (sampleCount ds label L : ℚ) + (sampleCount ds label R : ℚ) ≠ 0 := by
    exact_mod_cast hN
  rw [giniWeightedSum_eq ρ _ (by
    simp only [zero_add]
    exact_mod_cast hN)]
  simp only [GoMap.set, zero_add, Nat.cast_zero, Nat.cast_one]
  have h10 : (1 : Int) ∉ (AList.insert (0 : Int) (sampleCount ds label L : Int)
      (∅ : GoMap Int Int)) := by
    rw [AList.mem_insert]
    rintro (h | h)
    · exact absurd h (by decide)
    · exact AList.not_mem_empty _ h
  rw [AList.insert_entries_of_neg h10, AList.insert_entries_of_neg (AList.not_mem_empty _)]
  have : (∅ : GoMap Int Int).entries = [] := rfl
  rw [this]
  simp only [List.map_cons, List.map_nil, List.sum_cons, List.sum_nil, add_zero,
    AList.lookup_insert, Option.getD_some,
    AList.lookup_insert_ne (show (0 : Int) ≠ 1 by decide)]
  congr 1
  push_cast
  field_simp
  ring


theorem CalGini_right (ρ : RangeOrder) (ds : DTDataSet) (R : List Int) (label : String)
    (col : DTDataFeature) (h : ds.columns label = [col]) (hR : R ≠ [])
    (hN : sampleCount ds label R ≠ 0) :
    CalGiniByTagPart ρ ds [] R label = some (giniCode ds label R) := by
  simp only [CalGiniByTagPart, retrieve_nil, retrieve_of_ne_nil ρ ds R hR, calMultiDataSetsGini,
    List.enum_cons, List.enumFrom_cons, List.enumFrom_nil, List.enum_nil, List.foldl_cons,
    List.foldl_nil, giniAccumulate_restrict ρ ds R label col h]
  have hN' : ((sampleCount ds label R : Int) : ℚ) ≠ 0 := by exact_mod_cast hN
  rw [giniWeightedSum_eq ρ _ (by simpa using hN)]
  simp only [GoMap.set, zero_add, Nat.cast_zero, Nat.cast_one]
  rw [AList.insert_entries_of_neg (AList.not_mem_empty _)]
  simp only [AList.lookup_insert, List.map_cons, Option.getD_some]
  have : (∅ : GoMap Int Int).entries = [] := rfl
  rw [this, List.map_nil, List.sum_cons, List.sum_nil, add_zero, div_self hN', one_mul]

theorem sampleCount_of_inColumn (ds : DTDataSet) (label : String) (ids : List Int)
    (hin : InLabelColumn ds label ids) : sampleCount ds label ids = ids.dedup.length := by
  unfold sampleCount
  rw [List.filter_eq_self.mpr]
  intro id hid
  simpa using hin id (List.mem_dedup.mp hid)

theorem giniCode_eq_giniOf (ds : DTDataSet) (label : String) (ids : List Int)
    (hnd : ids.Nodup) (hin : InLabelColumn ds label ids) :
    giniCode ds label ids = giniOf ds label ids ∧ sampleCount ds label ids = ids.length := by
  have h : sampleCount ds label ids = ids.length := by
    rw [sampleCount_of_inColumn ds label ids hin, hnd.dedup]
  exact ⟨by unfold giniCode giniOf; rw [h], h⟩

theorem columns_of_inColumn (ds : DTDataSet) (label : String) (ids : List Int)
    (hu : LabelUnique ds label) (hsome : ∃ id ∈ ids, (labelOf ds label id).isSome) :
    ∃ col, ds.columns label = [col] := by
  rcases columns_cases ds label hu with h | h
  · obtain ⟨id, -, hid⟩ := hsome
    rw [labelOf_of_columns_nil ds label id h] at hid
    cases hid
  · exact h

/-- C10. In a table with at most one column named `label`, for duplicate-free id
lists `L` and `R` whose ids are in the label column: when a side is non-empty,
`CalGiniByTagPart(data, L, R, label) = (|L|·G(L) + |R|·G(R)) / (|L| + |R|)` with
`G(S) = 1 − Σ_c (count_c(S)/|S|)^2`; for non-empty `L`,
`CalGiniByTagPart(data, L, nil, label) = G(L)`; and the result is 0 when both sides
are empty. -/
theorem CalGiniByTagPart_weighted (ρ : RangeOrder) (ds : DTDataSet) (L R : List Int)
    (label : String) (hu : LabelUnique ds label) (hL : L.Nodup) (hR : R.Nodup)
    (hLin : InLabelColumn ds label L) (hRin : InLabelColumn ds label R) :
    (L ≠ [] ∨ R ≠ [] →
      CalGiniByTagPart ρ ds L R label
        = some (((L.length : ℚ) * giniOf ds label L + (R.length : ℚ) * giniOf ds label R)
            / ((L.length : ℚ) + (R.length : ℚ)))) ∧
    (L ≠ [] → CalGiniByTagPart ρ ds L [] label = some (giniOf ds label L)) ∧
    CalGiniByTagPart ρ ds [] [] label = some 0 := by
  obtain ⟨hgL, hnL⟩ := giniCode_eq_giniOf ds label L hL hLin
  obtain ⟨hgR, hnR⟩ := giniCode_eq_giniOf ds label R hR hRin
  have hleft : L ≠ [] → CalGiniByTagPart ρ ds L [] label = some (giniOf ds label L) := by
    intro hne
    obtain ⟨id, hid⟩ := List.exists_mem_of_ne_nil L hne
    obtain ⟨col, hcol⟩ := columns_of_inColumn ds label L hu ⟨id, hid, hLin id hid⟩
    rw [CalGini_left ρ ds L label col hcol hne (by
      rw [hnL]
      exact fun h => hne (List.length_eq_zero.mp h)), hgL]
  refine ⟨?_, hleft, CalGini_nil_nil ρ ds label⟩
  intro hne
  by_cases hLe : L = []
  · have hRe : R ≠ [] := by
      rcases hne with h | h
      · exact absurd hLe h
      · exact h
    obtain ⟨id, hid⟩ := List.exists_mem_of_ne_nil R hRe
    obtain ⟨col, hcol⟩ := columns_of_inColumn ds label R hu ⟨id, hid, hRin id hid⟩
    have hlen : (R.length : ℚ) ≠ 0 := by
      exact_mod_cast fun h => hRe (List.length_eq_zero.mp h)
    subst hLe
    rw [CalGini_right ρ ds R label col hcol hRe (by
      rw [hnR]
      exact fun h => hRe (List.length_eq_zero.mp h)), hgR]
    congr 1
    simp only [List.length_nil, Nat.cast_zero, zero_mul, zero_add]
    field_simp
  · obtain ⟨id, hid⟩ := List.exists_mem_of_ne_nil L hLe
    obtain ⟨col, hcol⟩ := columns_of_inColumn ds label L hu ⟨id, hid, hLin id hid⟩
    have hlen : (L.length : ℚ) ≠ 0 := by
      exact_mod_cast fun h => hLe (List.length_eq_zero.mp h)
    by_cases hRe : R = []
    · subst hRe
      rw [hleft hLe]
      congr 1
      simp only [List.length_nil, Nat.cast_zero, zero_mul, add_zero]
      field_simp
    · rw [CalGini_both ρ ds L R label col hcol hLe hRe (by
        rw [hnL]
        have := List.length_pos.mpr hLe
        omega), hgL, hgR, hnL, hnR]


/-- Witness for C10: the split `[0, 1, 2]` / `[3]` of the test table. -/
theorem CalGiniByTagPart_weighted_witness :
    CalGiniByTagPart RangeOrder.stored toyData [0, 1, 2] [3] "Target"
      = some (((([0, 1, 2] : List Int).length : ℚ) * giniOf toyData "Target" [0, 1, 2]
          + ((([3] : List Int).length : ℚ)) * giniOf toyData "Target" [3])
          / (((([0, 1, 2] : List Int).length : ℚ)) + ((([3] : List Int).length : ℚ)))) ∧
    CalGiniByTagPart RangeOrder.stored toyData [0, 1, 2] [] "Target"
      = some (giniOf toyData "Target" [0, 1, 2]) ∧
    CalGiniByTagPart RangeOrder.stored toyData [] [] "Target" = some 0 :=
  let h := CalGiniByTagPart_weighted RangeOrder.stored toyData [0, 1, 2] [3] "Target"
    (by decide) (by decide) (by decide) (by decide) (by decide)
  ⟨h.1 (Or.inl (by decide)), h.2.1 (by decide), h.2.2⟩

theorem filter_two_labels (f : Int → Option String) (a b : String) (hab : a ≠ b) :
    ∀ l : List Int, (∀ x ∈ l, f x = some a ∨ f x = some b) →
      (l.filter fun x => (f x).isSome).length
        = (l.filter fun x => f x = some a).length + (l.filter fun x => f x = some b).length := by
  intro l
  induction l with
  | nil => intro _; rfl
  | cons x l ih =>
    intro h
    have ih1 := ih fun y hy => h y (List.mem_cons_of_mem _ hy)
    rcases h x (List.mem_cons_self _ _) with hx | hx
    · have hb : f x ≠ some b := by
        rw [hx]
        intro heq
        exact hab (Option.some.inj heq)
      simp only [List.filter_cons, hx, Option.isSome_some, if_true, decide_True,
        List.length_cons, ih1]
      have hb2 : (some a = some b) = False := by
        simp [hab]
      simp only [hb2, decide_False, Bool.false_eq_true, if_false]
      omega
    · have ha : (some b = some a) = False := by
        simp [Ne.symm hab]
      simp only [List.filter_cons, hx, Option.isSome_some, if_true, decide_True,
        List.length_cons, ih1, ha, decide_False, Bool.false_eq_true, if_false]
      omega

/-- C9. In a table with at most one column named `label`: for a non-empty id list
whose samples all carry one label, `CalGiniByTagPart(data, ids, nil, label) = 0`;
and for a non-empty id list whose samples carry one of two distinct labels, as
many the one as the other, it is `1/2`. -/
theorem CalGiniByTagPart_pure_and_balanced (ρ : RangeOrder) (ds : DTDataSet) (ids : List Int)
    (label : String) (hu : LabelUnique ds label) (hne : ids ≠ []) :
    (∀ ℓ, (∀ id ∈ ids, labelOf ds label id = some ℓ) →
      CalGiniByTagPart ρ ds ids [] label = some 0) ∧
    (∀ a b, a ≠ b → (∀ id ∈ ids, labelOf ds label id = some a ∨ labelOf ds label id = some b) →
      labelCount ds label ids a = labelCount ds label ids b →
      CalGiniByTagPart ρ ds ids [] label = some (1 / 2)) := by
  obtain ⟨id0, hid0⟩ := List.exists_mem_of_ne_nil ids hne
  have hdd : ids.dedup.length ≠ 0 := by
    intro h
    have := List.length_eq_zero.mp h
    have hm : id0 ∈ ids.dedup := List.mem_dedup.mpr hid0
    rw [this] at hm
    exact List.not_mem_nil _ hm
  constructor
  · intro ℓ hall
    have hin : InLabelColumn ds label ids := by
      intro id hid
      rw [hall id hid]
      rfl
    obtain ⟨col, hcol⟩ := columns_of_inColumn ds label ids hu ⟨id0, hid0, hin id0 hid0⟩
    have hN := sampleCount_of_inColumn ds label ids hin
    rw [CalGini_left ρ ds ids label col hcol hne (by rw [hN]; exact hdd)]
    have hlabels : labelsOf ds label ids = [ℓ] := by
      apply List.perm_singleton.mp
      have hnd : (labelsOf ds label ids).Nodup := List.nodup_dedup _
      rw [List.perm_ext_iff_of_nodup hnd (List.nodup_singleton ℓ)]
      intro c
      rw [mem_labelsOf, List.mem_singleton]
      constructor
      · rintro ⟨id, hid, hl⟩
        rw [hall id hid] at hl
        exact (Option.some.inj hl).symm
      · rintro rfl
        exact ⟨id0, hid0, hall id0 hid0⟩
    have hcount : labelCount ds label ids ℓ = ids.dedup.length := by
      unfold labelCount
      rw [List.filter_eq_self.mpr]
      intro id hid
      simpa using hall id (List.mem_dedup.mp hid)
    have hq : (ids.dedup.length : ℚ) ≠ 0 := by exact_mod_cast hdd
    unfold giniCode
    rw [hlabels, hN]
    simp only [List.map_cons, List.map_nil, List.sum_cons, List.sum_nil, add_zero]
    rw [hcount, div_self hq]
    norm_num
  · intro a b hab hall heq
    have hin : InLabelColumn ds label ids := by
      intro id hid
      rcases hall id hid with h | h <;> rw [h] <;> rfl
    obtain ⟨col, hcol⟩ := columns_of_inColumn ds label ids hu ⟨id0, hid0, hin id0 hid0⟩
    have hN := sampleCount_of_inColumn ds label ids hin
    have hsum : sampleCount ds label ids
        = labelCount ds label ids a + labelCount ds label ids b := by
      unfold sampleCount labelCount
      exact filter_two_labels (labelOf ds label) a b hab ids.dedup
        fun x hx => hall x (List.mem_dedup.mp hx)
    have hpos : labelCount ds label ids a ≠ 0 := by
      intro h0
      rw [hN, ← heq, h0] at hsum
      exact hdd hsum
    have hposb : labelCount ds label ids b ≠ 0 := by
      rw [← heq]
      exact hpos
    rw [CalGini_left ρ ds ids label col hcol hne (by rw [hN]; exact hdd)]
    have hperm : (labelsOf ds label ids).Perm [a, b] := by
      have hnd : (labelsOf ds label ids).Nodup := List.nodup_dedup _
      have hnd2 : [a, b].Nodup := by simp [hab]
      rw [List.perm_ext_iff_of_nodup hnd hnd2]
      intro c
      rw [mem_labelsOf]
      simp only [List.mem_cons, List.mem_singleton, List.not_mem_nil, or_false]
      constructor
      · rintro ⟨id, hid, hl⟩
        rcases hall id hid with h | h
        · rw [h] at hl
          exact Or.inl (Option.some.inj hl).symm
        · rw [h] at hl
          exact Or.inr (Option.some.inj hl).symm
      · rintro (rfl | rfl)
        · exact (labelCount_pos_iff ds label ids _).mp hpos
        · exact (labelCount_pos_iff ds label ids _).mp hposb
    unfold giniCode
    rw [(hperm.map _).sum_eq, hsum]
    simp only [List.map_cons, List.map_nil, List.sum_cons, List.sum_nil, add_zero]
    rw [← heq]
    have hq : (labelCount ds label ids a : ℚ) ≠ 0 := by exact_mod_cast hpos
    congr 1
    push_cast
    field_simp
    ring

/-- Witness for C9: `[0, 2, 4]` is pure and `[0, 1, 2, 3]` is evenly split in the
test table. -/
theorem CalGiniByTagPart_pure_and_balanced_witness :
    CalGiniByTagPart RangeOrder.stored toyData [0, 2, 4] [] "Target" = some 0 ∧
    CalGiniByTagPart RangeOrder.stored toyData [0, 1, 2, 3] [] "Target" = some (1 / 2) :=
  ⟨(CalGiniByTagPart_pure_and_balanced RangeOrder.stored toyData [0, 2, 4] "Target"
      (by decide) (by decide)).1 "yes" (by decide),
   (CalGiniByTagPart_pure_and_balanced RangeOrder.stored toyData [0, 1, 2, 3] "Target"
      (by decide) (by decide)).2 "yes" "no" (by decide) (by decide) (by decide)⟩

/-! ## Node keys -/

theorem digitsRev_lt (fuel : Nat) : ∀ n x, x ∈ digitsRev fuel n → x < 10 := by
  induction fuel with
  | zero => intro n x h; simp [digitsRev] at h
  | succ f ih =>
    intro n x h
    unfold digitsRev at h
    split at h
    · rename_i hn
      rw [List.mem_singleton] at h
      omega
    · rcases List.mem_cons.mp h with h | h
      · omega
      · exact ih _ _ h

theorem digitsRev_value (fuel : Nat) : ∀ n, n < fuel → Nat.ofDigits 10 (digitsRev fuel n) = n := by
  induction fuel with
  | zero => intro n h; omega
  | succ f ih =>
    intro n h
    unfold digitsRev
    split
    · simp [Nat.ofDigits]
    · rename_i hn
      rw [Nat.ofDigits_cons, ih (n / 10) (by omega)]
      omega

theorem digitsRev_ne_nil (fuel n : Nat) : digitsRev (fuel + 1) n ≠ [] := by
  unfold digitsRev
  split <;> simp

theorem digitsRev_last (fuel : Nat) : ∀ n, n < fuel →
    (digitsRev fuel n).getLast? ≠ some 0 ∨ digitsRev fuel n = [0] := by
  induction fuel with
  | zero => intro n h; omega
  | succ f ih =>
    intro n h
    unfold digitsRev
    split
    · rename_i hn
      by_cases h0 : n = 0
      · right; rw [h0]
      · left; simp [List.getLast?_singleton, h0]
    · rename_i hn
      left
      have hlt : n / 10 < f := by omega
      have hne : digitsRev f (n / 10) ≠ [] := by
        cases f with
        | zero => omega
        | succ g => exact digitsRev_ne_nil g _
      obtain ⟨b, l, hbl⟩ := List.exists_cons_of_ne_nil hne
      rw [hbl, List.getLast?_cons_cons, ← hbl]
      rcases ih (n / 10) hlt with h1 | h1
      · exact h1
      · have hv := digitsRev_value f (n / 10) hlt
        rw [h1] at hv
        simp [Nat.ofDigits] at hv
        omega

theorem FormatInt_isDecimalText (d : Int) : IsDecimalText (FormatInt d) d := by
  refine ⟨(digitsRev (d.natAbs + 1) d.natAbs).reverse, ?_, ?_, ?_, ?_, rfl⟩
  · simpa using digitsRev_ne_nil d.natAbs d.natAbs
  · intro x hx
    exact digitsRev_lt _ _ x (List.mem_reverse.mp hx)
  · rcases digitsRev_last (d.natAbs + 1) d.natAbs (by omega) with h | h
    · left
      rw [List.head?_reverse]
      exact h
    · right
      rw [h]
      rfl
  · rw [List.reverse_reverse]
    exact digitsRev_value _ _ (by omega)

theorem digits_canonical (L : List Nat) (hne : L ≠ []) (hlt : ∀ x ∈ L, x < 10)
    (hlast : L.getLast? ≠ some 0 ∨ L = [0]) :
    L = if Nat.ofDigits 10 L = 0 then [0] else Nat.digits 10 (Nat.ofDigits 10 L) := by
  rcases hlast with h | h
  · have hw : ∀ h' : L ≠ [], L.getLast h' ≠ 0 := by
      intro h' h0
      apply h
      rw [List.getLast?_eq_getLast _ h', h0]
    have hd := Nat.digits_ofDigits 10 (by omega) L hlt hw
    have hnz : Nat.ofDigits 10 L ≠ 0 := by
      intro h0
      rw [h0] at hd
      simp at hd
      exact hne hd
    rw [if_neg hnz, hd]
  · rw [h]
    simp

theorem digits_unique (L1 L2 : List Nat) (hne1 : L1 ≠ []) (hne2 : L2 ≠ [])
    (hlt1 : ∀ x ∈ L1, x < 10) (hlt2 : ∀ x ∈ L2, x < 10)
    (hlast1 : L1.getLast? ≠ some 0 ∨ L1 = [0]) (hlast2 : L2.getLast? ≠ some 0 ∨ L2 = [0])
    (hv : Nat.ofDigits 10 L1 = Nat.ofDigits 10 L2) : L1 = L2 := by
  rw [digits_canonical L1 hne1 hlt1 hlast1, digits_canonical L2 hne2 hlt2 hlast2, hv]

theorem digitByte_inj (x y : Nat) (hx : x < 10) (hy : y < 10)
    (h : UInt8.ofNat (48 + x) = UInt8.ofNat (48 + y)) : x = y := by
  have h1 := congrArg UInt8.toNat h
  rw [UInt8.toNat_ofNat_of_lt (by simp [UInt8.size]; omega),
    UInt8.toNat_ofNat_of_lt (by simp [UInt8.size]; omega)] at h1
  omega

theorem digitBytes_inj : ∀ (L1 L2 : List Nat), (∀ x ∈ L1, x < 10) → (∀ x ∈ L2, x < 10) →
    L1.map (fun x => UInt8.ofNat (48 + x)) = L2.map (fun x => UInt8.ofNat (48 + x)) →
    L1 = L2 := by
  intro L1
  induction L1 with
  | nil =>
    intro L2 _ _ h
    cases L2 with
    | nil => rfl
    | cons y L2 => simp at h
  | cons x L1 ih =>
    intro L2 h1 h2 h
    cases L2 with
    | nil => simp at h
    | cons y L2 =>
      simp only [List.map_cons, List.cons.injEq] at h
      have hxy := digitByte_inj x y (h1 x (List.mem_cons_self _ _)) (h2 y (List.mem_cons_self _ _))
        h.1
      rw [hxy, ih L2 (fun z hz => h1 z (List.mem_cons_of_mem _ hz))
        (fun z hz => h2 z (List.mem_cons_of_mem _ hz)) h.2]

theorem digitByte_ne_minus (x : Nat) (hx : x < 10) : UInt8.ofNat (48 + x) ≠ 45 := by
  intro h
  have h1 := congrArg UInt8.toNat h
  rw [UInt8.toNat_ofNat_of_lt (by simp [UInt8.size]; omega)] at h1
  have : (45 : UInt8).toNat = 45 := rfl
  omega

/-- A byte string is the decimal text of at most one integer, and an integer has
exactly one decimal text. -/
theorem isDecimalText_unique (t1 t2 : Bytes) (d1 d2 : Int) (h1 : IsDecimalText t1 d1)
    (h2 : IsDecimalText t2 d2) : t1 = t2 ↔ d1 = d2 := by
  obtain ⟨D1, hne1, hlt1, hlead1, hv1, ht1⟩ := h1
  obtain ⟨D2, hne2, hlt2, hlead2, hv2, ht2⟩ := h2
  have hl1 : D1.reverse.getLast? ≠ some 0 ∨ D1.reverse = [0] := by
    rcases hlead1 with h | h
    · left; rwa [List.getLast?_reverse]
    · right; rw [h]; rfl
  have hl2 : D2.reverse.getLast? ≠ some 0 ∨ D2.reverse = [0] := by
    rcases hlead2 with h | h
    · left; rwa [List.getLast?_reverse]
    · right; rw [h]; rfl
  have huniq : d1.natAbs = d2.natAbs → D1 = D2 := by
    intro habs
    have := digits_unique D1.reverse D2.reverse (by simpa using hne1) (by simpa using hne2)
      (fun x hx => hlt1 x (List.mem_reverse.mp hx)) (fun x hx => hlt2 x (List.mem_reverse.mp hx))
      hl1 hl2 (by rw [hv1, hv2, habs])
    exact List.reverse_injective this
  constructor
  · intro ht
    rw [ht1, ht2] at ht
    obtain ⟨x1, r1, hD1⟩ := List.exists_cons_of_ne_nil hne1
    obtain ⟨x2, r2, hD2⟩ := List.exists_cons_of_ne_nil hne2
    have hx1 : x1 < 10 := hlt1 x1 (by rw [hD1]; exact List.mem_cons_self _ _)
    have hx2 : x2 < 10 := hlt2 x2 (by rw [hD2]; exact List.mem_cons_self _ _)
    by_cases hs1 : d1 < 0 <;> by_cases hs2 : d2 < 0
    · simp only [hs1, hs2, if_true, List.cons_append, List.nil_append, List.cons.injEq,
        true_and] at ht
      have hD := digitBytes_inj D1 D2 hlt1 hlt2 ht
      rw [hD, hv2] at hv1
      omega
    · simp only [hs1, hs2, if_true, if_false, List.cons_append, List.nil_append, hD2,
        List.map_cons, List.cons.injEq] at ht
      exact absurd ht.1.symm (digitByte_ne_minus x2 hx2)
    · simp only [hs1, hs2, if_true, if_false, List.cons_append, List.nil_append, hD1,
        List.map_cons, List.cons.injEq] at ht
      exact absurd ht.1 (digitByte_ne_minus x1 hx1)
    · simp only [hs1, hs2, if_false, List.nil_append] at ht
      have hD := digitBytes_inj D1 D2 hlt1 hlt2 ht
      rw [hD, hv2] at hv1
      omega
  · intro hd
    subst hd
    rw [ht1, ht2, huniq rfl]

theorem FormatInt_injective (d1 d2 : Int) (h : FormatInt d1 = FormatInt d2) : d1 = d2 :=
  (isDecimalText_unique _ _ d1 d2 (FormatInt_isDecimalText d1) (FormatInt_isDecimalText d2)).mp h

theorem hexVal_hextable (d : Nat) (h : d < 16) : hexVal (hextable.getD d '0') = some d := by
  interval_cases d <;> decide

theorem hextable_mem (d : Nat) (h : d < 16) : hextable.getD d '0' ∈ hextable := by
  interval_cases d <;> decide

theorem hexDecode_encode (src : Bytes) : hexDecode (hexEncodeToString src).data = some src := by
  induction src with
  | nil => rfl
  | cons v src ih =>
    have hv : v.toNat < 256 := UInt8.toNat_lt_size v
    have hb : UInt8.ofNat (16 * (v.toNat / 16) + v.toNat % 16) = v := by
      apply UInt8.toNat.inj
      rw [UInt8.toNat_ofNat_of_lt (by simp [UInt8.size]; omega)]
      omega
    simp only [hexEncodeToString, hexChars, hexDecode] at ih ⊢
    rw [hexVal_hextable _ (by omega), hexVal_hextable _ (Nat.mod_lt _ (by omega)), ih]
    simp only [hb]

theorem hexEncode_length (src : Bytes) : (hexEncodeToString src).length = 2 * src.length := by
  induction src with
  | nil => rfl
  | cons v src ih =>
    simp only [hexEncodeToString, String.length, hexChars, List.length_cons] at ih ⊢
    omega

theorem hexEncode_chars (src : Bytes) : ∀ c ∈ (hexEncodeToString src).data, c ∈ hextable := by
  induction src with
  | nil => intro c h; simp [hexEncodeToString, hexChars] at h
  | cons v src ih =>
    intro c h
    have hv : v.toNat < 256 := UInt8.toNat_lt_size v
    simp only [hexEncodeToString, hexChars, List.mem_cons] at ih h
    rcases h with h | h | h
    · rw [h]; exact hextable_mem _ (by omega)
    · rw [h]; exact hextable_mem _ (Nat.mod_lt _ (by omega))
    · exact ih c h

theorem hexEncode_injective (a b : Bytes) (h : hexEncodeToString a = hexEncodeToString b) :
    a = b := by
  have ha := hexDecode_encode a
  rw [h, hexDecode_encode b] at ha
  exact (Option.some.inj ha).symm

/-- C12. When the digest returns 32 bytes, `NodeKeyByDepthIndex(d, i)` is the
lowercase hex encoding of `SHA256(SHA256(td) ‖ ti)` for the decimal texts `td` of
`d` and `ti` of `i`: it has 64 characters, all of them among `0123456789abcdef`,
and decoding them pairwise gives that digest. -/
theorem NodeKeyByDepthIndex_hex (lib : Stdlib) (depth index : Int)
    (hlen : ∀ m, (lib.sha256 m).length = 32) :
    (∃ td ti, IsDecimalText td depth ∧ IsDecimalText ti index) ∧
    ∀ td ti, IsDecimalText td depth → IsDecimalText ti index →
      hexDecode (NodeKeyByDepthIndex lib depth index).data
          = some (lib.sha256 (lib.sha256 td ++ ti)) ∧
        (NodeKeyByDepthIndex lib depth index).length = 64 ∧
        ∀ c ∈ (NodeKeyByDepthIndex lib depth index).data, c ∈ "0123456789abcdef".data := by
  refine ⟨⟨_, _, FormatInt_isDecimalText depth, FormatInt_isDecimalText index⟩, ?_⟩
  intro td ti htd hti
  have h1 : td = FormatInt depth :=
    (isDecimalText_unique td _ depth depth htd (FormatInt_isDecimalText depth)).mpr rfl
  have h2 : ti = FormatInt index :=
    (isDecimalText_unique ti _ index index hti (FormatInt_isDecimalText index)).mpr rfl
  subst h1 h2
  refine ⟨hexDecode_encode _, ?_, hexEncode_chars _⟩
  rw [NodeKeyByDepthIndex, hexEncode_length]
  simp only [HashUsingSha256, hlen]

theorem libPad_length (m : Bytes) : (libPad.sha256 m).length = 32 := by
  simp [libPad]

/-- Witness for C12: the key of the root under the padding digest. -/
theorem NodeKeyByDepthIndex_hex_witness :
    hexDecode (NodeKeyByDepthIndex libPad 0 0).data
        = some (libPad.sha256 (libPad.sha256 [48] ++ [48])) ∧
      (NodeKeyByDepthIndex libPad 0 0).length = 64 ∧
      ∀ c ∈ (NodeKeyByDepthIndex libPad 0 0).data, c ∈ "0123456789abcdef".data :=
  (NodeKeyByDepthIndex_hex libPad 0 0 libPad_length).2 [48] [48]
    (FormatInt_isDecimalText 0) (FormatInt_isDecimalText 0)

/-- C13. If the digest returns 32 bytes and has no collision on the byte strings
that `NodeKeyByDepthIndex` hashes for `(d1, i1)` and `(d2, i2)`, then equal keys
come from equal pairs. -/
theorem NodeKeyByDepthIndex_injective (lib : Stdlib) (d1 i1 d2 i2 : Int)
    (hlen : ∀ m, (lib.sha256 m).length = 32)
    (hinner : lib.sha256 (FormatInt d1) = lib.sha256 (FormatInt d2) →
      FormatInt d1 = FormatInt d2)
    (houter : lib.sha256 (lib.sha256 (FormatInt d1) ++ FormatInt i1)
        = lib.sha256 (lib.sha256 (FormatInt d2) ++ FormatInt i2) →
      lib.sha256 (FormatInt d1) ++ FormatInt i1 = lib.sha256 (FormatInt d2) ++ FormatInt i2)
    (hkey : NodeKeyByDepthIndex lib d1 i1 = NodeKeyByDepthIndex lib d2 i2) :
    d1 = d2 ∧ i1 = i2 := by
  have h1 := houter (hexEncode_injective _ _ hkey)
  have h2 := List.append_inj h1 (by rw [hlen, hlen])
  exact ⟨FormatInt_injective _ _ (hinner h2.1), FormatInt_injective _ _ h2.2⟩

/-- Witness for C13: under the padding digest the keys of `(3, 5)` and `(3, 5)`
agree. -/
theorem NodeKeyByDepthIndex_injective_witness :
    NodeKeyByDepthIndex libPad 3 5 = NodeKeyByDepthIndex libPad 3 5 ∧ (3 : Int) = 3 ∧ (5 : Int) = 5 :=
  ⟨rfl, NodeKeyByDepthIndex_injective libPad 3 5 3 5 libPad_length (fun _ => rfl) (fun _ => rfl)
    rfl⟩

/-! ## `GetMaxLabelTypeTagPart` -/

/-- C11. In a table with at most one column named `label`, for every non-empty id
list whose ids are in the label column, `GetMaxLabelTypeTagPart` returns a label
that occurs among those samples and that no other label outnumbers (whichever of
the maximal labels the range order of the count map selects). -/
theorem GetMaxLabelTypeTagPart_majority (ρ : RangeOrder) (ds : DTDataSet) (ids : List Int)
    (label : String) (hu : LabelUnique ds label) (hne : ids ≠ [])
    (hin : InLabelColumn ds label ids) :
    ∃ c, GetMaxLabelTypeTagPart ρ ds ids label = .ok c ∧
      (∃ id ∈ ids, labelOf ds label id = some c) ∧
      ∀ c', labelCount ds label ids c' ≤ labelCount ds label ids c := by
  obtain ⟨c, hc, hmaj, hocc⟩ := GetMaxLabelTypeTagPart_spec ρ ds ids label hu hne
  obtain ⟨id, hid⟩ := List.exists_mem_of_ne_nil ids hne
  exact ⟨c, hc, (labelCount_pos_iff ds label ids c).mp (hocc ⟨id, hid, hin id hid⟩), hmaj⟩

/-- Witness for C11: the samples `[0, 1, 3]` of the test table. -/
theorem GetMaxLabelTypeTagPart_majority_witness :
    ∃ c, GetMaxLabelTypeTagPart RangeOrder.stored toyData [0, 1, 3] "Target" = .ok c ∧
      (∃ id ∈ [(0 : Int), 1, 3], labelOf toyData "Target" id = some c) ∧
      ∀ c', labelCount toyData "Target" [0, 1, 3] c' ≤ labelCount toyData "Target" [0, 1, 3] c :=
  GetMaxLabelTypeTagPart_majority RangeOrder.stored toyData [0, 1, 3] "Target"
    (by decide) (by decide) (by decide)

/-! ## `PredictionStep` -/

theorem PredictionStep_step (lib : Stdlib) (parseFloat : String → Option ℚ) (fuel : Nat)
    (model : GoMap String CTreeNode) (sample : GoMap String String) (d i j : Int)
    (node : CTreeNode) (hs : SplitsAt lib model d i node)
    (hc : childIndex parseFloat node sample i = some j) :
    PredictionStep lib parseFloat (fuel + 1) model sample d i
      = PredictionStep lib parseFloat fuel model sample (wrapInt (d + 1)) j := by
  obtain ⟨hl, hr, hsv⟩ := hs
  conv_lhs => rw [PredictionStep]
  simp only [hl, hr, hsv, ne_eq, not_false_eq_true, true_or, if_true, not_true_eq_false,
    if_false]
  unfold childIndex at hc
  by_cases hcont : node.Continuous = true
  · simp only [hcont, if_true, not_true_eq_false, if_false] at hc ⊢
    cases hp : parseFloat (sample.getStr node.FeatureName) with
    | none => simp [hp] at hc
    | some x =>
      cases hv : node.SplitValue with
      | none => exact absurd hv hsv
      | some sv =>
        cases sv with
        | str s => simp [hp, hv] at hc
        | float v =>
          simp only [hp, hv, Option.some.injEq] at hc
          simp only [mul_comm i 2, hc]
  · simp only [hcont, Bool.false_eq_true, if_false, not_false_eq_true, if_true,
      Option.some.injEq] at hc ⊢
    simp only [mul_comm i 2, hc]

theorem PredictionStep_route (lib : Stdlib) (parseFloat : String → Option ℚ)
    (model : GoMap String CTreeNode) (sample : GoMap String String) (d i d' i' : Int) (n : Nat)
    (hr : RoutesTo lib parseFloat model sample d i d' i' n) (fuel : Nat) :
    PredictionStep lib parseFloat (fuel + n) model sample d i
      = PredictionStep lib parseFloat fuel model sample d' i' := by
  induction hr with
  | here d i => rfl
  | step d i d' i' j n node hs hc _ ih =>
    rw [← add_assoc, PredictionStep_step lib parseFloat (fuel + n) model sample d i j node hs hc]
    exact ih

theorem PredictionStep_leaf (lib : Stdlib) (parseFloat : String → Option ℚ) (fuel : Nat)
    (model : GoMap String CTreeNode) (sample : GoMap String String) (d i : Int)
    (leaf : CTreeNode) (hl : model.lookup (NodeKeyByDepthIndex lib d i) = some leaf)
    (hres : leaf.Result ≠ "") :
    PredictionStep lib parseFloat (fuel + 1) model sample d i = .ok (leaf.Result, d, i, none) := by
  unfold PredictionStep
  simp only [hl, hres, ne_eq, not_false_eq_true, or_true, if_true]

theorem PredictionStep_handoff (lib : Stdlib) (parseFloat : String → Option ℚ) (fuel : Nat)
    (model : GoMap String CTreeNode) (sample : GoMap String String) (d i : Int)
    (h : model.lookup (NodeKeyByDepthIndex lib d i) = none ∨
      ∃ node, model.lookup (NodeKeyByDepthIndex lib d i) = some node ∧
        node.SplitValue = none ∧ node.Result = "") :
    PredictionStep lib parseFloat (fuel + 1) model sample d i = .ok ("", d, i, none) := by
  unfold PredictionStep
  rcases h with h | ⟨node, h, hsv, hres⟩
  · simp only [h]
  · simp only [h, hsv, hres, ne_eq, not_true_eq_false, or_self, if_false]

/-- C18. If the stored split decisions lead the sample from the start `(depth,
index)` in `n` steps (child `2·index` when its value is at most a continuous split
or equal to a discrete split, `2·index + 1` otherwise, depth + 1, in Go `int`
arithmetic) to a node of the model with a non-empty `Result`, then one call of
`PredictionStep`, which makes `n` recursive calls, returns that `Result` with the
leaf's depth and index and no error. -/
theorem PredictionStep_reaches_leaf (lib : Stdlib) (parseFloat : String → Option ℚ)
    (model : GoMap String CTreeNode) (sample : GoMap String String) (depth index d' i' : Int)
    (n fuel : Nat) (leaf : CTreeNode)
    (hroute : RoutesTo lib parseFloat model sample depth index d' i' n)
    (hleaf : model.lookup (NodeKeyByDepthIndex lib d' i') = some leaf)
    (hres : leaf.Result ≠ "") (hfuel : n < fuel) :
    PredictionStep lib parseFloat fuel model sample depth index
      = .ok (leaf.Result, d', i', none) := by
  obtain ⟨k, rfl⟩ : ∃ k, fuel = (k + 1) + n := ⟨fuel - n - 1, by omega⟩
  rw [PredictionStep_route lib parseFloat model sample depth index d' i' n hroute,
    PredictionStep_leaf lib parseFloat k model sample d' i' leaf hleaf hres]

/-- Witness for C18: the root of the test model sends the sample with `Age = 30`
to its left child, a leaf. -/
theorem PredictionStep_reaches_leaf_witness :
    PredictionStep libSqueeze toyParse 2 toyModel toySample 0 0 = .ok ("yes", 1, 0, none) :=
  PredictionStep_reaches_leaf libSqueeze toyParse toyModel toySample 0 0 1 0 1 2 (toyLeaf 1 0 "yes")
    (RoutesTo.step 0 0 1 0 0 0 toyRoot ⟨rfl, rfl, by decide⟩ (by decide) (RoutesTo.here 1 0))
    rfl (by decide) (by decide)

/-- C19. If the stored split decisions lead the sample from the start in `n` steps
to a node for which the model has no entry, or an entry with neither split value
nor result, `PredictionStep` returns the empty result, no error and that node's
`(depth, index)`; and when the start node itself is such a node, it returns the
start pair. -/
theorem PredictionStep_hands_off (lib : Stdlib) (parseFloat : String → Option ℚ)
    (model : GoMap String CTreeNode) (sample : GoMap String String) (depth index d' i' : Int)
    (n fuel : Nat)
    (hroute : RoutesTo lib parseFloat model sample depth index d' i' n)
    (hnone : model.lookup (NodeKeyByDepthIndex lib d' i') = none ∨
      ∃ node, model.lookup (NodeKeyByDepthIndex lib d' i') = some node ∧
        node.SplitValue = none ∧ node.Result = "")
    (hfuel : n < fuel) :
    PredictionStep lib parseFloat fuel model sample depth index = .ok ("", d', i', none) ∧
    ((model.lookup (NodeKeyByDepthIndex lib depth index) = none ∨
        ∃ node, model.lookup (NodeKeyByDepthIndex lib depth index) = some node ∧
          node.SplitValue = none ∧ node.Result = "") →
      PredictionStep lib parseFloat fuel model sample depth index
        = .ok ("", depth, index, none)) := by
  constructor
  · obtain ⟨k, rfl⟩ : ∃ k, fuel = (k + 1) + n := ⟨fuel - n - 1, by omega⟩
    rw [PredictionStep_route lib parseFloat model sample depth index d' i' n hroute,
      PredictionStep_handoff lib parseFloat k model sample d' i' hnone]
  · intro hstart
    obtain ⟨k, rfl⟩ : ∃ k, fuel = k + 1 := ⟨fuel - 1, by omega⟩
    exact PredictionStep_handoff lib parseFloat k model sample depth index hstart

/-- Witness for C19: the root of the test model sends the sample with `Age = 52`
to its right child, for which the model has no entry. -/
theorem PredictionStep_hands_off_witness :
    PredictionStep libSqueeze toyParse 2 toyModel toySampleOld 0 0 = .ok ("", 1, 1, none) :=
  (PredictionStep_hands_off libSqueeze toyParse toyModel toySampleOld 0 0 1 1 1 2
    (RoutesTo.step 0 0 1 1 1 0 toyRoot ⟨rfl, rfl, by decide⟩ (by decide) (RoutesTo.here 1 1))
    (Or.inl rfl) (by decide)).1

/-- C20, as stated, fails: on the empty model `PredictionStep` at the root returns
the empty result, the pair `(0, 0)` and no error. -/
theorem PredictionStep_missing_root_no_error :
    (∅ : GoMap String CTreeNode).lookup (NodeKeyByDepthIndex libSqueeze 0 0) = none ∧
    PredictionStep libSqueeze toyParse 1 ∅ toySample 0 0 = .ok ("", 0, 0, none) :=
  ⟨rfl, rfl⟩

/-- C20 (amended). On a model with no entry for the root key,
`PredictionStep(model, sample, 0, 0)` returns the empty result, the pair `(0, 0)`
and no error: a missing root is handed off like any other missing node. -/
theorem PredictionStep_missing_root (lib : Stdlib) (parseFloat : String → Option ℚ)
    (fuel : Nat) (model : GoMap String CTreeNode) (sample : GoMap String String)
    (hroot : model.lookup (NodeKeyByDepthIndex lib 0 0) = none) :
    PredictionStep lib parseFloat (fuel + 1) model sample 0 0 = .ok ("", 0, 0, none) :=
  PredictionStep_handoff lib parseFloat fuel model sample 0 0 (Or.inl hroot)

/-- Witness for C20: a model that holds only the left child of the root. -/
theorem PredictionStep_missing_root_witness :
    PredictionStep libSqueeze toyParse (0 + 1) toyModelNoRoot toySample 0 0 = .ok ("", 0, 0, none) :=
  PredictionStep_missing_root libSqueeze toyParse 0 toyModelNoRoot toySample rfl


/-! ## `splitDataSetByFeature` -/

theorem foldlM_pick {ε σ α : Type} (p : α → Prop) [DecidablePred p]
    (g : σ → α → Except ε σ) (l : List α) (init : σ) :
    l.foldlM (fun st a => if p a then g st a else .ok st) init
      = (l.filter fun a => p a).foldlM g init := by
  induction l generalizing init with
  | nil => rfl
  | cons a l ih =>
    by_cases h : p a
    · simp only [List.foldlM_cons, h, if_true, List.filter_cons_of_pos, decide_True]
      cases g init a with
      | error e => rfl
      | ok st => exact ih st
    · simp only [List.foldlM_cons, h, if_false, decide_False, Bool.false_eq_true,
        not_false_eq_true, List.filter_cons_of_neg]
      exact ih init

theorem splitStep_typed (parseFloat : String → Option ℚ) (splitValue : Option SplitValue)
    (isContinuous : Bool) (hty : SplitTyped splitValue isContinuous) (st : List Int × List Int)
    (e : Int × String) (hp : isContinuous = true → (parseFloat e.2).isSome) :
    splitStep parseFloat splitValue isContinuous st e
      = .ok (if onLeft parseFloat splitValue isContinuous e.2 then (st.1 ++ [e.1], st.2)
          else (st.1, st.2 ++ [e.1])) := by
  match splitValue, isContinuous, hty with
  | some (.float s), true, _ =>
    obtain ⟨x, hx⟩ := Option.isSome_iff_exists.mp (hp rfl)
    simp only [splitStep, onLeft, hx, if_true]
    by_cases h : x ≤ s <;> simp [h]
  | some (.str t), false, _ =>
    simp only [splitStep, onLeft]
    by_cases h : e.2 = t <;> simp [h]

theorem splitStep_fold_ok (parseFloat : String → Option ℚ) (splitValue : Option SplitValue)
    (isContinuous : Bool) (hty : SplitTyped splitValue isContinuous) (l : List (Int × String))
    (hp : ∀ e ∈ l, isContinuous = true → (parseFloat e.2).isSome) (st : List Int × List Int) :
    l.foldlM (splitStep parseFloat splitValue isContinuous) st
      = .ok (st.1 ++ (l.filter fun e => onLeft parseFloat splitValue isContinuous e.2).map Prod.fst,
          st.2 ++ (l.filter fun e => !onLeft parseFloat splitValue isContinuous e.2).map Prod.fst)
    := by
  induction l generalizing st with
  | nil => simp [pure, Except.pure]
  | cons e l ih =>
    rw [List.foldlM_cons, splitStep_typed parseFloat splitValue isContinuous hty st e
      (hp e (List.mem_cons_self _ _))]
    show List.foldlM _ _ l = _
    rw [ih (fun e' he' => hp e' (List.mem_cons_of_mem _ he'))]
    by_cases h : onLeft parseFloat splitValue isContinuous e.2 = true
    · simp [h, List.append_assoc]
    · simp [h, List.append_assoc]

theorem splitStep_fold_parse (parseFloat : String → Option ℚ) (s : ℚ)
    (l : List (Int × String)) (hbad : ∃ e ∈ l, parseFloat e.2 = none)
    (st : List Int × List Int) :
    l.foldlM (splitStep parseFloat (some (.float s)) true) st = .error .parse := by
  induction l generalizing st with
  | nil => obtain ⟨e, he, -⟩ := hbad; cases he
  | cons e l ih =>
    rw [List.foldlM_cons]
    cases hx : parseFloat e.2 with
    | none => simp [splitStep, hx]; rfl
    | some x =>
      have hl : ∃ e ∈ l, parseFloat e.2 = none := by
        obtain ⟨e', he', hb⟩ := hbad
        rcases List.mem_cons.mp he' with rfl | h
        · rw [hx] at hb; cases hb
        · exact ⟨e', h, hb⟩
      by_cases h : x ≤ s
      · simp only [splitStep, hx, if_true, h]
        exact ih hl _
      · simp only [splitStep, hx, if_true, h, if_false]
        exact ih hl _

theorem splitDataSet_fold_columns (ρ : RangeOrder) (parseFloat : String → Option ℚ)
    (ds : DTDataSet) (featureName : String) (splitValue : Option SplitValue)
    (isContinuous : Bool) :
    ds.Features.foldlM
      (fun (st : List Int × List Int) (feature : DTDataFeature) =>
        if feature.FeatureName = featureName then
          (feature.Sets.range ρ).foldlM (splitStep parseFloat splitValue isContinuous) st
        else .ok st)
      (([], []) : List Int × List Int)
    = (ds.columns featureName).foldlM
      (fun (st : List Int × List Int) (feature : DTDataFeature) =>
        (feature.Sets.range ρ).foldlM (splitStep parseFloat splitValue isContinuous) st)
      (([], []) : List Int × List Int) :=
  foldlM_pick (fun f : DTDataFeature => f.FeatureName = featureName) _ _ _

/-- What `splitDataSetByFeature` returns on a table with at most one column of the
given name and a split value of the mode's type. -/
theorem splitDataSet_spec (ρ : RangeOrder) (parseFloat : String → Option ℚ)
    (ds : DTDataSet) (featureName : String) (splitValue : Option SplitValue)
    (isContinuous : Bool) (hu : LabelUnique ds featureName)
    (hty : SplitTyped splitValue isContinuous) :
    ((isContinuous = true ∧ ∃ id v, labelOf ds featureName id = some v ∧ parseFloat v = none) →
      splitDataSetByFeature ρ parseFloat ds featureName splitValue isContinuous
        = .ok ([], [], some "failed to parse string to float64")) ∧
    (¬ (isContinuous = true ∧ ∃ id v, labelOf ds featureName id = some v ∧ parseFloat v = none) →
      ∃ left right,
        splitDataSetByFeature ρ parseFloat ds featureName splitValue isContinuous
          = .ok (left, right, none) ∧
        left.Nodup ∧ right.Nodup ∧ List.Disjoint left right ∧
        (∀ id, id ∈ left ∨ id ∈ right ↔ (labelOf ds featureName id).isSome) ∧
        (∀ id, id ∈ left ↔ ∃ v, labelOf ds featureName id = some v ∧
          onLeft parseFloat splitValue isContinuous v = true) ∧
        (∀ id, id ∈ right ↔ ∃ v, labelOf ds featureName id = some v ∧
          onLeft parseFloat splitValue isContinuous v = false)) := by
  unfold splitDataSetByFeature
  rw [splitDataSet_fold_columns]
  rcases columns_cases ds featureName hu with h | ⟨col, h⟩
  · rw [h]
    constructor
    · rintro ⟨-, id, v, hv, -⟩
      rw [labelOf_of_columns_nil ds featureName id h] at hv
      cases hv
    · intro _
      refine ⟨[], [], rfl, List.nodup_nil, List.nodup_nil, List.disjoint_nil_left _, ?_, ?_, ?_⟩
      all_goals
        intro id
        simp [labelOf_of_columns_nil ds featureName id h]
  · have hlab : ∀ id, labelOf ds featureName id = col.Sets.lookup id :=
      fun id => labelOf_of_columns_one ds featureName id col h
    have hfold : ∀ g : List Int × List Int → DTDataFeature → Except SplitStop (List Int × List Int),
        [col].foldlM g (([], []) : List Int × List Int) = g ([], []) col := by
      intro g
      rw [List.foldlM_cons]
      cases g ([], []) col <;> rfl
    rw [h, hfold]
    constructor
    · rintro ⟨hc, id, v, hv, hbad⟩
      subst hc
      match splitValue, hty with
      | some (.float s), _ =>
        rw [splitStep_fold_parse parseFloat s _
          ⟨(id, v), (mem_range_iff ρ col.Sets (id, v)).mpr (by rw [← hlab]; exact hv), hbad⟩]
    · intro hgood
      have hp : ∀ e ∈ col.Sets.range ρ, isContinuous = true → (parseFloat e.2).isSome := by
        intro e he hc
        by_contra hn
        refine hgood ⟨hc, e.1, e.2, ?_, by simpa using hn⟩
        rw [hlab]
        exact (mem_range_iff ρ col.Sets e).mp he
      rw [splitStep_fold_ok parseFloat splitValue isContinuous hty _ hp]
      have hnd := range_keys_nodup ρ col.Sets
      have hmemL : ∀ id, id ∈ ((col.Sets.range ρ).filter fun e =>
          onLeft parseFloat splitValue isContinuous e.2).map Prod.fst ↔
          ∃ v, labelOf ds featureName id = some v ∧
            onLeft parseFloat splitValue isContinuous v = true := by
        intro id
        simp only [List.mem_map, List.mem_filter, mem_range_iff, hlab]
        constructor
        · rintro ⟨⟨k, v⟩, ⟨hk, hv⟩, rfl⟩
          exact ⟨v, hk, hv⟩
        · rintro ⟨v, hk, hv⟩
          exact ⟨(id, v), ⟨hk, hv⟩, rfl⟩
      have hmemR : ∀ id, id ∈ ((col.Sets.range ρ).filter fun e =>
          !onLeft parseFloat splitValue isContinuous e.2).map Prod.fst ↔
          ∃ v, labelOf ds featureName id = some v ∧
            onLeft parseFloat splitValue isContinuous v = false := by
        intro id
        simp only [List.mem_map, List.mem_filter, mem_range_iff, hlab, Bool.not_eq_true']
        constructor
        · rintro ⟨⟨k, v⟩, ⟨hk, hv⟩, rfl⟩
          exact ⟨v, hk, hv⟩
        · rintro ⟨v, hk, hv⟩
          exact ⟨(id, v), ⟨hk, hv⟩, rfl⟩
      refine ⟨_, _, rfl, ?_, ?_, ?_, ?_, ?_, ?_⟩
      · rw [List.nil_append]
        exact hnd.sublist ((List.filter_sublist _).map _)
      · rw [List.nil_append]
        exact hnd.sublist ((List.filter_sublist _).map _)
      · intro id hl hr
        rw [List.nil_append] at hl hr
        obtain ⟨v, hv, hon⟩ := (hmemL id).mp hl
        obtain ⟨v', hv', hoff⟩ := (hmemR id).mp hr
        rw [hv] at hv'
        cases hv'
        rw [hon] at hoff
        cases hoff
      · intro id
        rw [List.nil_append, List.nil_append, hmemL, hmemR]
        constructor
        · rintro (⟨v, hv, -⟩ | ⟨v, hv, -⟩) <;> simp [hv]
        · intro hs
          obtain ⟨v, hv⟩ := Option.isSome_iff_exists.mp hs
          cases hon : onLeft parseFloat splitValue isContinuous v
          · exact Or.inr ⟨v, hv, hon⟩
          · exact Or.inl ⟨v, hv, hon⟩
      · intro id
        rw [List.nil_append]
        exact hmemL id
      · intro id
        rw [List.nil_append]
        exact hmemR id

/-- C15. In a table with at most one column named `featureName` and for a split
value of the mode's type, `splitDataSetByFeature` returns an error and no lists
when the mode is continuous and some value of the column does not parse; otherwise
it returns no error and two duplicate-free, disjoint id lists whose union is the
set of ids of the column, the left one holding exactly the ids whose value is on
the left of the split (`≤` a continuous split value, equal to a discrete one) and
the right one all the others. -/
theorem splitDataSetByFeature_partition (ρ : RangeOrder) (parseFloat : String → Option ℚ)
    (ds : DTDataSet) (featureName : String) (splitValue : Option SplitValue)
    (isContinuous : Bool) (hu : LabelUnique ds featureName)
    (hty : SplitTyped splitValue isContinuous) :
    ((isContinuous = true ∧ ∃ id v, labelOf ds featureName id = some v ∧ parseFloat v = none) →
      splitDataSetByFeature ρ parseFloat ds featureName splitValue isContinuous
        = .ok ([], [], some "failed to parse string to float64")) ∧
    (¬ (isContinuous = true ∧ ∃ id v, labelOf ds featureName id = some v ∧ parseFloat v = none) →
      ∃ left right,
        splitDataSetByFeature ρ parseFloat ds featureName splitValue isContinuous
          = .ok (left, right, none) ∧
        left.Nodup ∧ right.Nodup ∧ List.Disjoint left right ∧
        (∀ id, id ∈ left ∨ id ∈ right ↔ (labelOf ds featureName id).isSome) ∧
        (∀ id, id ∈ left ↔ ∃ v, labelOf ds featureName id = some v ∧
          onLeft parseFloat splitValue isContinuous v = true) ∧
        (∀ id, id ∈ right ↔ ∃ v, labelOf ds featureName id = some v ∧
          onLeft parseFloat splitValue isContinuous v = false)) :=
  splitDataSet_spec ρ parseFloat ds featureName splitValue isContinuous hu hty

/-- Witness for C15: the column `Age` of the test table split at `40`. -/
theorem splitDataSetByFeature_partition_witness :
    ∃ left right,
      splitDataSetByFeature RangeOrder.stored toyParse toyData "Age" (some (.float 40)) true
        = .ok (left, right, none) ∧
      left.Nodup ∧ right.Nodup ∧ List.Disjoint left right ∧
      (∀ id, id ∈ left ∨ id ∈ right ↔ (labelOf toyData "Age" id).isSome) ∧
      (∀ id, id ∈ left ↔ ∃ v, labelOf toyData "Age" id = some v ∧
        onLeft toyParse (some (.float 40)) true v = true) ∧
      (∀ id, id ∈ right ↔ ∃ v, labelOf toyData "Age" id = some v ∧
        onLeft toyParse (some (.float 40)) true v = false) :=
  (splitDataSetByFeature_partition RangeOrder.stored toyParse toyData "Age" (some (.float 40))
    true (by decide) trivial).2 (by
      rintro ⟨-, id, v, hv, hbad⟩
      have hmem := (mem_range_iff RangeOrder.stored ageColumn.Sets (id, v)).mpr hv
      have hv' : v ∈ ["60", "28", "52", "35", "41", "30"] := by
        simp [GoMap.range, RangeOrder.stored, ageColumn, GoMap.set, AList.insert_entries,
          AList.entries] at hmem
        rcases hmem with ⟨-, rfl⟩ | ⟨-, rfl⟩ | ⟨-, rfl⟩ | ⟨-, rfl⟩ | ⟨-, rfl⟩ | ⟨-, rfl⟩ <;> simp
      have key : ∀ w ∈ ["60", "28", "52", "35", "41", "30"], toyParse w ≠ none := by decide
      exact key v hv' hbad)


/-! ## `PrepForFeatureSelect` -/

theorem foldl_pick_acc {σ α : Type} (p : α → Prop) [DecidablePred p] (g : σ → α → σ)
    (l : List α) (init : σ) :
    l.foldl (fun st a => if p a then g st a else st) init
      = (l.filter fun a => p a).foldl g init := by
  induction l generalizing init with
  | nil => rfl
  | cons a l ih =>
    by_cases h : p a
    · simp only [List.foldl_cons, h, if_true, List.filter_cons_of_pos, decide_True]
      exact ih _
    · simp only [List.foldl_cons, h, if_false, decide_False, Bool.false_eq_true,
        not_false_eq_true, List.filter_cons_of_neg]
      exact ih init

theorem mem_range_keys {κ ν : Type} [DecidableEq κ] (ρ : RangeOrder) (m : GoMap κ ν) (k : κ) :
    k ∈ (m.range ρ).map Prod.fst ↔ (m.lookup k).isSome := by
  rw [List.mem_map, Option.isSome_iff_exists]
  constructor
  · rintro ⟨e, he, rfl⟩
    exact ⟨e.2, (mem_range_iff ρ m e).mp he⟩
  · rintro ⟨v, hv⟩
    exact ⟨(k, v), (mem_range_iff ρ m (k, v)).mpr hv, rfl⟩

theorem fold_set_true_lookup {κ α : Type} [DecidableEq κ] (key : α → κ) (l : List α)
    (init : GoMap κ Bool) (k : κ) :
    ((l.foldl (fun (m : GoMap κ Bool) e => m.set (key e) true) init).lookup k).isSome
      ↔ (init.lookup k).isSome ∨ ∃ e ∈ l, key e = k := by
  induction l generalizing init with
  | nil => simp
  | cons a l ih =>
    rw [List.foldl_cons, ih]
    by_cases h : k = key a
    · subst h
      simp [GoMap.set, AList.lookup_insert]
    · have h' : ¬ key a = k := fun e => h e.symm
      simp [GoMap.set, AList.lookup_insert_ne h, h']

theorem getDiscAvailValues_spec (ρ : RangeOrder) (cur : DTDataSet) (name : String)
    (c : DTDataFeature) (hc : cur.columns name = [c]) :
    (getDiscAvailValues ρ cur name).Nodup ∧
      ∀ v, v ∈ getDiscAvailValues ρ cur name ↔ ∃ id, c.Sets.lookup id = some v := by
  unfold getDiscAvailValues
  refine ⟨range_keys_nodup ρ _, fun v => ?_⟩
  rw [mem_range_keys,
    foldl_pick_acc (fun f : DTDataFeature => f.FeatureName = name)
      (fun (valueMap : GoMap String Bool) (feature : DTDataFeature) =>
        (feature.Sets.range ρ).foldl
          (fun (valueMap : GoMap String Bool) (e : Int × String) => valueMap.set e.2 true)
          valueMap)]
  have hcol : (cur.Features.filter fun a => decide (a.FeatureName = name)) = [c] := hc
  rw [hcol, List.foldl_cons, List.foldl_nil, fold_set_true_lookup (fun e : Int × String => e.2)]
  simp only [AList.lookup_empty, Option.isSome_none, Bool.false_eq_true, false_or]
  constructor
  · rintro ⟨e, he, rfl⟩
    exact ⟨e.1, (mem_range_iff ρ c.Sets e).mp he⟩
  · rintro ⟨id, hid⟩
    exact ⟨(id, v), (mem_range_iff ρ c.Sets (id, v)).mpr hid, rfl⟩

theorem parse_fold_ok (parseFloat : String → Option ℚ) (l : List (Int × String))
    (hp : ∀ e ∈ l, (parseFloat e.2).isSome) (init : GoMap ℚ Bool) :
    l.foldlM
      (fun (valueMap : GoMap ℚ Bool) (e : Int × String) =>
        match parseFloat e.2 with
        | none => Except.error "failed to parse string to float64"
        | some value => Except.ok (valueMap.set value true))
      init
    = .ok (l.foldl (fun (m : GoMap ℚ Bool) e => m.set ((parseFloat e.2).getD 0) true) init) := by
  induction l generalizing init with
  | nil => rfl
  | cons a l ih =>
    obtain ⟨x, hx⟩ := Option.isSome_iff_exists.mp (hp a (List.mem_cons_self _ _))
    rw [List.foldlM_cons, List.foldl_cons, hx]
    exact ih (fun e he => hp e (List.mem_cons_of_mem _ he)) _

theorem getContAvailValues_spec (ρ : RangeOrder) (parseFloat : String → Option ℚ)
    (cur : DTDataSet) (name : String) (c : DTDataFeature) (hc : cur.columns name = [c])
    (hp : ∀ id v, c.Sets.lookup id = some v → (parseFloat v).isSome) :
    ∃ values, getContAvailValues ρ parseFloat cur name = .ok values ∧
      values.Sorted (fun a b => a < b) ∧
      ∀ x, x ∈ values ↔ ∃ id v, c.Sets.lookup id = some v ∧ parseFloat v = some x := by
  unfold getContAvailValues
  rw [foldlM_pick (fun f : DTDataFeature => f.FeatureName = name)
      (fun (valueMap : GoMap ℚ Bool) (feature : DTDataFeature) =>
        (feature.Sets.range ρ).foldlM
          (fun (valueMap : GoMap ℚ Bool) (e : Int × String) =>
            match parseFloat e.2 with
            | none => Except.error "failed to parse string to float64"
            | some value => Except.ok (valueMap.set value true))
          valueMap)]
  have hcol : (cur.Features.filter fun a => decide (a.FeatureName = name)) = [c] := hc
  have hpl : ∀ e ∈ c.Sets.range ρ, (parseFloat e.2).isSome :=
    fun e he => hp e.1 e.2 ((mem_range_iff ρ c.Sets e).mp he)
  rw [hcol, List.foldlM_cons, parse_fold_ok parseFloat _ hpl]
  refine ⟨_, rfl, ?_, ?_⟩
  · exact (List.sorted_insertionSort _ _).lt_of_le
      ((List.perm_insertionSort _ _).nodup_iff.mpr (range_keys_nodup ρ _))
  · intro x
    rw [(List.perm_insertionSort _ _).mem_iff, mem_range_keys,
      fold_set_true_lookup (fun e : Int × String => (parseFloat e.2).getD 0)]
    simp only [AList.lookup_empty, Option.isSome_none, Bool.false_eq_true, false_or]
    constructor
    · rintro ⟨e, he, rfl⟩
      obtain ⟨x, hx⟩ := Option.isSome_iff_exists.mp (hpl e he)
      exact ⟨e.1, e.2, (mem_range_iff ρ c.Sets e).mp he, by rw [hx]; rfl⟩
    · rintro ⟨id, v, hv, hx⟩
      exact ⟨(id, v), (mem_range_iff ρ c.Sets (id, v)).mpr hv, by simp [hx]⟩

theorem columns_of_names_nodup (l : List DTDataFeature)
    (hn : (l.map fun f => f.FeatureName).Nodup) (f : DTDataFeature) (hf : f ∈ l) :
    (l.filter fun g => g.FeatureName = f.FeatureName) = [f] := by
  induction l with
  | nil => cases hf
  | cons a l ih =>
    rw [List.map_cons, List.nodup_cons] at hn
    rcases List.mem_cons.mp hf with rfl | h
    · rw [List.filter_cons_of_pos (by simp)]
      congr 1
      apply List.filter_eq_nil_iff.mpr
      intro g hg hname
      exact hn.1 (List.mem_map.mpr ⟨g, hg, by simpa using hname⟩)
    · have hne : ¬ a.FeatureName = f.FeatureName := by
        intro e
        exact hn.1 (List.mem_map.mpr ⟨f, h, e.symm⟩)
      rw [List.filter_cons_of_neg (by simpa using hne)]
      exact ih hn.2 h

theorem columns_cur (ρ : RangeOrder) (ds : DTDataSet) (ids : List Int)
    (hn : (ds.Features.map fun f => f.FeatureName).Nodup) (f : DTDataFeature)
    (hf : f ∈ ds.Features) :
    DTDataSet.columns ⟨ds.Features.map (restrictFeature ρ ids)⟩ f.FeatureName
      = [restrictFeature ρ ids f] := by
  have h := columns_restrict ρ ds ids f.FeatureName
  have hc : ds.columns f.FeatureName = [f] := columns_of_names_nodup ds.Features hn f hf
  rw [hc] at h
  exact h

theorem split_cur_ok (ρ : RangeOrder) (parseFloat : String → Option ℚ) (ds : DTDataSet)
    (ids : List Int) (hn : (ds.Features.map fun f => f.FeatureName).Nodup) (f : DTDataFeature)
    (hf : f ∈ ds.Features) (splitValue : Option SplitValue) (isContinuous : Bool)
    (hty : SplitTyped splitValue isContinuous)
    (hgood : isContinuous = true →
      ∀ id ∈ ids, ∀ v, f.Sets.lookup id = some v → (parseFloat v).isSome) :
    ∃ l r, splitDataSetByFeature ρ parseFloat ⟨ds.Features.map (restrictFeature ρ ids)⟩
      f.FeatureName splitValue isContinuous = .ok (l, r, none) := by
  have hc := columns_cur ρ ds ids hn f hf
  have hu : LabelUnique ⟨ds.Features.map (restrictFeature ρ ids)⟩ f.FeatureName := by
    unfold LabelUnique
    rw [hc]
    exact Nat.le_refl 1
  obtain ⟨l, r, h, -⟩ := (splitDataSet_spec ρ parseFloat _ f.FeatureName splitValue
    isContinuous hu hty).2 (by
      rintro ⟨hcont, id, v, hv, hbad⟩
      rw [labelOf_of_columns_one _ _ id _ hc] at hv
      have hv' := (restrictSets_lookup ρ ids f.Sets id v).mp hv
      have := hgood hcont id hv'.2 v hv'.1
      rw [hbad] at this
      cases this)
  exact ⟨l, r, h⟩

theorem pushSplit_fold (ρ : RangeOrder) (parseFloat : String → Option ℚ) (cur : DTDataSet)
    (name : String) (ms : List ℚ)
    (hres : ∀ m ∈ ms, ∃ l r,
      splitDataSetByFeature ρ parseFloat cur name (some (.float m)) true = .ok (l, r, none))
    (acc : Candidates) :
    ∃ ls rs : List (List Int), ls.length = ms.length ∧ rs.length = ms.length ∧
      ms.foldlM (pushSplit ρ parseFloat cur name) acc
        = .ok (acc.append ⟨ms.map fun _ => name, ms.map SplitValue.float, ls, rs⟩) := by
  induction ms generalizing acc with
  | nil => exact ⟨[], [], rfl, rfl, by simp [Candidates.append, pure, Except.pure]⟩
  | cons m ms ih =>
    obtain ⟨l, r, hlr⟩ := hres m (List.mem_cons_self _ _)
    obtain ⟨ls, rs, hl, hr, h⟩ := ih (fun m' hm' => hres m' (List.mem_cons_of_mem _ hm'))
      (acc.push name (.float m) l r)
    refine ⟨l :: ls, r :: rs, by simp [hl], by simp [hr], ?_⟩
    rw [List.foldlM_cons]
    have hstep : pushSplit ρ parseFloat cur name acc m = .ok (acc.push name (.float m) l r) := by
      simp [pushSplit, hlr]
    rw [hstep]
    show List.foldlM _ _ ms = _
    rw [h]
    simp [Candidates.append, Candidates.push]

theorem pushValue_fold (ρ : RangeOrder) (parseFloat : String → Option ℚ) (cur : DTDataSet)
    (name : String) (vs : List String)
    (hres : ∀ v ∈ vs, ∃ l r,
      splitDataSetByFeature ρ parseFloat cur name (some (.str v)) false = .ok (l, r, none))
    (acc : Candidates) :
    ∃ ls rs : List (List Int), ls.length = vs.length ∧ rs.length = vs.length ∧
      vs.foldlM (pushValue ρ parseFloat cur name) acc
        = .ok (acc.append ⟨vs.map fun _ => name, vs.map SplitValue.str, ls, rs⟩) := by
  induction vs generalizing acc with
  | nil => exact ⟨[], [], rfl, rfl, by simp [Candidates.append, pure, Except.pure]⟩
  | cons v vs ih =>
    obtain ⟨l, r, hlr⟩ := hres v (List.mem_cons_self _ _)
    obtain ⟨ls, rs, hl, hr, h⟩ := ih (fun v' hv' => hres v' (List.mem_cons_of_mem _ hv'))
      (acc.push name (.str v) l r)
    refine ⟨l :: ls, r :: rs, by simp [hl], by simp [hr], ?_⟩
    rw [List.foldlM_cons]
    have hstep : pushValue ρ parseFloat cur name acc v = .ok (acc.push name (.str v) l r) := by
      simp [pushValue, hlr]
    rw [hstep]
    show List.foldlM _ _ vs = _
    rw [h]
    simp [Candidates.append, Candidates.push]

theorem zipWith_tail_midpoints (values : List ℚ) :
    List.zipWith (fun a b => (a + b) / 2) values values.tail = midpoints values := by
  induction values with
  | nil => rfl
  | cons a l ih =>
    cases l with
    | nil => rfl
    | cons b rest =>
      rw [midpoints, ← ih]
      rfl

theorem zip_map_const {α β : Type} (name : String) (g : α → β) (l : List α) :
    (l.map fun _ => name).zip (l.map g) = l.map fun a => (name, g a) := by
  induction l with
  | nil => rfl
  | cons a l ih => rw [List.map_cons, List.map_cons, List.zip_cons_cons, ih, List.map_cons]

theorem prepFeature_step (ρ : RangeOrder) (parseFloat : String → Option ℚ) (ds : DTDataSet)
    (ids : List Int) (label : String) (contFeatures : List String)
    (hn : (ds.Features.map fun f => f.FeatureName).Nodup)
    (hparse : ∀ f ∈ ds.Features, f.FeatureName ≠ label → f.FeatureName ∈ contFeatures →
      ∀ id ∈ ids, ∀ v, f.Sets.lookup id = some v → (parseFloat v).isSome)
    (f : DTDataFeature) (hf : f ∈ ds.Features) (acc : Candidates) :
    ∃ b : Candidates, b.Aligned ∧
      CandidatesOf parseFloat ids label contFeatures f b.pairs ∧
      prepFeature ρ parseFloat ⟨ds.Features.map (restrictFeature ρ ids)⟩ label contFeatures acc
        (restrictFeature ρ ids f) = .ok (acc.append b) := by
  have hc := columns_cur ρ ds ids hn f hf
  have hname : (restrictFeature ρ ids f).FeatureName = f.FeatureName := rfl
  unfold prepFeature CandidatesOf
  rw [hname]
  by_cases hl : f.FeatureName = label
  · refine ⟨⟨[], [], [], []⟩, ⟨rfl, rfl, rfl⟩, ?_, ?_⟩
    · rw [if_pos hl]
      rfl
    · rw [if_pos hl]
      simp [Candidates.append]
  · simp only [if_neg hl]
    by_cases hcont : f.FeatureName ∈ contFeatures
    · have hs : StringInSlice f.FeatureName contFeatures = true := by
        simpa [StringInSlice] using hcont
      simp only [if_pos hs, if_pos hcont]
      have hp := hparse f hf hl hcont
      obtain ⟨values, hvals, hsorted, hmem⟩ := getContAvailValues_spec ρ parseFloat
        ⟨ds.Features.map (restrictFeature ρ ids)⟩ f.FeatureName _ hc
        (fun id v hv => by
          have hv' := (restrictSets_lookup ρ ids f.Sets id v).mp hv
          exact hp id hv'.2 v hv'.1)
      rw [hvals]
      simp only []
      rw [zipWith_tail_midpoints]
      obtain ⟨ls, rs, hls, hrs, hfold⟩ := pushSplit_fold ρ parseFloat
        ⟨ds.Features.map (restrictFeature ρ ids)⟩ f.FeatureName (midpoints values)
        (fun m _ => split_cur_ok ρ parseFloat ds ids hn f hf (some (.float m)) true trivial
          (fun _ => hp)) acc
      refine ⟨_, ⟨?_, ?_, ?_⟩, ⟨values, hsorted, ?_, ?_⟩, hfold⟩
      · simp
      · simp [hls]
      · simp [hrs]
      · intro x
        rw [hmem]
        constructor
        · rintro ⟨id, v, hv, hx⟩
          have hv' := (restrictSets_lookup ρ ids f.Sets id v).mp hv
          exact ⟨id, hv'.2, v, hv'.1, hx⟩
        · rintro ⟨id, hid, v, hv, hx⟩
          exact ⟨id, v, (restrictSets_lookup ρ ids f.Sets id v).mpr ⟨hv, hid⟩, hx⟩
      · exact zip_map_const f.FeatureName SplitValue.float (midpoints values)
    · have hs : ¬ StringInSlice f.FeatureName contFeatures = true := by
        simpa [StringInSlice] using hcont
      simp only [if_neg hs, if_neg hcont]
      obtain ⟨hnd, hmem⟩ := getDiscAvailValues_spec ρ
        ⟨ds.Features.map (restrictFeature ρ ids)⟩ f.FeatureName _ hc
      obtain ⟨ls, rs, hls, hrs, hfold⟩ := pushValue_fold ρ parseFloat
        ⟨ds.Features.map (restrictFeature ρ ids)⟩ f.FeatureName
        (getDiscAvailValues ρ ⟨ds.Features.map (restrictFeature ρ ids)⟩ f.FeatureName)
        (fun v _ => split_cur_ok ρ parseFloat ds ids hn f hf (some (.str v)) false trivial
          (fun h => by cases h)) acc
      refine ⟨_, ⟨?_, ?_, ?_⟩, ⟨_, hnd, ?_, ?_⟩, hfold⟩
      · simp
      · simp [hls]
      · simp [hrs]
      · intro v
        rw [hmem]
        constructor
        · rintro ⟨id, hv⟩
          have hv' := (restrictSets_lookup ρ ids f.Sets id v).mp hv
          exact ⟨id, hv'.2, hv'.1⟩
        · rintro ⟨id, hid, hv⟩
          exact ⟨id, (restrictSets_lookup ρ ids f.Sets id v).mpr ⟨hv, hid⟩⟩
      · exact zip_map_const f.FeatureName SplitValue.str _

theorem prepFeature_fold (ρ : RangeOrder) (parseFloat : String → Option ℚ) (ds : DTDataSet)
    (ids : List Int) (label : String) (contFeatures : List String)
    (hn : (ds.Features.map fun f => f.FeatureName).Nodup)
    (hparse : ∀ f ∈ ds.Features, f.FeatureName ≠ label → f.FeatureName ∈ contFeatures →
      ∀ id ∈ ids, ∀ v, f.Sets.lookup id = some v → (parseFloat v).isSome)
    (l : List DTDataFeature) (hl : ∀ f ∈ l, f ∈ ds.Features) (acc : Candidates) :
    ∃ bs : List Candidates, (∀ b ∈ bs, b.Aligned) ∧
      List.Forall₂ (fun f (b : Candidates) =>
        CandidatesOf parseFloat ids label contFeatures f b.pairs) l bs ∧
      (l.map (restrictFeature ρ ids)).foldlM
        (prepFeature ρ parseFloat ⟨ds.Features.map (restrictFeature ρ ids)⟩ label contFeatures)
        acc = .ok (bs.foldl Candidates.append acc) := by
  induction l generalizing acc with
  | nil => exact ⟨[], fun _ h => (by cases h), List.Forall₂.nil, rfl⟩
  | cons f l ih =>
    obtain ⟨b, hb, hcand, hstep⟩ := prepFeature_step ρ parseFloat ds ids label contFeatures hn
      hparse f (hl f (List.mem_cons_self _ _)) acc
    obtain ⟨bs, hbs, hall, hfold⟩ := ih (fun g hg => hl g (List.mem_cons_of_mem _ hg))
      (acc.append b)
    refine ⟨b :: bs, ?_, List.Forall₂.cons hcand hall, ?_⟩
    · intro b' hb'
      rcases List.mem_cons.mp hb' with rfl | h
      · exact hb
      · exact hbs b' h
    · rw [List.map_cons, List.foldlM_cons, hstep]
      exact hfold

theorem append_fold_spec (bs : List Candidates) (hbs : ∀ b ∈ bs, b.Aligned) (acc : Candidates)
    (hacc : acc.Aligned) :
    (bs.foldl Candidates.append acc).Aligned ∧
      (bs.foldl Candidates.append acc).pairs = acc.pairs ++ (bs.map Candidates.pairs).flatten := by
  induction bs generalizing acc with
  | nil => exact ⟨hacc, by simp⟩
  | cons b bs ih =>
    have hb := hbs b (List.mem_cons_self _ _)
    have hab : (acc.append b).Aligned := by
      obtain ⟨h1, h2, h3⟩ := hacc
      obtain ⟨h4, h5, h6⟩ := hb
      simp [Candidates.Aligned, Candidates.append, h1, h2, h3, h4, h5, h6]
    obtain ⟨h1, h2⟩ := ih (fun b' hb' => hbs b' (List.mem_cons_of_mem _ hb')) (acc.append b) hab
    refine ⟨h1, ?_⟩
    rw [List.foldl_cons, h2, List.map_cons, List.flatten_cons, ← List.append_assoc]
    congr 1
    exact List.zip_append hacc.1.symm

/-- C14. In a table whose column names are pairwise distinct and whose continuous
non-label columns hold values that parse at the node, for every non-empty id list
`PrepForFeatureSelect` returns no error and four lists of one length, in which the
label does not occur, and whose (feature, split value) pairs are, column by column
in table order: nothing for the label column, the means of neighbouring distinct
node values in ascending order for a continuous column, and each distinct node
value once for any other column. -/
theorem PrepForFeatureSelect_candidates (ρ : RangeOrder) (parseFloat : String → Option ℚ)
    (ds : DTDataSet) (ids : List Int) (label : String) (contFeatures : List String)
    (hne : ids ≠ [])
    (hn : (ds.Features.map fun f => f.FeatureName).Nodup)
    (hparse : ∀ f ∈ ds.Features, f.FeatureName ≠ label → f.FeatureName ∈ contFeatures →
      ∀ id ∈ ids, ∀ v, f.Sets.lookup id = some v → (parseFloat v).isSome) :
    ∃ features values left right,
      PrepForFeatureSelect ρ parseFloat ds ids label contFeatures
        = .ok (features, values, left, right, none) ∧
      values.length = features.length ∧ left.length = features.length ∧
      right.length = features.length ∧ label ∉ features ∧
      ∃ blocks : List (List (String × SplitValue)),
        features.zip values = blocks.flatten ∧
        List.Forall₂ (CandidatesOf parseFloat ids label contFeatures) ds.Features blocks := by
  obtain ⟨bs, hbs, hall, hfold⟩ := prepFeature_fold ρ parseFloat ds ids label contFeatures hn
    hparse ds.Features (fun _ h => h) ⟨[], [], [], []⟩
  obtain ⟨hal, hpairs⟩ := append_fold_spec bs hbs ⟨[], [], [], []⟩ ⟨rfl, rfl, rfl⟩
  have hblocks : List.Forall₂ (CandidatesOf parseFloat ids label contFeatures) ds.Features
      (bs.map Candidates.pairs) := List.forall₂_map_right_iff.mpr hall
  have hzip : (bs.foldl Candidates.append ⟨[], [], [], []⟩).finalFeatures.zip
      (bs.foldl Candidates.append ⟨[], [], [], []⟩).finalSplitValues
      = (bs.map Candidates.pairs).flatten := by
    have := hpairs
    simp only [Candidates.pairs, List.zip_nil_left, List.nil_append] at this
    simpa [Candidates.pairs] using this
  refine ⟨_, _, _, _, ?_, hal.1, hal.2.1, hal.2.2, ?_, _, hzip, hblocks⟩
  · unfold PrepForFeatureSelect
    rw [retrieve_of_ne_nil ρ ds ids hne]
    simp only []
    rw [hfold]
  · intro hmem
    have hfst : (bs.foldl Candidates.append ⟨[], [], [], []⟩).finalFeatures
        = ((bs.map Candidates.pairs).flatten).map Prod.fst := by
      rw [← hzip, List.map_fst_zip]
      exact le_of_eq hal.1.symm
    rw [hfst, List.mem_map] at hmem
    obtain ⟨⟨n, s⟩, hp, hlab⟩ := hmem
    obtain ⟨block, hblock, hin⟩ := List.mem_flatten.mp hp
    have key : ∀ (fs : List DTDataFeature) (blocks : List (List (String × SplitValue))),
        List.Forall₂ (CandidatesOf parseFloat ids label contFeatures) fs blocks →
        block ∈ blocks → False := by
      intro fs blocks hF
      induction hF with
      | nil => intro h; cases h
      | cons hhead _ ih =>
        intro hb
        rcases List.mem_cons.mp hb with rfl | h
        · unfold CandidatesOf at hhead
          split_ifs at hhead with h1 h2
          · rw [hhead] at hin
            cases hin
          · obtain ⟨vals, -, -, hb⟩ := hhead
            rw [hb, List.mem_map] at hin
            obtain ⟨m, -, hm⟩ := hin
            simp only [Prod.mk.injEq] at hm
            exact h1 (hm.1.trans hlab)
          · obtain ⟨vals, -, -, hb⟩ := hhead
            rw [hb, List.mem_map] at hin
            obtain ⟨m, -, hm⟩ := hin
            simp only [Prod.mk.injEq] at hm
            exact h1 (hm.1.trans hlab)
        · exact ih h
    exact key _ _ hblocks hblock

/-- Witness for C14: the node `[0, 1, 2, 3]` of the test table with the continuous
column `Age`. -/
theorem PrepForFeatureSelect_candidates_witness :
    ∃ features values left right,
      PrepForFeatureSelect RangeOrder.stored toyParse toyData [0, 1, 2, 3] "Target" ["Age"]
        = .ok (features, values, left, right, none) ∧
      values.length = features.length ∧ left.length = features.length ∧
      right.length = features.length ∧ "Target" ∉ features ∧
      ∃ blocks : List (List (String × SplitValue)),
        features.zip values = blocks.flatten ∧
        List.Forall₂ (CandidatesOf toyParse [0, 1, 2, 3] "Target" ["Age"]) toyData.Features
          blocks :=
  PrepForFeatureSelect_candidates RangeOrder.stored toyParse toyData [0, 1, 2, 3] "Target" ["Age"]
    (by decide) (by decide) (by
      intro f hf hlab _ id hid v hv
      have hf' : f = ageColumn := by
        simp only [toyData, List.mem_cons, List.mem_singleton, List.not_mem_nil, or_false] at hf
        rcases hf with rfl | rfl
        · rfl
        · exact absurd rfl hlab
      subst hf'
      have hmem := (mem_range_iff RangeOrder.stored ageColumn.Sets (id, v)).mpr hv
      have hv' : v ∈ ["60", "28", "52", "35", "41", "30"] := by
        simp [GoMap.range, RangeOrder.stored, ageColumn, GoMap.set, AList.insert_entries,
          AList.entries] at hmem
        rcases hmem with ⟨-, rfl⟩ | ⟨-, rfl⟩ | ⟨-, rfl⟩ | ⟨-, rfl⟩ | ⟨-, rfl⟩ | ⟨-, rfl⟩ <;> simp
      have key : ∀ w ∈ ["60", "28", "52", "35", "41", "30"], (toyParse w).isSome := by decide
      exact key v hv')


/-! ## `IfPruneNodeByTagPart` -/

theorem errNum_fold (t : String) (l : List (Int × String)) (init : Int) :
    l.foldl (fun (errNum : Int) (e : Int × String) => if e.2 ≠ t then errNum + 1 else errNum)
      init = init + ((l.filter fun e => decide (e.2 ≠ t)).length : Int) := by
  induction l generalizing init with
  | nil => simp
  | cons a l ih =>
    rw [List.foldl_cons, ih]
    by_cases h : a.2 = t
    · simp [h]
    · simp [h]
      omega

theorem restrict_errcount (ρ : RangeOrder) (ids : List Int) (sets : GoMap Int String)
    (t : String) (hnd : ids.Nodup) (hin : ∀ id ∈ ids, (sets.lookup id).isSome) :
    (((restrictSets ρ ids sets).range ρ).filter fun e => decide (e.2 ≠ t)).length
      = (ids.filter fun id => sets.lookup id ≠ some t).length := by
  have hnd1 : ((((restrictSets ρ ids sets).range ρ).filter fun e => decide (e.2 ≠ t)).map
      Prod.fst).Nodup :=
    (range_keys_nodup ρ _).sublist ((List.filter_sublist _).map _)
  have hnd2 : (ids.filter fun id => sets.lookup id ≠ some t).Nodup := hnd.filter _
  have hperm := (List.perm_ext_iff_of_nodup hnd1 hnd2).mpr (by
    intro k
    simp only [List.mem_map, List.mem_filter, decide_eq_true_eq, mem_range_iff,
      restrictSets_lookup]
    constructor
    · rintro ⟨⟨k1, v1⟩, ⟨⟨hv, hk⟩, hne⟩, rfl⟩
      refine ⟨hk, ?_⟩
      simp only at hv hne ⊢
      rw [hv]
      intro h
      exact hne (Option.some.inj h)
    · rintro ⟨hk, hne⟩
      obtain ⟨v, hv⟩ := Option.isSome_iff_exists.mp (hin k hk)
      refine ⟨(k, v), ⟨⟨hv, hk⟩, ?_⟩, rfl⟩
      intro h
      apply hne
      rw [hv]
      exact congrArg some h)
  have := hperm.length_eq
  rwa [List.length_map] at this

theorem restrict_full_len (ρ : RangeOrder) (ids : List Int) (sets : GoMap Int String)
    (hnd : ids.Nodup) (hin : ∀ id ∈ ids, (sets.lookup id).isSome) :
    (restrictSets ρ ids sets).len = ids.length := by
  rw [restrictSets_len, hnd.dedup, List.filter_eq_self.mpr]
  intro id hid
  exact hin id hid

theorem misCount_add_labelCount (ds : DTDataSet) (label : String) (ids : List Int) (c : String)
    (hnd : ids.Nodup) :
    (ids.filter fun id => labelOf ds label id ≠ some c).length + labelCount ds label ids c
      = ids.length := by
  unfold labelCount
  rw [hnd.dedup, ← List.countP_eq_length_filter, ← List.countP_eq_length_filter,
    List.length_eq_countP_add_countP (fun id => decide (labelOf ds label id = some c)) ids,
    Nat.add_comm]
  congr 1
  apply List.countP_congr
  intro id _
  simp

theorem first_of_inFirst (ds : DTDataSet) (ids : List Int) (hne : ids ≠ [])
    (hin : InFirstColumn ds ids) :
    ∃ first rest, ds.Features = first :: rest ∧ (∀ id ∈ ids, (first.Sets.lookup id).isSome) ∧
      first.Sets.len ≠ 0 := by
  obtain ⟨id, hid⟩ := List.exists_mem_of_ne_nil ids hne
  match hF : ds.Features with
  | [] =>
    have := hin id hid
    rw [hF] at this
    cases this
  | first :: rest =>
    have hall : ∀ id ∈ ids, (first.Sets.lookup id).isSome := by
      intro k hk
      have := hin k hk
      rw [hF] at this
      exact this
    refine ⟨first, rest, rfl, hall, ?_⟩
    have hmem : id ∈ first.Sets := AList.lookup_isSome.mp (hall id hid)
    intro h0
    have hnil : first.Sets.entries = [] := List.length_eq_zero.mp h0
    rw [AList.mem_keys, AList.keys, hnil] at hmem
    cases hmem

theorem errRate_restrict (ρ : RangeOrder) (ds : DTDataSet) (ids : List Int) (label t : String)
    (hu : LabelUnique ds label) (hS : NodeSamples ds label ids) :
    errRate ρ (some ⟨ds.Features.map (restrictFeature ρ ids)⟩) t label
      = .ok ((F64.ofInt (misCount ds label ids t)).div (F64.ofInt ids.length)) := by
  obtain ⟨hne, hnd, hlab, hfirst⟩ := hS
  obtain ⟨id0, hid0⟩ := List.exists_mem_of_ne_nil ids hne
  obtain ⟨col, hcol⟩ := columns_of_inColumn ds label ids hu ⟨id0, hid0, hlab id0 hid0⟩
  obtain ⟨first, rest, hF, hall, -⟩ := first_of_inFirst ds ids hne hfirst
  have hlabOf : ∀ id, labelOf ds label id = col.Sets.lookup id :=
    fun id => labelOf_of_columns_one ds label id col hcol
  have hincol : ∀ id ∈ ids, (col.Sets.lookup id).isSome := by
    intro id hid
    rw [← hlabOf]
    exact hlab id hid
  unfold errRate
  simp only []
  rw [foldl_pick_acc (fun f : DTDataFeature => f.FeatureName = label)
      (fun (errNum : Int) (feature : DTDataFeature) =>
        (feature.Sets.range ρ).foldl
          (fun (errNum : Int) (e : Int × String) => if e.2 ≠ t then errNum + 1 else errNum)
          errNum)]
  have hc : ((ds.Features.map (restrictFeature ρ ids)).filter
      fun a => decide (a.FeatureName = label)) = [restrictFeature ρ ids col] := by
    rw [columns_restrict, hcol]
    rfl
  rw [hc, List.foldl_cons, List.foldl_nil, errNum_fold]
  have hlen0 : ids.length ≠ 0 := fun h => hne (List.length_eq_zero.mp h)
  have hcount : ((((restrictFeature ρ ids col).Sets.range ρ).filter
      fun e => decide (e.2 ≠ t)).length)
      = (ids.filter fun id => labelOf ds label id ≠ some t).length := by
    rw [show (restrictFeature ρ ids col).Sets = restrictSets ρ ids col.Sets from rfl,
      restrict_errcount ρ ids col.Sets t hnd hincol]
    congr 1
    apply List.filter_congr
    intro id _
    rw [hlabOf]
  rw [hcount, hF, List.map_cons]
  simp only []
  rw [show (restrictFeature ρ ids first).Sets = restrictSets ρ ids first.Sets from rfl,
    restrict_full_len ρ ids first.Sets hnd hall]
  simp only [zero_add, misCount]

theorem labelCount_majority_eq (ds : DTDataSet) (label : String) (ids : List Int) (c t : String)
    (hc : IsMajorityLabel ds label ids c) (ht : IsMajorityLabel ds label ids t) :
    labelCount ds label ids c = labelCount ds label ids t :=
  Nat.le_antisymm (ht c) (hc t)

theorem misCount_majority (ds : DTDataSet) (label : String) (ids : List Int) (c t : String)
    (hnd : ids.Nodup) (hc : IsMajorityLabel ds label ids c)
    (ht : IsMajorityLabel ds label ids t) :
    misCount ds label ids t = misCount ds label ids c := by
  have h1 := misCount_add_labelCount ds label ids c hnd
  have h2 := misCount_add_labelCount ds label ids t hnd
  have h3 := labelCount_majority_eq ds label ids c t hc ht
  unfold misCount
  omega

/-- The cost that `calTreeNodeCostTagPart` returns for a list of labelled samples of
the table is the `float64` value `costF64` for a majority label of the list. -/
theorem calTreeNodeCost_spec (ρ : RangeOrder) (ds : DTDataSet) (ids : List Int) (label : String)
    (hu : LabelUnique ds label) (hS : NodeSamples ds label ids) (c : String)
    (hc : IsMajorityLabel ds label ids c) :
    calTreeNodeCostTagPart ρ ds ids label = .ok (costF64 ds label ids c) := by
  obtain ⟨t, ht, hmaj, -⟩ := GetMaxLabelTypeTagPart_spec ρ ds ids label hu hS.1
  obtain ⟨first, rest, hF, -, hN⟩ := first_of_inFirst ds ids hS.1 hS.2.2.2
  unfold GetMaxLabelTypeTagPart at ht
  unfold calTreeNodeCostTagPart
  simp only []
  rw [ht]
  simp only []
  rw [retrieve_of_ne_nil ρ ds ids hS.1, errRate_restrict ρ ds ids label t hu hS]
  simp only []
  rw [hF]
  simp only []
  simp only [costF64, totalSamples, hF, misCount_majority ds label ids c t hS.2.1 hc hmaj]

theorem isMajority_of_labels (ds : DTDataSet) (label : String) (ids : List Int) (c : String)
    (h : ∀ c' ∈ labelsOf ds label ids, labelCount ds label ids c' ≤ labelCount ds label ids c) :
    IsMajorityLabel ds label ids c := by
  intro c'
  by_cases hmem : c' ∈ labelsOf ds label ids
  · exact h c' hmem
  · have : labelCount ds label ids c' = 0 := by
      by_contra hne
      exact hmem ((mem_labelsOf ds label ids c').mpr ((labelCount_pos_iff ds label ids c').mp hne))
    rw [this]
    exact Nat.zero_le _


/-! ## Split selection -/

theorem giniCode_pure (ds : DTDataSet) (label : String) (ids : List Int) (ℓ : String)
    (hne : ids ≠ []) (hall : ∀ id ∈ ids, labelOf ds label id = some ℓ) :
    giniCode ds label ids = 0 ∧ sampleCount ds label ids ≠ 0 := by
  obtain ⟨id0, hid0⟩ := List.exists_mem_of_ne_nil ids hne
  have hdd : ids.dedup.length ≠ 0 := by
    intro h
    have := List.length_eq_zero.mp h
    have hm : id0 ∈ ids.dedup := List.mem_dedup.mpr hid0
    rw [this] at hm
    exact List.not_mem_nil _ hm
  have hin : InLabelColumn ds label ids := by
    intro id hid
    rw [hall id hid]
    rfl
  have hN := sampleCount_of_inColumn ds label ids hin
  have hlabels : labelsOf ds label ids = [ℓ] := by
    apply List.perm_singleton.mp
    have hnd : (labelsOf ds label ids).Nodup := List.nodup_dedup _
    rw [List.perm_ext_iff_of_nodup hnd (List.nodup_singleton ℓ)]
    intro c
    rw [mem_labelsOf, List.mem_singleton]
    constructor
    · rintro ⟨id, hid, hl⟩
      rw [hall id hid] at hl
      exact (Option.some.inj hl).symm
    · rintro rfl
      exact ⟨id0, hid0, hall id0 hid0⟩
  have hcount : labelCount ds label ids ℓ = ids.dedup.length := by
    unfold labelCount
    rw [List.filter_eq_self.mpr]
    intro id hid
    simpa using hall id (List.mem_dedup.mp hid)
  have hq : (ids.dedup.length : ℚ) ≠ 0 := by exact_mod_cast hdd
  refine ⟨?_, by rw [hN]; exact hdd⟩
  unfold giniCode
  rw [hlabels, hN]
  simp only [List.map_cons, List.map_nil, List.sum_cons, List.sum_nil, add_zero]
  rw [hcount, div_self hq]
  norm_num

theorem CalGini_pure_pair (ρ : RangeOrder) (ds : DTDataSet) (L R : List Int) (label a b : String)
    (hu : LabelUnique ds label) (hL : L ≠ []) (hR : R ≠ [])
    (hLa : ∀ id ∈ L, labelOf ds label id = some a)
    (hRb : ∀ id ∈ R, labelOf ds label id = some b) :
    CalGiniByTagPart ρ ds L R label = some 0 := by
  obtain ⟨id0, hid0⟩ := List.exists_mem_of_ne_nil L hL
  obtain ⟨col, hcol⟩ := columns_of_inColumn ds label L hu
    ⟨id0, hid0, by rw [hLa id0 hid0]; rfl⟩
  obtain ⟨gL, nL⟩ := giniCode_pure ds label L a hL hLa
  obtain ⟨gR, nR⟩ := giniCode_pure ds label R b hR hRb
  rw [CalGini_both ρ ds L R label col hcol hL hR (by omega), gL, gR]
  simp

theorem minGiniSearch_single (ρ : RangeOrder) (ds : DTDataSet) (label : String)
    (left right : List Int) (g : ℚ)
    (hg : CalGiniByTagPart ρ ds left right label = some g) (hlt : g < 1) :
    minGiniSearch ρ ds label [left] [right] = .ok (g, 0) := by
  simp [minGiniSearch, List.range_succ, hg, hlt, pure, Except.pure, bind, Except.bind]

/-- The split selection when both Gini loops have returned: the non-tag party's
candidate is recorded in `modelA` when its lowest Gini index is strictly lower, the
tag party's candidate is recorded in `modelB` otherwise. -/
theorem determineNodeSplit_spec (lib : Stdlib) (ρ : RangeOrder) (allDataB : DTDataSet)
    (curNode : CTreeNode) (label : String)
    (featuresA : List String) (splitsA : List SplitValue) (idsLeftA idsRightA : List (List Int))
    (featuresB : List String) (splitsB : List SplitValue) (idsLeftB idsRightB : List (List Int))
    (modelA modelB : GoMap String CTreeNode) (minGiniA minGiniB : ℚ) (idxA idxB : Int)
    (hA : minGiniSearch ρ allDataB label idsLeftA idsRightA = .ok (minGiniA, idxA))
    (hB : minGiniSearch ρ allDataB label idsLeftB idsRightB = .ok (minGiniB, idxB)) :
    (∀ feature split left right,
      minGiniA < minGiniB →
      indexAt featuresA idxA = some feature → indexAt splitsA idxA = some split →
      indexAt idsLeftA idxA = some left → indexAt idsRightA idxA = some right →
      determineNodeSplit lib ρ allDataB curNode label featuresA splitsA idsLeftA idsRightA
          featuresB splitsB idsLeftB idsRightB modelA modelB
        = .ok
          { isA := true
            modelA := modelA.set (NodeKeyByDepthIndex lib curNode.Depth curNode.Index)
              { SampleIDList := curNode.SampleIDList
                FeatureName := feature
                Continuous := split.isFloat
                SplitValue := some split
                Result := ""
                Depth := curNode.Depth
                Index := curNode.Index
                Gini := some 0 }
            modelB := modelB
            idsLeft := left
            idsRight := right }) ∧
    (∀ feature split left right node,
      ¬ minGiniA < minGiniB →
      indexAt featuresB idxB = some feature → indexAt splitsB idxB = some split →
      indexAt idsLeftB idxB = some left → indexAt idsRightB idxB = some right →
      modelB.lookup (NodeKeyByDepthIndex lib curNode.Depth curNode.Index) = some node →
      determineNodeSplit lib ρ allDataB curNode label featuresA splitsA idsLeftA idsRightA
          featuresB splitsB idsLeftB idsRightB modelA modelB
        = .ok
          { isA := false
            modelA := modelA
            modelB := modelB.set (NodeKeyByDepthIndex lib curNode.Depth curNode.Index)
              { node with
                FeatureName := feature
                SplitValue := some split
                Continuous := split.isFloat }
            idsLeft := left
            idsRight := right }) := by
  constructor
  · intro feature split left right hlt h1 h2 h3 h4
    unfold determineNodeSplit
    simp only [hA, hB, if_pos hlt, h1, h2, h3, h4]
  · intro feature split left right node hlt h1 h2 h3 h4 h5
    unfold determineNodeSplit
    simp only [hA, hB, if_neg hlt, h1, h2, h3, h4, h5]

/-- C16, as stated, fails: at the root of the test table the non-tag party's
candidate `Income = high` and the tag party's candidate `Age ≤ 40` both have the
lowest Gini index `0`, and the split is recorded in the tag party's model. -/
theorem determineNodeSplit_tie_selects_tag_party :
    minGiniSearch RangeOrder.stored toyData "Target" [[0, 2]] [[1, 3]] = .ok (0, 0) ∧
    minGiniSearch RangeOrder.stored toyData "Target" [[2, 0]] [[3, 1]] = .ok (0, 0) ∧
    ∃ choice,
      determineNodeSplit libSqueeze RangeOrder.stored toyData toyPending "Target"
        ["Income"] [.str "high"] [[0, 2]] [[1, 3]] ["Age"] [.float 40] [[2, 0]] [[3, 1]]
        ∅ toyModelB = .ok choice ∧
      choice.isA = false ∧
      choice.modelA.lookup (NodeKeyByDepthIndex libSqueeze 0 0) = none ∧
      (choice.modelB.lookup (NodeKeyByDepthIndex libSqueeze 0 0)).map
        (fun node => (node.FeatureName, node.SplitValue)) = some ("Age", some (.float 40)) := by
  have hA : minGiniSearch RangeOrder.stored toyData "Target" [[0, 2]] [[1, 3]] = .ok (0, 0) :=
    minGiniSearch_single _ _ _ _ _ 0
      (CalGini_pure_pair _ toyData [0, 2] [1, 3] "Target" "yes" "no" (by decide) (by decide)
        (by decide) (by decide) (by decide)) (by norm_num)
  have hB : minGiniSearch RangeOrder.stored toyData "Target" [[2, 0]] [[3, 1]] = .ok (0, 0) :=
    minGiniSearch_single _ _ _ _ _ 0
      (CalGini_pure_pair _ toyData [2, 0] [3, 1] "Target" "yes" "no" (by decide) (by decide)
        (by decide) (by decide) (by decide)) (by norm_num)
  refine ⟨hA, hB, _, (determineNodeSplit_spec libSqueeze RangeOrder.stored toyData toyPending
    "Target" ["Income"] [.str "high"] [[0, 2]] [[1, 3]] ["Age"] [.float 40] [[2, 0]] [[3, 1]]
    ∅ toyModelB 0 0 0 0 hA hB).2 "Age" (.float 40) [2, 0] [3, 1] toyPending (lt_irrefl 0)
    rfl rfl rfl rfl rfl, rfl, rfl, ?_⟩
  show Option.map _ (AList.lookup (NodeKeyByDepthIndex libSqueeze toyPending.Depth
    toyPending.Index) (AList.insert _ _ toyModelB)) = _
  rw [AList.lookup_insert]
  rfl

theorem mem_reduceOption_get (gs : List (Option ℚ)) (g : ℚ) :
    g ∈ gs.reduceOption ↔ ∃ j, gs.get? j = some (some g) := by
  rw [List.reduceOption_mem_iff, List.mem_iff_get?]

theorem mem_take_reduceOption_get (gs : List (Option ℚ)) (i : Nat) (g : ℚ) :
    g ∈ (gs.take i).reduceOption ↔ ∃ j, j < i ∧ gs.get? j = some (some g) := by
  rw [mem_reduceOption_get]
  constructor
  · rintro ⟨j, hj⟩
    have hlt : j < i := by
      by_contra hge
      have : (gs.take i).get? j = none := by
        rw [List.get?_eq_none]
        exact le_trans (List.length_take_le i gs) (not_lt.mp hge)
      rw [this] at hj
      cases hj
    refine ⟨j, hlt, ?_⟩
    rw [List.get?_eq_getElem?] at hj ⊢
    rwa [List.getElem?_take_of_lt hlt] at hj
  · rintro ⟨j, hlt, hj⟩
    refine ⟨j, ?_⟩
    rw [List.get?_eq_getElem?] at hj ⊢
    rwa [List.getElem?_take_of_lt hlt]

theorem candidateGinis_get (ρ : RangeOrder) (ds : DTDataSet) (label : String)
    (idsLeft idsRight : List (List Int)) (j : Nat) (left right : List Int)
    (hl : idsLeft.get? j = some left) (hr : idsRight.get? j = some right) :
    (candidateGinis ρ ds label idsLeft idsRight).get? j
      = some (CalGiniByTagPart ρ ds left right label) := by
  unfold candidateGinis
  rw [List.get?_eq_getElem?] at hl hr ⊢
  rw [List.getElem?_zipWith, hl, hr]

/-- The state of a Gini loop of `determineNodeByDepthIndex` after the first `k`
candidates. -/
theorem minGiniSearch_prefix (ρ : RangeOrder) (ds : DTDataSet) (label : String)
    (idsLeft idsRight : List (List Int)) (hlen : idsLeft.length ≤ idsRight.length)
    (f : ℚ × Int → Nat → Except Fault (ℚ × Int))
    (hf : f = fun (st : ℚ × Int) (i : Nat) =>
      match idsLeft.get? i, idsRight.get? i with
      | some left, some right =>
        match CalGiniByTagPart ρ ds left right label with
        | some gini => if gini < st.1 then Except.ok (gini, (i : Int)) else Except.ok st
        | none => Except.ok st
      | _, _ => Except.error Fault.panic)
    (k : Nat) (hk : k ≤ idsLeft.length) :
    ∃ m i, (List.range k).foldlM f ((1 : ℚ), (0 : Int)) = .ok (m, i) ∧
      ((m = 1 ∧ i = 0 ∧
          ∀ j g, j < k → (candidateGinis ρ ds label idsLeft idsRight).get? j = some (some g) →
            1 ≤ g) ∨
        (m < 1 ∧ ∃ i0 : Nat, i = (i0 : Int) ∧ i0 < k ∧
          (candidateGinis ρ ds label idsLeft idsRight).get? i0 = some (some m) ∧
          (∀ j g, j < k → (candidateGinis ρ ds label idsLeft idsRight).get? j = some (some g) →
            m ≤ g) ∧
          ∀ j g, j < i0 → (candidateGinis ρ ds label idsLeft idsRight).get? j = some (some g) →
            m < g)) := by
  induction k with
  | zero =>
    refine ⟨1, 0, rfl, Or.inl ⟨rfl, rfl, ?_⟩⟩
    intro j g hj
    omega
  | succ k ih =>
    obtain ⟨m, i, hrun, hinv⟩ := ih (by omega)
    have hkl : k < idsLeft.length := by omega
    have hkr : k < idsRight.length := by omega
    obtain ⟨left, hleft⟩ : ∃ left, idsLeft.get? k = some left :=
      ⟨idsLeft.get ⟨k, hkl⟩, List.get?_eq_get hkl⟩
    obtain ⟨right, hright⟩ : ∃ right, idsRight.get? k = some right :=
      ⟨idsRight.get ⟨k, hkr⟩, List.get?_eq_get hkr⟩
    have hgk := candidateGinis_get ρ ds label idsLeft idsRight k left right hleft hright
    rw [List.range_succ, List.foldlM_append, hrun]
    have hstep : f (m, i) k
        = match CalGiniByTagPart ρ ds left right label with
          | some gini => if gini < m then Except.ok (gini, (k : Int)) else Except.ok (m, i)
          | none => Except.ok (m, i) := by
      rw [hf]
      simp only [hleft, hright]
    simp only [bind, Except.bind, List.foldlM_cons, List.foldlM_nil, pure, Except.pure]
    rw [hstep]
    cases hg : CalGiniByTagPart ρ ds left right label with
    | none =>
      rw [hg] at hgk
      refine ⟨m, i, rfl, ?_⟩
      have hskip : ∀ j g, j < k + 1 →
          (candidateGinis ρ ds label idsLeft idsRight).get? j = some (some g) → j < k := by
        intro j g hj hjg
        rcases Nat.lt_succ_iff_lt_or_eq.mp hj with h | h
        · exact h
        · subst h
          rw [hgk] at hjg
          cases hjg
      rcases hinv with ⟨h1, h2, h3⟩ | ⟨h1, i0, h2, h3, h4, h5, h6⟩
      · exact Or.inl ⟨h1, h2, fun j g hj hjg => h3 j g (hskip j g hj hjg) hjg⟩
      · exact Or.inr ⟨h1, i0, h2, by omega, h4,
          fun j g hj hjg => h5 j g (hskip j g hj hjg) hjg, h6⟩
    | some gini =>
      rw [hg] at hgk
      simp only []
      by_cases hlt : gini < m
      · rw [if_pos hlt]
        have hm1 : m ≤ 1 := by
          rcases hinv with ⟨h1, -, -⟩ | ⟨h1, -⟩
          · exact h1.le
          · exact h1.le
        have hprev : ∀ j g, j < k →
            (candidateGinis ρ ds label idsLeft idsRight).get? j = some (some g) → m ≤ g := by
          intro j g hj hjg
          rcases hinv with ⟨h1, -, h3⟩ | ⟨-, i0, -, -, -, h5, -⟩
          · rw [h1]
            exact h3 j g hj hjg
          · exact h5 j g hj hjg
        refine ⟨gini, (k : Int), rfl, Or.inr ⟨lt_of_lt_of_le hlt hm1, k, rfl, by omega, hgk, ?_, ?_⟩⟩
        · intro j g hj hjg
          rcases Nat.lt_succ_iff_lt_or_eq.mp hj with h | h
          · exact le_trans hlt.le (hprev j g h hjg)
          · subst h
            rw [hgk] at hjg
            cases hjg
            exact le_refl _
        · intro j g hj hjg
          exact lt_of_lt_of_le hlt (hprev j g hj hjg)
      · rw [if_neg hlt]
        have hge : m ≤ gini := not_lt.mp hlt
        refine ⟨m, i, rfl, ?_⟩
        rcases hinv with ⟨h1, h2, h3⟩ | ⟨h1, i0, h2, h3, h4, h5, h6⟩
        · refine Or.inl ⟨h1, h2, ?_⟩
          intro j g hj hjg
          rcases Nat.lt_succ_iff_lt_or_eq.mp hj with h | h
          · exact h3 j g h hjg
          · subst h
            rw [hgk] at hjg
            cases hjg
            rw [← h1]
            exact hge
        · refine Or.inr ⟨h1, i0, h2, by omega, h4, ?_, h6⟩
          intro j g hj hjg
          rcases Nat.lt_succ_iff_lt_or_eq.mp hj with h | h
          · exact h5 j g h hjg
          · subst h
            rw [hgk] at hjg
            cases hjg
            exact hge

/-- A Gini loop of `determineNodeByDepthIndex` returns the lowest Gini index among
the candidates and the first candidate that attains it, when that index is below the
initial bound `1`. -/
theorem minGiniSearch_lowest (ρ : RangeOrder) (ds : DTDataSet) (label : String)
    (idsLeft idsRight : List (List Int)) (hlen : idsLeft.length = idsRight.length)
    (m : ℚ) (i : Nat)
    (hlow : LowestGini (candidateGinis ρ ds label idsLeft idsRight) m i) (h1 : m < 1) :
    minGiniSearch ρ ds label idsLeft idsRight = .ok (m, (i : Int)) := by
  obtain ⟨hat, hall, hfirst⟩ := hlow
  obtain ⟨m', i', hrun, hinv⟩ := minGiniSearch_prefix ρ ds label idsLeft idsRight hlen.le _ rfl
    idsLeft.length (le_refl _)
  have hi : i < idsLeft.length := by
    have h := List.get?_eq_some.mp hat
    obtain ⟨hlt, -⟩ := h
    unfold candidateGinis at hlt
    rw [List.length_zipWith] at hlt
    omega
  have hrun2 : minGiniSearch ρ ds label idsLeft idsRight = .ok (m', i') := hrun
  rw [hrun2]
  rcases hinv with ⟨-, -, h3⟩ | ⟨-, i0, h2, h3, h4, h5, h6⟩
  · exact absurd (h3 i m hi hat) (not_le.mpr h1)
  · have hm : m' = m := by
      apply le_antisymm
      · exact h5 i m hi hat
      · exact hall m' ((mem_reduceOption_get _ _).mpr ⟨i0, h4⟩)
    subst hm
    have hidx : i0 = i := by
      rcases Nat.lt_trichotomy i0 i with h | h | h
      · exact absurd (hfirst m' ((mem_take_reduceOption_get _ _ _).mpr ⟨i0, h, h4⟩))
          (lt_irrefl _)
      · exact h
      · exact absurd (h6 i m' h hat) (lt_irrefl _)
    rw [h2, hidx]

/-- C16 (amended). In the split selection of `determineNodeByDepthIndex`, for
candidate lists of equal lengths: when the lowest Gini index among the non-tag
party's candidates equals the lowest among the tag party's candidates (a value below
the initial bound `1` of the two searches), the tag party's first candidate of that
Gini index is chosen and the node's split is stored in the tag party's model; the
non-tag party's first candidate of lowest Gini index is chosen, and stored in its
model, when its lowest Gini index is strictly lower. -/
theorem determineNodeSplit_tie (lib : Stdlib) (ρ : RangeOrder) (allDataB : DTDataSet)
    (curNode : CTreeNode) (label : String)
    (featuresA : List String) (splitsA : List SplitValue) (idsLeftA idsRightA : List (List Int))
    (featuresB : List String) (splitsB : List SplitValue) (idsLeftB idsRightB : List (List Int))
    (modelA modelB : GoMap String CTreeNode) (minGiniA minGiniB : ℚ) (idxA idxB : Nat)
    (hlenA : idsLeftA.length = idsRightA.length) (hlenB : idsLeftB.length = idsRightB.length)
    (hA : LowestGini (candidateGinis ρ allDataB label idsLeftA idsRightA) minGiniA idxA)
    (hB : LowestGini (candidateGinis ρ allDataB label idsLeftB idsRightB) minGiniB idxB)
    (hB1 : minGiniB < 1) :
    (∀ feature split left right node,
      minGiniA = minGiniB →
      featuresB.get? idxB = some feature → splitsB.get? idxB = some split →
      idsLeftB.get? idxB = some left → idsRightB.get? idxB = some right →
      modelB.lookup (NodeKeyByDepthIndex lib curNode.Depth curNode.Index) = some node →
      determineNodeSplit lib ρ allDataB curNode label featuresA splitsA idsLeftA idsRightA
          featuresB splitsB idsLeftB idsRightB modelA modelB
        = .ok
          { isA := false
            modelA := modelA
            modelB := modelB.set (NodeKeyByDepthIndex lib curNode.Depth curNode.Index)
              { node with
                FeatureName := feature
                SplitValue := some split
                Continuous := split.isFloat }
            idsLeft := left
            idsRight := right }) ∧
    (∀ feature split left right,
      minGiniA < minGiniB →
      featuresA.get? idxA = some feature → splitsA.get? idxA = some split →
      idsLeftA.get? idxA = some left → idsRightA.get? idxA = some right →
      determineNodeSplit lib ρ allDataB curNode label featuresA splitsA idsLeftA idsRightA
          featuresB splitsB idsLeftB idsRightB modelA modelB
        = .ok
          { isA := true
            modelA := modelA.set (NodeKeyByDepthIndex lib curNode.Depth curNode.Index)
              { SampleIDList := curNode.SampleIDList
                FeatureName := feature
                Continuous := split.isFloat
                SplitValue := some split
                Result := ""
                Depth := curNode.Depth
                Index := curNode.Index
                Gini := some 0 }
            modelB := modelB
            idsLeft := left
            idsRight := right }) := by
  have hsB := minGiniSearch_lowest ρ allDataB label idsLeftB idsRightB hlenB minGiniB idxB hB hB1
  have hidx : ∀ {α : Type} (s : List α) (i : Nat), indexAt s (i : Int) = s.get? i := by
    intro α s i
    unfold indexAt
    rw [if_pos (Int.natCast_nonneg i), Int.toNat_natCast]
  constructor
  · intro feature split left right node htie h1 h2 h3 h4 h5
    have hsA := minGiniSearch_lowest ρ allDataB label idsLeftA idsRightA hlenA minGiniA idxA hA
      (by rw [htie]; exact hB1)
    exact (determineNodeSplit_spec lib ρ allDataB curNode label featuresA splitsA idsLeftA
      idsRightA featuresB splitsB idsLeftB idsRightB modelA modelB minGiniA minGiniB idxA idxB
      hsA hsB).2 feature split left right node (by rw [htie]; exact lt_irrefl _)
      (by rw [hidx, h1]) (by rw [hidx, h2]) (by rw [hidx, h3]) (by rw [hidx, h4]) h5
  · intro feature split left right hlt h1 h2 h3 h4
    have hsA := minGiniSearch_lowest ρ allDataB label idsLeftA idsRightA hlenA minGiniA idxA hA
      (lt_trans hlt hB1)
    exact (determineNodeSplit_spec lib ρ allDataB curNode label featuresA splitsA idsLeftA
      idsRightA featuresB splitsB idsLeftB idsRightB modelA modelB minGiniA minGiniB idxA idxB
      hsA hsB).1 feature split left right hlt
      (by rw [hidx, h1]) (by rw [hidx, h2]) (by rw [hidx, h3]) (by rw [hidx, h4])

/-- Witness for C16: at the root of the test table each party has three candidates;
the lowest Gini index of either party is `0`, attained by the second candidate
`Income = high` of the non-tag party and by the second and the third candidate of
the tag party, and the tag party's `Age ≤ 40` is chosen. -/
theorem determineNodeSplit_tie_witness :
    determineNodeSplit libSqueeze RangeOrder.stored toyData toyPending "Target"
        ["Income", "Income", "Income"] [.str "low", .str "high", .str "mid"]
        [[0, 1], [0, 2], [0, 1, 2]] [[2, 3], [1, 3], [3]]
        ["Age", "Age", "Age"] [.float 30, .float 40, .float 45]
        [[0], [2, 0], [0, 2]] [[1, 2, 3], [3, 1], [1, 3]]
        ∅ toyModelB
      = .ok
        { isA := false
          modelA := ∅
          modelB := toyModelB.set (NodeKeyByDepthIndex libSqueeze 0 0)
            { toyPending with
              FeatureName := "Age"
              SplitValue := some (.float 40)
              Continuous := true }
          idsLeft := [2, 0]
          idsRight := [3, 1] } :=
  (determineNodeSplit_tie libSqueeze RangeOrder.stored toyData toyPending "Target"
    ["Income", "Income", "Income"] [.str "low", .str "high", .str "mid"]
    [[0, 1], [0, 2], [0, 1, 2]] [[2, 3], [1, 3], [3]]
    ["Age", "Age", "Age"] [.float 30, .float 40, .float 45]
    [[0], [2, 0], [0, 2]] [[1, 2, 3], [3, 1], [1, 3]]
    ∅ toyModelB 0 0 1 1 rfl rfl (by decide!) (by decide!) (by norm_num)).1
    "Age" (.float 40) [2, 0] [3, 1] toyPending rfl rfl rfl rfl rfl rfl


/-! ## Absent keys, unparsable values, the Gini threshold -/

/-- C21 fails on the code: with the key of the left child, of the right child or of
the node itself absent from the model, `IfPruneNodeByTagPart` does not return (it
reads a field of the nil entry). -/
theorem IfPruneNodeByTagPart_absent_key_panics :
    IfPruneNodeByTagPart libSqueeze RangeOrder.stored toyData ∅ "Target" 0 0 (.fin 0)
      = .error .panic ∧
    IfPruneNodeByTagPart libSqueeze RangeOrder.stored toyData toyModelNoRoot "Target" 0 0 (.fin 0)
      = .error .panic ∧
    IfPruneNodeByTagPart libSqueeze RangeOrder.stored toyData toyLeavesOnly "Target" 0 0 (.fin 0)
      = .error .panic :=
  ⟨rfl, rfl, rfl⟩

/-- C22. If the stored split decisions lead the sample in `n` steps to a node with
a continuous split whose feature value is missing from the sample (the empty
string does not parse) or does not parse as a number, `PredictionStep` returns the
empty result with an error. -/
theorem PredictionStep_parse_error (lib : Stdlib) (parseFloat : String → Option ℚ)
    (model : GoMap String CTreeNode) (sample : GoMap String String) (depth index d' i' : Int)
    (n fuel : Nat) (node : CTreeNode)
    (hroute : RoutesTo lib parseFloat model sample depth index d' i' n)
    (hnode : model.lookup (NodeKeyByDepthIndex lib d' i') = some node)
    (hcont : node.Continuous = true) (hsv : node.SplitValue ≠ none) (hres : node.Result = "")
    (hbad : (sample.lookup node.FeatureName = none ∧ parseFloat "" = none) ∨
      ∃ v, sample.lookup node.FeatureName = some v ∧ parseFloat v = none)
    (hfuel : n < fuel) :
    PredictionStep lib parseFloat fuel model sample depth index
      = .ok ("", 0, 0,
          some ("failed to parse sample value with feature[" ++ node.FeatureName ++ "]")) := by
  obtain ⟨k, rfl⟩ : ∃ k, fuel = (k + 1) + n := ⟨fuel - n - 1, by omega⟩
  have hp : parseFloat (sample.getStr node.FeatureName) = none := by
    unfold GoMap.getStr
    rcases hbad with ⟨h1, h2⟩ | ⟨v, h1, h2⟩
    · rw [h1]; exact h2
    · rw [h1]; exact h2
  rw [PredictionStep_route lib parseFloat model sample depth index d' i' n hroute]
  unfold PredictionStep
  simp only [hnode, hsv, hres, hcont, hp, ne_eq, not_false_eq_true, true_or, if_true,
    not_true_eq_false, if_false]

/-- Witness for C22: the root of the test model splits on `Age`, which the empty
sample does not hold. -/
theorem PredictionStep_parse_error_witness :
    PredictionStep libSqueeze toyParse 1 toyModel ∅ 0 0
      = .ok ("", 0, 0, some "failed to parse sample value with feature[Age]") :=
  PredictionStep_parse_error libSqueeze toyParse toyModel ∅ 0 0 0 0 0 1 toyRoot
    (RoutesTo.here 0 0) rfl rfl (by decide) rfl (Or.inl ⟨rfl, rfl⟩) (by decide)

/-- C26 fails on the code: the node `[0, 1, 3]` of the test table is non-empty, not
uniform, above the sample threshold and below the depth threshold, its Gini index
`4/9` differs from its parent's `1/2` by less than the Gini threshold `1/10`, and
`DecideTerminateTagPart` does not mark it as a leaf. -/
theorem DecideTerminateTagPart_ignores_fatherGini :
    [(0 : Int), 1, 3] ≠ [] ∧ ¬ SameLabel toyData "Target" [0, 1, 3] ∧
    toyOscillation.SampleThreshold < (([0, 1, 3] : List Int).length : Int) ∧
    (1 : Int) < toyOscillation.DepthThreshold ∧
    |(4 / 9 : ℚ) - 1 / 2| < toyOscillation.GiniThreshold ∧
    DecideTerminateTagPart RangeOrder.stored toyData [0, 1, 3] [0, 1, 2, 3] (some (4 / 9))
        (some (1 / 2)) 1 "Target" toyOscillation = .ok (false, "") := by
  refine ⟨by decide, by decide, by decide, by decide, ?_, ?_⟩
  · rw [abs_lt]
    constructor <;> norm_num [toyOscillation]
  · rw [decide_notSame RangeOrder.stored toyData [0, 1, 3] [0, 1, 2, 3] (some (4 / 9))
      (some (1 / 2)) 1 "Target" toyOscillation (by decide) (by decide) (by decide)]
    rw [if_neg]
    rintro (h | h | h)
    · exact absurd h (by decide)
    · exact absurd h.2 (by decide)
    · simp only [giniAtMost, toyOscillation, decide_eq_true_eq] at h
      norm_num at h


/-! ## `pruneTreeB` -/

theorem pruneVisit_skip (lib : Stdlib) (ρ : RangeOrder) (ds : DTDataSet) (regParam : F64)
    (label : String) (st : PruneState) (id : String)
    (h : ¬ ∃ node, Prunable lib st.modelB id node) :
    pruneVisit lib ρ ds regParam label st id = .ok st := by
  unfold pruneVisit
  cases hn : st.modelB.lookup id with
  | none => rfl
  | some node =>
    simp only []
    by_cases hres : node.Result = ""
    · simp only [hres, ne_eq, not_true_eq_false, if_false]
      cases hl : st.modelB.lookup
          (NodeKeyByDepthIndex lib (wrapInt (node.Depth + 1)) (wrapInt (node.Index * 2))) with
      | none => rfl
      | some l =>
        simp only []
        by_cases hlr : l.Result = ""
        · simp only [hlr, if_true]
        · simp only [hlr, if_false]
          cases hr : st.modelB.lookup
              (NodeKeyByDepthIndex lib (wrapInt (node.Depth + 1))
                (wrapInt (node.Index * 2 + 1))) with
          | none => rfl
          | some r =>
            simp only []
            by_cases hrr : r.Result = ""
            · simp only [hrr, if_true]
            · exact absurd ⟨node, hn, hres, ⟨l, hl, hlr⟩, ⟨r, hr, hrr⟩⟩ h
    · simp only [hres, ne_eq, not_false_eq_true, if_true]

theorem prunable_ne_children (lib : Stdlib) (modelB : GoMap String CTreeNode) (id : String)
    (node : CTreeNode) (h : Prunable lib modelB id node) :
    id ≠ leftKey lib node ∧ id ≠ rightKey lib node := by
  obtain ⟨hn, hres, ⟨l, hl, hlr⟩, ⟨r, hr, hrr⟩⟩ := h
  constructor
  · intro e
    rw [← e, hn] at hl
    exact hlr (Option.some.inj hl ▸ hres)
  · intro e
    rw [← e, hn] at hr
    exact hrr (Option.some.inj hr ▸ hres)

theorem pruneVisit_test (lib : Stdlib) (ρ : RangeOrder) (ds : DTDataSet) (regParam : F64)
    (label : String) (st : PruneState) (id : String) (node : CTreeNode)
    (h : Prunable lib st.modelB id node) :
    pruneVisit lib ρ ds regParam label st id
      = match IfPruneNodeByTagPart lib ρ ds st.modelB label node.Depth node.Index regParam with
        | .error f => .error f
        | .ok false => .ok st
        | .ok true =>
          match GetMaxLabelTypeTagPart ρ ds node.SampleIDList label with
          | .error f => .error f
          | .ok t => .ok (mergeNode lib st id node t) := by
  obtain ⟨hne1, hne2⟩ := prunable_ne_children lib st.modelB id node h
  obtain ⟨hn, hres, ⟨l, hl, hlr⟩, ⟨r, hr, hrr⟩⟩ := h
  unfold leftKey at hl hne1
  unfold rightKey at hr hne2
  have hcur : ((st.modelB.delete
      (NodeKeyByDepthIndex lib (wrapInt (node.Depth + 1)) (wrapInt (node.Index * 2)))).delete
      (NodeKeyByDepthIndex lib (wrapInt (node.Depth + 1)) (wrapInt (node.Index * 2 + 1)))).lookup
      id = some node := by
    unfold GoMap.delete
    rw [AList.lookup_erase_ne hne2, AList.lookup_erase_ne hne1, hn]
  unfold pruneVisit
  simp only [hn, hres, hl, hlr, hr, hrr, ne_eq, not_true_eq_false, if_false, hcur]
  rfl

theorem isSameType_error (ρ : RangeOrder) (d : Option DTDataSet) (label : String) (f : Fault)
    (h : isSameType ρ d label = .error f) : f = .panic := by
  unfold isSameType at h
  cases d with
  | none => simp only [Except.error.injEq] at h; exact h.symm
  | some ds =>
    simp only [] at h
    split at h <;> cases h

theorem getMaxLabelType_error (ρ : RangeOrder) (d : Option DTDataSet) (label : String)
    (f : Fault) (h : getMaxLabelType ρ d label = .error f) : f = .panic := by
  unfold getMaxLabelType at h
  split at h
  · rename_i f' he
    simp only [Except.error.injEq] at h
    rw [← h]
    exact isSameType_error ρ d label f' he
  · split at h <;> cases h

theorem errRate_error (ρ : RangeOrder) (d : Option DTDataSet) (result label : String)
    (f : Fault) (h : errRate ρ d result label = .error f) : f = .panic := by
  unfold errRate at h
  cases d with
  | none => simp only [Except.error.injEq] at h; exact h.symm
  | some ds =>
    simp only [] at h
    split at h
    · simp only [Except.error.injEq] at h; exact h.symm
    · cases h

theorem calTreeNodeCost_error (ρ : RangeOrder) (ds : DTDataSet) (ids : List Int)
    (label : String) (f : Fault) (h : calTreeNodeCostTagPart ρ ds ids label = .error f) :
    f = .panic := by
  unfold calTreeNodeCostTagPart at h
  simp only [] at h
  split at h
  · rename_i f' he
    simp only [Except.error.injEq] at h
    rw [← h]
    exact getMaxLabelType_error ρ _ label f' he
  · split at h
    · rename_i f' he
      simp only [Except.error.injEq] at h
      rw [← h]
      exact errRate_error ρ _ _ label f' he
    · split at h
      · simp only [Except.error.injEq] at h; exact h.symm
      · cases h

theorem IfPrune_error (lib : Stdlib) (ρ : RangeOrder) (ds : DTDataSet)
    (model : GoMap String CTreeNode) (label : String) (depth index : Int) (regParam : F64)
    (f : Fault)
    (h : IfPruneNodeByTagPart lib ρ ds model label depth index regParam = .error f) :
    f = .panic := by
  unfold IfPruneNodeByTagPart at h
  simp only [] at h
  split at h
  · simp only [Except.error.injEq] at h; exact h.symm
  · split at h
    · cases h
    · split at h
      · simp only [Except.error.injEq] at h; exact h.symm
      · split at h
        · cases h
        · split at h
          · simp only [Except.error.injEq] at h; exact h.symm
          · split at h
            · rename_i f' he
              simp only [Except.error.injEq] at h
              rw [← h]
              exact calTreeNodeCost_error ρ ds _ label f' he
            · split at h
              · rename_i f' he
                simp only [Except.error.injEq] at h
                rw [← h]
                exact calTreeNodeCost_error ρ ds _ label f' he
              · split at h
                · rename_i f' he
                  simp only [Except.error.injEq] at h
                  rw [← h]
                  exact calTreeNodeCost_error ρ ds _ label f' he
                · cases h

theorem pruneVisit_error (lib : Stdlib) (ρ : RangeOrder) (ds : DTDataSet) (regParam : F64)
    (label : String) (st : PruneState) (id : String) (f : Fault)
    (h : pruneVisit lib ρ ds regParam label st id = .error f) : f = .panic := by
  by_cases hp : ∃ node, Prunable lib st.modelB id node
  · obtain ⟨node, hp⟩ := hp
    rw [pruneVisit_test lib ρ ds regParam label st id node hp] at h
    split at h
    · rename_i f' he
      simp only [Except.error.injEq] at h
      rw [← h]
      exact IfPrune_error lib ρ ds _ label _ _ regParam f' he
    · cases h
    · split at h
      · rename_i f' he
        simp only [Except.error.injEq] at h
        rw [← h]
        exact getMaxLabelType_error ρ _ label f' he
      · cases h
  · rw [pruneVisit_skip lib ρ ds regParam label st id hp] at h
    cases h

theorem pruneFold_error (lib : Stdlib) (ρ : RangeOrder) (ds : DTDataSet) (regParam : F64)
    (label : String) (ids : List String) (st : PruneState) (f : Fault)
    (h : ids.foldlM (pruneVisit lib ρ ds regParam label) st = .error f) : f = .panic := by
  induction ids generalizing st with
  | nil => cases h
  | cons id ids ih =>
    rw [List.foldlM_cons] at h
    cases hv : pruneVisit lib ρ ds regParam label st id with
    | error f' =>
      rw [hv] at h
      simp only [bind, Except.bind, Except.error.injEq] at h
      rw [← h]
      exact pruneVisit_error lib ρ ds regParam label st id f' hv
    | ok st' =>
      rw [hv] at h
      exact ih st' h

theorem len_eq_keys {κ ν : Type} (m : GoMap κ ν) : m.len = m.keys.length := by
  simp [GoMap.len, AList.keys, List.keys]

theorem len_delete_mem {κ ν : Type} [DecidableEq κ] (m : GoMap κ ν) (k : κ)
    (h : (m.lookup k).isSome) : (m.delete k).len + 1 = m.len := by
  have hk : k ∈ m.keys := AList.mem_keys.mp (AList.lookup_isSome.mp h)
  rw [len_eq_keys, len_eq_keys, GoMap.delete, AList.keys_erase, List.length_erase_of_mem hk]
  have : 0 < m.keys.length := List.length_pos_of_mem hk
  omega

theorem len_set_mem {κ ν : Type} [DecidableEq κ] (m : GoMap κ ν) (k : κ) (v : ν)
    (h : (m.lookup k).isSome) : (m.set k v).len = m.len := by
  have hk : k ∈ m.keys := AList.mem_keys.mp (AList.lookup_isSome.mp h)
  rw [len_eq_keys, len_eq_keys, GoMap.set, AList.keys_insert, List.length_cons,
    List.length_erase_of_mem hk]
  have : 0 < m.keys.length := List.length_pos_of_mem hk
  omega

theorem pruneVisit_cases (lib : Stdlib) (ρ : RangeOrder) (ds : DTDataSet) (regParam : F64)
    (label : String) (st st' : PruneState) (id : String)
    (h : pruneVisit lib ρ ds regParam label st id = .ok st') :
    (st' = st ∧ ∀ node, Prunable lib st.modelB id node →
        IfPruneNodeByTagPart lib ρ ds st.modelB label node.Depth node.Index regParam
          = .ok false) ∨
    ∃ node t, Prunable lib st.modelB id node ∧
      IfPruneNodeByTagPart lib ρ ds st.modelB label node.Depth node.Index regParam = .ok true ∧
      GetMaxLabelTypeTagPart ρ ds node.SampleIDList label = .ok t ∧
      st' = mergeNode lib st id node t := by
  by_cases hp : ∃ node, Prunable lib st.modelB id node
  · obtain ⟨node, hp⟩ := hp
    rw [pruneVisit_test lib ρ ds regParam label st id node hp] at h
    cases hif : IfPruneNodeByTagPart lib ρ ds st.modelB label node.Depth node.Index regParam with
    | error f => rw [hif] at h; cases h
    | ok b =>
      rw [hif] at h
      cases b with
      | false =>
        simp only [Except.ok.injEq] at h
        refine Or.inl ⟨h.symm, ?_⟩
        intro node' hp'
        have : node' = node := Option.some.inj (hp'.1.symm.trans hp.1)
        rw [this]
        exact hif
      | true =>
        simp only [] at h
        cases hg : GetMaxLabelTypeTagPart ρ ds node.SampleIDList label with
        | error f => rw [hg] at h; cases h
        | ok t =>
          rw [hg] at h
          simp only [Except.ok.injEq] at h
          exact Or.inr ⟨node, t, hp, hif, hg, h.symm⟩
  · rw [pruneVisit_skip lib ρ ds regParam label st id hp] at h
    simp only [Except.ok.injEq] at h
    exact Or.inl ⟨h.symm, fun node hn => absurd ⟨node, hn⟩ hp⟩

theorem mergeNode_len (lib : Stdlib) (st : PruneState) (id : String) (node : CTreeNode)
    (t : String) (hp : Prunable lib st.modelB id node)
    (hlr : leftKey lib node ≠ rightKey lib node) :
    (mergeNode lib st id node t).modelB.len + 2 = st.modelB.len := by
  obtain ⟨hne1, hne2⟩ := prunable_ne_children lib st.modelB id node hp
  obtain ⟨hn, -, ⟨l, hl, -⟩, ⟨r, hr, -⟩⟩ := hp
  have h1 := len_delete_mem st.modelB (leftKey lib node) (by rw [hl]; rfl)
  have h2 := len_delete_mem (st.modelB.delete (leftKey lib node)) (rightKey lib node) (by
    unfold GoMap.delete
    rw [AList.lookup_erase_ne (Ne.symm hlr), hr]
    rfl)
  have h3 := len_set_mem ((st.modelB.delete (leftKey lib node)).delete (rightKey lib node)) id
    { node with FeatureName := "", SplitValue := none, Result := t } (by
    unfold GoMap.delete
    rw [AList.lookup_erase_ne hne2, AList.lookup_erase_ne hne1, hn]
    rfl)
  show (GoMap.set _ _ _).len + 2 = _
  rw [h3]
  omega

theorem pruneFold_unchanged (lib : Stdlib) (ρ : RangeOrder) (ds : DTDataSet) (regParam : F64)
    (label : String) (ids : List String) (st st' : PruneState)
    (h : ids.foldlM (pruneVisit lib ρ ds regParam label) st = .ok st')
    (hflag : st'.prunedB = false) :
    st' = st ∧ ∀ id ∈ ids, ∀ node, Prunable lib st.modelB id node →
      IfPruneNodeByTagPart lib ρ ds st.modelB label node.Depth node.Index regParam
        = .ok false := by
  induction ids generalizing st with
  | nil =>
    simp only [List.foldlM_nil, pure, Except.pure, Except.ok.injEq] at h
    exact ⟨h.symm, fun _ hid => absurd hid (List.not_mem_nil _)⟩
  | cons id ids ih =>
    rw [List.foldlM_cons] at h
    cases hv : pruneVisit lib ρ ds regParam label st id with
    | error f => rw [hv] at h; cases h
    | ok st1 =>
      rw [hv] at h
      obtain ⟨e1, hrest⟩ := ih st1 h
      rcases pruneVisit_cases lib ρ ds regParam label st st1 id hv with ⟨e, hno⟩ | ⟨node, t, -, -, -, e⟩
      · rw [e] at e1 hrest
        refine ⟨e1, ?_⟩
        intro id' hid'
        rcases List.mem_cons.mp hid' with rfl | hmem
        · exact hno
        · exact hrest id' hmem
      · rw [e1, e] at hflag
        cases hflag

theorem pruneFold_len (lib : Stdlib) (ρ : RangeOrder) (ds : DTDataSet) (regParam : F64)
    (label : String) (hsib : SiblingKeysDiffer lib) (ids : List String) (st st' : PruneState)
    (h : ids.foldlM (pruneVisit lib ρ ds regParam label) st = .ok st') :
    st'.modelB.len ≤ st.modelB.len ∧
      (st'.prunedB = true → st.prunedB = true ∨ st'.modelB.len + 2 ≤ st.modelB.len) := by
  induction ids generalizing st with
  | nil =>
    simp only [List.foldlM_nil, pure, Except.pure, Except.ok.injEq] at h
    rw [← h]
    exact ⟨Nat.le_refl _, fun hf => Or.inl hf⟩
  | cons id ids ih =>
    rw [List.foldlM_cons] at h
    cases hv : pruneVisit lib ρ ds regParam label st id with
    | error f => rw [hv] at h; cases h
    | ok st1 =>
      rw [hv] at h
      obtain ⟨hle, hflag⟩ := ih st1 h
      rcases pruneVisit_cases lib ρ ds regParam label st st1 id hv with ⟨e, -⟩ | ⟨node, t, hp, -, -, e⟩
      · rw [e] at hle hflag
        exact ⟨hle, hflag⟩
      · have hlen := mergeNode_len lib st id node t hp (hsib node)
        rw [← e] at hlen
        refine ⟨by omega, fun _ => Or.inr (by omega)⟩

theorem pruneTreeB_fuel (lib : Stdlib) (ρ : RangeOrder) (ds : DTDataSet) (regParam : F64)
    (label : String) (hsib : SiblingKeysDiffer lib) :
    ∀ (fuel : Nat) (modelA modelB : GoMap String CTreeNode), modelB.len / 2 + 1 ≤ fuel →
      pruneTreeB lib ρ ds regParam label fuel modelA modelB ≠ .error .outOfFuel := by
  intro fuel
  induction fuel with
  | zero => intro _ _ h; omega
  | succ fuel ih =>
    intro modelA modelB hfuel
    unfold pruneTreeB
    cases hpass : ((modelB.range ρ).map Prod.fst).foldlM
        (pruneVisit lib ρ ds regParam label) ⟨modelA, modelB, false⟩ with
    | error f =>
      simp only []
      rw [pruneFold_error lib ρ ds regParam label _ _ f hpass]
      intro h
      cases h
    | ok st =>
      simp only []
      obtain ⟨-, hflag⟩ := pruneFold_len lib ρ ds regParam label hsib _ _ st hpass
      by_cases hp : st.prunedB = true
      · rw [if_pos hp]
        rcases hflag hp with h | h
        · cases h
        · apply ih
          simp only [] at h
          omega
      · rw [if_neg hp]
        intro h
        cases h

theorem pruneTreeB_last_pass (lib : Stdlib) (ρ : RangeOrder) (ds : DTDataSet) (regParam : F64)
    (label : String) :
    ∀ (fuel : Nat) (modelA modelB modelA' modelB' : GoMap String CTreeNode),
      pruneTreeB lib ρ ds regParam label fuel modelA modelB = .ok (modelA', modelB') →
      ((modelB'.range ρ).map Prod.fst).foldlM (pruneVisit lib ρ ds regParam label)
        ⟨modelA', modelB', false⟩ = .ok ⟨modelA', modelB', false⟩ := by
  intro fuel
  induction fuel with
  | zero => intro _ _ _ _ h; cases h
  | succ fuel ih =>
    intro modelA modelB modelA' modelB' h
    unfold pruneTreeB at h
    cases hpass : ((modelB.range ρ).map Prod.fst).foldlM
        (pruneVisit lib ρ ds regParam label) ⟨modelA, modelB, false⟩ with
    | error f => rw [hpass] at h; cases h
    | ok st =>
      rw [hpass] at h
      simp only [] at h
      by_cases hp : st.prunedB = true
      · rw [if_pos hp] at h
        exact ih _ _ _ _ h
      · rw [if_neg hp] at h
        simp only [Except.ok.injEq, Prod.mk.injEq] at h
        have hf : st.prunedB = false := by simpa using hp
        obtain ⟨e, -⟩ := pruneFold_unchanged lib ρ ds regParam label _ _ st hpass hf
        rw [e] at h
        simp only [] at h
        rw [← h.1, ← h.2]
        rw [e] at hpass
        exact hpass

theorem pruneTreeB_of_stable (lib : Stdlib) (ρ : RangeOrder) (ds : DTDataSet) (regParam : F64)
    (label : String) (modelA modelB : GoMap String CTreeNode)
    (h : ((modelB.range ρ).map Prod.fst).foldlM (pruneVisit lib ρ ds regParam label)
      ⟨modelA, modelB, false⟩ = .ok ⟨modelA, modelB, false⟩) (fuel : Nat) :
    pruneTreeB lib ρ ds regParam label (fuel + 1) modelA modelB = .ok (modelA, modelB) := by
  unfold pruneTreeB
  rw [h]
  rfl

theorem nothingToPrune_of_stable (lib : Stdlib) (ρ : RangeOrder) (ds : DTDataSet)
    (regParam : F64) (label : String) (modelA modelB : GoMap String CTreeNode)
    (h : ((modelB.range ρ).map Prod.fst).foldlM (pruneVisit lib ρ ds regParam label)
      ⟨modelA, modelB, false⟩ = .ok ⟨modelA, modelB, false⟩) :
    NothingToPrune lib ρ ds regParam label modelB := by
  intro id node hp
  obtain ⟨-, hall⟩ := pruneFold_unchanged lib ρ ds regParam label _ _ _ h rfl
  exact hall id ((mem_range_keys ρ modelB id).mpr (by rw [hp.1]; rfl)) node hp

/-! ### The pruning test does not depend on the range order -/

theorem range_errcount (ρ : RangeOrder) (m : GoMap Int String) (t : String) :
    ((m.range ρ).filter fun e => decide (e.2 ≠ t)).length
      + m.entries.countP (fun e => e.2 = t) = m.len := by
  have hperm : (m.range ρ).Perm (m.entries.map fun e => ((e.1, e.2) : Int × String)) :=
    ρ.perm _
  rw [← List.countP_eq_length_filter, hperm.countP_eq, List.countP_map, GoMap.len,
    List.length_eq_countP_add_countP (fun e : Sigma fun _ : Int => String => decide (e.2 = t))
      m.entries, Nat.add_comm]
  congr 1
  apply List.countP_congr
  intro e _
  simp

theorem errRate_general (ρ : RangeOrder) (ds : DTDataSet) (ids : List Int) (label t : String)
    (hu : LabelUnique ds label) (first : DTDataFeature) (rest : List DTDataFeature)
    (hF : ds.Features = first :: rest) :
    errRate ρ (some ⟨ds.Features.map (restrictFeature ρ ids)⟩) t label
      = .ok ((F64.ofInt ((sampleCount ds label ids - labelCount ds label ids t : Nat) : Int)).div
          (F64.ofInt ((ids.dedup.filter fun id => (first.Sets.lookup id).isSome).length : Nat)))
    := by
  unfold errRate
  simp only []
  rw [foldl_pick_acc (fun f : DTDataFeature => f.FeatureName = label)
      (fun (errNum : Int) (feature : DTDataFeature) =>
        (feature.Sets.range ρ).foldl
          (fun (errNum : Int) (e : Int × String) => if e.2 ≠ t then errNum + 1 else errNum)
          errNum)]
  have hnum : ((ds.Features.map (restrictFeature ρ ids)).filter
      fun a => decide (a.FeatureName = label)).foldl
      (fun (errNum : Int) (feature : DTDataFeature) =>
        (feature.Sets.range ρ).foldl
          (fun (errNum : Int) (e : Int × String) => if e.2 ≠ t then errNum + 1 else errNum)
          errNum) 0
      = ((sampleCount ds label ids - labelCount ds label ids t : Nat) : Int) := by
    rw [columns_restrict]
    rcases columns_cases ds label hu with h | ⟨col, h⟩
    · rw [h]
      have h0 : sampleCount ds label ids = 0 := by
        unfold sampleCount
        rw [List.length_eq_zero, List.filter_eq_nil_iff]
        intro id _
        simp [labelOf_of_columns_nil ds label id h]
      rw [h0, Nat.zero_sub]
      rfl
    · rw [h, List.map_cons, List.map_nil, List.foldl_cons, List.foldl_nil, errNum_fold, zero_add]
      have hcnt := range_errcount ρ (restrictSets ρ ids col.Sets) t
      rw [restrictSets_count, restrictSets_len] at hcnt
      have hs : sampleCount ds label ids
          = (ids.dedup.filter fun id => (col.Sets.lookup id).isSome).length := by
        unfold sampleCount
        congr 1
        apply List.filter_congr
        intro id _
        rw [labelOf_of_columns_one ds label id col h]
      have hl : labelCount ds label ids t
          = (ids.dedup.filter fun id => col.Sets.lookup id = some t).length := by
        unfold labelCount
        congr 1
        apply List.filter_congr
        intro id _
        rw [labelOf_of_columns_one ds label id col h]
      rw [hs, hl]
      show (((((restrictSets ρ ids col.Sets).range ρ).filter
        fun e => decide (e.2 ≠ t)).length : Nat) : Int) = _
      congr 1
      omega
  rw [hnum, hF, List.map_cons]
  simp only []
  rw [show (restrictFeature ρ ids first).Sets = restrictSets ρ ids first.Sets from rfl,
    restrictSets_len]

theorem sampleCount_sub_majority (ds : DTDataSet) (label : String) (ids : List Int)
    (c t : String) (hc : IsMajorityLabel ds label ids c) (ht : IsMajorityLabel ds label ids t) :
    sampleCount ds label ids - labelCount ds label ids t
      = sampleCount ds label ids - labelCount ds label ids c := by
  rw [labelCount_majority_eq ds label ids c t hc ht]

theorem calTreeNodeCost_general (ρ : RangeOrder) (ds : DTDataSet) (ids : List Int)
    (label : String) (hu : LabelUnique ds label) (hne : ids ≠ []) (first : DTDataFeature)
    (rest : List DTDataFeature) (hF : ds.Features = first :: rest) (c : String)
    (hc : IsMajorityLabel ds label ids c) :
    calTreeNodeCostTagPart ρ ds ids label
      = .ok ((((F64.ofInt ((sampleCount ds label ids - labelCount ds label ids c : Nat) : Int)).div
          (F64.ofInt ((ids.dedup.filter fun id => (first.Sets.lookup id).isSome).length : Nat))).mul
          (F64.ofInt ids.length)).div (F64.ofInt first.Sets.len)) := by
  obtain ⟨t, ht, hmaj, -⟩ := GetMaxLabelTypeTagPart_spec ρ ds ids label hu hne
  unfold GetMaxLabelTypeTagPart at ht
  unfold calTreeNodeCostTagPart
  simp only []
  rw [ht]
  simp only []
  rw [retrieve_of_ne_nil ρ ds ids hne, errRate_general ρ ds ids label t hu first rest hF,
    sampleCount_sub_majority ds label ids c t hc hmaj]
  simp only []
  rw [hF]

theorem calTreeNodeCost_order (ρ ρ' : RangeOrder) (ds : DTDataSet) (ids : List Int)
    (label : String) (hu : LabelUnique ds label) :
    calTreeNodeCostTagPart ρ ds ids label = calTreeNodeCostTagPart ρ' ds ids label := by
  by_cases hne : ids = []
  · subst hne
    rfl
  · match hF : ds.Features with
    | [] =>
      have key : ∀ o : RangeOrder, calTreeNodeCostTagPart o ds ids label = .error .panic := by
        intro o
        obtain ⟨t, ht, -, -⟩ := GetMaxLabelTypeTagPart_spec o ds ids label hu hne
        unfold GetMaxLabelTypeTagPart at ht
        unfold calTreeNodeCostTagPart
        simp only []
        rw [ht]
        simp only []
        rw [retrieve_of_ne_nil o ds ids hne]
        unfold errRate
        simp only [hF, List.map_nil, List.foldl_nil]
      rw [key ρ, key ρ']
    | first :: rest =>
      obtain ⟨t, -, hmaj, -⟩ := GetMaxLabelTypeTagPart_spec ρ ds ids label hu hne
      rw [calTreeNodeCost_general ρ ds ids label hu hne first rest hF t hmaj,
        calTreeNodeCost_general ρ' ds ids label hu hne first rest hF t hmaj]

theorem IfPrune_order (lib : Stdlib) (ρ ρ' : RangeOrder) (ds : DTDataSet)
    (model : GoMap String CTreeNode) (label : String) (depth index : Int) (regParam : F64)
    (hu : LabelUnique ds label) :
    IfPruneNodeByTagPart lib ρ ds model label depth index regParam
      = IfPruneNodeByTagPart lib ρ' ds model label depth index regParam := by
  unfold IfPruneNodeByTagPart
  simp only [fun ids => calTreeNodeCost_order ρ ρ' ds ids label hu]

theorem pruneFold_stable (lib : Stdlib) (ρ : RangeOrder) (ds : DTDataSet) (regParam : F64)
    (label : String) (st : PruneState)
    (h : NothingToPrune lib ρ ds regParam label st.modelB) (ids : List String) :
    ids.foldlM (pruneVisit lib ρ ds regParam label) st = .ok st := by
  induction ids with
  | nil => rfl
  | cons id ids ih =>
    rw [List.foldlM_cons]
    have hv : pruneVisit lib ρ ds regParam label st id = .ok st := by
      by_cases hp : ∃ node, Prunable lib st.modelB id node
      · obtain ⟨node, hp⟩ := hp
        rw [pruneVisit_test lib ρ ds regParam label st id node hp, h id node hp]
      · exact pruneVisit_skip lib ρ ds regParam label st id hp
    rw [hv]
    exact ih

theorem nothingToPrune_order (lib : Stdlib) (ρ ρ' : RangeOrder) (ds : DTDataSet)
    (regParam : F64) (label : String) (modelB : GoMap String CTreeNode)
    (hu : LabelUnique ds label) (h : NothingToPrune lib ρ ds regParam label modelB) :
    NothingToPrune lib ρ' ds regParam label modelB := by
  intro id node hp
  rw [← IfPrune_order lib ρ ρ' ds modelB label node.Depth node.Index regParam hu]
  exact h id node hp

/-! ### The merge of a node -/

theorem IfPruneNodeByTagPart_spec (lib : Stdlib) (ρ : RangeOrder) (ds : DTDataSet)
    (model : GoMap String CTreeNode) (label : String) (depth index : Int) (regParam : F64)
    (node leftNode rightNode : CTreeNode) (hu : LabelUnique ds label)
    (hnode : model.lookup (NodeKeyByDepthIndex lib depth index) = some node)
    (hleft : model.lookup (NodeKeyByDepthIndex lib (wrapInt (depth + 1)) (wrapInt (index * 2)))
      = some leftNode)
    (hright : model.lookup
      (NodeKeyByDepthIndex lib (wrapInt (depth + 1)) (wrapInt (index * 2 + 1))) = some rightNode)
    (hS : NodeSamples ds label node.SampleIDList)
    (hL : NodeSamples ds label leftNode.SampleIDList)
    (hR : NodeSamples ds label rightNode.SampleIDList)
    (c cl cr : String) (hc : IsMajorityLabel ds label node.SampleIDList c)
    (hcl : IsMajorityLabel ds label leftNode.SampleIDList cl)
    (hcr : IsMajorityLabel ds label rightNode.SampleIDList cr) :
    IfPruneNodeByTagPart lib ρ ds model label depth index regParam
      = .ok (decide (leftNode.Result ≠ "" ∧ rightNode.Result ≠ "" ∧
          (costF64 ds label node.SampleIDList c).le
            (((costF64 ds label leftNode.SampleIDList cl).add
              (costF64 ds label rightNode.SampleIDList cr)).add regParam) = true)) := by
  unfold IfPruneNodeByTagPart
  simp only []
  rw [hleft]
  simp only []
  by_cases h1 : leftNode.Result = ""
  · simp [h1]
  · rw [if_neg h1, hright]
    simp only []
    by_cases h2 : rightNode.Result = ""
    · simp [h2]
    · rw [if_neg h2, hnode]
      simp only []
      rw [calTreeNodeCost_spec ρ ds _ label hu hS c hc,
        calTreeNodeCost_spec ρ ds _ label hu hL cl hcl,
        calTreeNodeCost_spec ρ ds _ label hu hR cr hcr]
      simp [h1, h2]

theorem toy_ifPrune (model : GoMap String CTreeNode) (node : CTreeNode)
    (hn : model.lookup (NodeKeyByDepthIndex libPlain 0 0) = some node)
    (hl : model.lookup (NodeKeyByDepthIndex libPlain 1 0) = some (toyLeaf 1 0 "yes"))
    (hr : model.lookup (NodeKeyByDepthIndex libPlain 1 1) = some toyRightLeaf)
    (hs : node.SampleIDList = [0, 1, 2, 3]) :
    IfPruneNodeByTagPart libPlain RangeOrder.stored toyData model "Target" 0 0 (.fin 1)
      = .ok true := by
  rw [IfPruneNodeByTagPart_spec libPlain RangeOrder.stored toyData model "Target" 0 0 (.fin 1)
    node (toyLeaf 1 0 "yes") toyRightLeaf (by decide) hn hl hr (by rw [hs]; decide) (by decide)
    (by decide) "yes" "yes" "no"
    (by rw [hs]; exact isMajority_of_labels _ _ _ _ (by decide))
    (isMajority_of_labels _ _ _ _ (by decide))
    (isMajority_of_labels _ _ _ _ (by decide))]
  congr 1
  rw [decide_eq_true_iff]
  refine ⟨by decide, by decide, ?_⟩
  rw [hs]
  decide!

theorem toy_getMax :
    GetMaxLabelTypeTagPart RangeOrder.stored toyData toyPending.SampleIDList "Target"
      = .ok "yes" := by
  rfl

theorem toy_ids :
    (toyPruneB.range RangeOrder.stored).map Prod.fst
      = [NodeKeyByDepthIndex libPlain 1 1, NodeKeyByDepthIndex libPlain 1 0,
          NodeKeyByDepthIndex libPlain 0 0] := by
  rfl

theorem toy_visit_leaves :
    pruneVisit libPlain RangeOrder.stored toyData (.fin 1) "Target" toyPruneStart
        (NodeKeyByDepthIndex libPlain 1 1) = .ok toyPruneStart ∧
    pruneVisit libPlain RangeOrder.stored toyData (.fin 1) "Target" toyPruneStart
        (NodeKeyByDepthIndex libPlain 1 0) = .ok toyPruneStart :=
  ⟨rfl, rfl⟩

theorem toy_prunable :
    Prunable libPlain toyPruneStart.modelB (NodeKeyByDepthIndex libPlain 0 0) toyPending :=
  ⟨rfl, rfl, ⟨toyLeaf 1 0 "yes", rfl, by decide⟩, ⟨toyRightLeaf, rfl, by decide⟩⟩

theorem toy_visit_root :
    pruneVisit libPlain RangeOrder.stored toyData (.fin 1) "Target" toyPruneStart
        (NodeKeyByDepthIndex libPlain 0 0) = .ok toyPruned := by
  rw [pruneVisit_test libPlain RangeOrder.stored toyData (.fin 1) "Target" toyPruneStart _
    toyPending toy_prunable]
  have h1 : IfPruneNodeByTagPart libPlain RangeOrder.stored toyData toyPruneStart.modelB "Target"
      toyPending.Depth toyPending.Index (.fin 1) = .ok true :=
    toy_ifPrune toyPruneB toyPending rfl rfl rfl rfl
  rw [h1, toy_getMax]
  rfl

theorem toy_pass :
    ((toyPruneB.range RangeOrder.stored).map Prod.fst).foldlM
        (pruneVisit libPlain RangeOrder.stored toyData (.fin 1) "Target") toyPruneStart
      = .ok toyPruned := by
  rw [toy_ids]
  have e1 := toy_visit_leaves.1
  have e2 := toy_visit_leaves.2
  have e3 := toy_visit_root
  simp only [List.foldlM_cons, List.foldlM_nil, bind, Except.bind, pure, Except.pure, e1, e2, e3]

theorem toy_second_pass :
    ((toyPruned.modelB.range RangeOrder.stored).map Prod.fst).foldlM
        (pruneVisit libPlain RangeOrder.stored toyData (.fin 1) "Target")
        ⟨toyPruned.modelA, toyPruned.modelB, false⟩
      = .ok ⟨toyPruned.modelA, toyPruned.modelB, false⟩ := by
  have hids : (toyPruned.modelB.range RangeOrder.stored).map Prod.fst
      = [NodeKeyByDepthIndex libPlain 0 0] := rfl
  have hleaf : pruneVisit libPlain RangeOrder.stored toyData (.fin 1) "Target"
        ⟨toyPruned.modelA, toyPruned.modelB, false⟩ (NodeKeyByDepthIndex libPlain 0 0)
      = .ok ⟨toyPruned.modelA, toyPruned.modelB, false⟩ := by
    have hl : toyPruned.modelB.lookup (NodeKeyByDepthIndex libPlain 0 0)
        = some { toyPending with FeatureName := "", SplitValue := none, Result := "yes" } := rfl
    unfold pruneVisit
    simp only []
    rw [hl]
    rfl
  rw [hids]
  simp only [List.foldlM_cons, List.foldlM_nil, bind, Except.bind, pure, Except.pure, hleaf]

theorem toy_run :
    pruneTreeB libPlain RangeOrder.stored toyData (.fin 1) "Target" 2 toyPruneA toyPruneB
      = .ok (toyPruned.modelA, toyPruned.modelB) := by
  unfold pruneTreeB
  have h := toy_pass
  unfold toyPruneStart at h
  rw [h]
  show pruneTreeB libPlain RangeOrder.stored toyData (.fin 1) "Target" 1 toyPruned.modelA
    toyPruned.modelB = _
  exact pruneTreeB_of_stable libPlain RangeOrder.stored toyData (.fin 1) "Target" _ _
    toy_second_pass 0

theorem siblingKeys_libPlain : SiblingKeysDiffer libPlain := by
  intro node h
  unfold leftKey rightKey NodeKeyByDepthIndex HashUsingSha256 at h
  have h1 := hexEncode_injective _ _ h
  have h2 : FormatInt (wrapInt (node.Index * 2)) = FormatInt (wrapInt (node.Index * 2 + 1)) :=
    List.append_cancel_left h1
  have h3 := FormatInt_injective _ _ h2
  unfold wrapInt at h3
  omega

/-- C23. If `pruneTreeB` completes on a pair of models, a second run with the same
data, label and `regParam` returns both resulting models unchanged; in a table with
at most one label column this holds for every range order of the second run. -/
theorem pruneTreeB_idempotent (lib : Stdlib) (ρ : RangeOrder) (ds : DTDataSet) (regParam : F64)
    (label : String) (fuel : Nat) (modelA modelB modelA' modelB' : GoMap String CTreeNode)
    (h : pruneTreeB lib ρ ds regParam label fuel modelA modelB = .ok (modelA', modelB')) :
    (∀ fuel', pruneTreeB lib ρ ds regParam label (fuel' + 1) modelA' modelB'
      = .ok (modelA', modelB')) ∧
    (LabelUnique ds label → ∀ (ρ' : RangeOrder) (fuel' : Nat),
      pruneTreeB lib ρ' ds regParam label (fuel' + 1) modelA' modelB'
        = .ok (modelA', modelB')) := by
  have hlast := pruneTreeB_last_pass lib ρ ds regParam label fuel modelA modelB modelA' modelB' h
  refine ⟨fun fuel' => pruneTreeB_of_stable lib ρ ds regParam label modelA' modelB' hlast fuel',
    ?_⟩
  intro hu ρ' fuel'
  have hno := nothingToPrune_of_stable lib ρ ds regParam label modelA' modelB' hlast
  have hno' := nothingToPrune_order lib ρ ρ' ds regParam label modelB' hu hno
  exact pruneTreeB_of_stable lib ρ' ds regParam label modelA' modelB'
    (pruneFold_stable lib ρ' ds regParam label ⟨modelA', modelB', false⟩ hno' _) fuel'

/-- Witness for C23: the run on the test models that merges the root. -/
theorem pruneTreeB_idempotent_witness :
    pruneTreeB libPlain RangeOrder.stored toyData (.fin 1) "Target" (0 + 1) toyPruned.modelA
        toyPruned.modelB = .ok (toyPruned.modelA, toyPruned.modelB) :=
  (pruneTreeB_idempotent libPlain RangeOrder.stored toyData (.fin 1) "Target" 2 toyPruneA
    toyPruneB toyPruned.modelA toyPruned.modelB toy_run).1 0

/-- C24. When the digest does not collide on the keys of two siblings, a pass of
`pruneTreeB` that performs a merge leaves the tag party's map with at least two
entries fewer, and `pruneTreeB` ends within `len(modelB) / 2 + 1` passes: with that
much fuel it returns, in a state where no internal node with two leaf children
satisfies the pruning test, or it panics in the pruning test or the majority vote of
a node; it never runs out of passes. -/
theorem pruneTreeB_terminates (lib : Stdlib) (ρ : RangeOrder) (ds : DTDataSet) (regParam : F64)
    (label : String) (fuel : Nat) (modelA modelB : GoMap String CTreeNode)
    (hsib : SiblingKeysDiffer lib) (hfuel : modelB.len / 2 + 1 ≤ fuel) :
    (∀ st, ((modelB.range ρ).map Prod.fst).foldlM (pruneVisit lib ρ ds regParam label)
        ⟨modelA, modelB, false⟩ = .ok st →
      st.prunedB = true → st.modelB.len + 2 ≤ modelB.len) ∧
    ((∃ modelA' modelB',
      pruneTreeB lib ρ ds regParam label fuel modelA modelB = .ok (modelA', modelB') ∧
      NothingToPrune lib ρ ds regParam label modelB') ∨
    pruneTreeB lib ρ ds regParam label fuel modelA modelB = .error .panic) := by
  refine ⟨fun st hst hflag => ?_, ?_⟩
  · rcases (pruneFold_len lib ρ ds regParam label hsib _ _ st hst).2 hflag with h | h
    · cases h
    · exact h
  have hfuel' := pruneTreeB_fuel lib ρ ds regParam label hsib fuel modelA modelB hfuel
  cases hres : pruneTreeB lib ρ ds regParam label fuel modelA modelB with
  | error f =>
    cases f with
    | panic => exact Or.inr rfl
    | outOfFuel => exact absurd hres hfuel'
  | ok r =>
    obtain ⟨modelA', modelB'⟩ := r
    exact Or.inl ⟨modelA', modelB', rfl,
      nothingToPrune_of_stable lib ρ ds regParam label modelA' modelB'
        (pruneTreeB_last_pass lib ρ ds regParam label fuel modelA modelB modelA' modelB' hres)⟩

/-- Witness for C24: the test model has three entries and is pruned within two
passes. -/
theorem pruneTreeB_terminates_witness :
    (∃ modelA' modelB',
      pruneTreeB libPlain RangeOrder.stored toyData (.fin 1) "Target" 2 toyPruneA toyPruneB
        = .ok (modelA', modelB') ∧
      NothingToPrune libPlain RangeOrder.stored toyData (.fin 1) "Target" modelB') ∨
    pruneTreeB libPlain RangeOrder.stored toyData (.fin 1) "Target" 2 toyPruneA toyPruneB
      = .error .panic :=
  (pruneTreeB_terminates libPlain RangeOrder.stored toyData (.fin 1) "Target" 2 toyPruneA
    toyPruneB siblingKeys_libPlain (by decide)).2

/-- C25, as stated, fails: in the test models the split of the root is held by the
non-tag party (its map has the record with the split value, the tag party's record
has none), and the run of `pruneTreeB` that merges the root deletes that record
from the non-tag party's map. -/
theorem pruneTreeB_deletes_record_of_split_holder :
    (toyPruneA.lookup (NodeKeyByDepthIndex libPlain 0 0)).map (fun node => node.SplitValue)
      = some (some (.str "high")) ∧
    (toyPruneB.lookup (NodeKeyByDepthIndex libPlain 0 0)).map (fun node => node.SplitValue)
      = some none ∧
    ∃ modelA' modelB',
      pruneTreeB libPlain RangeOrder.stored toyData (.fin 1) "Target" 2 toyPruneA toyPruneB
        = .ok (modelA', modelB') ∧
      modelA'.lookup (NodeKeyByDepthIndex libPlain 0 0) = none ∧
      (modelB'.lookup (NodeKeyByDepthIndex libPlain 0 0)).map (fun node => node.Result)
        = some "yes" :=
  ⟨rfl, rfl, toyPruned.modelA, toyPruned.modelB, toy_run, rfl, rfl⟩

theorem mergeNode_lookups (lib : Stdlib) (st : PruneState) (id : String) (node : CTreeNode)
    (t : String) (hp : Prunable lib st.modelB id node) :
    (mergeNode lib st id node t).modelB.lookup (leftKey lib node) = none ∧
    (mergeNode lib st id node t).modelB.lookup (rightKey lib node) = none ∧
    (mergeNode lib st id node t).modelB.lookup id
      = some { node with FeatureName := "", SplitValue := none, Result := t } ∧
    ∀ k, k ≠ id → k ≠ leftKey lib node → k ≠ rightKey lib node →
      (mergeNode lib st id node t).modelB.lookup k = st.modelB.lookup k := by
  obtain ⟨hne1, hne2⟩ := prunable_ne_children lib st.modelB id node hp
  unfold mergeNode GoMap.set GoMap.delete
  refine ⟨?_, ?_, AList.lookup_insert _, ?_⟩
  · rw [AList.lookup_insert_ne (Ne.symm hne1)]
    by_cases e : leftKey lib node = rightKey lib node
    · rw [← e]
      exact AList.lookup_erase _ _
    · rw [AList.lookup_erase_ne e]
      exact AList.lookup_erase _ _
  · rw [AList.lookup_insert_ne (Ne.symm hne2)]
    exact AList.lookup_erase _ _
  · intro k h1 h2 h3
    rw [AList.lookup_insert_ne h1, AList.lookup_erase_ne h3, AList.lookup_erase_ne h2]

/-- C25 (amended). When the loop of `pruneTreeB` reaches an internal node with two
leaf children that passes the pruning test, it deletes both children from the tag
party's map, turns the node into a leaf with a majority label of its samples, and
deletes the node's record from the non-tag party's map exactly when the tag party's
record holds no split value, that is, when the split is held by the non-tag party;
the other entries of the tag party's map are unchanged. -/
theorem pruneVisit_merge (lib : Stdlib) (ρ : RangeOrder) (ds : DTDataSet) (regParam : F64)
    (label : String) (st : PruneState) (id : String) (node : CTreeNode)
    (hu : LabelUnique ds label) (hp : Prunable lib st.modelB id node)
    (hif : IfPruneNodeByTagPart lib ρ ds st.modelB label node.Depth node.Index regParam
      = .ok true)
    (hne : node.SampleIDList ≠ []) :
    ∃ t st', GetMaxLabelTypeTagPart ρ ds node.SampleIDList label = .ok t ∧
      IsMajorityLabel ds label node.SampleIDList t ∧
      pruneVisit lib ρ ds regParam label st id = .ok st' ∧
      st'.modelA = (if node.SplitValue = none then st.modelA.delete id else st.modelA) ∧
      st'.modelB.lookup (leftKey lib node) = none ∧
      st'.modelB.lookup (rightKey lib node) = none ∧
      st'.modelB.lookup id
        = some { node with FeatureName := "", SplitValue := none, Result := t } ∧
      (∀ k, k ≠ id → k ≠ leftKey lib node → k ≠ rightKey lib node →
        st'.modelB.lookup k = st.modelB.lookup k) ∧
      st'.prunedB = true := by
  obtain ⟨t, ht, hmaj, -⟩ := GetMaxLabelTypeTagPart_spec ρ ds node.SampleIDList label hu hne
  obtain ⟨h1, h2, h3, h4⟩ := mergeNode_lookups lib st id node t hp
  refine ⟨t, mergeNode lib st id node t, ht, hmaj, ?_, rfl, h1, h2, h3, h4, rfl⟩
  rw [pruneVisit_test lib ρ ds regParam label st id node hp, hif]
  simp only []
  rw [ht]

/-- Witness for C25: the root of a tag-party model that holds the split itself is
merged and the non-tag party's map keeps its record. -/
theorem pruneVisit_merge_witness :
    ∃ t st', GetMaxLabelTypeTagPart RangeOrder.stored toyData toyRoot.SampleIDList "Target"
        = .ok t ∧
      IsMajorityLabel toyData "Target" toyRoot.SampleIDList t ∧
      pruneVisit libPlain RangeOrder.stored toyData (.fin 1) "Target"
        ⟨toyPruneA, toyPruneB.set (NodeKeyByDepthIndex libPlain 0 0) toyRoot, false⟩
        (NodeKeyByDepthIndex libPlain 0 0) = .ok st' ∧
      st'.modelA = toyPruneA ∧
      st'.modelB.lookup (NodeKeyByDepthIndex libPlain 1 0) = none ∧
      st'.modelB.lookup (NodeKeyByDepthIndex libPlain 1 1) = none ∧
      st'.modelB.lookup (NodeKeyByDepthIndex libPlain 0 0)
        = some { toyRoot with FeatureName := "", SplitValue := none, Result := t } :=
  let ⟨t, st', h1, h2, h3, h4, h5, h6, h7, _, _⟩ :=
    pruneVisit_merge libPlain RangeOrder.stored toyData (.fin 1) "Target"
      ⟨toyPruneA, toyPruneB.set (NodeKeyByDepthIndex libPlain 0 0) toyRoot, false⟩
      (NodeKeyByDepthIndex libPlain 0 0) toyRoot (by decide)
      ⟨rfl, rfl, ⟨toyLeaf 1 0 "yes", rfl, by decide⟩, ⟨toyRightLeaf, rfl, by decide⟩⟩
      (toy_ifPrune _ toyRoot rfl rfl rfl rfl) (by decide)
  ⟨t, st', h1, h2, h3, h4, h5, h6, h7⟩


/-! ## `FilterByThreshold` -/

theorem copyRow_self (n : Nat) (row : List String) (h : row.length = n) : copyRow n row = row := by
  unfold copyRow
  rw [← h, List.take_length, Nat.sub_self]
  simp

theorem copySamples_rect (header : List String) (rows : Rows)
    (hrect : ∀ row ∈ rows, row.length = header.length) :
    copySamples (header :: rows) = header :: rows := by
  unfold copySamples
  simp only [List.map_cons, copyRow_self _ header rfl, List.cons.injEq, true_and]
  conv_rhs => rw [← List.map_id rows]
  apply List.map_congr_left
  intro row hrow
  exact copyRow_self _ row (hrect row hrow)

theorem filterSatisfied_supported (opt : FilterOpt) (x : ℚ) (h : opt.Supported) :
    filterSatisfied opt x = some (opt.holds x) := by
  unfold FilterOpt.Supported at h
  unfold filterSatisfied FilterOpt.holds
  simp only [List.mem_cons, List.mem_singleton, List.not_mem_nil, or_false] at h
  rcases h with h | h | h | h | h | h <;> simp [h]

theorem filterSatisfied_unsupported (opt : FilterOpt) (x : ℚ) (h : ¬ opt.Supported) :
    filterSatisfied opt x = none := by
  unfold FilterOpt.Supported at h
  unfold filterSatisfied
  simp only [List.mem_cons, List.mem_singleton, List.not_mem_nil, or_false, not_or] at h
  obtain ⟨h1, h2, h3, h4, h5, h6⟩ := h
  simp [h1, h2, h3, h4, h5, h6]

theorem filterRows_spec (parseFloat : String → Option ℚ) (n featureIdx : Nat) (feature : String)
    (opt : FilterOpt) (hidx : featureIdx < n) (hopt : opt.Supported) (rows : Rows)
    (hrect : ∀ row ∈ rows, row.length = n)
    (hparse : ∀ row ∈ rows, (parseFloat (row.getD featureIdx "")).isSome)
    (i : Nat) (processed : Rows) :
    filterRows parseFloat n featureIdx feature opt i rows processed
      = .ok (processed ++ rows.filter fun row =>
          match parseFloat (row.getD featureIdx "") with
          | some x => opt.holds x
          | none => false) := by
  induction rows generalizing i processed with
  | nil => simp [filterRows]
  | cons row rest ih =>
    have hlen := hrect row (List.mem_cons_self _ _)
    have hget : row.get? featureIdx = some (row.getD featureIdx "") := by
      rw [List.getD_eq_getElem?_getD, List.get?_eq_getElem?,
        List.getElem?_eq_getElem (by omega)]
      rfl
    obtain ⟨x, hx⟩ := Option.isSome_iff_exists.mp (hparse row (List.mem_cons_self _ _))
    unfold filterRows
    simp only [hget, hx, filterSatisfied_supported opt x hopt]
    rw [ih (fun r hr => hrect r (List.mem_cons_of_mem _ hr))
      (fun r hr => hparse r (List.mem_cons_of_mem _ hr))]
    by_cases hh : opt.holds x = true
    · rw [if_pos hh, List.filter_cons_of_pos (by rw [hx]; exact hh), copyRow_self n row hlen,
        List.append_assoc]
      rfl
    · rw [if_neg hh, List.filter_cons_of_neg (by rw [hx]; exact hh)]

theorem FilterByThresholdForOne_spec (parseFloat : String → Option ℚ) (header : List String)
    (rows : Rows) (feature : String) (opt : FilterOpt) (hf : feature ∈ header)
    (hopt : opt.Supported) (hrect : ∀ row ∈ rows, row.length = header.length)
    (hparse : ∀ row ∈ rows, (parseFloat (row.getD (header.indexOf feature) "")).isSome) :
    FilterByThresholdForOne parseFloat (header :: rows) feature opt
      = .ok (header :: rows.filter fun row => rowSatisfies parseFloat header row feature opt)
    := by
  unfold FilterByThresholdForOne findFeatureIdx
  simp only [hf, if_true]
  rw [filterRows_spec parseFloat header.length (header.indexOf feature) feature opt
    (List.indexOf_lt_length.mpr hf) hopt rows hrect hparse, copyRow_self _ header rfl]
  rfl

theorem filterFold_spec (parseFloat : String → Option ℚ) (header : List String)
    (L : List (String × FilterOpt)) (rows : Rows)
    (hrect : ∀ row ∈ rows, row.length = header.length)
    (hL : ∀ e ∈ L, e.1 ∈ header ∧ e.2.Supported ∧
      ∀ row ∈ rows, (parseFloat (row.getD (header.indexOf e.1) "")).isSome) :
    L.foldlM
      (fun (processedFileRows : Rows) (e : String × FilterOpt) =>
        FilterByThresholdForOne parseFloat processedFileRows e.1 e.2)
      (header :: rows)
    = .ok (header :: rows.filter fun row =>
        L.all fun e => rowSatisfies parseFloat header row e.1 e.2) := by
  induction L generalizing rows with
  | nil => simp [pure, Except.pure]
  | cons e L ih =>
    obtain ⟨hf, hopt, hparse⟩ := hL e (List.mem_cons_self _ _)
    rw [List.foldlM_cons, FilterByThresholdForOne_spec parseFloat header rows e.1 e.2 hf hopt
      hrect hparse]
    show List.foldlM _ _ L = _
    rw [ih (rows.filter fun row => rowSatisfies parseFloat header row e.1 e.2)
      (fun row hrow => hrect row (List.mem_filter.mp hrow).1)
      (fun e' he' => by
        obtain ⟨h1, h2, h3⟩ := hL e' (List.mem_cons_of_mem _ he')
        exact ⟨h1, h2, fun row hrow => h3 row (List.mem_filter.mp hrow).1⟩),
      List.filter_filter]
    congr 2
    apply List.filter_congr
    intro row _
    rw [List.all_cons, Bool.and_comm]

theorem FilterByThreshold_spec (ρ : RangeOrder) (parseFloat : String → Option ℚ)
    (header : List String) (rows : Rows) (filOpt : GoMap String FilterOpt)
    (hrect : ∀ row ∈ rows, row.length = header.length)
    (hopts : ∀ f opt, filOpt.lookup f = some opt → f ∈ header ∧ opt.Supported ∧
      ∀ row ∈ rows, (parseFloat (row.getD (header.indexOf f) "")).isSome) :
    FilterByThreshold ρ parseFloat (header :: rows) filOpt
      = .ok (header :: rows.filter fun row =>
          filOpt.entries.all fun e => rowSatisfies parseFloat header row e.1 e.2) := by
  unfold FilterByThreshold
  rw [copySamples_rect header rows hrect,
    filterFold_spec parseFloat header (filOpt.range ρ) rows hrect
      (fun e he => hopts e.1 e.2 ((mem_range_iff ρ filOpt e).mp he))]
  congr 2
  apply List.filter_congr
  intro row _
  rw [Bool.eq_iff_iff, List.all_eq_true, List.all_eq_true]
  constructor
  · intro h e he
    exact h (e.1, e.2) ((mem_range_iff ρ filOpt (e.1, e.2)).mpr (AList.mem_lookup_iff.mpr he))
  · intro h e he
    exact h ⟨e.1, e.2⟩ (AList.mem_lookup_iff.mp ((mem_range_iff ρ filOpt e).mp he))

/-- C28. For a table with a header and data rows of the header's length, and filter
options whose features are in the header, whose methods are supported and whose
columns parse as numbers, `FilterByThreshold` returns the header followed by exactly
the data rows whose value satisfies every option (`g`: `>`, `ge`: `≥`, `e`: `=`,
`ne`: `≠`, `l`: `<`, `le`: `≤` against the threshold), in their order and unchanged;
the result is the same for every order in which the options are applied. -/
theorem FilterByThreshold_rows (ρ : RangeOrder) (parseFloat : String → Option ℚ)
    (header : List String) (rows : Rows) (filOpt : GoMap String FilterOpt)
    (hrect : ∀ row ∈ rows, row.length = header.length)
    (hopts : ∀ f opt, filOpt.lookup f = some opt → f ∈ header ∧ opt.Supported ∧
      ∀ row ∈ rows, (parseFloat (row.getD (header.indexOf f) "")).isSome) :
    FilterByThreshold ρ parseFloat (header :: rows) filOpt
      = .ok (header :: rows.filter fun row =>
          filOpt.entries.all fun e => rowSatisfies parseFloat header row e.1 e.2) ∧
    (∀ ρ' : RangeOrder, FilterByThreshold ρ' parseFloat (header :: rows) filOpt
      = FilterByThreshold ρ parseFloat (header :: rows) filOpt) ∧
    (∀ (t x : ℚ), (FilterOpt.mk t "g").holds x = decide (x > t) ∧
      (FilterOpt.mk t "ge").holds x = decide (x ≥ t) ∧
      (FilterOpt.mk t "e").holds x = decide (x = t) ∧
      (FilterOpt.mk t "ne").holds x = decide (x ≠ t) ∧
      (FilterOpt.mk t "l").holds x = decide (x < t) ∧
      (FilterOpt.mk t "le").holds x = decide (x ≤ t)) := by
  refine ⟨FilterByThreshold_spec ρ parseFloat header rows filOpt hrect hopts, ?_, ?_⟩
  · intro ρ'
    rw [FilterByThreshold_spec ρ parseFloat header rows filOpt hrect hopts,
      FilterByThreshold_spec ρ' parseFloat header rows filOpt hrect hopts]
  · intro t x
    refine ⟨?_, ?_, ?_, ?_, ?_, ?_⟩ <;> simp [FilterOpt.holds]

/-- Witness for C28: the test table filtered by `f1 > 10` and `f2 ≤ 21`. -/
theorem FilterByThreshold_rows_witness :
    FilterByThreshold RangeOrder.stored tableParse toyRows toyFilters
      = .ok [["f1", "f2"], ["11", "21"]] :=
  (FilterByThreshold_rows RangeOrder.stored tableParse ["f1", "f2"]
    [["10", "20"], ["11", "21"], ["12", "22"]] toyFilters (by decide) (by
      intro f opt h
      have hmem := (mem_range_iff RangeOrder.stored toyFilters (f, opt)).mpr h
      have hcases : (f, opt) = ("f2", ⟨21, "le"⟩) ∨ (f, opt) = ("f1", ⟨10, "g"⟩) := by
        simpa [GoMap.range, RangeOrder.stored, toyFilters, GoMap.set, AList.insert_entries,
          AList.entries] using hmem
      rcases hcases with e | e
      · simp only [Prod.mk.injEq] at e
        obtain ⟨rfl, rfl⟩ := e
        exact ⟨by decide, by decide, by decide⟩
      · simp only [Prod.mk.injEq] at e
        obtain ⟨rfl, rfl⟩ := e
        exact ⟨by decide, by decide, by decide⟩)).1

/-- C29 fails on the code: on a table that holds only the header row,
`FilterByThresholdForOne` with the unsupported method `x` returns the header and no
error; the method is only tested inside the loop over the data rows, as on the
table with one data row. -/
theorem FilterByThresholdForOne_header_only :
    FilterByThresholdForOne tableParse [["f1"]] "f1" ⟨0, "x"⟩ = .ok [["f1"]] ∧
    FilterByThresholdForOne tableParse [["f1"], ["10"]] "f1" ⟨0, "x"⟩
      = .error (.err "unsupported filter method") :=
  ⟨rfl, rfl⟩

/-! ## `FillMissingValues` -/

/-- C30 fails on the code: the fill options hold `f2` with method `specified` and an
empty value, and `f1` with method `median`, for a table whose column `f1` has no
value.  When the range over the options visits `f1` first, `getMedian` indexes the
empty slice and the call panics instead of returning the error; when it visits `f2`
first, the error is returned. -/
theorem FillMissingValues_panics_before_empty_value :
    toyFillMedianFirst.lookup "f2" = some ⟨"specified", ""⟩ ∧
    FillMissingValues RangeOrder.stored tableParse tableFormat toyGaps toyFillMedianFirst
      = .error .panic ∧
    toyFillSpecifiedFirst.lookup "f2" = some ⟨"specified", ""⟩ ∧
    FillMissingValues RangeOrder.stored tableParse tableFormat toyGaps toyFillSpecifiedFirst
      = .error (.err "feature[f2] value cannot be empty when filling by specified value") ∧
    getMedian [] = .error .panic :=
  ⟨rfl, rfl, rfl, rfl, rfl⟩

/-! ## Secure aggregation -/

theorem mapFold_lookup {α β : Type} (f : α → β) (k : Int) :
    ∀ (l : List (Int × α)) (init : GoMap Int β), (l.map Prod.fst).Nodup →
      (∀ v, (k, v) ∈ l →
        (l.foldl (fun (out : GoMap Int β) (e : Int × α) => out.set e.1 (f e.2)) init).lookup k
          = some (f v)) ∧
      (k ∉ l.map Prod.fst →
        (l.foldl (fun (out : GoMap Int β) (e : Int × α) => out.set e.1 (f e.2)) init).lookup k
          = init.lookup k) := by
  intro l
  induction l with
  | nil => intro init _; exact ⟨fun v hv => absurd hv (List.not_mem_nil _), fun _ => rfl⟩
  | cons e l ih =>
    intro init hnd
    rw [List.map_cons, List.nodup_cons] at hnd
    obtain ⟨ih1, ih2⟩ := ih (init.set e.1 (f e.2)) hnd.2
    constructor
    · intro v hv
      rw [List.foldl_cons]
      rcases List.mem_cons.mp hv with rfl | hmem
      · rw [ih2 hnd.1]
        exact AList.lookup_insert _
      · exact ih1 v hmem
    · intro hk
      rw [List.map_cons, List.mem_cons, not_or] at hk
      rw [List.foldl_cons, ih2 hk.2]
      exact AList.lookup_insert_ne hk.1

theorem mapValues_lookup {α β : Type} (ρ : RangeOrder) (m : GoMap Int α) (f : α → β) (k : Int) :
    (mapValues ρ m f).lookup k = (m.lookup k).map f := by
  unfold mapValues
  obtain ⟨h1, h2⟩ := mapFold_lookup f k (m.range ρ) ∅ (range_keys_nodup ρ m)
  cases hk : m.lookup k with
  | some v => exact h1 v ((mem_range_iff ρ m (k, v)).mpr hk)
  | none =>
    rw [h2 (by
      rw [mem_range_keys, hk]
      simp)]
    rfl

/-- C27. For an integer vector, a key pair and an integer mask such that decrypting
the homomorphic sum of the encryptions of an entry and of the mask gives their sum:
encrypting the vector, adding the mask, decrypting (`DecryptGradient`) and
subtracting the mask (`RetrieveRealGradient` with accuracy 0) gives back every
entry of the vector exactly, at the same index. -/
theorem RetrieveRealGradient_round_trip (ρ : RangeOrder) (h : Homomorphic)
    (vector : GoMap Int Int) (randomInt : Int)
    (hsound : ∀ i v, vector.lookup i = some v →
      h.Decrypt (h.Add (h.Encrypt v) (h.Encrypt randomInt)) = v + randomInt) :
    ∀ i, (RetrieveRealGradient ρ
        (DecryptGradient ρ h (addMask ρ h (encryptVector ρ h vector) randomInt)) 0
        randomInt).lookup i
      = (vector.lookup i).map fun v => (v : ℚ) := by
  intro i
  unfold RetrieveRealGradient DecryptGradient addMask encryptVector
  rw [mapValues_lookup, mapValues_lookup, mapValues_lookup, mapValues_lookup]
  cases hv : vector.lookup i with
  | none => rfl
  | some v =>
    simp only [Option.map_some', hsound i v hv]
    simp

/-- Witness for C27: the test vector `(4, -2)` with the mask `9`, at the index `1`;
the soundness hypothesis holds for the test cryptosystem. -/
theorem RetrieveRealGradient_round_trip_witness :
    (RetrieveRealGradient RangeOrder.stored
        (DecryptGradient RangeOrder.stored toyCipher
          (addMask RangeOrder.stored toyCipher
            (encryptVector RangeOrder.stored toyCipher toyVector) 9)) 0 9).lookup 1
      = (toyVector.lookup 1).map fun v => (v : ℚ) :=
  RetrieveRealGradient_round_trip RangeOrder.stored toyCipher toyVector 9 (by
    intro i v _
    simp only [toyCipher]
    omega) 1

/-! ## `Intersect` without other parties -/

/-- C38. For every identifier list and local masked mapping, `Intersect` called with
an empty list of other parties' mappings returns the empty list, whatever the order
of the range over the local mapping. -/
theorem Intersect_no_others (ρ : RangeOrder) (sampleID : List Bytes) (reEncSetLocal : EncSet) :
    Intersect ρ sampleID reEncSetLocal [] = .ok [] := by
  unfold Intersect
  generalize reEncSetLocal.EncIDs.range ρ = l
  induction l with
  | nil => rfl
  | cons e l ih =>
    rw [List.foldlM_cons]
    simp only [existsInOthers_nil]
    exact ih

/-! ## `IfPruneNodeByTagPart` on a leaf without samples -/

theorem calTreeNodeCost_nil (ρ : RangeOrder) (ds : DTDataSet) (label : String) :
    calTreeNodeCostTagPart ρ ds [] label = .error .panic := rfl

/-- C39 fails on the code: the model holds the root and both children as leaves, the
right leaf has an empty sample list.  `calTreeNodeCostTagPart` gets the nil data set
of `retrieveDatasetByIds` for that list and `isSameType` reads its fields: the call
panics; the same holds when the empty leaf is the left one. -/
theorem IfPruneNodeByTagPart_empty_leaf_panics :
    toyLopsided.lookup (NodeKeyByDepthIndex libPlain 0 0) = some toyPending ∧
    toyLopsided.lookup (NodeKeyByDepthIndex libPlain 1 0) = some toyAllLeft ∧
    toyLopsided.lookup (NodeKeyByDepthIndex libPlain 1 1) = some toyEmptyLeaf ∧
    IfPruneNodeByTagPart libPlain RangeOrder.stored toyData toyLopsided "Target" 0 0 (.fin 0)
      = .error .panic :=
  ⟨rfl, rfl, rfl, rfl⟩

/-! ## `FillMissingValues` with another method name -/

theorem copyRow_length (n : Nat) (src : List String) : (copyRow n src).length = n := by
  unfold copyRow
  rw [List.length_append, List.length_take, List.length_replicate]
  omega

theorem copySamples_idem (fileRows : Rows) :
    copySamples (copySamples fileRows) = copySamples fileRows := by
  cases fileRows with
  | nil => rfl
  | cons first rest =>
    have h : copySamples (first :: rest)
        = copyRow first.length first :: rest.map (copyRow first.length) := rfl
    rw [h]
    apply copySamples_rect
    intro row hrow
    obtain ⟨r, -, rfl⟩ := List.mem_map.mp hrow
    rw [copyRow_length, copyRow_length]

theorem copyRow_get (n idx : Nat) (row : List String) (hidx : idx < n) (hlen : n ≤ row.length) :
    (copyRow n row).get? idx = row.get? idx := by
  unfold copyRow
  rw [Nat.sub_eq_zero_of_le hlen]
  simp only [List.replicate_zero, List.append_nil, List.get?_eq_getElem?]
  rw [List.getElem?_take_of_lt hidx]

theorem fillSpecifiedRows_copy (n featureIdx : Nat) (value : String) (hidx : featureIdx < n) :
    ∀ (rest : Rows) (i : Nat) (processedFileRows : Rows),
      (∀ row ∈ rest, n ≤ row.length) →
      fillSpecifiedRows featureIdx value i (rest.map (copyRow n)) processedFileRows
        = fillSpecifiedRows featureIdx value i rest processedFileRows := by
  intro rest
  induction rest with
  | nil => intro i p _; rfl
  | cons row rest ih =>
    intro i p h
    simp only [List.map_cons, fillSpecifiedRows]
    rw [copyRow_get n featureIdx row hidx (h row (List.mem_cons_self _ _))]
    cases row.get? featureIdx with
    | none => rfl
    | some cell =>
      simp only []
      exact ih _ _ fun r hr => h r (List.mem_cons_of_mem _ hr)

theorem FillBySpecified_copy (fileRows : Rows) (feature value : String)
    (hlen : ∀ row ∈ fileRows, (fileRows.headD []).length ≤ row.length) :
    FillBySpecified (copySamples fileRows) feature value
      = FillBySpecified fileRows feature value := by
  cases fileRows with
  | nil => rfl
  | cons first rest =>
    have h : copySamples (first :: rest) = first :: rest.map (copyRow first.length) := by
      show copyRow first.length first :: rest.map (copyRow first.length) = _
      rw [copyRow_self _ first rfl]
    unfold FillBySpecified
    rw [copySamples_idem, h]
    simp only [findFeatureIdx, List.tail_cons]
    by_cases hf : feature ∈ first
    · simp only [if_pos hf]
      exact fillSpecifiedRows_copy first.length _ value (List.indexOf_lt_length.mpr hf) rest 1 _
        fun r hr => hlen r (List.mem_cons_of_mem _ hr)
    · simp only [if_neg hf]

theorem FillMissingValues_single (ρ : RangeOrder) (parseFloat : String → Option ℚ)
    (formatFloat : F64 → String) (fileRows : Rows) (f : String) (opt : FillOpt) :
    FillMissingValues ρ parseFloat formatFloat fileRows ((∅ : GoMap String FillOpt).set f opt)
      = fillOne parseFloat formatFloat (copySamples fileRows) (f, opt) := by
  unfold FillMissingValues GoMap.range
  have h : (((∅ : GoMap String FillOpt).set f opt).entries.map
      fun e => ((e.1, e.2) : String × FillOpt)) = [(f, opt)] := rfl
  rw [h]
  have hp := ρ.perm [((f, opt) : String × FillOpt)]
  rw [List.perm_singleton.mp hp]
  simp only [List.foldlM_cons, List.foldlM_nil]
  cases fillOne parseFloat formatFloat (copySamples fileRows) (f, opt) <;> rfl

/-- C40. For every table, every feature and every fill option whose `Method` is
neither `average` nor `median` and whose `Value` is non-empty, `FillMissingValues`
with that one option runs `FillBySpecified` with that value on its copy of the
table and returns its result (no error for the unknown method); when no row is
shorter than the header row, this is the result of `FillBySpecified` on the table
itself. -/
theorem FillMissingValues_unknown_method (ρ : RangeOrder) (parseFloat : String → Option ℚ)
    (formatFloat : F64 → String) (fileRows : Rows) (f : String) (opt : FillOpt)
    (havg : opt.Method ≠ "average") (hmed : opt.Method ≠ "median") (hval : opt.Value ≠ "") :
    FillMissingValues ρ parseFloat formatFloat fileRows ((∅ : GoMap String FillOpt).set f opt)
      = FillBySpecified (copySamples fileRows) f opt.Value ∧
    ((∀ row ∈ fileRows, (fileRows.headD []).length ≤ row.length) →
      FillMissingValues ρ parseFloat formatFloat fileRows ((∅ : GoMap String FillOpt).set f opt)
        = FillBySpecified fileRows f opt.Value) := by
  have hz : ¬ opt.Value.length = 0 := by
    intro h
    apply hval
    apply String.ext
    exact List.length_eq_zero.mp h
  have main : FillMissingValues ρ parseFloat formatFloat fileRows
      ((∅ : GoMap String FillOpt).set f opt)
      = FillBySpecified (copySamples fileRows) f opt.Value := by
    rw [FillMissingValues_single]
    simp only [fillOne, if_neg havg, if_neg hmed, if_neg hz]
  exact ⟨main, fun hlen => main.trans (FillBySpecified_copy fileRows f opt.Value hlen)⟩

/-- Witness for C40: the method `constant` with the value `7` fills the gap of the
column `f1` of the test table. -/
theorem FillMissingValues_unknown_method_witness :
    FillMissingValues RangeOrder.stored tableParse tableFormat toyGaps
        ((∅ : GoMap String FillOpt).set "f1" toyFillOther)
      = FillBySpecified toyGaps "f1" "7" ∧
    FillBySpecified toyGaps "f1" "7" = .ok [["f1", "f2"], ["7", "5"]] :=
  ⟨(FillMissingValues_unknown_method RangeOrder.stored tableParse tableFormat toyGaps "f1"
    toyFillOther (by decide) (by decide) (by decide)).2 (by decide), rfl⟩

/-! ## `getMedian` -/

theorem insertionSort_unique (values s : List ℚ) (hs : s.Sorted (· ≤ ·)) (hp : s.Perm values) :
    values.insertionSort (fun a b => a ≤ b) = s :=
  List.eq_of_perm_of_sorted ((List.perm_insertionSort _ values).trans hp.symm)
    (List.sorted_insertionSort _ values) hs

theorem getMedian_sorted (s : List ℚ) (hne : s ≠ []) (hs : s.Sorted (· ≤ ·)) :
    getMedian s = .ok (if s.length % 2 = 1 then s.getD (s.length / 2) 0
      else (s.getD (s.length / 2) 0 + s.getD (s.length / 2 - 1) 0) / 2) := by
  have hpos : 0 < s.length := List.length_pos.mpr hne
  unfold getMedian
  simp only []
  rw [insertionSort_unique s s hs (List.Perm.refl s)]
  have hmid : s.length / 2 < s.length := Nat.div_lt_self hpos (by decide)
  have h1 : s.get? (s.length / 2) = some (s.getD (s.length / 2) 0) := by
    rw [List.get?_eq_getElem?, List.getD_eq_getElem?_getD, List.getElem?_eq_getElem hmid]
    rfl
  by_cases hodd : s.length % 2 = 1
  · rw [if_pos hodd, if_pos hodd, h1]
  · rw [if_neg hodd, if_neg hodd, h1]
    have h2pos : 1 ≤ s.length / 2 := by omega
    have h2 : indexAt s ((s.length / 2 : Nat) - 1 : Int) = some (s.getD (s.length / 2 - 1) 0) := by
      unfold indexAt
      have hnn : (0 : Int) ≤ ((s.length / 2 : Nat) : Int) - 1 := by omega
      rw [if_pos hnn]
      have ht : (((s.length / 2 : Nat) : Int) - 1).toNat = s.length / 2 - 1 := by omega
      rw [ht, List.get?_eq_getElem?, List.getD_eq_getElem?_getD,
        List.getElem?_eq_getElem (show s.length / 2 - 1 < s.length by omega)]
      rfl
    rw [h2]

theorem getMedian_perm (values values' : List ℚ) (hp : values'.Perm values) :
    getMedian values' = getMedian values := by
  unfold getMedian
  simp only []
  rw [insertionSort_unique values' (values.insertionSort fun a b => a ≤ b)
    (List.sorted_insertionSort _ values) ((List.perm_insertionSort _ values).trans hp.symm)]

/-- C33. For every non-empty list of numbers and its ascending arrangement `s`,
`getMedian` returns the middle element `s[n/2]` when the length `n` is odd and the
mean `(s[n/2] + s[n/2 − 1]) / 2` of the two middle elements when it is even; it
returns the same for every reordering of the input. -/
theorem getMedian_middle (values s : List ℚ) (hne : values ≠ [])
    (hs : s.Sorted (· ≤ ·)) (hp : s.Perm values) :
    getMedian values = .ok (if s.length % 2 = 1 then s.getD (s.length / 2) 0
      else (s.getD (s.length / 2) 0 + s.getD (s.length / 2 - 1) 0) / 2) ∧
    ∀ values' : List ℚ, values'.Perm values → getMedian values' = getMedian values := by
  have hsne : s ≠ [] := fun h => hne (by rw [h] at hp; exact List.nil_perm.mp hp)
  exact ⟨(getMedian_perm s values hp.symm).trans (getMedian_sorted s hsne hs),
    fun values' h => getMedian_perm values values' h⟩

/-- Witness for C33: the list of the test `TestGetMedian`, whose median is `9`. -/
theorem getMedian_middle_witness :
    getMedian [3, 16, 12, 5, 19, 6, 22, 1] = .ok 9 :=
  (getMedian_middle [3, 16, 12, 5, 19, 6, 22, 1] [1, 3, 5, 6, 12, 16, 19, 22]
    (by decide) (by decide) (by decide)).1.trans (by norm_num)

/-! ## `PredictionStep`: node addresses and termination -/

theorem PredictionStep_cases (lib : Stdlib) (parseFloat : String → Option ℚ)
    (model : GoMap String CTreeNode) (sample : GoMap String String) (d i : Int) :
    (∃ x, ∀ fuel, PredictionStep lib parseFloat (fuel + 1) model sample d i
      = .ok (x, d, i, none)) ∨
    (∃ msg, ∀ fuel, PredictionStep lib parseFloat (fuel + 1) model sample d i
      = .ok ("", 0, 0, some msg)) ∨
    (∀ fuel, PredictionStep lib parseFloat (fuel + 1) model sample d i = .error .panic) ∨
    ∃ node j, model.lookup (NodeKeyByDepthIndex lib d i) = some node ∧
      (j = wrapInt (i * 2) ∨ j = wrapInt (i * 2 + 1)) ∧
      ∀ fuel, PredictionStep lib parseFloat (fuel + 1) model sample d i
        = PredictionStep lib parseFloat fuel model sample (wrapInt (d + 1)) j := by
  cases hl : model.lookup (NodeKeyByDepthIndex lib d i) with
  | none =>
    exact Or.inl ⟨"", fun fuel =>
      PredictionStep_handoff lib parseFloat fuel model sample d i (Or.inl hl)⟩
  | some node =>
    by_cases hres : node.Result = ""
    · by_cases hsv : node.SplitValue = none
      · exact Or.inl ⟨"", fun fuel => PredictionStep_handoff lib parseFloat fuel model sample d i
          (Or.inr ⟨node, hl, hsv, hres⟩)⟩
      · cases hc : childIndex parseFloat node sample i with
        | some j =>
          refine Or.inr (Or.inr (Or.inr ⟨node, j, rfl, ?_, fun fuel =>
            PredictionStep_step lib parseFloat fuel model sample d i j node ⟨hl, hres, hsv⟩ hc⟩))
          unfold childIndex at hc
          rw [mul_comm i 2]
          split at hc
          · split at hc
            · simp only [Option.some.injEq] at hc
              rw [← hc]
              split
              · exact Or.inl rfl
              · exact Or.inr rfl
            · cases hc
          · simp only [Option.some.injEq] at hc
            rw [← hc]
            split
            · exact Or.inl rfl
            · exact Or.inr rfl
        | none =>
          unfold childIndex at hc
          by_cases hcont : node.Continuous = true
          · simp only [hcont, if_true] at hc
            cases hp : parseFloat (sample.getStr node.FeatureName) with
            | none =>
              refine Or.inr (Or.inl
                ⟨"failed to parse sample value with feature[" ++ node.FeatureName ++ "]", ?_⟩)
              intro fuel
              unfold PredictionStep
              simp only [hl, hsv, hres, hcont, hp, ne_eq, not_false_eq_true, true_or, if_true,
                not_true_eq_false, if_false]
            | some x =>
              refine Or.inr (Or.inr (Or.inl ?_))
              intro fuel
              cases hv : node.SplitValue with
              | none => exact absurd hv hsv
              | some sv =>
                cases sv with
                | float v => simp [hp, hv] at hc
                | str s =>
                  unfold PredictionStep
                  simp only [hl, hv, hres, hcont, hp, ne_eq, not_false_eq_true, true_or, if_true,
                    not_true_eq_false, if_false, reduceCtorEq]
          · simp [hcont] at hc
    · exact Or.inl ⟨node.Result, fun fuel =>
        PredictionStep_leaf lib parseFloat fuel model sample d i node hl hres⟩

theorem PredictionStep_address (lib : Stdlib) (parseFloat : String → Option ℚ)
    (model : GoMap String CTreeNode) (sample : GoMap String String)
    (hdeep : ∀ d i : Int, 63 ≤ d → model.lookup (NodeKeyByDepthIndex lib d i) = none) :
    ∀ (fuel : Nat) (depth index : Int) (r : String × Int × Int × Option String),
      0 ≤ depth → 0 ≤ index → index < 2 ^ depth.toNat →
      PredictionStep lib parseFloat fuel model sample depth index = .ok r →
      (r.2.2.2 = none → depth ≤ r.2.1) ∧ 0 ≤ r.2.1 ∧ 0 ≤ r.2.2.1 ∧
        r.2.2.1 < 2 ^ r.2.1.toNat := by
  intro fuel
  induction fuel with
  | zero => intro depth index r _ _ _ h; cases h
  | succ fuel ih =>
    intro depth index r hd hi0 hi h
    rcases PredictionStep_cases lib parseFloat model sample depth index with
      ⟨x, hx⟩ | ⟨msg, hx⟩ | hx | ⟨node, j, hl, hj, hx⟩
    · rw [hx] at h
      cases h
      exact ⟨fun _ => le_refl _, hd, hi0, hi⟩
    · rw [hx] at h
      cases h
      exact ⟨fun hn => (by cases hn), le_refl _, le_refl _, by norm_num⟩
    · rw [hx] at h
      cases h
    · rw [hx] at h
      have hd62 : depth ≤ 62 := by
        by_contra hcon
        have := hdeep depth index (by omega)
        rw [this] at hl
        cases hl
      have hpow : (2 : Int) ^ depth.toNat ≤ 4611686018427387904 := by
        have h1 : depth.toNat ≤ 62 := by omega
        calc (2 : Int) ^ depth.toNat ≤ 2 ^ 62 := pow_le_pow_right₀ (by norm_num) h1
          _ = 4611686018427387904 := by norm_num
      have hw : wrapInt (depth + 1) = depth + 1 := by
        unfold wrapInt
        omega
      have hsucc : (2 : Int) ^ (depth + 1).toNat = 2 * 2 ^ depth.toNat := by
        have : (depth + 1).toNat = depth.toNat + 1 := by omega
        rw [this, pow_succ]
        ring
      have hj0 : 0 ≤ j ∧ j < 2 ^ (depth + 1).toNat := by
        rw [hsucc]
        unfold wrapInt at hj
        rcases hj with hj | hj
        · omega
        · omega
      rw [hw] at h
      obtain ⟨h1, h2, h3, h4⟩ := ih (depth + 1) j r (by omega) hj0.1 hj0.2 h
      exact ⟨fun hn => (by have := h1 hn; omega), h2, h3, h4⟩

/-- C36, as stated, fails: from the start pair `(63, 2^62)`, which satisfies
`0 ≤ index < 2^depth`, the node with a discrete split sends the sample to the right
child; the index `2·2^62 + 1` wraps around in Go `int` arithmetic and the handoff
returns a negative index without error. -/
theorem PredictionStep_index_overflow :
    (0 : Int) ≤ 4611686018427387904 ∧ (4611686018427387904 : Int) < 2 ^ 63 ∧
    PredictionStep libPlain toyParse 2 toyDeepModel toySample 63 4611686018427387904
      = .ok ("", 64, -9223372036854775807, none) := by
  refine ⟨by norm_num, by norm_num, ?_⟩
  rfl

/-- C36 (amended). For every model that holds no node at depth 63 or deeper and
every sample, if the start pair satisfies `0 ≤ index < 2^depth`, then the
`(depth', index')` that `PredictionStep` returns satisfies `depth' ≥ depth` when no
error is returned and `0 ≤ index' < 2^depth'` in every case (leaf, handoff or
error). -/
theorem PredictionStep_address_invariant (lib : Stdlib) (parseFloat : String → Option ℚ)
    (model : GoMap String CTreeNode) (sample : GoMap String String) (fuel : Nat)
    (depth index : Int) (result : String) (depth' index' : Int) (err : Option String)
    (hdeep : ∀ d i : Int, 63 ≤ d → model.lookup (NodeKeyByDepthIndex lib d i) = none)
    (hd : 0 ≤ depth) (hi0 : 0 ≤ index) (hi : index < 2 ^ depth.toNat)
    (hret : PredictionStep lib parseFloat fuel model sample depth index
      = .ok (result, depth', index', err)) :
    (err = none → depth ≤ depth') ∧ 0 ≤ index' ∧ index' < 2 ^ depth'.toNat := by
  obtain ⟨h1, -, h3, h4⟩ := PredictionStep_address lib parseFloat model sample hdeep fuel depth
    index (result, depth', index', err) hd hi0 hi hret
  exact ⟨h1, h3, h4⟩

theorem split_unique (x : UInt8) : ∀ (a a' b b' : Bytes), x ∉ a → x ∉ a' →
    a ++ x :: b = a' ++ x :: b' → a = a' ∧ b = b' := by
  intro a
  induction a with
  | nil =>
    intro a' b b' _ ha' h
    cases a' with
    | nil => exact ⟨rfl, (List.cons.inj h).2⟩
    | cons y a' =>
      exact absurd (List.mem_cons.mpr (Or.inl (List.cons.inj h).1)) ha'
  | cons y a ih =>
    intro a' b b' ha ha' h
    cases a' with
    | nil => exact absurd (List.mem_cons.mpr (Or.inl (List.cons.inj h).1.symm)) ha
    | cons z a' =>
      obtain ⟨h1, h2⟩ := List.cons.inj h
      obtain ⟨h3, h4⟩ := ih a' b b' (fun hm => ha (List.mem_cons_of_mem _ hm))
        (fun hm => ha' (List.mem_cons_of_mem _ hm)) h2
      exact ⟨by rw [h1, h3], h4⟩

theorem FormatInt_no_slash (i : Int) : (47 : UInt8) ∉ FormatInt i := by
  unfold FormatInt
  intro h
  rcases List.mem_append.mp h with h | h
  · split at h
    · rw [List.mem_singleton] at h
      exact absurd h (by decide)
    · cases h
  · obtain ⟨d, hd, hx⟩ := List.mem_map.mp h
    have hlt := digitsRev_lt _ _ d (List.mem_reverse.mp hd)
    have h1 := congrArg UInt8.toNat hx
    rw [UInt8.toNat_ofNat_of_lt (by simp [UInt8.size]; omega)] at h1
    have : (47 : UInt8).toNat = 47 := rfl
    omega

theorem libSep_key_inj (d1 i1 d2 i2 : Int)
    (h : NodeKeyByDepthIndex libSep d1 i1 = NodeKeyByDepthIndex libSep d2 i2) :
    d1 = d2 ∧ i1 = i2 := by
  unfold NodeKeyByDepthIndex HashUsingSha256 at h
  have h1 : (FormatInt d1 ++ [47] ++ FormatInt i1) ++ [47]
      = (FormatInt d2 ++ [47] ++ FormatInt i2) ++ [47] := hexEncode_injective _ _ h
  have h2 := List.append_cancel_right h1
  rw [List.append_assoc, List.append_assoc, List.singleton_append, List.singleton_append] at h2
  obtain ⟨h3, h4⟩ := split_unique 47 _ _ _ _ (FormatInt_no_slash d1) (FormatInt_no_slash d2) h2
  exact ⟨FormatInt_injective _ _ h3, FormatInt_injective _ _ h4⟩

theorem keysInjective_libSep : KeysInjective libSep :=
  fun d1 i1 d2 i2 _ _ _ _ h => libSep_key_inj d1 i1 d2 i2 h

theorem toyModelSep_shallow (d i : Int) (hd : 63 ≤ d) :
    toyModelSep.lookup (NodeKeyByDepthIndex libSep d i) = none := by
  rw [AList.lookup_eq_none]
  unfold toyModelSep GoMap.set
  rw [AList.mem_insert, AList.mem_insert]
  rintro (h | h | h)
  · have := (libSep_key_inj _ _ _ _ h).1
    omega
  · have := (libSep_key_inj _ _ _ _ h).1
    omega
  · exact AList.not_mem_empty _ h

/-- Witness for C36: in the test model, which holds nodes at the depths 0 and 1, the
sample is routed from `(0, 0)` to the leaf `(1, 0)`. -/
theorem PredictionStep_address_invariant_witness :
    PredictionStep libSep toyParse 2 toyModelSep toySample 0 0 = .ok ("yes", 1, 0, none) ∧
    ((none : Option String) = none → (0 : Int) ≤ 1) ∧ (0 : Int) ≤ 0 ∧
      (0 : Int) < 2 ^ (1 : Int).toNat :=
  ⟨rfl, PredictionStep_address_invariant libSep toyParse toyModelSep toySample 2 0 0 "yes" 1 0
    none toyModelSep_shallow (by decide) (by decide) (by decide) rfl⟩

theorem keysFrom_length (lib : Stdlib) : ∀ (is : List Int) (d : Int),
    (keysFrom lib d is).length = is.length := by
  intro is
  induction is with
  | nil => intro d; rfl
  | cons i rest ih => intro d; simp [keysFrom, ih]

theorem keysFrom_mem (lib : Stdlib) : ∀ (is : List Int) (d : Int) (s : String), IsGoInt d →
    s ∈ keysFrom lib d is →
    ∃ (k : Nat) (j : Int), k < is.length ∧ j ∈ is ∧
      s = NodeKeyByDepthIndex lib (wrapInt (d + k)) j := by
  intro is
  induction is with
  | nil => intro d s _ h; cases h
  | cons i rest ih =>
    intro d s hd h
    unfold keysFrom at h
    rcases List.mem_cons.mp h with h | h
    · refine ⟨0, i, by simp, List.mem_cons_self _ _, ?_⟩
      have : wrapInt (d + (0 : Nat)) = d := by
        unfold IsGoInt at hd
        unfold wrapInt
        omega
      rw [this, h]
    · have hd' : IsGoInt (wrapInt (d + 1)) := by
        unfold IsGoInt wrapInt
        omega
      obtain ⟨k, j, hk, hj, hs⟩ := ih (wrapInt (d + 1)) s hd' h
      refine ⟨k + 1, j, by simp; omega, List.mem_cons_of_mem _ hj, ?_⟩
      have : wrapInt (wrapInt (d + 1) + (k : Int)) = wrapInt (d + ((k + 1 : Nat) : Int)) := by
        unfold wrapInt
        push_cast
        omega
      rw [hs, this]

theorem keysFrom_nodup (lib : Stdlib) (hinj : KeysInjective lib) : ∀ (is : List Int) (d : Int),
    IsGoInt d → (∀ j ∈ is, IsGoInt j) → is.length ≤ 18446744073709551616 →
    (keysFrom lib d is).Nodup := by
  intro is
  induction is with
  | nil => intro d _ _ _; exact List.nodup_nil
  | cons i rest ih =>
    intro d hd his hlen
    have hd' : IsGoInt (wrapInt (d + 1)) := by
      unfold IsGoInt wrapInt
      omega
    have hlen' : rest.length + 1 ≤ 18446744073709551616 := by simpa using hlen
    unfold keysFrom
    refine List.nodup_cons.mpr ⟨?_, ih _ hd' (fun j hj => his j (List.mem_cons_of_mem _ hj))
      (by omega)⟩
    intro hmem
    obtain ⟨k, j, hk, hj, hs⟩ := keysFrom_mem lib rest _ _ hd' hmem
    have hw : IsGoInt (wrapInt (wrapInt (d + 1) + (k : Int))) := by
      unfold IsGoInt wrapInt
      omega
    have := (hinj _ _ _ _ hd (his i (List.mem_cons_self _ _)) hw
      (his j (List.mem_cons_of_mem _ hj)) hs).1
    unfold IsGoInt at hd
    unfold wrapInt at this
    omega

theorem PredictionStep_outOfFuel (lib : Stdlib) (parseFloat : String → Option ℚ)
    (model : GoMap String CTreeNode) (sample : GoMap String String) :
    ∀ (fuel : Nat) (d i : Int), IsGoInt i →
      PredictionStep lib parseFloat fuel model sample d i = .error .outOfFuel →
      ∃ is : List Int, is.length = fuel ∧ (∀ j ∈ is, IsGoInt j) ∧
        ∀ s ∈ keysFrom lib d is, s ∈ model.keys := by
  intro fuel
  induction fuel with
  | zero =>
    intro d i _ _
    exact ⟨[], rfl, fun j hj => absurd hj (List.not_mem_nil j),
      fun s hs => absurd hs (List.not_mem_nil s)⟩
  | succ fuel ih =>
    intro d i hi h
    rcases PredictionStep_cases lib parseFloat model sample d i with
      ⟨x, hx⟩ | ⟨msg, hx⟩ | hx | ⟨node, j, hl, hj, hx⟩
    · rw [hx] at h
      cases h
    · rw [hx] at h
      cases h
    · rw [hx] at h
      cases h
    · rw [hx] at h
      have hj' : IsGoInt j := by
        unfold IsGoInt
        unfold wrapInt at hj
        rcases hj with hj | hj <;> omega
      obtain ⟨is, h1, h2, h3⟩ := ih (wrapInt (d + 1)) j hj' h
      refine ⟨i :: is, by simp [h1], ?_, ?_⟩
      · intro x hx'
        rcases List.mem_cons.mp hx' with rfl | hx'
        · exact hi
        · exact h2 x hx'
      · intro s hs
        unfold keysFrom at hs
        rcases List.mem_cons.mp hs with rfl | hs
        · exact (AList.mem_keys).mp ((AList.lookup_isSome).mp (by rw [hl]; rfl))
        · exact h3 s hs

theorem PredictionStep_mono (lib : Stdlib) (parseFloat : String → Option ℚ)
    (model : GoMap String CTreeNode) (sample : GoMap String String) :
    ∀ (fuel : Nat) (d i : Int),
      PredictionStep lib parseFloat fuel model sample d i ≠ .error .outOfFuel →
      ∀ extra, PredictionStep lib parseFloat (fuel + extra) model sample d i
        = PredictionStep lib parseFloat fuel model sample d i := by
  intro fuel
  induction fuel with
  | zero => intro d i h; exact absurd rfl h
  | succ fuel ih =>
    intro d i h extra
    have e : fuel + 1 + extra = (fuel + extra) + 1 := by omega
    rw [e]
    rcases PredictionStep_cases lib parseFloat model sample d i with
      ⟨x, hx⟩ | ⟨msg, hx⟩ | hx | ⟨node, j, hl, hj, hx⟩
    · rw [hx, hx]
    · rw [hx, hx]
    · rw [hx, hx]
    · rw [hx] at h ⊢
      rw [hx]
      exact ih _ _ h extra

theorem PredictionStep_enough (lib : Stdlib) (parseFloat : String → Option ℚ)
    (model : GoMap String CTreeNode) (sample : GoMap String String) (depth index : Int)
    (hinj : KeysInjective lib) (hd : IsGoInt depth) (hi : IsGoInt index)
    (hlen : model.len < 9223372036854775808) :
    PredictionStep lib parseFloat (model.len + 1) model sample depth index
      ≠ .error .outOfFuel := by
  intro h
  obtain ⟨is, h1, h2, h3⟩ := PredictionStep_outOfFuel lib parseFloat model sample _ depth index
    hi h
  have hnd := keysFrom_nodup lib hinj is depth hd h2 (by omega)
  have hle := (List.subperm_of_subset hnd h3).length_le
  rw [keysFrom_length, h1, ← len_eq_keys] at hle
  omega

/-- C37. When distinct `(depth, index)` pairs of Go `int` values have distinct keys,
`PredictionStep` on a model with `n` entries (a Go map has fewer than `2^63`) makes
at most `n` recursive calls: with fuel for `n + 1` calls it returns a tuple (result,
handoff or error) or ends by the panic of a failed type assertion, and more fuel
does not change the outcome. -/
theorem PredictionStep_terminates (lib : Stdlib) (parseFloat : String → Option ℚ)
    (model : GoMap String CTreeNode) (sample : GoMap String String) (depth index : Int)
    (hinj : KeysInjective lib) (hd : IsGoInt depth) (hi : IsGoInt index)
    (hlen : model.len < 9223372036854775808) :
    ((∃ r, PredictionStep lib parseFloat (model.len + 1) model sample depth index = .ok r) ∨
      PredictionStep lib parseFloat (model.len + 1) model sample depth index = .error .panic) ∧
    ∀ fuel, model.len + 1 ≤ fuel →
      PredictionStep lib parseFloat fuel model sample depth index
        = PredictionStep lib parseFloat (model.len + 1) model sample depth index := by
  have h := PredictionStep_enough lib parseFloat model sample depth index hinj hd hi hlen
  refine ⟨?_, ?_⟩
  · cases hr : PredictionStep lib parseFloat (model.len + 1) model sample depth index with
    | ok r => exact Or.inl ⟨r, rfl⟩
    | error f =>
      cases f with
      | panic => exact Or.inr rfl
      | outOfFuel => exact absurd hr h
  · intro fuel hf
    obtain ⟨extra, rfl⟩ : ∃ extra, fuel = model.len + 1 + extra := ⟨fuel - (model.len + 1), by omega⟩
    exact PredictionStep_mono lib parseFloat model sample _ depth index h extra

/-- Witness for C37: the test model has two entries and the call from `(0, 0)`
returns after one recursive call. -/
theorem PredictionStep_terminates_witness :
    ((∃ r, PredictionStep libSep toyParse (toyModelSep.len + 1) toyModelSep toySample 0 0
        = .ok r) ∨
      PredictionStep libSep toyParse (toyModelSep.len + 1) toyModelSep toySample 0 0
        = .error .panic) ∧
    ∀ fuel, toyModelSep.len + 1 ≤ fuel →
      PredictionStep libSep toyParse fuel toyModelSep toySample 0 0
        = PredictionStep libSep toyParse (toyModelSep.len + 1) toyModelSep toySample 0 0 :=
  PredictionStep_terminates libSep toyParse toyModelSep toySample 0 0 keysInjective_libSep
    (by decide) (by decide) (by decide)

/-! ## The cost of a split -/

theorem nodeSamples_part (ds : DTDataSet) (label : String) (S L R : List Int)
    (hS : NodeSamples ds label S) (hL : L ≠ []) (hR : R ≠ []) (hpart : S.Perm (L ++ R)) :
    NodeSamples ds label L ∧ NodeSamples ds label R := by
  obtain ⟨-, hnd, hlab, hfirst⟩ := hS
  have hnd' : (L ++ R).Nodup := hpart.nodup_iff.mp hnd
  have hmemL : ∀ id ∈ L, id ∈ S := fun id h => hpart.mem_iff.mpr (List.mem_append_left _ h)
  have hmemR : ∀ id ∈ R, id ∈ S := fun id h => hpart.mem_iff.mpr (List.mem_append_right _ h)
  exact ⟨⟨hL, (List.nodup_append.mp hnd').1, fun id h => hlab id (hmemL id h),
      fun id h => hfirst id (hmemL id h)⟩,
    ⟨hR, (List.nodup_append.mp hnd').2.1, fun id h => hlab id (hmemR id h),
      fun id h => hfirst id (hmemR id h)⟩⟩

theorem misCount_part (ds : DTDataSet) (label : String) (S L R : List Int) (c : String)
    (hpart : S.Perm (L ++ R)) :
    misCount ds label S c = misCount ds label L c + misCount ds label R c := by
  unfold misCount
  rw [(hpart.filter _).length_eq, List.filter_append, List.length_append]

theorem misCount_majority_le (ds : DTDataSet) (label : String) (ids : List Int) (c t : String)
    (hnd : ids.Nodup) (ht : IsMajorityLabel ds label ids t) :
    misCount ds label ids t ≤ misCount ds label ids c := by
  have h1 := misCount_add_labelCount ds label ids c hnd
  have h2 := misCount_add_labelCount ds label ids t hnd
  have h3 := ht c
  unfold misCount
  omega

theorem costOf_eq_misCount (ds : DTDataSet) (label : String) (ids : List Int) (c : String)
    (hne : ids ≠ []) :
    costOf ds label ids c = (misCount ds label ids c : ℚ) / (totalSamples ds : ℚ) := by
  have hlen : (ids.length : ℚ) ≠ 0 := by
    have := List.length_pos.mpr hne
    exact_mod_cast this.ne'
  unfold costOf errRateOf misCount
  rw [div_mul_cancel₀ _ hlen]

theorem totalSamples_pos (ds : DTDataSet) (label : String) (ids : List Int)
    (hS : NodeSamples ds label ids) : 0 < totalSamples ds := by
  obtain ⟨first, rest, hF, -, hN⟩ := first_of_inFirst ds ids hS.1 hS.2.2.2
  unfold totalSamples
  rw [hF]
  exact Nat.pos_of_ne_zero hN

theorem cost_split (ds : DTDataSet) (label : String) (S L R : List Int)
    (hS : NodeSamples ds label S) (hL : L ≠ []) (hR : R ≠ []) (hpart : S.Perm (L ++ R))
    (c cl cr : String) (hcl : IsMajorityLabel ds label L cl)
    (hcr : IsMajorityLabel ds label R cr) :
    costOf ds label L cl + costOf ds label R cr ≤ costOf ds label S c ∧
    (costOf ds label S c ≤ costOf ds label L cl + costOf ds label R cr ↔
      misCount ds label S c = misCount ds label L cl + misCount ds label R cr) := by
  obtain ⟨hNL, hNR⟩ := nodeSamples_part ds label S L R hS hL hR hpart
  have hN : (0 : ℚ) < (totalSamples ds : ℚ) := by
    exact_mod_cast totalSamples_pos ds label S hS
  have h1 := misCount_part ds label S L R c hpart
  have h2 := misCount_majority_le ds label L c cl hNL.2.1 hcl
  have h3 := misCount_majority_le ds label R c cr hNR.2.1 hcr
  rw [costOf_eq_misCount ds label S c hS.1, costOf_eq_misCount ds label L cl hL,
    costOf_eq_misCount ds label R cr hR, ← add_div, div_le_div_iff_of_pos_right hN, div_le_div_iff_of_pos_right hN]
  constructor
  · exact_mod_cast (by omega : misCount ds label L cl + misCount ds label R cr
      ≤ misCount ds label S c)
  · constructor
    · intro h
      have : misCount ds label S c ≤ misCount ds label L cl + misCount ds label R cr := by
        exact_mod_cast h
      omega
    · intro h
      rw [h]
      push_cast
      exact le_refl _

/-! ## Rounding to `float64` -/

theorem bitLength_spec : ∀ (fuel n : Nat), n ≠ 0 → n ≤ fuel →
    1 ≤ bitLength fuel n ∧ 2 ^ (bitLength fuel n - 1) ≤ n ∧ n < 2 ^ bitLength fuel n
  | 0, n, h0, hle => absurd (Nat.le_zero.mp hle) h0
  | fuel + 1, n, h0, hle => by
    unfold bitLength
    rw [if_neg h0]
    by_cases h2 : n / 2 = 0
    · have h1 : n = 1 := by omega
      subst h1
      cases fuel with
      | zero => simp [bitLength]
      | succ f => simp [bitLength]
    · obtain ⟨a, b, c⟩ := bitLength_spec fuel (n / 2) h2 (by omega)
      refine ⟨by omega, ?_, ?_⟩
      · rw [Nat.add_sub_cancel]
        have : 2 ^ bitLength fuel (n / 2) = 2 ^ (bitLength fuel (n / 2) - 1) * 2 := by
          rw [← pow_succ]
          congr 1
          omega
        omega
      · rw [pow_succ]
        omega

theorem two_zpow_split (k : Int) :
    (2 : ℚ) ^ k = (2 : ℚ) ^ k.toNat / (2 : ℚ) ^ (-k).toNat := by
  rcases le_total 0 k with h | h
  · obtain ⟨a, rfl⟩ := Int.eq_ofNat_of_zero_le h
    have h1 : (-(a : Int)).toNat = 0 := by omega
    rw [h1, Int.toNat_natCast, zpow_natCast, pow_zero, div_one]
  · obtain ⟨a, ha⟩ := Int.eq_ofNat_of_zero_le (neg_nonneg.mpr h)
    have hk : k = -(a : Int) := by omega
    subst hk
    have h1 : (-(a : Int)).toNat = 0 := by omega
    rw [neg_neg, Int.toNat_natCast, h1, pow_zero, zpow_neg, zpow_natCast, one_div]

theorem floorLog2_spec (n d : Nat) (hn : 0 < n) (hd : 0 < d) :
    (2 : ℚ) ^ floorLog2 n d ≤ (n : ℚ) / (d : ℚ) ∧
      (n : ℚ) / (d : ℚ) < (2 : ℚ) ^ (floorLog2 n d + 1) := by
  obtain ⟨a1, a2, a3⟩ := bitLength_spec n n hn.ne' (le_refl _)
  obtain ⟨b1, b2, b3⟩ := bitLength_spec d d hd.ne' (le_refl _)
  have hdq : (0 : ℚ) < (d : ℚ) := by exact_mod_cast hd
  have hnq : (0 : ℚ) < (n : ℚ) := by exact_mod_cast hn
  have A2 : (2 : ℚ) ^ (bitLength n n - 1) ≤ (n : ℚ) := by exact_mod_cast a2
  have A3 : (n : ℚ) < (2 : ℚ) ^ bitLength n n := by exact_mod_cast a3
  have B2 : (2 : ℚ) ^ (bitLength d d - 1) ≤ (d : ℚ) := by exact_mod_cast b2
  have B3 : (d : ℚ) < (2 : ℚ) ^ bitLength d d := by exact_mod_cast b3
  have h2 : (0 : ℚ) < 2 := by norm_num
  have hp : ∀ m : Nat, (0 : ℚ) < (2 : ℚ) ^ m := fun m => pow_pos h2 m
  have hA : (2 : ℚ) ^ bitLength n n = 2 ^ (bitLength n n - 1) * 2 := by
    rw [← pow_succ]
    congr 1
    omega
  have hB : (2 : ℚ) ^ bitLength d d = 2 ^ (bitLength d d - 1) * 2 := by
    rw [← pow_succ]
    congr 1
    omega
  have he : (2 : ℚ) ^ ((bitLength n n : Int) - (bitLength d d : Int))
      = (2 : ℚ) ^ bitLength n n / (2 : ℚ) ^ bitLength d d := by
    rw [zpow_sub₀ (by norm_num : (2 : ℚ) ≠ 0), zpow_natCast, zpow_natCast]
  have hcond : (n * 2 ^ (-((bitLength n n : Int) - (bitLength d d : Int))).toNat
        < d * 2 ^ ((bitLength n n : Int) - (bitLength d d : Int)).toNat) ↔
      (n : ℚ) / (d : ℚ) < (2 : ℚ) ^ ((bitLength n n : Int) - (bitLength d d : Int)) := by
    rw [two_zpow_split, div_lt_div_iff₀ hdq (hp _)]
    constructor
    · intro h
      have : ((n * 2 ^ (-((bitLength n n : Int) - (bitLength d d : Int))).toNat : Nat) : ℚ)
          < ((d * 2 ^ ((bitLength n n : Int) - (bitLength d d : Int)).toNat : Nat) : ℚ) := by
        exact_mod_cast h
      push_cast at this
      linarith
    · intro h
      have : ((n * 2 ^ (-((bitLength n n : Int) - (bitLength d d : Int))).toNat : Nat) : ℚ)
          < ((d * 2 ^ ((bitLength n n : Int) - (bitLength d d : Int)).toNat : Nat) : ℚ) := by
        push_cast
        linarith
      exact_mod_cast this
  unfold floorLog2
  simp only []
  by_cases hc : n * 2 ^ (-((bitLength n n : Int) - (bitLength d d : Int))).toNat
      < d * 2 ^ ((bitLength n n : Int) - (bitLength d d : Int)).toNat
  · rw [if_pos hc, sub_add_cancel]
    refine ⟨?_, hcond.mp hc⟩
    rw [zpow_sub_one₀ (by norm_num : (2 : ℚ) ≠ 0), he, le_div_iff₀ hdq, hA]
    have : (2 : ℚ) ^ (bitLength n n - 1) * 2 / (2 : ℚ) ^ bitLength d d * 2⁻¹ * (d : ℚ)
        = (2 : ℚ) ^ (bitLength n n - 1) * ((d : ℚ) / (2 : ℚ) ^ bitLength d d) := by
      field_simp
      ring
    rw [this]
    have hlt1 : (d : ℚ) / (2 : ℚ) ^ bitLength d d ≤ 1 := by
      rw [div_le_one (hp _)]
      exact B3.le
    calc (2 : ℚ) ^ (bitLength n n - 1) * ((d : ℚ) / (2 : ℚ) ^ bitLength d d)
        ≤ (2 : ℚ) ^ (bitLength n n - 1) * 1 := by
          apply mul_le_mul_of_nonneg_left hlt1 (hp _).le
      _ = (2 : ℚ) ^ (bitLength n n - 1) := mul_one _
      _ ≤ (n : ℚ) := A2
  · rw [if_neg hc]
    refine ⟨not_lt.mp (fun h => hc (hcond.mpr h)), ?_⟩
    rw [zpow_add_one₀ (by norm_num : (2 : ℚ) ≠ 0), he, div_lt_iff₀ hdq, hB]
    have : (2 : ℚ) ^ bitLength n n / ((2 : ℚ) ^ (bitLength d d - 1) * 2) * 2 * (d : ℚ)
        = (2 : ℚ) ^ bitLength n n * ((d : ℚ) / (2 : ℚ) ^ (bitLength d d - 1)) := by
      field_simp
      ring
    rw [this]
    have hge1 : 1 ≤ (d : ℚ) / (2 : ℚ) ^ (bitLength d d - 1) := by
      rw [le_div_iff₀ (hp _), one_mul]
      exact B2
    calc (n : ℚ) < (2 : ℚ) ^ bitLength n n := A3
      _ = (2 : ℚ) ^ bitLength n n * 1 := (mul_one _).symm
      _ ≤ (2 : ℚ) ^ bitLength n n * ((d : ℚ) / (2 : ℚ) ^ (bitLength d d - 1)) := by
          apply mul_le_mul_of_nonneg_left hge1 (hp _).le

theorem roundHalfEven_near (n d : Nat) (hd : 0 < d) :
    |((roundHalfEven n d : Nat) : ℚ) - (n : ℚ) / (d : ℚ)| ≤ 1 / 2 := by
  have hdq : (0 : ℚ) < (d : ℚ) := by exact_mod_cast hd
  have hdiv : (n : ℚ) = (d : ℚ) * ((n / d : Nat) : ℚ) + ((n % d : Nat) : ℚ) := by
    exact_mod_cast (Nat.div_add_mod n d).symm
  have hmod : ((n % d : Nat) : ℚ) < (d : ℚ) := by exact_mod_cast Nat.mod_lt n hd
  have hmod0 : (0 : ℚ) ≤ ((n % d : Nat) : ℚ) := Nat.cast_nonneg _
  have key : (n : ℚ) / (d : ℚ) = ((n / d : Nat) : ℚ) + ((n % d : Nat) : ℚ) / (d : ℚ) := by
    rw [hdiv]
    field_simp
    have := Nat.div_add_mod n d
    have h2 : ((d * (n / d) + n % d : Nat) : ℚ) = (n : ℚ) := by exact_mod_cast this
    push_cast at h2
    nlinarith [h2]
  have hfrac0 : 0 ≤ ((n % d : Nat) : ℚ) / (d : ℚ) := div_nonneg hmod0 hdq.le
  have hfrac1 : ((n % d : Nat) : ℚ) / (d : ℚ) < 1 := (div_lt_one hdq).mpr hmod
  unfold roundHalfEven
  rw [abs_le]
  by_cases h1 : 2 * (n % d) < d
  · rw [if_pos h1, key]
    have : (2 : ℚ) * ((n % d : Nat) : ℚ) < (d : ℚ) := by exact_mod_cast h1
    have hh : ((n % d : Nat) : ℚ) / (d : ℚ) ≤ 1 / 2 := by
      rw [div_le_iff₀ hdq]
      linarith
    constructor <;> linarith
  · rw [if_neg h1]
    by_cases h2 : d < 2 * (n % d)
    · rw [if_pos h2, key]
      have : (d : ℚ) < (2 : ℚ) * ((n % d : Nat) : ℚ) := by exact_mod_cast h2
      have hh : 1 / 2 ≤ ((n % d : Nat) : ℚ) / (d : ℚ) := by
        rw [le_div_iff₀ hdq]
        linarith
      push_cast
      constructor <;> linarith
    · rw [if_neg h2]
      have heq : 2 * (n % d) = d := by omega
      have : (2 : ℚ) * ((n % d : Nat) : ℚ) = (d : ℚ) := by exact_mod_cast heq
      have hh : ((n % d : Nat) : ℚ) / (d : ℚ) = 1 / 2 := by
        rw [div_eq_iff hdq.ne']
        linarith
      by_cases h3 : n / d % 2 = 0
      · rw [if_pos h3, key, hh]
        constructor <;> linarith
      · rw [if_neg h3, key, hh]
        push_cast
        constructor <;> linarith

theorem round_zero : F64.round 0 = .fin 0 := by
  unfold F64.round
  rw [if_pos rfl]

/-- Rounding a positive number in the range of the normal numbers gives a number
within the relative distance `2 ^ (-53)`. -/
theorem round_near (q : ℚ) (hq : 0 < q) (hlo : 1 / 2 ^ 1022 ≤ q) (hhi : q ≤ 2 ^ 1023) :
    ∃ r : ℚ, F64.round q = .fin r ∧ q * (1 - 1 / 2 ^ 53) ≤ r ∧ r ≤ q * (1 + 1 / 2 ^ 53) := by
  have hnum : 0 < q.num := Rat.num_pos.mpr hq
  have hden : 0 < q.den := q.den_pos
  have hn : 0 < q.num.natAbs := Int.natAbs_pos.mpr hnum.ne'
  have hnq : ((q.num.natAbs : Nat) : ℚ) = (q.num : ℚ) := by
    rw [← Int.cast_natCast, Int.natAbs_of_nonneg hnum.le]
  have hqd : ((q.num.natAbs : Nat) : ℚ) / (q.den : ℚ) = q := by
    rw [hnq]
    exact Rat.num_div_den q
  obtain ⟨e1, e2⟩ := floorLog2_spec q.num.natAbs q.den hn hden
  rw [hqd] at e1 e2
  have h2 : (1 : ℚ) < 2 := by norm_num
  have h20 : (0 : ℚ) < 2 := by norm_num
  have hge : -1022 ≤ floorLog2 q.num.natAbs q.den := by
    have h : (2 : ℚ) ^ (-1022 : Int) < (2 : ℚ) ^ (floorLog2 q.num.natAbs q.den + 1) := by
      refine lt_of_le_of_lt ?_ e2
      rw [zpow_neg, zpow_ofNat, ← one_div]
      exact hlo
    have := (zpow_lt_zpow_iff_right₀ h2).mp h
    omega
  have hle : floorLog2 q.num.natAbs q.den ≤ 1023 := by
    have h : (2 : ℚ) ^ floorLog2 q.num.natAbs q.den ≤ (2 : ℚ) ^ (1023 : Int) := by
      refine le_trans e1 ?_
      rw [zpow_ofNat]
      exact hhi
    exact (zpow_le_zpow_iff_right₀ h2).mp h
  have hmax : max (floorLog2 q.num.natAbs q.den) (-1022) = floorLog2 q.num.natAbs q.den :=
    max_eq_left hge
  generalize he : floorLog2 q.num.natAbs q.den = e at e1 e2 hge hle hmax
  have hp : ∀ m : Nat, (0 : ℚ) < (2 : ℚ) ^ m := fun m => pow_pos h20 m
  have hk : (2 : ℚ) ^ (e - 52) = (2 : ℚ) ^ (e - 52).toNat / (2 : ℚ) ^ (-(e - 52)).toNat :=
    two_zpow_split _
  have hkpos : (0 : ℚ) < (2 : ℚ) ^ (e - 52) := zpow_pos h20 _
  have hD : 0 < q.den * 2 ^ (e - 52).toNat := Nat.mul_pos hden (pow_pos (by norm_num) _)
  have hnear := roundHalfEven_near (q.num.natAbs * 2 ^ (-(e - 52)).toNat)
    (q.den * 2 ^ (e - 52).toNat) hD
  generalize hm : roundHalfEven (q.num.natAbs * 2 ^ (-(e - 52)).toNat)
    (q.den * 2 ^ (e - 52).toNat) = m at hnear
  have hscaled : ((q.num.natAbs * 2 ^ (-(e - 52)).toNat : Nat) : ℚ)
      / ((q.den * 2 ^ (e - 52).toNat : Nat) : ℚ) = q / (2 : ℚ) ^ (e - 52) := by
    have hdq : ((q.den : Nat) : ℚ) ≠ 0 := by exact_mod_cast hden.ne'
    push_cast
    rw [hk]
    conv_rhs => rw [← hqd]
    field_simp
  rw [hscaled] at hnear
  have hr : mkRat ((m : Int) * 2 ^ (e - 52).toNat) (2 ^ (-(e - 52)).toNat)
      = (m : ℚ) * (2 : ℚ) ^ (e - 52) := by
    rw [Rat.mkRat_eq_div, hk]
    push_cast
    ring
  have hdist : |(m : ℚ) * (2 : ℚ) ^ (e - 52) - q| ≤ (2 : ℚ) ^ (e - 52) / 2 := by
    have : (m : ℚ) * (2 : ℚ) ^ (e - 52) - q
        = ((m : ℚ) - q / (2 : ℚ) ^ (e - 52)) * (2 : ℚ) ^ (e - 52) := by
      field_simp
    rw [this, abs_mul, abs_of_pos hkpos]
    calc |(m : ℚ) - q / (2 : ℚ) ^ (e - 52)| * (2 : ℚ) ^ (e - 52)
        ≤ 1 / 2 * (2 : ℚ) ^ (e - 52) := mul_le_mul_of_nonneg_right hnear hkpos.le
      _ = (2 : ℚ) ^ (e - 52) / 2 := by ring
  have hulp : (2 : ℚ) ^ (e - 52) / 2 ≤ q * (1 / 2 ^ 53) := by
    have : (2 : ℚ) ^ (e - 52) = (2 : ℚ) ^ e / 2 ^ 52 := by
      rw [zpow_sub₀ h20.ne']
      norm_num
    rw [this]
    have : (2 : ℚ) ^ e / 2 ^ 52 / 2 = (2 : ℚ) ^ e * (1 / 2 ^ 53) := by
      norm_num
      ring
    rw [this]
    exact mul_le_mul_of_nonneg_right e1 (by positivity)
  obtain ⟨d1, d2⟩ := abs_le.mp (le_trans hdist hulp)
  have hlow : q * (1 - 1 / 2 ^ 53) ≤ (m : ℚ) * (2 : ℚ) ^ (e - 52) := by linarith
  have hupp : (m : ℚ) * (2 : ℚ) ^ (e - 52) ≤ q * (1 + 1 / 2 ^ 53) := by linarith
  refine ⟨(m : ℚ) * (2 : ℚ) ^ (e - 52), ?_, hlow, hupp⟩
  unfold F64.round
  rw [if_neg hq.ne']
  simp only []
  rw [he, hmax, hm]
  have hno : ¬ (2 ^ 1024 * 2 ^ (-(e - 52)).toNat ≤ m * 2 ^ (e - 52).toNat) := by
    intro hov
    have hov2 : ((2 ^ 1024 * 2 ^ (-(e - 52)).toNat : Nat) : ℚ)
        ≤ ((m * 2 ^ (e - 52).toNat : Nat) : ℚ) := Nat.cast_le.mpr hov
    rw [Nat.cast_mul, Nat.cast_mul, Nat.cast_pow, Nat.cast_pow, Nat.cast_pow,
      Nat.cast_ofNat] at hov2
    have hval : (2 : ℚ) ^ 1024 ≤ (m : ℚ) * (2 : ℚ) ^ (e - 52) := by
      rw [hk, ← mul_div_assoc, le_div_iff₀ (hp _)]
      exact hov2
    have hbig : q * (1 + 1 / 2 ^ 53) < (2 : ℚ) ^ 1024 := by
      calc q * (1 + 1 / 2 ^ 53) ≤ 2 ^ 1023 * (1 + 1 / 2 ^ 53) :=
            mul_le_mul_of_nonneg_right hhi (by positivity)
        _ < (2 : ℚ) ^ 1024 := by
            rw [show (2 : ℚ) ^ 1024 = 2 ^ 1023 * 2 by rw [← pow_succ]]
            apply mul_lt_mul_of_pos_left _ (hp _)
            norm_num
    linarith
  rw [if_neg hno, if_pos hq.le, hr]

theorem roundHalfEven_one (x : Nat) : roundHalfEven x 1 = x := by
  unfold roundHalfEven
  simp [Nat.mod_one]

/-- The conversion of a natural number below `2 ^ 53` to `float64` is exact. -/
theorem ofInt_exact (n : Nat) (hn : n < 2 ^ 53) : F64.ofInt (n : Int) = .fin (n : ℚ) := by
  unfold F64.ofInt
  rw [Int.cast_natCast]
  by_cases h0 : n = 0
  · subst h0
    rw [Nat.cast_zero]
    exact round_zero
  have hpos : 0 < n := Nat.pos_of_ne_zero h0
  have hq0 : ((n : Nat) : ℚ) ≠ 0 := by exact_mod_cast h0
  obtain ⟨e1, e2⟩ := floorLog2_spec n 1 hpos Nat.one_pos
  rw [Nat.cast_one, div_one] at e1 e2
  have h2 : (1 : ℚ) < 2 := by norm_num
  have hge : 0 ≤ floorLog2 n 1 := by
    have h : (2 : ℚ) ^ (0 : Int) < (2 : ℚ) ^ (floorLog2 n 1 + 1) := by
      rw [zpow_zero]
      refine lt_of_le_of_lt ?_ e2
      exact_mod_cast hpos
    have := (zpow_lt_zpow_iff_right₀ h2).mp h
    omega
  have hle : floorLog2 n 1 ≤ 52 := by
    have h : (2 : ℚ) ^ floorLog2 n 1 < (2 : ℚ) ^ (53 : Int) := by
      refine lt_of_le_of_lt e1 ?_
      rw [zpow_ofNat]
      exact_mod_cast hn
    have := (zpow_lt_zpow_iff_right₀ h2).mp h
    omega
  unfold F64.round
  rw [if_neg hq0]
  simp only [Rat.num_natCast, Int.natAbs_ofNat, Rat.den_natCast]
  generalize floorLog2 n 1 = e at hge hle
  have hmax : max e (-1022) = e := max_eq_left (by omega)
  rw [hmax]
  obtain ⟨j, hj⟩ : ∃ j : Nat, (j : Int) = 52 - e := ⟨(52 - e).toNat, by omega⟩
  have hk1 : (e - 52).toNat = 0 := by omega
  have hk2 : (-(e - 52)).toNat = j := by omega
  rw [hk1, hk2, pow_zero, Nat.mul_one, Nat.mul_one, roundHalfEven_one]
  have hno : ¬ (2 ^ 1024 * 2 ^ j ≤ n * 2 ^ j) := by
    intro h
    have h1 := Nat.le_of_mul_le_mul_right h (pow_pos (by norm_num) j)
    have hb : (2 : Nat) ^ 53 ≤ 2 ^ 1024 := Nat.pow_le_pow_right (by decide) (by decide)
    exact absurd (lt_of_lt_of_le hn (le_trans hb h1)) (lt_irrefl _)
  rw [if_neg hno, if_pos (Nat.cast_nonneg n)]
  congr 1
  rw [Rat.mkRat_eq_div]
  push_cast
  have : (2 : ℚ) ^ j ≠ 0 := pow_ne_zero _ (by norm_num)
  field_simp

/-- Rounding a non-negative number that is zero or of moderate size changes it by at
most the relative distance `2 ^ (-53)`. -/
theorem round_rel (q : ℚ) (hr : q = 0 ∨ (1 / 2 ^ 100 ≤ q ∧ q ≤ 2 ^ 100)) :
    ∃ r : ℚ, F64.round q = .fin r ∧ q * (1 - 1 / 2 ^ 53) ≤ r ∧ r ≤ q * (1 + 1 / 2 ^ 53) := by
  rcases hr with rfl | ⟨hlo, hhi⟩
  · exact ⟨0, round_zero, by norm_num, by norm_num⟩
  · have hq : 0 < q := lt_of_lt_of_le (by positivity) hlo
    refine round_near q hq (le_trans ?_ hlo) (le_trans hhi ?_)
    · apply one_div_le_one_div_of_le (by positivity)
      exact pow_le_pow_right₀ (by norm_num) (by norm_num)
    · exact pow_le_pow_right₀ (by norm_num) (by norm_num)

/-- The cost computed from the misclassification count `m` of a list of `n` samples
in a table of `N` samples is the number `m / N` up to three roundings. -/
theorem cost_near (m n N : Nat) (hm : m ≤ n) (hn : 0 < n) (hnb : n ≤ 2 ^ 49) (hN : 0 < N)
    (hNb : N ≤ 2 ^ 49) :
    ∃ c : ℚ,
      (((F64.ofInt (m : Int)).div (F64.ofInt (n : Int))).mul (F64.ofInt (n : Int))).div
          (F64.ofInt (N : Int)) = .fin c ∧
      (m : ℚ) / (N : ℚ) * (1 - 1 / 2 ^ 53) ^ 3 ≤ c ∧
      c ≤ (m : ℚ) / (N : ℚ) * (1 + 1 / 2 ^ 53) ^ 3 := by
  have hb : (2 : Nat) ^ 49 < 2 ^ 53 := by norm_num
  rw [ofInt_exact m (by omega), ofInt_exact n (by omega), ofInt_exact N (by omega)]
  have hnq : (0 : ℚ) < (n : ℚ) := by exact_mod_cast hn
  have hNq : (0 : ℚ) < (N : ℚ) := by exact_mod_cast hN
  have hnbq : (n : ℚ) ≤ 2 ^ 49 := by exact_mod_cast hnb
  have hNbq : (N : ℚ) ≤ 2 ^ 49 := by exact_mod_cast hNb
  have hmnq : (m : ℚ) ≤ (n : ℚ) := by exact_mod_cast hm
  have hdivn : ∀ a : ℚ, (F64.fin a).div (.fin (n : ℚ)) = F64.round (a / (n : ℚ)) := by
    intro a
    simp only [F64.div]
    rw [if_neg hnq.ne']
  have hdivN : ∀ a : ℚ, (F64.fin a).div (.fin (N : ℚ)) = F64.round (a / (N : ℚ)) := by
    intro a
    simp only [F64.div]
    rw [if_neg hNq.ne']
  have hmul : ∀ a b : ℚ, (F64.fin a).mul (.fin b) = F64.round (a * b) := fun a b => rfl
  by_cases h0 : m = 0
  · subst h0
    refine ⟨0, ?_, by norm_num, by norm_num⟩
    rw [hdivn, Nat.cast_zero, zero_div, round_zero, hmul, zero_mul, round_zero, hdivN,
      zero_div, round_zero]
  have hm1 : (1 : ℚ) ≤ (m : ℚ) := by exact_mod_cast Nat.pos_of_ne_zero h0
  obtain ⟨u, hu⟩ : ∃ u : ℚ, u = 1 / 2 ^ 53 := ⟨_, rfl⟩
  have hu0 : 0 < u := by rw [hu]; positivity
  have hu1 : u ≤ 1 / 2 := by rw [hu]; norm_num
  rw [← hu]
  have hmb : (m : ℚ) ≤ 2 ^ 49 := le_trans hmnq hnbq
  -- the error rate
  have hx1 : 1 / 2 ^ 100 ≤ (m : ℚ) / (n : ℚ) ∧ (m : ℚ) / (n : ℚ) ≤ 2 ^ 100 := by
    constructor
    · rw [le_div_iff₀ hnq]
      calc 1 / 2 ^ 100 * (n : ℚ) ≤ 1 / 2 ^ 100 * 2 ^ 49 :=
            mul_le_mul_of_nonneg_left hnbq (by positivity)
        _ ≤ 1 := by norm_num
        _ ≤ (m : ℚ) := hm1
    · rw [div_le_iff₀ hnq]
      calc (m : ℚ) ≤ (n : ℚ) := hmnq
        _ = 1 * (n : ℚ) := (one_mul _).symm
        _ ≤ 2 ^ 100 * (n : ℚ) := mul_le_mul_of_nonneg_right (by norm_num) hnq.le
  obtain ⟨r1, e1, l1, g1⟩ := round_rel _ (Or.inr hx1)
  rw [← hu] at l1 g1
  -- times the length
  have l1n : (m : ℚ) * (1 - u) ≤ r1 * (n : ℚ) := by
    have := mul_le_mul_of_nonneg_right l1 hnq.le
    rwa [mul_assoc, mul_comm (1 - u), ← mul_assoc, div_mul_cancel₀ _ hnq.ne'] at this
  have g1n : r1 * (n : ℚ) ≤ (m : ℚ) * (1 + u) := by
    have := mul_le_mul_of_nonneg_right g1 hnq.le
    rwa [mul_assoc, mul_comm (1 + u), ← mul_assoc, div_mul_cancel₀ _ hnq.ne'] at this
  have hx2 : 1 / 2 ^ 100 ≤ r1 * (n : ℚ) ∧ r1 * (n : ℚ) ≤ 2 ^ 100 := by
    constructor
    · refine le_trans ?_ l1n
      calc (1 : ℚ) / 2 ^ 100 ≤ 1 * (1 / 2) := by norm_num
        _ ≤ (m : ℚ) * (1 - u) :=
          mul_le_mul hm1 (by linarith) (by norm_num) (by linarith)
    · refine le_trans g1n ?_
      calc (m : ℚ) * (1 + u) ≤ 2 ^ 49 * 2 :=
            mul_le_mul hmb (by linarith) (by linarith) (by positivity)
        _ ≤ 2 ^ 100 := by norm_num
  obtain ⟨r2, e2, l2, g2⟩ := round_rel _ (Or.inr hx2)
  rw [← hu] at l2 g2
  have l2m : (m : ℚ) * (1 - u) ^ 2 ≤ r2 := by
    refine le_trans ?_ l2
    calc (m : ℚ) * (1 - u) ^ 2 = (m : ℚ) * (1 - u) * (1 - u) := by ring
      _ ≤ r1 * (n : ℚ) * (1 - u) := mul_le_mul_of_nonneg_right l1n (by linarith)
  have g2m : r2 ≤ (m : ℚ) * (1 + u) ^ 2 := by
    refine le_trans g2 ?_
    calc r1 * (n : ℚ) * (1 + u) ≤ (m : ℚ) * (1 + u) * (1 + u) :=
          mul_le_mul_of_nonneg_right g1n (by linarith)
      _ = (m : ℚ) * (1 + u) ^ 2 := by ring
  -- divided by the number of samples
  have hsq1 : (1 : ℚ) / 4 ≤ (1 - u) ^ 2 := by nlinarith
  have hsq2 : (1 + u) ^ 2 ≤ 4 := by nlinarith
  have hx3 : 1 / 2 ^ 100 ≤ r2 / (N : ℚ) ∧ r2 / (N : ℚ) ≤ 2 ^ 100 := by
    constructor
    · rw [le_div_iff₀ hNq]
      calc 1 / 2 ^ 100 * (N : ℚ) ≤ 1 / 2 ^ 100 * 2 ^ 49 :=
            mul_le_mul_of_nonneg_left hNbq (by positivity)
        _ ≤ 1 * (1 / 4) := by norm_num
        _ ≤ (m : ℚ) * (1 - u) ^ 2 := mul_le_mul hm1 hsq1 (by norm_num) (by linarith)
        _ ≤ r2 := l2m
    · rw [div_le_iff₀ hNq]
      calc r2 ≤ (m : ℚ) * (1 + u) ^ 2 := g2m
        _ ≤ 2 ^ 49 * 4 := mul_le_mul hmb hsq2 (by positivity) (by positivity)
        _ ≤ 2 ^ 100 * 1 := by norm_num
        _ ≤ 2 ^ 100 * (N : ℚ) :=
          mul_le_mul_of_nonneg_left (by exact_mod_cast hN) (by positivity)
  obtain ⟨r3, e3, l3, g3⟩ := round_rel _ (Or.inr hx3)
  rw [← hu] at l3 g3
  refine ⟨r3, ?_, ?_, ?_⟩
  · rw [hdivn, e1, hmul, e2, hdivN, e3]
  · refine le_trans ?_ l3
    calc (m : ℚ) / (N : ℚ) * (1 - u) ^ 3 = (m : ℚ) * (1 - u) ^ 2 / (N : ℚ) * (1 - u) := by ring
      _ ≤ r2 / (N : ℚ) * (1 - u) :=
        mul_le_mul_of_nonneg_right (div_le_div_of_nonneg_right l2m hNq.le) (by linarith)
  · refine le_trans g3 ?_
    calc r2 / (N : ℚ) * (1 + u) ≤ (m : ℚ) * (1 + u) ^ 2 / (N : ℚ) * (1 + u) :=
          mul_le_mul_of_nonneg_right (div_le_div_of_nonneg_right g2m hNq.le) (by linarith)
      _ = (m : ℚ) / (N : ℚ) * (1 + u) ^ 3 := by ring

theorem nodeSamples_length_le (ds : DTDataSet) (label : String) (ids : List Int)
    (hS : NodeSamples ds label ids) : ids.length ≤ totalSamples ds := by
  obtain ⟨first, rest, hF, hall, -⟩ := first_of_inFirst ds ids hS.1 hS.2.2.2
  have hsub : ids ⊆ first.Sets.keys := by
    intro id hid
    exact AList.mem_keys.mp (AList.lookup_isSome.mp (hall id hid))
  have hle := (List.subperm_of_subset hS.2.1 hsub).length_le
  unfold totalSamples
  rw [hF]
  simpa [GoMap.len, AList.keys, List.keys] using hle

theorem misCount_le_length (ds : DTDataSet) (label : String) (ids : List Int) (c : String) :
    misCount ds label ids c ≤ ids.length :=
  List.length_filter_le _ _

/-- The pruning test on three computed costs is false when the misclassification
count of the node is above the sum of the counts of its children: the gap of `1 / N`
between the exact costs is wider than the rounding errors. -/
theorem cost_test_false (mS nS mL nL mR nR N : Nat) (hS : mS ≤ nS) (hL : mL ≤ nL)
    (hR : mR ≤ nR) (pS : 0 < nS) (pL : 0 < nL) (pR : 0 < nR) (bS : nS ≤ 2 ^ 49)
    (bL : nL ≤ 2 ^ 49) (bR : nR ≤ 2 ^ 49) (hN : 0 < N) (hNb : N ≤ 2 ^ 49)
    (hred : mL + mR < mS) :
    F64.le
      ((((F64.ofInt (mS : Int)).div (F64.ofInt (nS : Int))).mul (F64.ofInt (nS : Int))).div
        (F64.ofInt (N : Int)))
      ((((((F64.ofInt (mL : Int)).div (F64.ofInt (nL : Int))).mul (F64.ofInt (nL : Int))).div
          (F64.ofInt (N : Int))).add
        ((((F64.ofInt (mR : Int)).div (F64.ofInt (nR : Int))).mul (F64.ofInt (nR : Int))).div
          (F64.ofInt (N : Int)))).add (.fin 0)) = false := by
  obtain ⟨cS, eS, lS, -⟩ := cost_near mS nS N hS pS bS hN hNb
  obtain ⟨cL, eL, lL, gL⟩ := cost_near mL nL N hL pL bL hN hNb
  obtain ⟨cR, eR, lR, gR⟩ := cost_near mR nR N hR pR bR hN hNb
  rw [eS, eL, eR]
  obtain ⟨u, hu⟩ : ∃ u : ℚ, u = 1 / 2 ^ 53 := ⟨_, rfl⟩
  rw [← hu] at lS lL gL lR gR
  have hu0 : 0 < u := by rw [hu]; positivity
  have hu1 : u ≤ 1 / 2 := by rw [hu]; norm_num
  have hNq : (0 : ℚ) < (N : ℚ) := by exact_mod_cast hN
  have hNbq : (N : ℚ) ≤ 2 ^ 49 := by exact_mod_cast hNb
  have hmSb : (mS : ℚ) ≤ 2 ^ 49 := by exact_mod_cast le_trans hS bS
  have hsum1 : ((mL + mR : Nat) : ℚ) + 1 ≤ (mS : ℚ) := by exact_mod_cast hred
  push_cast at hsum1
  have hmL0 : (0 : ℚ) ≤ (mL : ℚ) := Nat.cast_nonneg _
  have hmR0 : (0 : ℚ) ≤ (mR : ℚ) := Nat.cast_nonneg _
  have hp3 : (0 : ℚ) ≤ (1 - u) ^ 3 := pow_nonneg (by linarith) 3
  have hq3 : (0 : ℚ) < (1 + u) ^ 3 := pow_pos (by linarith) 3
  have hcL0 : 0 ≤ cL := le_trans (mul_nonneg (div_nonneg hmL0 hNq.le) hp3) lL
  have hcR0 : 0 ≤ cR := le_trans (mul_nonneg (div_nonneg hmR0 hNq.le) hp3) lR
  have hp3lo : (1 : ℚ) / 8 ≤ (1 - u) ^ 3 := by
    have h1 : (1 : ℚ) / 2 ≤ 1 - u := by linarith
    calc (1 : ℚ) / 8 = (1 / 2) ^ 3 := by norm_num
      _ ≤ (1 - u) ^ 3 := pow_le_pow_left₀ (by norm_num) h1 3
  have hq3hi : (1 + u) ^ 3 ≤ 8 := by
    have h1 : 1 + u ≤ 2 := by linarith
    calc (1 + u) ^ 3 ≤ 2 ^ 3 := pow_le_pow_left₀ (by linarith) h1 3
      _ = 8 := by norm_num
  -- a cost is zero or of moderate size
  have hsize : ∀ (m : Nat) (c : ℚ), (m : ℚ) ≤ 2 ^ 49 →
      (m : ℚ) / (N : ℚ) * (1 - u) ^ 3 ≤ c → c ≤ (m : ℚ) / (N : ℚ) * (1 + u) ^ 3 →
      (c = 0 ∨ 1 / 2 ^ 60 ≤ c) ∧ c ≤ 2 ^ 60 := by
    intro m c hmb lo hi
    have hm0 : (0 : ℚ) ≤ (m : ℚ) := Nat.cast_nonneg _
    have hhi : c ≤ 2 ^ 60 := by
      refine le_trans hi ?_
      have h1 : (m : ℚ) / (N : ℚ) ≤ 2 ^ 49 := by
        rw [div_le_iff₀ hNq]
        calc (m : ℚ) ≤ 2 ^ 49 * 1 := by linarith
          _ ≤ 2 ^ 49 * (N : ℚ) :=
            mul_le_mul_of_nonneg_left (by exact_mod_cast hN) (by positivity)
      calc (m : ℚ) / (N : ℚ) * (1 + u) ^ 3 ≤ 2 ^ 49 * 8 :=
            mul_le_mul h1 hq3hi hq3.le (by positivity)
        _ ≤ 2 ^ 60 := by norm_num
    refine ⟨?_, hhi⟩
    by_cases h0 : m = 0
    · subst h0
      left
      rw [Nat.cast_zero, zero_div, zero_mul] at lo hi
      exact le_antisymm hi lo
    · right
      have hm1 : (1 : ℚ) ≤ (m : ℚ) := by exact_mod_cast Nat.pos_of_ne_zero h0
      refine le_trans ?_ lo
      have h1 : (1 : ℚ) / 2 ^ 49 ≤ (m : ℚ) / (N : ℚ) := by
        rw [div_le_div_iff₀ (by positivity) hNq]
        calc 1 * (N : ℚ) ≤ 1 * 2 ^ 49 := by linarith
          _ ≤ (m : ℚ) * 2 ^ 49 := mul_le_mul_of_nonneg_right hm1 (by positivity)
      calc (1 : ℚ) / 2 ^ 60 ≤ 1 / 2 ^ 49 * (1 / 8) := by norm_num
        _ ≤ (m : ℚ) / (N : ℚ) * (1 - u) ^ 3 :=
          mul_le_mul h1 hp3lo (by norm_num) (div_nonneg hm0 hNq.le)
  have hmLb : (mL : ℚ) ≤ 2 ^ 49 := by linarith
  have hmRb : (mR : ℚ) ≤ 2 ^ 49 := by linarith
  obtain ⟨zL, hiL⟩ := hsize mL cL hmLb lL gL
  obtain ⟨zR, hiR⟩ := hsize mR cR hmRb lR gR
  -- the sum of the costs of the children
  have hx : cL + cR = 0 ∨ (1 / 2 ^ 100 ≤ cL + cR ∧ cL + cR ≤ 2 ^ 100) := by
    have hhi : cL + cR ≤ 2 ^ 100 := by
      calc cL + cR ≤ 2 ^ 60 + 2 ^ 60 := add_le_add hiL hiR
        _ ≤ 2 ^ 100 := by norm_num
    have hsmall : (1 : ℚ) / 2 ^ 100 ≤ 1 / 2 ^ 60 := by norm_num
    rcases zL with zL | zL
    · rcases zR with zR | zR
      · left
        rw [zL, zR, add_zero]
      · right
        exact ⟨by linarith, hhi⟩
    · right
      exact ⟨by linarith, hhi⟩
  obtain ⟨s, es, -, gs⟩ := round_rel _ hx
  rw [← hu] at gs
  have hxs : s = 0 ∨ (1 / 2 ^ 100 ≤ s ∧ s ≤ 2 ^ 100) := by
    obtain ⟨s', es', ls', gs'⟩ := round_rel _ hx
    rw [es] at es'
    cases es'
    rw [← hu] at ls' gs'
    rcases hx with hx | ⟨hxlo, hxhi⟩
    · left
      rw [hx, zero_mul] at ls' gs'
      exact le_antisymm gs' ls'
    · right
      constructor
      · have h60 : (1 : ℚ) / 2 ^ 60 ≤ cL + cR := by
          rcases zL with zL | zL
          · rcases zR with zR | zR
            · rw [zL, zR, add_zero] at hxlo
              norm_num at hxlo
            · linarith
          · linarith
        refine le_trans ?_ ls'
        calc (1 : ℚ) / 2 ^ 100 ≤ 1 / 2 ^ 60 * (1 / 2) := by norm_num
          _ ≤ (cL + cR) * (1 - u) := mul_le_mul h60 (by linarith) (by norm_num) (by linarith)
      · refine le_trans gs' ?_
        calc (cL + cR) * (1 + u) ≤ (2 ^ 60 + 2 ^ 60) * 2 :=
              mul_le_mul (add_le_add hiL hiR) (by linarith) (by linarith) (by positivity)
          _ ≤ 2 ^ 100 := by norm_num
  have hxs' : s + 0 = 0 ∨ (1 / 2 ^ 100 ≤ s + 0 ∧ s + 0 ≤ 2 ^ 100) := by
    rw [add_zero]
    exact hxs
  obtain ⟨t, et, -, gt⟩ := round_rel _ hxs'
  rw [← hu, add_zero] at gt
  have hadd : ((F64.fin cL).add (.fin cR)).add (.fin 0) = .fin t := by
    show (F64.round (cL + cR)).add (.fin 0) = .fin t
    rw [es]
    exact et
  rw [hadd]
  show decide (cS ≤ t) = false
  rw [decide_eq_false_iff_not, not_le]
  -- the upper bound of the right-hand side
  have hsnn : 0 ≤ cL + cR := add_nonneg hcL0 hcR0
  have hs_nonneg : 0 ≤ (cL + cR) * (1 + u) := mul_nonneg hsnn (by linarith)
  have ht : t ≤ (cL + cR) * (1 + u) ^ 2 := by
    calc t ≤ s * (1 + u) := gt
      _ ≤ (cL + cR) * (1 + u) * (1 + u) := mul_le_mul_of_nonneg_right gs (by linarith)
      _ = (cL + cR) * (1 + u) ^ 2 := by ring
  have hsumc : cL + cR ≤ ((mS : ℚ) - 1) / (N : ℚ) * (1 + u) ^ 3 := by
    calc cL + cR ≤ (mL : ℚ) / (N : ℚ) * (1 + u) ^ 3 + (mR : ℚ) / (N : ℚ) * (1 + u) ^ 3 :=
          add_le_add gL gR
      _ = ((mL : ℚ) + (mR : ℚ)) / (N : ℚ) * (1 + u) ^ 3 := by ring
      _ ≤ ((mS : ℚ) - 1) / (N : ℚ) * (1 + u) ^ 3 :=
        mul_le_mul_of_nonneg_right (div_le_div_of_nonneg_right (by linarith) hNq.le) hq3.le
  have ht2 : t ≤ ((mS : ℚ) - 1) / (N : ℚ) * (1 + u) ^ 5 := by
    calc t ≤ (cL + cR) * (1 + u) ^ 2 := ht
      _ ≤ ((mS : ℚ) - 1) / (N : ℚ) * (1 + u) ^ 3 * (1 + u) ^ 2 :=
        mul_le_mul_of_nonneg_right hsumc (by positivity)
      _ = ((mS : ℚ) - 1) / (N : ℚ) * (1 + u) ^ 5 := by ring
  have hdiff : (1 + u) ^ 5 - (1 - u) ^ 3 ≤ 9 * u := by
    rw [hu]
    norm_num
  have hkey : ((mS : ℚ) - 1) * (1 + u) ^ 5 < (mS : ℚ) * (1 - u) ^ 3 := by
    have h1 : (mS : ℚ) * ((1 + u) ^ 5 - (1 - u) ^ 3) ≤ 2 ^ 49 * (9 * u) :=
      mul_le_mul hmSb hdiff (by
        have : (1 - u) ^ 3 ≤ (1 + u) ^ 5 := by
          calc (1 - u) ^ 3 ≤ 1 := pow_le_one₀ (by linarith) (by linarith)
            _ ≤ (1 + u) ^ 5 := one_le_pow₀ (by linarith)
        linarith) (by positivity)
    have h2 : (2 : ℚ) ^ 49 * (9 * u) < 1 := by
      rw [hu]
      norm_num
    have h3 : (1 : ℚ) ≤ (1 + u) ^ 5 := one_le_pow₀ (by linarith)
    have e1 : (mS : ℚ) * ((1 + u) ^ 5 - (1 - u) ^ 3)
        = (mS : ℚ) * (1 + u) ^ 5 - (mS : ℚ) * (1 - u) ^ 3 := mul_sub _ _ _
    have e2 : ((mS : ℚ) - 1) * (1 + u) ^ 5 = (mS : ℚ) * (1 + u) ^ 5 - (1 + u) ^ 5 := by ring
    rw [e2]
    linarith
  calc t ≤ ((mS : ℚ) - 1) / (N : ℚ) * (1 + u) ^ 5 := ht2
    _ = ((mS : ℚ) - 1) * (1 + u) ^ 5 / (N : ℚ) := by ring
    _ < (mS : ℚ) * (1 - u) ^ 3 / (N : ℚ) := div_lt_div_of_pos_right hkey hNq
    _ = (mS : ℚ) / (N : ℚ) * (1 - u) ^ 3 := by ring
    _ ≤ cS := lS

/-! ## The pruning test on rounded costs -/

/-- In a table of at most `2 ^ 49` samples the pruning test on the computed costs, with
`regParam = 0`, is false when the split reduces the misclassification count. -/
theorem costF64_reduced (ds : DTDataSet) (label : String) (S L R : List Int) (c cl cr : String)
    (hS : NodeSamples ds label S) (hL : NodeSamples ds label L) (hR : NodeSamples ds label R)
    (hN : totalSamples ds ≤ 2 ^ 49)
    (hred : misCount ds label L cl + misCount ds label R cr < misCount ds label S c) :
    (costF64 ds label S c).le
      (((costF64 ds label L cl).add (costF64 ds label R cr)).add (.fin 0)) = false := by
  have hpos := totalSamples_pos ds label S hS
  have lS := nodeSamples_length_le ds label S hS
  have lL := nodeSamples_length_le ds label L hL
  have lR := nodeSamples_length_le ds label R hR
  exact cost_test_false (misCount ds label S c) S.length (misCount ds label L cl) L.length
    (misCount ds label R cr) R.length (totalSamples ds)
    (misCount_le_length ds label S c) (misCount_le_length ds label L cl)
    (misCount_le_length ds label R cr) (List.length_pos.mpr hS.1) (List.length_pos.mpr hL.1)
    (List.length_pos.mpr hR.1) (le_trans lS hN) (le_trans lL hN) (le_trans lR hN) hpos hN hred

theorem costOf_lt_iff (ds : DTDataSet) (label : String) (S L R : List Int) (c cl cr : String)
    (hS : NodeSamples ds label S) (hL : L ≠ []) (hR : R ≠ []) :
    costOf ds label L cl + costOf ds label R cr < costOf ds label S c ↔
      misCount ds label L cl + misCount ds label R cr < misCount ds label S c := by
  have hN : (0 : ℚ) < (totalSamples ds : ℚ) := by
    exact_mod_cast totalSamples_pos ds label S hS
  rw [costOf_eq_misCount ds label S c hS.1, costOf_eq_misCount ds label L cl hL,
    costOf_eq_misCount ds label R cr hR, ← add_div, div_lt_div_iff_of_pos_right hN]
  exact_mod_cast Iff.rfl

theorem cost_near_exact (ds : DTDataSet) (label : String) (ids : List Int) (c : String)
    (hS : NodeSamples ds label ids) (hN : totalSamples ds ≤ 2 ^ 49) :
    ∃ v : ℚ, costF64 ds label ids c = .fin v ∧
      costOf ds label ids c * (1 - 1 / 2 ^ 51) ≤ v ∧
      v ≤ costOf ds label ids c * (1 + 1 / 2 ^ 51) := by
  obtain ⟨v, ev, lo, hi⟩ := cost_near (misCount ds label ids c) ids.length (totalSamples ds)
    (misCount_le_length ds label ids c) (List.length_pos.mpr hS.1)
    (le_trans (nodeSamples_length_le ds label ids hS) hN) (totalSamples_pos ds label ids hS) hN
  have h0 : (0 : ℚ) ≤ costOf ds label ids c := by
    rw [costOf_eq_misCount ds label ids c hS.1]
    positivity
  refine ⟨v, ev, ?_, ?_⟩
  · refine le_trans ?_ lo
    rw [← costOf_eq_misCount ds label ids c hS.1]
    exact mul_le_mul_of_nonneg_left (by norm_num) h0
  · refine le_trans hi ?_
    rw [← costOf_eq_misCount ds label ids c hS.1]
    exact mul_le_mul_of_nonneg_left (by norm_num) h0

/-- C17, as stated, fails: in the table of twelve samples labelled `yes` and `no` in
turn, the root on the samples `0, …, 9` has the cost `5/12` and its leaf children on
`0, 1` and `2, …, 9` have the costs `1/12` and `4/12`, so that
`cost(node) ≤ cost(left) + cost(right) + 0` holds; the code computes the three costs
and the sum in `float64` (`0.4166666666666667` against `0.41666666666666663`) and
returns `false`. -/
theorem IfPruneNodeByTagPart_rounding :
    NodeSamples (stripedData 12) "Target" [0, 1, 2, 3, 4, 5, 6, 7, 8, 9] ∧
    NodeSamples (stripedData 12) "Target" [0, 1] ∧
    NodeSamples (stripedData 12) "Target" [2, 3, 4, 5, 6, 7, 8, 9] ∧
    IsMajorityLabel (stripedData 12) "Target" [0, 1, 2, 3, 4, 5, 6, 7, 8, 9] "yes" ∧
    IsMajorityLabel (stripedData 12) "Target" [0, 1] "yes" ∧
    IsMajorityLabel (stripedData 12) "Target" [2, 3, 4, 5, 6, 7, 8, 9] "yes" ∧
    (toyTenModel.lookup (NodeKeyByDepthIndex libPlain 1 0)).map (fun node => node.Result)
      = some "yes" ∧
    (toyTenModel.lookup (NodeKeyByDepthIndex libPlain 1 1)).map (fun node => node.Result)
      = some "yes" ∧
    costOf (stripedData 12) "Target" [0, 1, 2, 3, 4, 5, 6, 7, 8, 9] "yes"
      ≤ costOf (stripedData 12) "Target" [0, 1] "yes"
        + costOf (stripedData 12) "Target" [2, 3, 4, 5, 6, 7, 8, 9] "yes" + 0 ∧
    IfPruneNodeByTagPart libPlain RangeOrder.stored (stripedData 12) toyTenModel "Target" 0 0
      (.fin 0) = .ok false :=
  ⟨by decide, by decide, by decide, isMajority_of_labels _ _ _ _ (by decide),
    isMajority_of_labels _ _ _ _ (by decide), isMajority_of_labels _ _ _ _ (by decide),
    by decide!, by decide!, by decide!, by decide!⟩

/-- C17 (amended). In a table with at most one label column, for a model that holds
the node `(depth, index)` and both of its children, whose three sample lists are
non-empty duplicate-free lists of labelled samples of the table,
`IfPruneNodeByTagPart` returns `true` exactly when both children have a non-empty
`Result` and `cost(node) ≤ cost(left) + cost(right) + regParam` holds in `float64`,
where `cost(S)` is computed as `errRate(S) · |S| / N` for a majority label of `S` with
every operation rounded (`costF64`) and the two additions are rounded; hence with
`regParam = 0`, in a table of at most `2 ^ 49` samples, it returns `false` when the
children's total cost `errRate(S) · |S| / N` is strictly lower than the node's
cost. -/
theorem IfPruneNodeByTagPart_iff (lib : Stdlib) (ρ : RangeOrder) (ds : DTDataSet)
    (model : GoMap String CTreeNode) (label : String) (depth index : Int) (regParam : F64)
    (node leftNode rightNode : CTreeNode) (hu : LabelUnique ds label)
    (hnode : model.lookup (NodeKeyByDepthIndex lib depth index) = some node)
    (hleft : model.lookup (NodeKeyByDepthIndex lib (wrapInt (depth + 1)) (wrapInt (index * 2)))
      = some leftNode)
    (hright : model.lookup
      (NodeKeyByDepthIndex lib (wrapInt (depth + 1)) (wrapInt (index * 2 + 1))) = some rightNode)
    (hS : NodeSamples ds label node.SampleIDList)
    (hL : NodeSamples ds label leftNode.SampleIDList)
    (hR : NodeSamples ds label rightNode.SampleIDList)
    (c cl cr : String) (hc : IsMajorityLabel ds label node.SampleIDList c)
    (hcl : IsMajorityLabel ds label leftNode.SampleIDList cl)
    (hcr : IsMajorityLabel ds label rightNode.SampleIDList cr) :
    IfPruneNodeByTagPart lib ρ ds model label depth index regParam
      = .ok (decide (leftNode.Result ≠ "" ∧ rightNode.Result ≠ "" ∧
          (costF64 ds label node.SampleIDList c).le
            (((costF64 ds label leftNode.SampleIDList cl).add
              (costF64 ds label rightNode.SampleIDList cr)).add regParam) = true)) ∧
    (regParam = .fin 0 → totalSamples ds ≤ 2 ^ 49 →
      costOf ds label leftNode.SampleIDList cl + costOf ds label rightNode.SampleIDList cr
        < costOf ds label node.SampleIDList c →
      IfPruneNodeByTagPart lib ρ ds model label depth index regParam = .ok false) := by
  have main := IfPruneNodeByTagPart_spec lib ρ ds model label depth index regParam node leftNode
    rightNode hu hnode hleft hright hS hL hR c cl cr hc hcl hcr
  refine ⟨main, ?_⟩
  intro h0 hN hlt
  rw [main]
  congr 1
  rw [decide_eq_false_iff_not]
  rintro ⟨-, -, hle⟩
  subst h0
  rw [costF64_reduced ds label node.SampleIDList leftNode.SampleIDList rightNode.SampleIDList
    c cl cr hS hL hR hN
    ((costOf_lt_iff ds label node.SampleIDList leftNode.SampleIDList rightNode.SampleIDList
      c cl cr hS hL.1 hR.1).mp hlt)] at hle
  cases hle

/-- Witness for C17: the root of the test tree splits `[0, 1, 2, 3]` into the pure
leaves `[0, 2]` and `[1, 3]`; with `regParam = 0` it is not pruned. -/
theorem IfPruneNodeByTagPart_iff_witness :
    IfPruneNodeByTagPart libSqueeze RangeOrder.stored toyData toyTree "Target" 0 0 (.fin 0)
      = .ok false :=
  (IfPruneNodeByTagPart_iff libSqueeze RangeOrder.stored toyData toyTree "Target" 0 0 (.fin 0)
    toyRoot (toyLeaf 1 0 "yes") toyRightLeaf (by decide) rfl rfl rfl (by decide) (by decide)
    (by decide) "yes" "yes" "no"
    (isMajority_of_labels _ _ _ _ (by decide)) (isMajority_of_labels _ _ _ _ (by decide))
    (isMajority_of_labels _ _ _ _ (by decide))).2 rfl (by decide) (by decide!)

/-- C35, as stated, fails.  The duplicate-free list `[0, 99]` is partitioned into
`[0]` and `[99]`, and the id 99 is not in the test table: the cost of `[99]` is NaN
(its error rate is 0 divided by 0), so is the sum of the costs of the parts, and the
comparison `cost(S) ≥ cost(L) + cost(R)` is false.  In the table of fourteen samples
labelled `yes` and `no` in turn, the costs are rounded: the list `0, …, 11` has a cost
below the sum of the costs of its parts `0, 1` and `2, …, 11`
(`0.42857142857142855` against `0.4285714285714286`); and the split of `0, …, 9` into
`0, 1` and `2, …, 9` gives no reduction of the misclassification count (5 = 1 + 4),
yet `IfPruneNodeByTagPart` with `regParam = 0` returns `false`. -/
theorem calTreeNodeCostTagPart_not_a_number :
    (calTreeNodeCostTagPart RangeOrder.stored toyData [0, 99] "Target" = .ok (.fin 0) ∧
      calTreeNodeCostTagPart RangeOrder.stored toyData [0] "Target" = .ok (.fin 0) ∧
      calTreeNodeCostTagPart RangeOrder.stored toyData [99] "Target" = .ok .nan ∧
      (F64.fin 0).add .nan = .nan ∧ F64.le .nan (.fin 0) = false) ∧
    (calTreeNodeCostTagPart RangeOrder.stored (stripedData 14)
        [0, 1, 2, 3, 4, 5, 6, 7, 8, 9, 10, 11] "Target"
        = .ok (.fin (7720456504063707 / 18014398509481984)) ∧
      calTreeNodeCostTagPart RangeOrder.stored (stripedData 14) [0, 1] "Target"
        = .ok (.fin (2573485501354569 / 36028797018963968)) ∧
      calTreeNodeCostTagPart RangeOrder.stored (stripedData 14)
        [2, 3, 4, 5, 6, 7, 8, 9, 10, 11] "Target"
        = .ok (.fin (6433713753386423 / 18014398509481984)) ∧
      (F64.fin (2573485501354569 / 36028797018963968)).add
          (.fin (6433713753386423 / 18014398509481984))
        = .fin (1930114126015927 / 4503599627370496) ∧
      (7720456504063707 / 18014398509481984 : ℚ) < 1930114126015927 / 4503599627370496) ∧
    (misCount (stripedData 14) "Target" [0, 1, 2, 3, 4, 5, 6, 7, 8, 9] "yes"
        = misCount (stripedData 14) "Target" [0, 1] "yes"
          + misCount (stripedData 14) "Target" [2, 3, 4, 5, 6, 7, 8, 9] "yes" ∧
      IfPruneNodeByTagPart libPlain RangeOrder.stored (stripedData 14) toyTenModel "Target" 0 0
        (.fin 0) = .ok false) :=
  ⟨⟨by decide!, by decide!, by decide!, rfl, rfl⟩,
    ⟨by decide!, by decide!, by decide!, by decide!, by norm_num⟩,
    ⟨by decide, by decide!⟩⟩

/-- C35 (amended). In a table with at most one label column and at most `2 ^ 49`
samples, for a non-empty duplicate-free list `S` of labelled samples of the table
that is partitioned into the non-empty lists `L` and `R`, with majority labels `c`,
`cl`, `cr`: the exact costs `errRate · |·| / N` satisfy
`cost(S) ≥ cost(L) + cost(R)`; `calTreeNodeCostTagPart` returns for each of the three
lists a finite `float64` within the relative distance `2 ^ (-51)` of its exact cost;
and for a model that holds a node with the list `S` and its two children as leaves
with the lists `L` and `R`, `IfPruneNodeByTagPart` with `regParam = 0` returns a
Boolean that is `true` only when the misclassification count of `S` equals the sum
of those of `L` and `R`. -/
theorem calTreeNodeCostTagPart_split (lib : Stdlib) (ρ : RangeOrder) (ds : DTDataSet)
    (label : String) (S L R : List Int) (c cl cr : String)
    (hu : LabelUnique ds label) (hS : NodeSamples ds label S) (hL : L ≠ []) (hR : R ≠ [])
    (hpart : S.Perm (L ++ R)) (hc : IsMajorityLabel ds label S c)
    (hcl : IsMajorityLabel ds label L cl) (hcr : IsMajorityLabel ds label R cr)
    (hN : totalSamples ds ≤ 2 ^ 49) :
    costOf ds label L cl + costOf ds label R cr ≤ costOf ds label S c ∧
    (∃ cS cL cR : ℚ,
      calTreeNodeCostTagPart ρ ds S label = .ok (.fin cS) ∧
      calTreeNodeCostTagPart ρ ds L label = .ok (.fin cL) ∧
      calTreeNodeCostTagPart ρ ds R label = .ok (.fin cR) ∧
      costOf ds label S c * (1 - 1 / 2 ^ 51) ≤ cS ∧ cS ≤ costOf ds label S c * (1 + 1 / 2 ^ 51) ∧
      costOf ds label L cl * (1 - 1 / 2 ^ 51) ≤ cL ∧
      cL ≤ costOf ds label L cl * (1 + 1 / 2 ^ 51) ∧
      costOf ds label R cr * (1 - 1 / 2 ^ 51) ≤ cR ∧
      cR ≤ costOf ds label R cr * (1 + 1 / 2 ^ 51)) ∧
    ∀ (model : GoMap String CTreeNode) (depth index : Int) (node leftNode rightNode : CTreeNode),
      model.lookup (NodeKeyByDepthIndex lib depth index) = some node →
      model.lookup (NodeKeyByDepthIndex lib (wrapInt (depth + 1)) (wrapInt (index * 2)))
        = some leftNode →
      model.lookup (NodeKeyByDepthIndex lib (wrapInt (depth + 1)) (wrapInt (index * 2 + 1)))
        = some rightNode →
      node.SampleIDList = S → leftNode.SampleIDList = L → rightNode.SampleIDList = R →
      leftNode.Result ≠ "" → rightNode.Result ≠ "" →
      ∃ b : Bool, IfPruneNodeByTagPart lib ρ ds model label depth index (.fin 0) = .ok b ∧
        (b = true →
          misCount ds label S c = misCount ds label L cl + misCount ds label R cr) := by
  obtain ⟨hNL, hNR⟩ := nodeSamples_part ds label S L R hS hL hR hpart
  obtain ⟨hle, -⟩ := cost_split ds label S L R hS hL hR hpart c cl cr hcl hcr
  obtain ⟨vS, eS, lS, gS⟩ := cost_near_exact ds label S c hS hN
  obtain ⟨vL, eL, lL, gL⟩ := cost_near_exact ds label L cl hNL hN
  obtain ⟨vR, eR, lR, gR⟩ := cost_near_exact ds label R cr hNR hN
  refine ⟨hle, ⟨vS, vL, vR, ?_, ?_, ?_, lS, gS, lL, gL, lR, gR⟩, ?_⟩
  · rw [calTreeNodeCost_spec ρ ds S label hu hS c hc, eS]
  · rw [calTreeNodeCost_spec ρ ds L label hu hNL cl hcl, eL]
  · rw [calTreeNodeCost_spec ρ ds R label hu hNR cr hcr, eR]
  intro model depth index node leftNode rightNode hn hl hr eS' eL' eR' hresL hresR
  subst eS' eL' eR'
  refine ⟨_, IfPruneNodeByTagPart_spec lib ρ ds model label depth index (.fin 0) node leftNode
    rightNode hu hn hl hr hS hNL hNR c cl cr hc hcl hcr, ?_⟩
  intro hb
  rw [decide_eq_true_iff] at hb
  obtain ⟨-, -, htest⟩ := hb
  have h1 := misCount_part ds label node.SampleIDList leftNode.SampleIDList
    rightNode.SampleIDList c hpart
  have h2 := misCount_majority_le ds label leftNode.SampleIDList c cl hNL.2.1 hcl
  have h3 := misCount_majority_le ds label rightNode.SampleIDList c cr hNR.2.1 hcr
  by_contra hne
  have hred : misCount ds label leftNode.SampleIDList cl
      + misCount ds label rightNode.SampleIDList cr < misCount ds label node.SampleIDList c := by
    omega
  rw [costF64_reduced ds label node.SampleIDList leftNode.SampleIDList rightNode.SampleIDList
    c cl cr hS hNL hNR hN hred] at htest
  cases htest

/-- Witness for C35: the samples `[0, 1, 2, 3]` of the test table are split into the
pure lists `[0, 2]` and `[1, 3]`, which lowers the misclassification count from 2
to 0; the root of the test model is not pruned. -/
theorem calTreeNodeCostTagPart_split_witness :
    costOf toyData "Target" [0, 2] "yes" + costOf toyData "Target" [1, 3] "no"
      ≤ costOf toyData "Target" [0, 1, 2, 3] "yes" ∧
    misCount toyData "Target" [0, 1, 2, 3] "yes" = 2 ∧
    misCount toyData "Target" [0, 2] "yes" + misCount toyData "Target" [1, 3] "no" = 0 ∧
    ∃ b : Bool,
      IfPruneNodeByTagPart libPlain RangeOrder.stored toyData toyPruneB "Target" 0 0 (.fin 0)
        = .ok b ∧
      (b = true → misCount toyData "Target" [0, 1, 2, 3] "yes"
        = misCount toyData "Target" [0, 2] "yes" + misCount toyData "Target" [1, 3] "no") :=
  have h := calTreeNodeCostTagPart_split libPlain RangeOrder.stored toyData "Target"
    [0, 1, 2, 3] [0, 2] [1, 3] "yes" "yes" "no" (by decide) (by decide) (by decide) (by decide)
    (by decide) (isMajority_of_labels _ _ _ _ (by decide))
    (isMajority_of_labels _ _ _ _ (by decide)) (isMajority_of_labels _ _ _ _ (by decide))
    (by decide)
  ⟨h.1, by decide, by decide,
    h.2.2 toyPruneB 0 0 toyPending (toyLeaf 1 0 "yes") toyRightLeaf rfl rfl rfl rfl rfl rfl
      (by decide) (by decide)⟩

/-! ## Bounds of the Gini index -/

theorem filter_eq_count {α β : Type} [DecidableEq β] (f : α → Option β) (c : β) :
    ∀ l : List α, (l.filter fun a => f a = some c).length = (l.filterMap f).count c := by
  intro l
  induction l with
  | nil => rfl
  | cons a l ih =>
    cases hfa : f a with
    | none => simp [List.filter_cons, List.filterMap_cons, hfa, ih]
    | some b =>
      by_cases hb : b = c
      · simp [List.filter_cons, List.filterMap_cons, hfa, hb, ih]
      · simp [List.filter_cons, List.filterMap_cons, hfa, hb, ih, List.count_cons]

theorem filter_isSome_length {α β : Type} (f : α → Option β) :
    ∀ l : List α, (l.filter fun a => (f a).isSome).length = (l.filterMap f).length := by
  intro l
  induction l with
  | nil => rfl
  | cons a l ih =>
    cases hfa : f a with
    | none => simp [List.filter_cons, List.filterMap_cons, hfa, ih]
    | some b => simp [List.filter_cons, List.filterMap_cons, hfa, ih]

theorem sum_labelCount (ds : DTDataSet) (label : String) (ids : List Int) :
    ((labelsOf ds label ids).map fun c => labelCount ds label ids c).sum
      = sampleCount ds label ids := by
  unfold labelsOf labelCount sampleCount
  rw [filter_isSome_length (labelOf ds label) ids.dedup,
    ← List.sum_map_count_dedup_eq_length (ids.dedup.filterMap (labelOf ds label))]
  congr 1
  apply List.map_congr_left
  intro c _
  exact filter_eq_count (labelOf ds label) c ids.dedup

theorem sum_sq_le_sq_sum : ∀ xs : List ℚ, (∀ x ∈ xs, 0 ≤ x) →
    (xs.map fun x => x ^ 2).sum ≤ xs.sum ^ 2 ∧ 0 ≤ xs.sum := by
  intro xs
  induction xs with
  | nil => intro _; simp
  | cons x xs ih =>
    intro h
    obtain ⟨h1, h2⟩ := ih fun y hy => h y (List.mem_cons_of_mem _ hy)
    have hx := h x (List.mem_cons_self _ _)
    simp only [List.map_cons, List.sum_cons]
    constructor
    · nlinarith [mul_nonneg hx h2]
    · linarith

theorem sum_sq_shift (t : ℚ) : ∀ xs : List ℚ,
    (xs.map fun x => (x - t) ^ 2).sum
      = (xs.map fun x => x ^ 2).sum - 2 * t * xs.sum + (xs.length : ℚ) * t ^ 2 := by
  intro xs
  induction xs with
  | nil => simp
  | cons x xs ih =>
    simp only [List.map_cons, List.sum_cons, List.length_cons, ih]
    push_cast
    ring

theorem sq_sum_le_length_mul (xs : List ℚ) :
    xs.sum ^ 2 ≤ (xs.length : ℚ) * (xs.map fun x => x ^ 2).sum := by
  cases xs with
  | nil => simp
  | cons y ys =>
    have hn : (0 : ℚ) < ((y :: ys).length : ℚ) := by
      simp only [List.length_cons]
      push_cast
      positivity
    have h0 : 0 ≤ ((y :: ys).map fun x => (x - (y :: ys).sum / ((y :: ys).length : ℚ)) ^ 2).sum :=
      List.sum_nonneg fun z hz => by
        obtain ⟨x, -, rfl⟩ := List.mem_map.mp hz
        positivity
    rw [sum_sq_shift] at h0
    generalize (y :: ys).sum = s at h0 ⊢
    generalize ((y :: ys).map fun x => x ^ 2).sum = q at h0 ⊢
    generalize ((y :: ys).length : ℚ) = n at h0 hn ⊢
    have h1 : n * (q - 2 * (s / n) * s + n * (s / n) ^ 2) = n * q - s ^ 2 := by
      field_simp
      ring
    have h2 : 0 ≤ n * (q - 2 * (s / n) * s + n * (s / n) ^ 2) := mul_nonneg hn.le h0
    linarith

theorem sampleCount_ne_zero_iff (ds : DTDataSet) (label : String) (ids : List Int) :
    sampleCount ds label ids ≠ 0 ↔ ∃ id ∈ ids, (labelOf ds label id).isSome := by
  unfold sampleCount
  rw [Nat.ne_zero_iff_zero_lt, List.length_pos_iff_exists_mem]
  simp [List.mem_filter, List.mem_dedup]

theorem labelsOf_length_mono (ds : DTDataSet) (label : String) (X all : List Int)
    (hsub : ∀ id ∈ X, id ∈ all) :
    (labelsOf ds label X).length ≤ (labelsOf ds label all).length := by
  apply (List.subperm_of_subset (List.nodup_dedup _) _).length_le
  intro c hc
  obtain ⟨id, hid, h⟩ := (mem_labelsOf ds label X c).mp hc
  exact (mem_labelsOf ds label all c).mpr ⟨id, hsub id hid, h⟩

theorem giniCode_bounds (ds : DTDataSet) (label : String) (ids : List Int)
    (hn : sampleCount ds label ids ≠ 0) :
    0 ≤ giniCode ds label ids ∧
    giniCode ds label ids ≤ 1 - 1 / ((labelsOf ds label ids).length : ℚ) ∧
    1 ≤ (labelsOf ds label ids).length := by
  have hnq : (sampleCount ds label ids : ℚ) ≠ 0 := by exact_mod_cast hn
  have hk : 1 ≤ (labelsOf ds label ids).length := by
    obtain ⟨id, hid, hsome⟩ := (sampleCount_ne_zero_iff ds label ids).mp hn
    obtain ⟨c, hc⟩ := Option.isSome_iff_exists.mp hsome
    exact List.length_pos_of_mem ((mem_labelsOf ds label ids c).mpr ⟨id, hid, hc⟩)
  have hxs : ((labelsOf ds label ids).map fun c =>
      ((labelCount ds label ids c : ℚ) / (sampleCount ds label ids : ℚ)) ^ 2)
      = (((labelsOf ds label ids).map fun c =>
        (labelCount ds label ids c : ℚ) / (sampleCount ds label ids : ℚ))).map
          fun x => x ^ 2 := by
    rw [List.map_map]
    rfl
  have hsum : ((labelsOf ds label ids).map fun c =>
      (labelCount ds label ids c : ℚ) / (sampleCount ds label ids : ℚ)).sum = 1 := by
    have h1 : ((labelsOf ds label ids).map fun c =>
        (labelCount ds label ids c : ℚ) / (sampleCount ds label ids : ℚ))
        = (labelsOf ds label ids).map fun c =>
          (labelCount ds label ids c : ℚ) * (sampleCount ds label ids : ℚ)⁻¹ := by
      apply List.map_congr_left
      intro c _
      rw [div_eq_mul_inv]
    rw [h1, List.sum_map_mul_right]
    have h2 : ((labelsOf ds label ids).map fun c => (labelCount ds label ids c : ℚ)).sum
        = (sampleCount ds label ids : ℚ) := by
      rw [← sum_labelCount ds label ids, Nat.cast_list_sum, List.map_map]
      rfl
    rw [h2, mul_inv_cancel₀ hnq]
  have hnonneg : ∀ x ∈ ((labelsOf ds label ids).map fun c =>
      (labelCount ds label ids c : ℚ) / (sampleCount ds label ids : ℚ)), 0 ≤ x := by
    intro x hx
    obtain ⟨c, -, rfl⟩ := List.mem_map.mp hx
    positivity
  have hup := (sum_sq_le_sq_sum _ hnonneg).1
  have hlow := sq_sum_le_length_mul ((labelsOf ds label ids).map fun c =>
      (labelCount ds label ids c : ℚ) / (sampleCount ds label ids : ℚ))
  rw [hsum, List.length_map] at hlow
  rw [hsum] at hup
  have hkq : (0 : ℚ) < ((labelsOf ds label ids).length : ℚ) := by exact_mod_cast hk
  unfold giniCode
  rw [hxs]
  refine ⟨by linarith, ?_, hk⟩
  have : 1 / ((labelsOf ds label ids).length : ℚ)
      ≤ ((List.map (fun c => (labelCount ds label ids c : ℚ) / (sampleCount ds label ids : ℚ))
        (labelsOf ds label ids)).map fun x => x ^ 2).sum := by
    rw [div_le_iff₀ hkq]
    linarith
  linarith

theorem gini_side_bound (ds : DTDataSet) (label : String) (X all : List Int)
    (hsub : ∀ id ∈ X, id ∈ all) :
    0 ≤ (sampleCount ds label X : ℚ) * giniCode ds label X ∧
    (sampleCount ds label X : ℚ) * giniCode ds label X
      ≤ (sampleCount ds label X : ℚ) * (1 - 1 / ((labelsOf ds label all).length : ℚ)) := by
  by_cases hn : sampleCount ds label X = 0
  · rw [hn]
    simp
  · obtain ⟨h0, h1, hk⟩ := giniCode_bounds ds label X hn
    have hmono := labelsOf_length_mono ds label X all hsub
    have hnq : (0 : ℚ) ≤ (sampleCount ds label X : ℚ) := Nat.cast_nonneg _
    have hkq : (0 : ℚ) < ((labelsOf ds label X).length : ℚ) := by exact_mod_cast hk
    have hle : 1 / ((labelsOf ds label all).length : ℚ) ≤ 1 / ((labelsOf ds label X).length : ℚ) :=
      one_div_le_one_div_of_le hkq (by exact_mod_cast hmono)
    exact ⟨mul_nonneg hnq h0, mul_le_mul_of_nonneg_left (by linarith) hnq⟩

theorem CalGini_bounds (ρ : RangeOrder) (ds : DTDataSet) (L R : List Int) (label : String)
    (hu : LabelUnique ds label)
    (hsome : ∃ id ∈ L ++ R, (labelOf ds label id).isSome) :
    ∃ g : ℚ, CalGiniByTagPart ρ ds L R label = some g ∧ 0 ≤ g ∧ g < 1 ∧
      g ≤ 1 - 1 / ((labelsOf ds label (L ++ R)).length : ℚ) ∧
      1 ≤ (labelsOf ds label (L ++ R)).length := by
  obtain ⟨col, hcol⟩ := columns_of_inColumn ds label (L ++ R) hu hsome
  have hN : sampleCount ds label (L ++ R) ≠ 0 := (sampleCount_ne_zero_iff ds label _).mpr hsome
  obtain ⟨-, -, hk⟩ := giniCode_bounds ds label (L ++ R) hN
  have hkq : (0 : ℚ) < ((labelsOf ds label (L ++ R)).length : ℚ) := by exact_mod_cast hk
  have hlt : 1 - 1 / ((labelsOf ds label (L ++ R)).length : ℚ) < 1 := by
    have : 0 < 1 / ((labelsOf ds label (L ++ R)).length : ℚ) := by positivity
    linarith
  by_cases hL : L = []
  · subst hL
    rw [List.nil_append] at hsome hN hk hkq hlt ⊢
    have hR : R ≠ [] := by
      rintro rfl
      obtain ⟨id, hid, -⟩ := hsome
      cases hid
    obtain ⟨h0, h1, -⟩ := giniCode_bounds ds label R hN
    exact ⟨_, CalGini_right ρ ds R label col hcol hR hN, h0, lt_of_le_of_lt h1 hlt, h1, hk⟩
  · by_cases hR : R = []
    · subst hR
      rw [List.append_nil] at hsome hN hk hkq hlt ⊢
      obtain ⟨h0, h1, -⟩ := giniCode_bounds ds label L hN
      exact ⟨_, CalGini_left ρ ds L label col hcol hL hN, h0, lt_of_le_of_lt h1 hlt, h1, hk⟩
    · have hsum : sampleCount ds label L + sampleCount ds label R ≠ 0 := by
        obtain ⟨id, hid, hs⟩ := hsome
        rcases List.mem_append.mp hid with h | h
        · have := (sampleCount_ne_zero_iff ds label L).mpr ⟨id, h, hs⟩
          omega
        · have := (sampleCount_ne_zero_iff ds label R).mpr ⟨id, h, hs⟩
          omega
      have hsq : (0 : ℚ) < (sampleCount ds label L : ℚ) + (sampleCount ds label R : ℚ) := by
        have : 0 < sampleCount ds label L + sampleCount ds label R := Nat.pos_of_ne_zero hsum
        exact_mod_cast this
      obtain ⟨a0, a1⟩ := gini_side_bound ds label L (L ++ R) fun id h => List.mem_append_left _ h
      obtain ⟨b0, b1⟩ := gini_side_bound ds label R (L ++ R) fun id h => List.mem_append_right _ h
      have hle : ((sampleCount ds label L : ℚ) * giniCode ds label L
          + (sampleCount ds label R : ℚ) * giniCode ds label R)
          / ((sampleCount ds label L : ℚ) + (sampleCount ds label R : ℚ))
          ≤ 1 - 1 / ((labelsOf ds label (L ++ R)).length : ℚ) := by
        rw [div_le_iff₀ hsq]
        nlinarith
      exact ⟨_, CalGini_both ρ ds L R label col hcol hL hR hsum,
        div_nonneg (by linarith) hsq.le, lt_of_le_of_lt hle hlt, hle, hk⟩

/-- C34, as stated, fails: the only id of the lists `[99]` and `[]` is not in the
table, `CalGiniByTagPart` divides 0 by 0 and returns NaN, which is neither at least
0 nor below 1; the split search over this candidate keeps its initial bound 1. -/
theorem CalGiniByTagPart_not_a_number :
    CalGiniByTagPart RangeOrder.stored toyData [99] [] "Target" = none ∧
    minGiniSearch RangeOrder.stored toyData "Target" [[99]] [[]] = .ok (1, 0) :=
  ⟨rfl, rfl⟩

/-- C34 (amended). In a table with at most one label column, for every pair of id lists of
which some id has a label, or which are both empty: `CalGiniByTagPart` returns a
number `g` with `0 ≤ g < 1`, and `g ≤ 1 − 1/k` when `k ≥ 1` distinct labels occur
among the samples of the two lists; so the comparison with the initial bound `1` of
the split search accepts the candidate: the search over this one candidate returns
`(g, 0)`. -/
theorem CalGiniByTagPart_below_one (ρ : RangeOrder) (ds : DTDataSet) (L R : List Int)
    (label : String) (hu : LabelUnique ds label)
    (hsome : (∃ id ∈ L ++ R, (labelOf ds label id).isSome) ∨ (L = [] ∧ R = [])) :
    ∃ g : ℚ, CalGiniByTagPart ρ ds L R label = some g ∧ 0 ≤ g ∧ g < 1 ∧
      ((labelsOf ds label (L ++ R)).length = 0 ∨
        g ≤ 1 - 1 / ((labelsOf ds label (L ++ R)).length : ℚ)) ∧
      minGiniSearch ρ ds label [L] [R] = .ok (g, 0) := by
  rcases hsome with hsome | ⟨rfl, rfl⟩
  · obtain ⟨g, hg, h0, h1, hk, -⟩ := CalGini_bounds ρ ds L R label hu hsome
    exact ⟨g, hg, h0, h1, Or.inr hk, minGiniSearch_single ρ ds label L R g hg h1⟩
  · exact ⟨0, CalGini_nil_nil ρ ds label, le_refl _, by norm_num, Or.inl rfl,
      minGiniSearch_single ρ ds label [] [] 0 (CalGini_nil_nil ρ ds label) (by norm_num)⟩

/-- Witness for C34: the candidate `[0, 1]`, `[2, 3]` of the test table, in which two
labels occur. -/
theorem CalGiniByTagPart_below_one_witness :
    ∃ g : ℚ, CalGiniByTagPart RangeOrder.stored toyData [0, 1] [2, 3] "Target" = some g ∧
      0 ≤ g ∧ g < 1 ∧
      ((labelsOf toyData "Target" ([0, 1] ++ [2, 3])).length = 0 ∨
        g ≤ 1 - 1 / ((labelsOf toyData "Target" ([0, 1] ++ [2, 3])).length : ℚ)) ∧
      minGiniSearch RangeOrder.stored toyData "Target" [[0, 1]] [[2, 3]] = .ok (g, 0) :=
  CalGiniByTagPart_below_one RangeOrder.stored toyData [0, 1] [2, 3] "Target" (by decide)
    (Or.inl ⟨0, by decide, by decide⟩)

/-! ## `EqualWidthBinningForOne` -/

/-- C31 fails on the code: in the column `0`, `0.9999999999999999`, `1` with three
bins the width is the `float64` nearest to `1/3`, the quotient
`0.9999999999999999 / width` is rounded to `3`, and the second row gets the bin `3`,
which is not in `[0, 2]`. -/
theorem EqualWidthBinningForOne_bin_out_of_range :
    EqualWidthBinningForOne binParse tableSprint 0
        [["f"], ["0"], ["0.9999999999999999"], ["1"]] "f" 3
      = .ok [["f"], ["0"], ["3"], ["2"]] := by
  decide!

/-! ## `EqualFrequencyBinningForOne` -/

/-- C32 fails on the code: in the column `2`, `NaN`, `1`, `NaN` with two bins the rows
of the two NaN values are stored under keys that no lookup finds; they keep their
text, the other two rows both get the bin `0`, and no row gets the bin `1`. -/
theorem EqualFrequencyBinningForOne_nan_unbinned :
    EqualFrequencyBinningForOne binParse tableSprint
        [["f1"], ["2"], ["NaN"], ["1"], ["NaN"]] "f1" 2
      = .ok [["f1"], ["0"], ["NaN"], ["0"], ["NaN"]] := by
  decide!

end CuCrypto
